import Mathlib

/-!
# Atomic-chess move generator: shallow embedding

Machine words (`U64`) are natural numbers below `2 ^ 64`; every operation that can
leave that range in C (`~`, `<<`, unary minus, multiplication) is reduced modulo
`2 ^ 64` explicitly.  Enumerations (`Color`, `Piecetype`, `Piece`, `Square`) are the
natural numbers the C compiler assigns to them.  Arrays are lists; reading outside
an array yields the default `0` and writing outside it leaves the array unchanged
(in C both are undefined behaviour).
-/

namespace AtomicChess

/-! ## bitboards.h -/

/-- All 64 bits set (`0xFFFFFFFFFFFFFFFF`). -/
def ALL_ONES : Nat := 0xFFFFFFFFFFFFFFFF

/-- Bitwise complement of a 64-bit word (`~x`). -/
def bnot (x : Nat) : Nat := ALL_ONES ^^^ x

/-- Left shift of a 64-bit word (`x << n`), truncated to 64 bits. -/
def shl (x n : Nat) : Nat := (x <<< n) % 2 ^ 64

/-- The C idiom `-(cond)` on a 64-bit word: all ones when the condition holds, else zero. -/
def negb (c : Bool) : Nat := if c then ALL_ONES else 0

/-- Count of trailing zeros, searching at most `fuel` bits upward from index `i`. -/
def ctz_aux : Nat → Nat → Nat → Nat
  | 0, _, i => i
  | fuel + 1, b, i => if b % 2 = 1 then i else ctz_aux fuel (b / 2) (i + 1)

/-- The macro `get_lsb_idx` (`__builtin_ctzll`); on `0`, where C leaves the result
undefined, the model yields `64`. -/
def get_lsb_idx (b : Nat) : Nat := ctz_aux 64 b 0

/-- The function `pop_lsb`: the index of the least significant set bit and the
board with that bit cleared (`b &= b - 1`). -/
def pop_lsb (b : Nat) : Nat × Nat := (get_lsb_idx b, b &&& (b - 1))

/-- The squares visited by the loop `while (b) { s = pop_lsb(&b); ... }`, in order. -/
def pop_loop : Nat → Nat → List Nat
  | 0, _ => []
  | fuel + 1, b => if b = 0 then [] else (pop_lsb b).1 :: pop_loop fuel (pop_lsb b).2

/-- The squares of a bitboard in the order a `pop_lsb` loop visits them
(64 iterations exhaust a 64-bit word). -/
def squares_of (b : Nat) : List Nat := pop_loop 64 b

def WHITE : Nat := 0
def BLACK : Nat := 1
def NO_COLOR : Nat := 2

def PAWN : Nat := 0
def KNIGHT : Nat := 1
def BISHOP : Nat := 2
def ROOK : Nat := 3
def QUEEN : Nat := 4
def KING : Nat := 5
def NO_TYPE : Nat := 6

def NO_PIECE : Nat := 0
def WHITE_PAWN : Nat := 1
def WHITE_KNIGHT : Nat := 2
def WHITE_BISHOP : Nat := 3
def WHITE_ROOK : Nat := 4
def WHITE_QUEEN : Nat := 5
def WHITE_KING : Nat := 6
def BLACK_PAWN : Nat := 7
def BLACK_KNIGHT : Nat := 8
def BLACK_BISHOP : Nat := 9
def BLACK_ROOK : Nat := 10
def BLACK_QUEEN : Nat := 11
def BLACK_KING : Nat := 12

def NO_SQUARE : Nat := 64

/-- The table `SQUARE_TO_BITBOARD[65]`: `1 << s` for a board square, `0` for `NO_SQUARE`. -/
def SQUARE_TO_BITBOARD (s : Nat) : Nat := if s < 64 then 2 ^ s else 0

/-- The table `PIECE_TO_COLOR`. -/
def PIECE_TO_COLOR (p : Nat) : Nat :=
  if p = 0 then NO_COLOR else if p ≤ 6 then WHITE else if p ≤ 12 then BLACK else NO_COLOR

/-- The table `PIECE_TO_TYPE`. -/
def PIECE_TO_TYPE (p : Nat) : Nat :=
  if p = 0 then NO_TYPE else if p ≤ 6 then p - 1 else if p ≤ 12 then p - 7 else NO_TYPE

/-- The table `TYPE_TO_PIECE[2][6]`. -/
def TYPE_TO_PIECE (c t : Nat) : Nat := 6 * c + t + 1

/-- The function `invert_color` (`c ^ BLACK`). -/
def invert_color (c : Nat) : Nat := c ^^^ BLACK

/-! ## position.h / position.c -/

/-- The record `Undoinfo`; `captured` is a `Piece` in the standard build and a packed
64-bit word in the atomic build. -/
structure Undoinfo where
  entry : Nat
  enpassant : Nat
  captured : Nat
deriving DecidableEq, Repr

/-- The record `Position`; `pieces[c][t]` is stored at index `6 * c + t`. -/
structure Position where
  pieces : List Nat
  board : List Nat
  side_to_play : Nat
  ply : Nat
  zobrist_hash : Nat
  history : List Undoinfo
deriving DecidableEq, Repr

def OO_MASK (c : Nat) : Nat := if c = 0 then 0x90 else 0x9000000000000000
def OOO_MASK (c : Nat) : Nat := if c = 0 then 0x11 else 0x1100000000000000
def ALL_CASTLING_MASK : Nat := 0x9100000000000091
def OO_BLOCKERS_MASK (c : Nat) : Nat := if c = 0 then 0x60 else 0x6000000000000000
def OOO_BLOCKERS_MASK (c : Nat) : Nat := if c = 0 then 0xE else 0xE00000000000000
def OOO_IGNORE_DANGER (c : Nat) : Nat :=
  if c = 0 then 0xFFFFFFFFFFFFFFFD else 0xFDFFFFFFFFFFFFFF
def DOUBLE_PUSH_RANK (c : Nat) : Nat := if c = 0 then 0xFF00 else 0xFF000000000000
def EP_RANK (c : Nat) : Nat := if c = 0 then 0xFF00000000 else 0xFF000000
def NOT_A_FILE : Nat := 0xFEFEFEFEFEFEFEFE
def NOT_H_FILE : Nat := 0x7F7F7F7F7F7F7F7F

/-- The state update of `gen_rand` (three right-shift xor steps). -/
def gen_rand_step (s : Nat) : Nat :=
  let s1 := s ^^^ (s >>> 12)
  let s2 := s1 ^^^ (s1 >>> 25)
  s2 ^^^ (s2 >>> 27)

/-- The function `gen_rand`: the new state and the returned 64-bit value. -/
def gen_rand (s : Nat) : Nat × Nat :=
  (gen_rand_step s, (gen_rand_step s * 2685821657736338717) % 2 ^ 64)

/-- The `n` successive values `gen_rand` returns from state `s`. -/
def gen_rand_seq : Nat → Nat → List Nat
  | 0, _ => []
  | n + 1, s => (gen_rand s).2 :: gen_rand_seq n (gen_rand s).1

/-- The function `init_zobrist_table`: the 13 * 64 entries in the order the nested loop
fills them (piece-major), from the seed `70026072`. -/
def init_zobrist_table : List Nat := gen_rand_seq (13 * 64) 70026072

/-- The table `ZOBRIST_TABLE[13][64]` after `init_zobrist_table`. -/
def ZOBRIST_TABLE (p s : Nat) : Nat := init_zobrist_table.getD (64 * p + s) 0

/-- The function `put_piece`. The hash is updated with the table row of the piece
*type* `pt`, as in the source. -/
def put_piece (pos : Position) (pt col s : Nat) : Position :=
  { pos with
    board := pos.board.set s (TYPE_TO_PIECE col pt)
    pieces := pos.pieces.set (6 * col + pt) (pos.pieces.getD (6 * col + pt) 0 ||| SQUARE_TO_BITBOARD s)
    zobrist_hash := pos.zobrist_hash ^^^ ZOBRIST_TABLE pt s }

/-- The function `remove_piece`. On an occupied square the bitboard index
`6 * PIECE_TO_COLOR p + PIECE_TO_TYPE p` is below 12 and the definition follows the
source. On an empty square the source indexes `pieces[NO_COLOR][NO_TYPE]`, that is
`pieces[2][6]`, which lies outside the array declared `U64 pieces[2][6]`; the index here
is 18 and the update of the list of twelve bitboards changes nothing, so on an empty
square this definition says nothing about what the source does to the memory behind
`pieces`. -/
def remove_piece (pos : Position) (s : Nat) : Position :=
  let p := pos.board.getD s 0
  let i := 6 * PIECE_TO_COLOR p + PIECE_TO_TYPE p
  { pos with
    zobrist_hash := pos.zobrist_hash ^^^ ZOBRIST_TABLE p s
    pieces := pos.pieces.set i (pos.pieces.getD i 0 &&& bnot (SQUARE_TO_BITBOARD s))
    board := pos.board.set s NO_PIECE }

/-- The function `move_piece` (move with capture of whatever stands on `to`). -/
def move_piece (pos : Position) (from_sq to_sq : Nat) : Position :=
  let pf := pos.board.getD from_sq 0
  let pt := pos.board.getD to_sq 0
  let mask := SQUARE_TO_BITBOARD from_sq ||| SQUARE_TO_BITBOARD to_sq
  let i := 6 * PIECE_TO_COLOR pf + PIECE_TO_TYPE pf
  let j := 6 * PIECE_TO_COLOR pt + PIECE_TO_TYPE pt
  let pieces1 := pos.pieces.set i (pos.pieces.getD i 0 ^^^ mask)
  let pieces2 := pieces1.set j (pieces1.getD j 0 &&& bnot mask)
  { pos with
    zobrist_hash := pos.zobrist_hash ^^^
      (ZOBRIST_TABLE pf from_sq ^^^ ZOBRIST_TABLE pf to_sq ^^^ ZOBRIST_TABLE pt to_sq)
    pieces := pieces2
    board := (pos.board.set to_sq pf).set from_sq NO_PIECE }

/-- The function `move_piece_quiet`. -/
def move_piece_quiet (pos : Position) (from_sq to_sq : Nat) : Position :=
  let pf := pos.board.getD from_sq 0
  let i := 6 * PIECE_TO_COLOR pf + PIECE_TO_TYPE pf
  { pos with
    zobrist_hash := pos.zobrist_hash ^^^ (ZOBRIST_TABLE pf from_sq ^^^ ZOBRIST_TABLE pf to_sq)
    pieces := pos.pieces.set i
      (pos.pieces.getD i 0 ^^^ (SQUARE_TO_BITBOARD from_sq ||| SQUARE_TO_BITBOARD to_sq))
    board := (pos.board.set to_sq pf).set from_sq NO_PIECE }

/-- The character code at index `i` of a C string; the terminating NUL is read at and
beyond the end. -/
def fen_char (fen : List Char) (i : Nat) : Nat := (fen.getD i (Char.ofNat 0)).toNat

/-- The table `CHAR_TO_PIECE` (entries without an initialiser are `0`). -/
def CHAR_TO_PIECE (c : Nat) : Nat :=
  if c = 'P'.toNat then WHITE_PAWN else if c = 'N'.toNat then WHITE_KNIGHT
  else if c = 'B'.toNat then WHITE_BISHOP else if c = 'R'.toNat then WHITE_ROOK
  else if c = 'Q'.toNat then WHITE_QUEEN else if c = 'K'.toNat then WHITE_KING
  else if c = 'p'.toNat then BLACK_PAWN else if c = 'n'.toNat then BLACK_KNIGHT
  else if c = 'b'.toNat then BLACK_BISHOP else if c = 'r'.toNat then BLACK_ROOK
  else if c = 'q'.toNat then BLACK_QUEEN else if c = 'k'.toNat then BLACK_KING
  else NO_PIECE

/-- The placement loop of `set_from_fen`; the state is the position, the read index and
the running square. The square is an `int` in C and is kept as an integer here. -/
def fen_placement : Nat → List Char → Position → Nat → Int → Position × Nat
  | 0, _, pos, i, _ => (pos, i)
  | fuel + 1, fen, pos, i, square =>
    let c := fen_char fen i
    if c ≠ 0 ∧ c ≠ ' '.toNat then
      if '0'.toNat ≤ c ∧ c ≤ '9'.toNat then
        fen_placement fuel fen pos (i + 1) (square + (c - '0'.toNat : Nat))
      else if c = '/'.toNat then fen_placement fuel fen pos (i + 1) (square - 16)
      else
        let p := CHAR_TO_PIECE c
        fen_placement fuel fen (put_piece pos (PIECE_TO_TYPE p) (PIECE_TO_COLOR p) square.toNat)
          (i + 1) (square + 1)
    else (pos, i)

/-- Assignment to the field `history[0].entry`. -/
def set_entry0 (pos : Position) (f : Nat → Nat) : Position :=
  let h := pos.history.getD 0 ⟨0, 0, 0⟩
  { pos with history := pos.history.set 0 { h with entry := f h.entry } }

/-- The castling-rights loop of `set_from_fen`. -/
def fen_castling : Nat → List Char → Position → Nat → Position × Nat
  | 0, _, pos, i => (pos, i)
  | fuel + 1, fen, pos, i =>
    let c := fen_char fen i
    if c ≠ 0 ∧ ¬ (c = ' '.toNat ∨ (9 ≤ c ∧ c ≤ 13)) then
      let pos1 :=
        if c = 'K'.toNat then set_entry0 pos (fun e => e &&& bnot (OO_MASK WHITE))
        else if c = 'Q'.toNat then set_entry0 pos (fun e => e &&& bnot (OOO_MASK WHITE))
        else if c = 'k'.toNat then set_entry0 pos (fun e => e &&& bnot (OO_MASK BLACK))
        else if c = 'q'.toNat then set_entry0 pos (fun e => e &&& bnot (OOO_MASK BLACK))
        else pos
      fen_castling fuel fen pos1 (i + 1)
    else (pos, i)

/-- A loop `while (*p && *p != ' ') p++` or `while (*p != ' ') p++` of `set_from_fen`:
the index where it stops. -/
def fen_skip (stop_at_nul : Bool) : Nat → List Char → Nat → Nat
  | 0, _, i => i
  | fuel + 1, fen, i =>
    let c := fen_char fen i
    if (stop_at_nul = true → c ≠ 0) ∧ c ≠ ' '.toNat then fen_skip stop_at_nul fuel fen (i + 1)
    else i

/-- The function `set_from_fen`: the position it builds and the length it returns. The
loops run on fuel that covers the string and its terminator. -/
def set_from_fen_len (fen : List Char) : Position × Nat :=
  let fuel := fen.length + 1
  let pos0 : Position :=
    { pieces := List.replicate 12 0
      board := List.replicate 64 NO_PIECE
      side_to_play := WHITE
      ply := 0
      zobrist_hash := 0
      history := List.replicate 256 ⟨ALL_CASTLING_MASK, NO_SQUARE, NO_PIECE⟩ }
  let r1 := fen_placement fuel fen pos0 0 56
  let i1 := r1.2 + 1
  let pos1 : Position :=
    { r1.1 with side_to_play := if fen_char fen i1 = 'w'.toNat then WHITE else BLACK }
  let i2 := i1 + 1 + 1
  let r2 := fen_castling fuel fen pos1 i2
  let i3 := r2.2 + 1
  let pos3 : Position :=
    if fen_char fen i3 ≠ '-'.toNat then
      let file : Int := (fen_char fen i3 : Int) - ('a'.toNat : Int)
      let rank : Int := (fen_char fen (i3 + 1) : Int) - ('0'.toNat : Int) - 1
      let h := r2.1.history.getD 0 ⟨0, 0, 0⟩
      { r2.1 with history := r2.1.history.set 0 { h with enpassant := (rank * 8 + file).toNat } }
    else r2.1
  let i4 := fen_skip false fuel fen i3 + 1
  let i5 := fen_skip true fuel fen i4 + 1
  let i6 := fen_skip true fuel fen i5 + 1
  (pos3, i6)

/-- The position `set_from_fen` leaves behind for a FEN string. -/
def set_from_fen (fen : String) : Position := (set_from_fen_len fen.toList).1

/-! ## tables.h / sliders.h

The attack tables and the slider routines are declared in `tables.h` and
`sliders.h`; their definitions are modelled from the specification. -/

/-- The function `get_all_pawn_attacks` of `tables.h`. -/
def get_all_pawn_attacks (pawn_bb c : Nat) : Nat :=
  if c = WHITE then shl (pawn_bb &&& NOT_H_FILE) 9 ||| shl (pawn_bb &&& NOT_A_FILE) 7
  else (pawn_bb &&& NOT_H_FILE) >>> 7 ||| (pawn_bb &&& NOT_A_FILE) >>> 9

/-- Modelled from the spec: the table `PAWN_ATTACKS[color][sq]` (its initialiser is not
in the sources), the diagonal capture squares of a pawn of that colour on `sq`. -/
def PAWN_ATTACKS (c sq : Nat) : Nat := get_all_pawn_attacks (SQUARE_TO_BITBOARD sq) c

/-- The squares reached from file `f`, rank `r` by repeated steps `(df, dr)`, nearest
first, up to the edge of the board. -/
def walk : Nat → Int → Int → Int → Int → List Nat
  | 0, _, _, _, _ => []
  | n + 1, f, r, df, dr =>
    if 0 ≤ f + df ∧ f + df < 8 ∧ 0 ≤ r + dr ∧ r + dr < 8 then
      (8 * (r + dr) + (f + df)).toNat :: walk n (f + df) (r + dr) df dr
    else []

/-- The squares on the ray from `sq` in direction `d`. -/
def ray_squares (sq : Nat) (d : Int × Int) : List Nat :=
  walk 7 (sq % 8 : Nat) (sq / 8 : Nat) d.1 d.2

/-- The bitboard of the squares one step away from `sq` in the given directions. -/
def step_mask (sq : Nat) (dirs : List (Int × Int)) : Nat :=
  dirs.foldl (fun acc d => acc ||| ((walk 1 (sq % 8 : Nat) (sq / 8 : Nat) d.1 d.2).foldl
    (fun a s => a ||| 2 ^ s) 0)) 0

def ORTHOGONAL_DIRS : List (Int × Int) := [(0, 1), (0, -1), (1, 0), (-1, 0)]
def DIAGONAL_DIRS : List (Int × Int) := [(1, 1), (1, -1), (-1, 1), (-1, -1)]
def KNIGHT_DIRS : List (Int × Int) :=
  [(1, 2), (2, 1), (2, -1), (1, -2), (-1, -2), (-2, -1), (-2, 1), (-1, 2)]

/-- Modelled from the spec: the table `KING_ATTACKS[sq]` (its initialiser is not in the
sources), the up to 8 neighbouring squares. -/
def KING_ATTACKS (sq : Nat) : Nat := step_mask sq (ORTHOGONAL_DIRS ++ DIAGONAL_DIRS)

/-- Modelled from the spec: the table `KNIGHT_ATTACKS[sq]` (its initialiser is not in
the sources). -/
def KNIGHT_ATTACKS (sq : Nat) : Nat := step_mask sq KNIGHT_DIRS

/-- The squares a slider reaches along one ray: every square up to and including the
first occupied one. -/
def ray_attacks (occ : Nat) : List Nat → Nat
  | [] => 0
  | s :: rest => if occ.testBit s then 2 ^ s else 2 ^ s ||| ray_attacks occ rest

/-- The union of the ray attacks from `sq` over the given directions. -/
def slider_attacks (dirs : List (Int × Int)) (sq occ : Nat) : Nat :=
  dirs.foldl (fun acc d => acc ||| ray_attacks occ (ray_squares sq d)) 0

/-- Modelled from the spec: `get_rook_attacks(sq, occ)` of `sliders.h` (its body is not
in the sources), the rank and file attacks of a slider on `sq` given the occupancy. -/
def get_rook_attacks (sq occ : Nat) : Nat := slider_attacks ORTHOGONAL_DIRS sq occ

/-- Modelled from the spec: `get_bishop_attacks(sq, occ)` of `sliders.h` (its body is
not in the sources). -/
def get_bishop_attacks (sq occ : Nat) : Nat := slider_attacks DIAGONAL_DIRS sq occ

/-- Modelled from the spec: `get_queen_attacks = rook | bishop` (its body is not in the
sources). -/
def get_queen_attacks (sq occ : Nat) : Nat := get_rook_attacks sq occ ||| get_bishop_attacks sq occ

/-- Modelled from the spec: `get_xray_rook_attacks(sq, occ)` (its body is not in the
sources), the squares reachable when the first blocker on each ray is made transparent. -/
def get_xray_rook_attacks (sq occ : Nat) : Nat :=
  get_rook_attacks sq (occ ^^^ (occ &&& get_rook_attacks sq occ))

/-- Modelled from the spec: `get_xray_bishop_attacks(sq, occ)` (its body is not in the
sources), the squares reachable when the first blocker on each ray is made transparent. -/
def get_xray_bishop_attacks (sq occ : Nat) : Nat :=
  get_bishop_attacks sq (occ ^^^ (occ &&& get_bishop_attacks sq occ))

/-- Modelled from the spec: the table `ROOK_ATTACKS[sq]` (its initialiser is not in the
sources), the rook attacks from `sq` on an empty board. -/
def ROOK_ATTACKS (sq : Nat) : Nat := get_rook_attacks sq 0

/-- Modelled from the spec: the table `BISHOP_ATTACKS[sq]` (its initialiser is not in
the sources), the bishop attacks from `sq` on an empty board. -/
def BISHOP_ATTACKS (sq : Nat) : Nat := get_bishop_attacks sq 0

/-- The squares of a ray up to and including `b`, or nothing when `b` is not on it. -/
def ray_until (b : Nat) : List Nat → Nat → Nat
  | [], _ => 0
  | s :: rest, acc => if s = b then acc ||| 2 ^ s else ray_until b rest (acc ||| 2 ^ s)

/-- Modelled from the spec: the table `PIN_BETWEEN[a][b]` filled by `init_pin_between`
(not in the sources): when `a` and `b` share a rank, file or diagonal, the squares
strictly between them plus `b`; otherwise `0`. -/
def PIN_BETWEEN (a b : Nat) : Nat :=
  (ORTHOGONAL_DIRS ++ DIAGONAL_DIRS).foldl (fun acc d => acc ||| ray_until b (ray_squares a d) 0) 0

/-! ## movegen.h / movegen.c : make and unmake -/

/-- The enumeration `MoveFlag` (the aliases `PROMOTIONS` and `PROMOTION_CAPTURES` are
never stored in a move). -/
inductive MoveFlag where
  | QUIET | DOUBLE_PUSH | OO | OOO | CAPTURE | EN_PASSANT
  | PR_KNIGHT | PR_BISHOP | PR_ROOK | PR_QUEEN
  | PC_KNIGHT | PC_BISHOP | PC_ROOK | PC_QUEEN
deriving DecidableEq, Repr

open MoveFlag

/-- The record `Move`; the fields `from` and `to` are named `from_sq` and `to_sq`. -/
structure Move where
  flag : MoveFlag
  from_sq : Nat
  to_sq : Nat
deriving DecidableEq, Repr

/-- The function `get_moves`: one move per set bit of `to_bb`, least significant first. -/
def get_moves (from_sq to_bb : Nat) (flag : MoveFlag) : List Move :=
  (squares_of to_bb).map (fun s => { flag := flag, from_sq := from_sq, to_sq := s })

/-- The record `history[ply]` of a position. -/
def cur (pos : Position) : Undoinfo := pos.history.getD pos.ply ⟨0, 0, 0⟩

/-- Assignment to the field `history[ply].captured`. -/
def set_captured (pos : Position) (v : Nat) : Position :=
  { pos with history := pos.history.set pos.ply { cur pos with captured := v } }

/-- Assignment to the field `history[ply].enpassant`. -/
def set_enpassant (pos : Position) (v : Nat) : Position :=
  { pos with history := pos.history.set pos.ply { cur pos with enpassant := v } }

/-- One iteration of the explosion loop of `atomic_capture`; the state is the position,
the packed word `pieces_taken` and the slot counter `i`. -/
def atomic_capture_step (st : Position × Nat × Nat) (s : Nat) : Position × Nat × Nat :=
  let p := st.1.board.getD s 0
  if ¬ (PIECE_TO_TYPE p = PAWN ∨ PIECE_TO_TYPE p = NO_TYPE) then
    (remove_piece st.1 s, st.2.1 ||| shl p (st.2.2 * 4), st.2.2 + 1)
  else (st.1, st.2.1, st.2.2 + 1)

/-- The function `atomic_capture`. -/
def atomic_capture (pos : Position) (center attacker_square : Nat) : Position :=
  let pieces_taken := pos.board.getD attacker_square 0 ||| shl (pos.board.getD center 0) 4
  let pos1 := remove_piece pos attacker_square
  let pos2 := remove_piece pos1 center
  let st := (squares_of (KING_ATTACKS center)).foldl atomic_capture_step (pos2, pieces_taken, 2)
  set_captured st.1 st.2.1

/-- One iteration of the second loop of `atomic_undo_capture`; the state is the position
and the remaining packed word. -/
def atomic_undo_step (st : Position × Nat) (s : Nat) : Position × Nat :=
  let p := st.2 &&& 0xF
  if p = NO_PIECE then (st.1, st.2 >>> 4)
  else (put_piece st.1 (PIECE_TO_TYPE p) (PIECE_TO_COLOR p) s, st.2 >>> 4)

/-- The function `atomic_undo_capture`. -/
def atomic_undo_capture (pos : Position) (center attacker_square : Nat) : Position :=
  let pieces_taken := (cur pos).captured
  let attacker := pieces_taken &&& 0xF
  let pos1 := put_piece pos (PIECE_TO_TYPE attacker) (PIECE_TO_COLOR attacker) attacker_square
  let pieces_taken1 := pieces_taken >>> 4
  let captured := pieces_taken1 &&& 0xF
  let pos2 := if captured ≠ 0 then
      put_piece pos1 (PIECE_TO_TYPE captured) (PIECE_TO_COLOR captured) center
    else pos1
  let pieces_taken2 := pieces_taken1 >>> 4
  ((squares_of (KING_ATTACKS center)).foldl atomic_undo_step (pos2, pieces_taken2)).1

/-- The common part of the `PC_*` cases of `play`. -/
def play_promotion_capture (atomic : Bool) (pos : Position) (m : Move) (c pt : Nat) : Position :=
  let pos1 :=
    if atomic then atomic_capture pos m.to_sq m.from_sq
    else
      let q := remove_piece pos m.from_sq
      let q1 := set_captured q (q.board.getD m.to_sq 0)
      remove_piece q1 m.to_sq
  put_piece pos1 pt c m.to_sq

/-- The statements of `play` before its `switch`: flip the side to play, increment the
ply, copy and update `entry`, reset `enpassant` and `captured` of the new record. -/
def play_begin (pos : Position) (m : Move) : Position :=
  let ply := pos.ply + 1
  let entry := (pos.history.getD (ply - 1) ⟨0, 0, 0⟩).entry
  { pos with
    side_to_play := pos.side_to_play ^^^ BLACK
    ply := ply
    history := pos.history.set ply
      { entry := entry ||| (SQUARE_TO_BITBOARD m.to_sq ||| SQUARE_TO_BITBOARD m.from_sq)
        enpassant := NO_SQUARE
        captured := 0 } }

/-- The function `play`; `atomic` selects the build (`#ifdef ATOMIC`). -/
def play (atomic : Bool) (pos : Position) (m : Move) : Position :=
  let c := pos.side_to_play
  let pos0 := play_begin pos m
  match m.flag with
  | QUIET => move_piece_quiet pos0 m.from_sq m.to_sq
  | DOUBLE_PUSH =>
    set_enpassant (move_piece_quiet pos0 m.from_sq m.to_sq)
      (if c = WHITE then m.from_sq + 8 else m.from_sq - 8)
  | OO =>
    if c = WHITE then move_piece_quiet (move_piece_quiet pos0 4 6) 7 5
    else move_piece_quiet (move_piece_quiet pos0 60 62) 63 61
  | OOO =>
    if c = WHITE then move_piece_quiet (move_piece_quiet pos0 4 2) 0 3
    else move_piece_quiet (move_piece_quiet pos0 60 58) 56 59
  | EN_PASSANT =>
    if atomic then
      atomic_capture (remove_piece pos0 (if c = WHITE then m.to_sq - 8 else m.to_sq + 8))
        m.to_sq m.from_sq
    else
      remove_piece (move_piece_quiet pos0 m.from_sq m.to_sq)
        (if c = WHITE then m.to_sq - 8 else m.to_sq + 8)
  | PR_KNIGHT => put_piece (remove_piece pos0 m.from_sq) KNIGHT c m.to_sq
  | PR_BISHOP => put_piece (remove_piece pos0 m.from_sq) BISHOP c m.to_sq
  | PR_ROOK => put_piece (remove_piece pos0 m.from_sq) ROOK c m.to_sq
  | PR_QUEEN => put_piece (remove_piece pos0 m.from_sq) QUEEN c m.to_sq
  | PC_KNIGHT => play_promotion_capture atomic pos0 m c KNIGHT
  | PC_BISHOP => play_promotion_capture atomic pos0 m c BISHOP
  | PC_ROOK => play_promotion_capture atomic pos0 m c ROOK
  | PC_QUEEN => play_promotion_capture atomic pos0 m c QUEEN
  | CAPTURE =>
    if atomic then atomic_capture pos0 m.to_sq m.from_sq
    else move_piece (set_captured pos0 (pos0.board.getD m.to_sq 0)) m.from_sq m.to_sq

/-- The common body of the `PR_*` cases of `undo`. -/
def undo_promotion (pos : Position) (m : Move) (c : Nat) : Position :=
  put_piece (remove_piece pos m.to_sq) PAWN c m.from_sq

/-- The common body of the `PC_*` cases of `undo`. -/
def undo_promotion_capture (atomic : Bool) (pos : Position) (m : Move) (c : Nat) : Position :=
  if atomic then atomic_undo_capture pos m.to_sq m.from_sq
  else
    let q := put_piece (remove_piece pos m.to_sq) PAWN c m.from_sq
    let pr_captured := (cur q).captured
    put_piece q (PIECE_TO_TYPE pr_captured) (PIECE_TO_COLOR pr_captured) m.to_sq

/-- The first statement of `undo`: flip the side to play. -/
def undo_begin (pos : Position) : Position :=
  { pos with side_to_play := pos.side_to_play ^^^ BLACK }

/-- The function `undo`; `atomic` selects the build (`#ifdef ATOMIC`). -/
def undo (atomic : Bool) (pos : Position) (m : Move) : Position :=
  let pos0 := undo_begin pos
  let c := pos0.side_to_play
  let pos1 : Position :=
    match m.flag with
    | QUIET => move_piece_quiet pos0 m.to_sq m.from_sq
    | DOUBLE_PUSH => move_piece_quiet pos0 m.to_sq m.from_sq
    | OO =>
      if c = WHITE then move_piece_quiet (move_piece_quiet pos0 6 4) 5 7
      else move_piece_quiet (move_piece_quiet pos0 62 60) 61 63
    | OOO =>
      if c = WHITE then move_piece_quiet (move_piece_quiet pos0 2 4) 3 0
      else move_piece_quiet (move_piece_quiet pos0 58 60) 59 56
    | EN_PASSANT =>
      if atomic then
        put_piece (atomic_undo_capture pos0 m.to_sq m.from_sq) PAWN (c ^^^ BLACK)
          (if c = WHITE then m.to_sq - 8 else m.to_sq + 8)
      else
        put_piece (move_piece_quiet pos0 m.to_sq m.from_sq) PAWN (c ^^^ BLACK)
          (if c = WHITE then m.to_sq - 8 else m.to_sq + 8)
    | PR_KNIGHT => undo_promotion pos0 m c
    | PR_BISHOP => undo_promotion pos0 m c
    | PR_ROOK => undo_promotion pos0 m c
    | PR_QUEEN => undo_promotion pos0 m c
    | PC_KNIGHT => undo_promotion_capture atomic pos0 m c
    | PC_BISHOP => undo_promotion_capture atomic pos0 m c
    | PC_ROOK => undo_promotion_capture atomic pos0 m c
    | PC_QUEEN => undo_promotion_capture atomic pos0 m c
    | CAPTURE =>
      if atomic then atomic_undo_capture pos0 m.to_sq m.from_sq
      else
        let q := move_piece_quiet pos0 m.to_sq m.from_sq
        let captured := (cur q).captured
        put_piece q (PIECE_TO_TYPE captured) (PIECE_TO_COLOR captured) m.to_sq
  { pos1 with ply := pos1.ply - 1 }

/-! ## movegen.c : the generators -/

/-- The bitboard `pos->pieces[c][t]`. -/
def Position.bb (pos : Position) (c t : Nat) : Nat := pos.pieces.getD (6 * c + t) 0

/-- The constant locals declared at the top of both generators. -/
structure Sides where
  me : Nat
  you : Nat
  my_king : Nat
  your_king : Nat
  my_pawns : Nat
  your_pawns : Nat
  my_knights : Nat
  your_knights : Nat
  my_bishops : Nat
  your_bishops : Nat
  my_rooks : Nat
  your_rooks : Nat
  my_queens : Nat
  your_queens : Nat
deriving DecidableEq, Repr

/-- The per-type occupancy bitboards of a position, seen from the side to play. -/
def sides (pos : Position) : Sides :=
  let me := pos.side_to_play
  let you := me ^^^ BLACK
  { me := me, you := you
    my_king := pos.bb me KING, your_king := pos.bb you KING
    my_pawns := pos.bb me PAWN, your_pawns := pos.bb you PAWN
    my_knights := pos.bb me KNIGHT, your_knights := pos.bb you KNIGHT
    my_bishops := pos.bb me BISHOP, your_bishops := pos.bb you BISHOP
    my_rooks := pos.bb me ROOK, your_rooks := pos.bb you ROOK
    my_queens := pos.bb me QUEEN, your_queens := pos.bb you QUEEN }

def Sides.all_my_pieces (g : Sides) : Nat :=
  g.my_pawns ||| g.my_knights ||| g.my_bishops ||| g.my_rooks ||| g.my_queens ||| g.my_king

def Sides.all_your_pieces (g : Sides) : Nat :=
  g.your_pawns ||| g.your_knights ||| g.your_bishops ||| g.your_rooks ||| g.your_queens |||
    g.your_king

def Sides.your_orthogonal_sliders (g : Sides) : Nat := g.your_rooks ||| g.your_queens

def Sides.your_diagonal_sliders (g : Sides) : Nat := g.your_bishops ||| g.your_queens

def Sides.all_pieces (g : Sides) : Nat := g.all_my_pieces ||| g.all_your_pieces

def Sides.my_king_square (g : Sides) : Nat := get_lsb_idx g.my_king

/-- The loop `while (bb) acc |= PIN_BETWEEN[king][pop_lsb(&bb)]`. -/
def or_pin_between (ksq bb acc : Nat) : Nat :=
  (squares_of bb).foldl (fun a s => a ||| PIN_BETWEEN ksq s) acc

/-- The values `checkmask`, `checking_pieces`, `orthogonal_pin`, `diagonal_pin` of the
standard generator once the check mask has been completed. -/
structure Masks where
  checkmask : Nat
  checking_pieces : Nat
  orthogonal_pin : Nat
  diagonal_pin : Nat
deriving DecidableEq, Repr

/-- Lines 379-417 of `generate_legal_moves_standard`: pin masks and check mask. -/
def std_masks (g : Sides) : Masks :=
  let ksq := g.my_king_square
  let hv : Nat × Nat × Nat :=
    if ROOK_ATTACKS ksq &&& g.your_orthogonal_sliders ≠ 0 then
      let attackHV := get_rook_attacks ksq g.all_pieces &&& g.your_orthogonal_sliders
      let pinsHV := get_xray_rook_attacks ksq g.all_pieces &&& g.your_orthogonal_sliders
      (or_pin_between ksq attackHV 0, (squares_of attackHV).length, or_pin_between ksq pinsHV 0)
    else (0, 0, 0)
  let d12 : Nat × Nat × Nat :=
    if BISHOP_ATTACKS ksq &&& g.your_diagonal_sliders ≠ 0 then
      let attackD12 := get_bishop_attacks ksq g.all_pieces &&& g.your_diagonal_sliders
      let pinsD12 := get_xray_bishop_attacks ksq g.all_pieces &&& g.your_diagonal_sliders
      (or_pin_between ksq attackD12 hv.1, hv.2.1 + (squares_of attackD12).length,
        or_pin_between ksq pinsD12 0)
    else (hv.1, hv.2.1, 0)
  let b1 := KNIGHT_ATTACKS ksq &&& g.your_knights
  let checkmask1 := d12.1 ||| b1
  let checking_pieces := d12.2.1 + (if b1 ≠ 0 then 1 else 0)
  let checkmask2 := checkmask1 ||| (PAWN_ATTACKS g.me ksq &&& g.your_pawns)
  { checkmask := if checkmask2 = 0 then ALL_ONES else checkmask2
    checking_pieces := checking_pieces
    orthogonal_pin := hv.2.2
    diagonal_pin := d12.2.2 }

/-- The attacked-square set of both generators: pawn and knight attacks, then slider
attacks on the occupancy without the own king; the standard generator adds the enemy
king's attacks (`with_king`), the atomic one does not. -/
def attacked_squares (g : Sides) (with_king : Bool) : Nat :=
  let a0 := get_all_pawn_attacks g.your_pawns g.you
  let a1 := (squares_of g.your_knights).foldl (fun a s => a ||| KNIGHT_ATTACKS s) a0
  let b1 := g.all_pieces ^^^ g.my_king
  let a2 := (squares_of g.your_diagonal_sliders).foldl
    (fun a s => a ||| get_bishop_attacks s b1) a1
  let a3 := (squares_of g.your_orthogonal_sliders).foldl
    (fun a s => a ||| get_rook_attacks s b1) a2
  if with_king then a3 ||| KING_ATTACKS (get_lsb_idx g.your_king) else a3

/-- The two castling blocks, textually identical in both generators. -/
def castling_moves (entry me all_pieces attacked my_king : Nat) : List Move :=
  (if (entry &&& OO_MASK me) ||| ((all_pieces ||| attacked) &&& OO_BLOCKERS_MASK me) |||
        (my_king &&& attacked) = 0 then
      [{ flag := OO, from_sq := if me = WHITE then 4 else 60,
         to_sq := if me = WHITE then 6 else 62 }]
    else []) ++
  (if (entry &&& OOO_MASK me) |||
        ((all_pieces ||| (attacked &&& OOO_IGNORE_DANGER me)) &&& OOO_BLOCKERS_MASK me) |||
        (my_king &&& attacked) = 0 then
      [{ flag := OOO, from_sq := if me = WHITE then 4 else 60,
         to_sq := if me = WHITE then 2 else 58 }]
    else [])

/-- The pawn bitboards of the standard generator after pin pruning (lines 477-520). -/
structure PawnSets where
  pawns_take : Nat
  pawns_take_left : Nat
  pawns_take_right : Nat
  pawns_push_single : Nat
  pawns_push_double : Nat
deriving DecidableEq, Repr

/-- Lines 477-520 of `generate_legal_moves_standard`. -/
def std_pawn_sets (g : Sides) (k : Masks) : PawnSets :=
  let me := g.me
  let pawns_take := g.my_pawns &&& bnot k.orthogonal_pin
  let pawns_push := g.my_pawns &&& bnot k.diagonal_pin
  let b1 := g.all_your_pieces &&& NOT_H_FILE &&& k.checkmask
  let take_left0 := pawns_take &&& (if me = WHITE then b1 >>> 7 else shl b1 9)
  let b1 := g.all_your_pieces &&& NOT_A_FILE &&& k.checkmask
  let take_right0 := pawns_take &&& (if me = WHITE then b1 >>> 9 else shl b1 7)
  let push_single0 := pawns_push &&&
    (if me = WHITE then bnot g.all_pieces >>> 8 else shl (bnot g.all_pieces) 8)
  let b1 := bnot g.all_pieces &&& k.checkmask
  let push_double0 := push_single0 &&& DOUBLE_PUSH_RANK me &&&
    (if me = WHITE then b1 >>> 16 else shl b1 16)
  let push_single1 := push_single0 &&&
    (if me = WHITE then k.checkmask >>> 8 else shl k.checkmask 8)
  let b1 := take_left0 &&& bnot k.diagonal_pin
  let b2 := take_left0 &&& (if me = WHITE then (k.diagonal_pin &&& NOT_H_FILE) >>> 7
    else shl (k.diagonal_pin &&& NOT_H_FILE) 9)
  let take_left := b1 ||| b2
  let b1 := take_right0 &&& bnot k.diagonal_pin
  let b2 := take_right0 &&& (if me = WHITE then (k.diagonal_pin &&& NOT_A_FILE) >>> 9
    else shl (k.diagonal_pin &&& NOT_A_FILE) 7)
  let take_right := b1 ||| b2
  let b1 := push_single1 &&& bnot k.orthogonal_pin
  let b2 := push_single1 &&& (if me = WHITE then k.orthogonal_pin >>> 8
    else shl k.orthogonal_pin 8)
  let push_single := b1 ||| b2
  let b1 := push_double0 &&& bnot k.orthogonal_pin
  let b2 := push_double0 &&& (if me = WHITE then k.orthogonal_pin >>> 16
    else shl k.orthogonal_pin 16)
  let push_double := b1 ||| b2
  { pawns_take := pawns_take, pawns_take_left := take_left, pawns_take_right := take_right
    pawns_push_single := push_single, pawns_push_double := push_double }

/-- Lines 523-570 of `generate_legal_moves_standard`: en passant. -/
def std_enpassant_moves (g : Sides) (k : Masks) (pawns_take enpassant : Nat) : List Move :=
  let me := g.me
  let enpassant_target := SQUARE_TO_BITBOARD enpassant
  if enpassant_target ≠ 0 then
    let b1 := (if me = WHITE then enpassant_target >>> 8 else shl enpassant_target 8) &&&
      k.checkmask &&& bnot k.diagonal_pin
    let left0 := pawns_take &&& NOT_A_FILE &&& shl b1 1
    let right0 := pawns_take &&& NOT_H_FILE &&& (b1 >>> 1)
    let b2 := negb (decide (enpassant_target &&& k.diagonal_pin ≠ 0))
    let left1 := left0 &&& (b2 ||| bnot k.diagonal_pin)
    let right1 := right0 &&& (b2 ||| bnot k.diagonal_pin)
    let left2 :=
      if g.my_king &&& EP_RANK me ≠ 0 then
        left1 &&& negb (decide ((get_rook_attacks g.my_king_square
          (g.all_pieces ^^^ (b1 ||| left1)) &&& g.your_orthogonal_sliders) ||| b2 = 0))
      else left1
    let right2 :=
      if g.my_king &&& EP_RANK me ≠ 0 then
        right1 &&& negb (decide ((get_rook_attacks g.my_king_square
          (g.all_pieces ^^^ (b1 ||| right1)) &&& g.your_orthogonal_sliders) ||| b2 = 0))
      else right1
    (if left2 ≠ 0 then
      [{ flag := EN_PASSANT, from_sq := get_lsb_idx left2,
         to_sq := get_lsb_idx enpassant_target }] else []) ++
    (if right2 ≠ 0 then
      [{ flag := EN_PASSANT, from_sq := get_lsb_idx right2,
         to_sq := get_lsb_idx enpassant_target }] else [])
  else []

/-- The four moves written for one promoting pawn. -/
def four_moves (f1 f2 f3 f4 : MoveFlag) (from_sq to_sq : Nat) : List Move :=
  [{ flag := f1, from_sq := from_sq, to_sq := to_sq },
   { flag := f2, from_sq := from_sq, to_sq := to_sq },
   { flag := f3, from_sq := from_sq, to_sq := to_sq },
   { flag := f4, from_sq := from_sq, to_sq := to_sq }]

/-- Lines 572-663 of `generate_legal_moves_standard`: pushes and captures of pawns. -/
def std_pawn_moves (g : Sides) (ps : PawnSets) : List Move :=
  let me := g.me
  let promotion_rank := DOUBLE_PUSH_RANK g.you
  (squares_of ps.pawns_push_double).map
    (fun s => { flag := DOUBLE_PUSH, from_sq := s,
                to_sq := if me = WHITE then s + 16 else s - 16 }) ++
  (squares_of (ps.pawns_push_single &&& promotion_rank)).flatMap
    (fun s => four_moves PR_KNIGHT PR_BISHOP PR_ROOK PR_QUEEN s
      (if me = WHITE then s + 8 else s - 8)) ++
  (squares_of (ps.pawns_push_single &&& bnot promotion_rank)).map
    (fun s => { flag := QUIET, from_sq := s, to_sq := if me = WHITE then s + 8 else s - 8 }) ++
  (squares_of (ps.pawns_take_left &&& promotion_rank)).flatMap
    (fun s => four_moves PC_KNIGHT PC_BISHOP PC_ROOK PC_QUEEN s
      (if me = WHITE then s + 7 else s - 9)) ++
  (squares_of (ps.pawns_take_left &&& bnot promotion_rank)).map
    (fun s => { flag := CAPTURE, from_sq := s, to_sq := if me = WHITE then s + 7 else s - 9 }) ++
  (squares_of (ps.pawns_take_right &&& promotion_rank)).flatMap
    (fun s => four_moves PC_KNIGHT PC_BISHOP PC_ROOK PC_QUEEN s
      (if me = WHITE then s + 9 else s - 7)) ++
  (squares_of (ps.pawns_take_right &&& bnot promotion_rank)).map
    (fun s => { flag := CAPTURE, from_sq := s, to_sq := if me = WHITE then s + 9 else s - 7 })

/-- The pair of `get_moves` calls that splits a target set into quiet moves and captures. -/
def quiet_and_capture (from_sq targets all_your_pieces : Nat) : List Move :=
  get_moves from_sq (targets &&& bnot all_your_pieces) QUIET ++
  get_moves from_sq (targets &&& all_your_pieces) CAPTURE

/-- Lines 665-728 of `generate_legal_moves_standard`: knights, bishops, rooks, queens. -/
def std_piece_moves (g : Sides) (k : Masks) : List Move :=
  let all_pieces := g.all_pieces
  let yours := g.all_your_pieces
  let moveable := bnot g.all_my_pieces &&& k.checkmask
  (squares_of (g.my_knights &&& bnot (k.orthogonal_pin ||| k.diagonal_pin))).flatMap
    (fun s => quiet_and_capture s (KNIGHT_ATTACKS s &&& moveable) yours) ++
  (let b1 := g.my_bishops &&& bnot k.orthogonal_pin
   (squares_of ((g.my_queens ||| b1) &&& k.diagonal_pin)).flatMap
     (fun s => quiet_and_capture s
       (get_bishop_attacks s all_pieces &&& moveable &&& k.diagonal_pin) yours) ++
   (squares_of (b1 &&& bnot k.diagonal_pin)).flatMap
     (fun s => quiet_and_capture s (get_bishop_attacks s all_pieces &&& moveable) yours)) ++
  (let b1 := g.my_rooks &&& bnot k.diagonal_pin
   (squares_of ((g.my_queens ||| b1) &&& k.orthogonal_pin)).flatMap
     (fun s => quiet_and_capture s
       (get_rook_attacks s all_pieces &&& moveable &&& k.orthogonal_pin) yours) ++
   (squares_of (b1 &&& bnot k.orthogonal_pin)).flatMap
     (fun s => quiet_and_capture s (get_rook_attacks s all_pieces &&& moveable) yours)) ++
  (squares_of (g.my_queens &&& bnot (k.orthogonal_pin ||| k.diagonal_pin))).flatMap
    (fun s => quiet_and_capture s (get_queen_attacks s all_pieces &&& moveable) yours)

/-- The function `generate_legal_moves_standard`: the moves written to the list, in
order. -/
def generate_legal_moves_standard (pos : Position) : List Move :=
  let g := sides pos
  let k := std_masks g
  let attacked := attacked_squares g true
  let ksq := g.my_king_square
  let king_moves :=
    get_moves ksq (KING_ATTACKS ksq &&& bnot attacked &&& bnot g.all_my_pieces &&&
      bnot g.all_your_pieces) QUIET ++
    get_moves ksq (KING_ATTACKS ksq &&& bnot attacked &&& bnot g.all_my_pieces &&&
      g.all_your_pieces) CAPTURE
  if k.checking_pieces > 1 then king_moves
  else
    let ps := std_pawn_sets g k
    king_moves ++
    castling_moves (cur pos).entry g.me g.all_pieces attacked g.my_king ++
    std_enpassant_moves g k ps.pawns_take (cur pos).enpassant ++
    std_pawn_moves g ps ++
    std_piece_moves g k

/-- The function `atomic_add_move`: the moves it appends to the list. -/
def atomic_add_move (me you all_pieces all_pawns all_your_pieces your_orthogonal_sliders
    your_diagonal_sliders your_knights your_pawns from_sq to_sq my_king_square : Nat)
    (include_promotions include_enpassant : Bool) : List Move :=
  let from_bb := SQUARE_TO_BITBOARD from_sq
  let to_bb := SQUARE_TO_BITBOARD to_sq
  let explosion := to_bb ||| KING_ATTACKS to_sq
  let relevant_pieces :=
    all_pieces ^^^ (from_bb ||| to_bb ||| ((all_pieces ^^^ all_pawns) &&& explosion))
  if get_rook_attacks my_king_square relevant_pieces &&&
      (your_orthogonal_sliders &&& relevant_pieces) ≠ 0 then []
  else if get_bishop_attacks my_king_square relevant_pieces &&&
      (your_diagonal_sliders &&& relevant_pieces) ≠ 0 then []
  else if KNIGHT_ATTACKS my_king_square &&& (your_knights &&& relevant_pieces) ≠ 0 then []
  else if PAWN_ATTACKS you my_king_square &&& (your_pawns &&& relevant_pieces) ≠ 0 then []
  else if include_promotions = true ∧ from_bb &&& DOUBLE_PUSH_RANK you ≠ 0 then
    if to_bb &&& all_your_pieces ≠ 0 then
      four_moves PC_KNIGHT PC_BISHOP PC_ROOK PC_QUEEN from_sq
        (if me = WHITE then from_sq + 8 else from_sq - 8)
    else
      four_moves PR_KNIGHT PR_BISHOP PR_ROOK PR_QUEEN from_sq
        (if me = WHITE then from_sq + 8 else from_sq - 8)
  else if include_enpassant = true then
    [{ flag := EN_PASSANT, from_sq := from_sq, to_sq := to_sq }]
  else [{ flag := CAPTURE, from_sq := from_sq, to_sq := to_sq }]

/-- The pin test the atomic generator applies to every non-capturing move of a pawn,
knight, bishop, rook or queen: "not pinned" or "gets in the way of a pin". -/
def atomic_quiet_ok (g : Sides) (from_sq to_sq : Nat) : Bool :=
  let ksq := g.my_king_square
  let all := g.all_pieces
  let f := SQUARE_TO_BITBOARD from_sq
  let t := SQUARE_TO_BITBOARD to_sq
  (!(decide (get_bishop_attacks ksq (all ^^^ f) &&& g.your_diagonal_sliders ≠ 0) ||
     decide (get_rook_attacks ksq (all ^^^ f) &&& g.your_orthogonal_sliders ≠ 0))) ||
  (!(decide (get_bishop_attacks ksq (all ^^^ (f ||| t)) &&& g.your_diagonal_sliders ≠ 0) ||
     decide (get_rook_attacks ksq (all ^^^ (f ||| t)) &&& g.your_orthogonal_sliders ≠ 0)))

/-- A non-capturing move of the atomic generator, written when the pin test passes. -/
def atomic_quiet_move (g : Sides) (flag : MoveFlag) (from_sq to_sq : Nat) : List Move :=
  if atomic_quiet_ok g from_sq to_sq then
    [{ flag := flag, from_sq := from_sq, to_sq := to_sq }] else []

/-- The call of `atomic_add_move` for an ordinary capture (all arguments taken from the
position unchanged). -/
def atomic_capture_move (g : Sides) (from_sq to_sq : Nat) (include_promotions : Bool) :
    List Move :=
  atomic_add_move g.me g.you g.all_pieces (g.my_pawns ||| g.your_pawns) g.all_your_pieces
    g.your_orthogonal_sliders g.your_diagonal_sliders g.your_knights g.your_pawns
    from_sq to_sq g.my_king_square include_promotions false

/-- The inner loop shared by the knight, bishop and rook blocks of the atomic generator. -/
def atomic_piece_targets (g : Sides) (from_sq targets : Nat) : List Move :=
  (squares_of targets).flatMap (fun to_sq =>
    if SQUARE_TO_BITBOARD to_sq &&& g.all_your_pieces ≠ 0 then
      atomic_capture_move g from_sq to_sq false
    else atomic_quiet_move g QUIET from_sq to_sq)

/-- Lines 968-1002 of `generate_legal_moves_atomic`: en passant. -/
def atomic_enpassant_moves (g : Sides) (enpassant : Nat) : List Move :=
  let me := g.me
  let enpassant_target := SQUARE_TO_BITBOARD enpassant
  if enpassant_target ≠ 0 then
    let b1 := if me = WHITE then enpassant_target >>> 8 else shl enpassant_target 8
    let b2 := enpassant_target ||| b1
    let call := fun (from_sq : Nat) =>
      atomic_add_move me g.you (g.all_pieces ^^^ b2) (g.my_pawns ||| (g.your_pawns ^^^ b2))
        (g.all_your_pieces ^^^ b2) g.your_orthogonal_sliders g.your_diagonal_sliders
        g.your_knights (g.your_pawns ^^^ b2) from_sq enpassant g.my_king_square false true
    (let b3 := g.my_pawns &&& NOT_H_FILE &&& (b1 >>> 1)
     if b3 ≠ 0 then call (get_lsb_idx b3) else []) ++
    (let b3 := g.my_pawns &&& NOT_A_FILE &&& shl b1 1
     if b3 ≠ 0 then call (get_lsb_idx b3) else [])
  else []

/-- The function `generate_legal_moves_atomic`: the moves written to the list, in order. -/
def generate_legal_moves_atomic (pos : Position) : List Move :=
  let g := sides pos
  let me := g.me
  let all_pieces := g.all_pieces
  let attacked := attacked_squares g false
  let ksq := g.my_king_square
  let b1 := g.my_pawns &&& (if me = WHITE then bnot all_pieces >>> 8 else shl (bnot all_pieces) 8)
  let b2 := b1 &&& DOUBLE_PUSH_RANK me &&&
    (if me = WHITE then bnot all_pieces >>> 16 else shl (bnot all_pieces) 16)
  get_moves ksq (KING_ATTACKS ksq &&& bnot attacked &&& bnot g.all_my_pieces &&&
    bnot g.all_your_pieces) QUIET ++
  castling_moves (cur pos).entry me all_pieces attacked g.my_king ++
  (squares_of b2).flatMap (fun s =>
    atomic_quiet_move g DOUBLE_PUSH s (if me = WHITE then s + 16 else s - 16)) ++
  (squares_of b1).flatMap (fun s =>
    atomic_quiet_move g QUIET s (if me = WHITE then s + 8 else s - 8)) ++
  (squares_of (g.my_pawns &&&
      (if me = WHITE then g.all_your_pieces >>> 7 else shl g.all_your_pieces 9) &&&
      NOT_A_FILE)).flatMap
    (fun s => atomic_capture_move g s (if me = WHITE then s + 7 else s - 9) true) ++
  (squares_of (g.my_pawns &&&
      (if me = WHITE then g.all_your_pieces >>> 9 else shl g.all_your_pieces 7) &&&
      NOT_H_FILE)).flatMap
    (fun s => atomic_capture_move g s (if me = WHITE then s + 9 else s - 7) true) ++
  atomic_enpassant_moves g (cur pos).enpassant ++
  (squares_of g.my_knights).flatMap (fun s =>
    atomic_piece_targets g s (KNIGHT_ATTACKS s &&& bnot g.all_my_pieces)) ++
  (squares_of (g.my_bishops ||| g.my_queens)).flatMap (fun s =>
    atomic_piece_targets g s (get_bishop_attacks s all_pieces &&& bnot g.all_my_pieces)) ++
  (squares_of (g.my_rooks ||| g.my_queens)).flatMap (fun s =>
    atomic_piece_targets g s (get_rook_attacks s all_pieces &&& bnot g.all_my_pieces))

/-- The function `generate_legal_moves`; `atomic` selects the build (`#ifdef ATOMIC`). -/
def generate_legal_moves (atomic : Bool) (pos : Position) : List Move :=
  if atomic then generate_legal_moves_atomic pos else generate_legal_moves_standard pos

/-! ## The data-model invariants and the legality notions of the specification -/

/-- The dense board and the twelve bitboards agree: every bitboard is a 64-bit word, every
board entry is a `Piece`, and bit `s` of `pieces[c][t]` is set iff `board[s]` is
`TYPE_TO_PIECE[c][t]`. -/
def consistent (pos : Position) : Prop :=
  pos.pieces.length = 12 ∧ pos.board.length = 64 ∧
  (∀ s, s < 64 → pos.board.getD s 0 ≤ 12) ∧
  (∀ c, c < 2 → ∀ t, t < 6 → pos.bb c t < 2 ^ 64) ∧
  (∀ c, c < 2 → ∀ t, t < 6 → ∀ s, s < 64 →
    ((pos.bb c t).testBit s = true ↔ pos.board.getD s 0 = TYPE_TO_PIECE c t))

instance (pos : Position) : Decidable (consistent pos) := by
  unfold consistent; infer_instance

/-- The side `c` has exactly one king. -/
def one_king (pos : Position) (c : Nat) : Prop := ∃ s, s < 64 ∧ pos.bb c KING = 2 ^ s

instance (pos : Position) (c : Nat) : Decidable (one_king pos c) := by
  unfold one_king; infer_instance

/-- The en passant square of the current record is `NO_SQUARE`, or it is the empty square
skipped by an enemy pawn that has just made a double push. -/
def enpassant_consistent (pos : Position) : Prop :=
  let ep := (cur pos).enpassant
  ep = NO_SQUARE ∨
  (pos.side_to_play = WHITE ∧ 40 ≤ ep ∧ ep < 48 ∧ pos.board.getD ep 0 = NO_PIECE ∧
    pos.board.getD (ep - 8) 0 = BLACK_PAWN ∧ pos.board.getD (ep + 8) 0 = NO_PIECE) ∨
  (pos.side_to_play = BLACK ∧ 16 ≤ ep ∧ ep < 24 ∧ pos.board.getD ep 0 = NO_PIECE ∧
    pos.board.getD (ep + 8) 0 = WHITE_PAWN ∧ pos.board.getD (ep - 8) 0 = NO_PIECE)

instance (pos : Position) : Decidable (enpassant_consistent pos) := by
  unfold enpassant_consistent; infer_instance

/-- A castling right still recorded in `history[ply].entry` means that the king and the
rook concerned stand on their home squares. -/
def castling_consistent (pos : Position) : Prop :=
  let e := (cur pos).entry
  (e &&& OO_MASK WHITE = 0 → pos.board.getD 4 0 = WHITE_KING ∧ pos.board.getD 7 0 = WHITE_ROOK) ∧
  (e &&& OOO_MASK WHITE = 0 → pos.board.getD 4 0 = WHITE_KING ∧ pos.board.getD 0 0 = WHITE_ROOK) ∧
  (e &&& OO_MASK BLACK = 0 →
    pos.board.getD 60 0 = BLACK_KING ∧ pos.board.getD 63 0 = BLACK_ROOK) ∧
  (e &&& OOO_MASK BLACK = 0 →
    pos.board.getD 60 0 = BLACK_KING ∧ pos.board.getD 56 0 = BLACK_ROOK)

instance (pos : Position) : Decidable (castling_consistent pos) := by
  unfold castling_consistent; infer_instance

/-- The squares the piece `p` standing on `s` attacks, given the occupancy `occ`. -/
def piece_attacks (p s occ : Nat) : Nat :=
  if PIECE_TO_TYPE p = PAWN then PAWN_ATTACKS (PIECE_TO_COLOR p) s
  else if PIECE_TO_TYPE p = KNIGHT then KNIGHT_ATTACKS s
  else if PIECE_TO_TYPE p = BISHOP then get_bishop_attacks s occ
  else if PIECE_TO_TYPE p = ROOK then get_rook_attacks s occ
  else if PIECE_TO_TYPE p = QUEEN then get_queen_attacks s occ
  else if PIECE_TO_TYPE p = KING then KING_ATTACKS s
  else 0

/-- The occupancy of a position: the union of its twelve bitboards. -/
def occupancy (pos : Position) : Nat := (sides pos).all_pieces

/-- The square `sq` is attacked by a pawn, knight, bishop, rook, queen or king of
colour `c`. -/
def attacked_by (pos : Position) (c sq : Nat) : Prop :=
  ∃ y, y < 64 ∧ PIECE_TO_COLOR (pos.board.getD y 0) = c ∧
    (piece_attacks (pos.board.getD y 0) y (occupancy pos)).testBit sq = true

instance (pos : Position) (c sq : Nat) : Decidable (attacked_by pos c sq) := by
  unfold attacked_by; infer_instance

/-- The square of the king of colour `c`. -/
def king_square (pos : Position) (c : Nat) : Nat := get_lsb_idx (pos.bb c KING)

/-- The data-model invariants under which the generator is called: board and bitboards
agree, each side has exactly one king, the side that is not to move is not in check, the
en passant square and the castling record are consistent with the board, and the
history stack has room for the next ply. -/
def data_model_invariants (pos : Position) : Prop :=
  consistent pos ∧ pos.side_to_play < 2 ∧
  one_king pos WHITE ∧ one_king pos BLACK ∧
  ¬ attacked_by pos pos.side_to_play (king_square pos (pos.side_to_play ^^^ BLACK)) ∧
  enpassant_consistent pos ∧ castling_consistent pos ∧
  pos.history.length = 256 ∧ pos.ply + 1 < 256

instance (pos : Position) : Decidable (data_model_invariants pos) := by
  unfold data_model_invariants; infer_instance

/-- The square of the pawn an en passant capture to `to_sq` removes, for the mover `c`. -/
def enpassant_victim (c to_sq : Nat) : Nat := if c = WHITE then to_sq - 8 else to_sq + 8

/-- The squares a move touches hold what its flag presupposes in the standard build: the
moving piece belongs to the side to play, the target is empty for a non-capture and holds
an enemy piece for a capture, castling finds king and rook at home with the squares they
cross empty, a promoting piece is a pawn, and en passant finds the enemy pawn behind the
empty target. -/
def playable (pos : Position) (m : Move) : Prop :=
  let me := pos.side_to_play
  let pf := pos.board.getD m.from_sq 0
  let pt := pos.board.getD m.to_sq 0
  m.from_sq < 64 ∧ m.to_sq < 64 ∧
  match m.flag with
  | QUIET => PIECE_TO_COLOR pf = me ∧ pt = NO_PIECE
  | DOUBLE_PUSH => PIECE_TO_COLOR pf = me ∧ pt = NO_PIECE
  | CAPTURE => PIECE_TO_COLOR pf = me ∧ PIECE_TO_COLOR pt = me ^^^ BLACK
  | OO =>
    (me = WHITE → pos.board.getD 4 0 = WHITE_KING ∧ pos.board.getD 7 0 = WHITE_ROOK ∧
      pos.board.getD 5 0 = NO_PIECE ∧ pos.board.getD 6 0 = NO_PIECE) ∧
    (me ≠ WHITE → pos.board.getD 60 0 = BLACK_KING ∧ pos.board.getD 63 0 = BLACK_ROOK ∧
      pos.board.getD 61 0 = NO_PIECE ∧ pos.board.getD 62 0 = NO_PIECE)
  | OOO =>
    (me = WHITE → pos.board.getD 4 0 = WHITE_KING ∧ pos.board.getD 0 0 = WHITE_ROOK ∧
      pos.board.getD 3 0 = NO_PIECE ∧ pos.board.getD 2 0 = NO_PIECE) ∧
    (me ≠ WHITE → pos.board.getD 60 0 = BLACK_KING ∧ pos.board.getD 56 0 = BLACK_ROOK ∧
      pos.board.getD 59 0 = NO_PIECE ∧ pos.board.getD 58 0 = NO_PIECE)
  | EN_PASSANT =>
    pf = TYPE_TO_PIECE me PAWN ∧ pt = NO_PIECE ∧ enpassant_victim me m.to_sq < 64 ∧
    enpassant_victim me m.to_sq ≠ m.from_sq ∧ enpassant_victim me m.to_sq ≠ m.to_sq ∧
    pos.board.getD (enpassant_victim me m.to_sq) 0 = TYPE_TO_PIECE (me ^^^ BLACK) PAWN
  | PR_KNIGHT => pf = TYPE_TO_PIECE me PAWN ∧ pt = NO_PIECE
  | PR_BISHOP => pf = TYPE_TO_PIECE me PAWN ∧ pt = NO_PIECE
  | PR_ROOK => pf = TYPE_TO_PIECE me PAWN ∧ pt = NO_PIECE
  | PR_QUEEN => pf = TYPE_TO_PIECE me PAWN ∧ pt = NO_PIECE
  | PC_KNIGHT => pf = TYPE_TO_PIECE me PAWN ∧ PIECE_TO_COLOR pt = me ^^^ BLACK
  | PC_BISHOP => pf = TYPE_TO_PIECE me PAWN ∧ PIECE_TO_COLOR pt = me ^^^ BLACK
  | PC_ROOK => pf = TYPE_TO_PIECE me PAWN ∧ PIECE_TO_COLOR pt = me ^^^ BLACK
  | PC_QUEEN => pf = TYPE_TO_PIECE me PAWN ∧ PIECE_TO_COLOR pt = me ^^^ BLACK

/-- The square on file `f` (0 for the a-file up to 7 for the h-file) of the home rank of
colour `c`: rank 1 for White, rank 8 for Black. -/
def home_square (c f : Nat) : Nat := if c = WHITE then f else 56 + f

/-- The square `sq` is attacked along its rank by a rook or queen of colour `c`: going
east or west from `sq`, the first occupied square holds such a piece. -/
def rank_attacked (pos : Position) (c sq : Nat) : Prop :=
  (ray_attacks (occupancy pos) (ray_squares sq (1, 0)) |||
    ray_attacks (occupancy pos) (ray_squares sq (-1, 0))) &&&
    (pos.bb c ROOK ||| pos.bb c QUEEN) ≠ 0

instance (pos : Position) (c sq : Nat) : Decidable (rank_attacked pos c sq) := by
  unfold rank_attacked; infer_instance

/-- The fields of a position that `play` followed by `undo` must restore: the twelve
bitboards, the dense board, the side to play, the ply, the hash and `history[ply]`. -/
def restored (q pos : Position) : Prop :=
  q.pieces = pos.pieces ∧ q.board = pos.board ∧ q.side_to_play = pos.side_to_play ∧
  q.ply = pos.ply ∧ q.zobrist_hash = pos.zobrist_hash ∧ cur q = cur pos

end AtomicChess

namespace AtomicChess

open MoveFlag

/-! ## bitboards.c: string tables -/

/-- The table `SQUARE_TO_STRING[65]`; an index outside the table reads the empty string. -/
def SQUARE_TO_STRING (s : Nat) : List Char :=
  (["a1", "b1", "c1", "d1", "e1", "f1", "g1", "h1",
    "a2", "b2", "c2", "d2", "e2", "f2", "g2", "h2",
    "a3", "b3", "c3", "d3", "e3", "f3", "g3", "h3",
    "a4", "b4", "c4", "d4", "e4", "f4", "g4", "h4",
    "a5", "b5", "c5", "d5", "e5", "f5", "g5", "h5",
    "a6", "b6", "c6", "d6", "e6", "f6", "g6", "h6",
    "a7", "b7", "c7", "d7", "e7", "f7", "g7", "h7",
    "a8", "b8", "c8", "d8", "e8", "f8", "g8", "h8",
    "None"].getD s "").toList

/-- The table `PIECE_TO_CHAR`; an index outside the table reads NUL. -/
def PIECE_TO_CHAR (p : Nat) : Char :=
  ['.', 'P', 'N', 'B', 'R', 'Q', 'K', 'p', 'n', 'b', 'r', 'q', 'k'].getD p (Char.ofNat 0)

/-- The conversion `(Square) x` of an `int` to the enumeration type, which is represented
on 32 bits without sign. -/
def to_square (x : Int) : Nat := (x % 2 ^ 32).toNat

/-- The function `string_to_square` of `bitboards.h`; the arguments are character codes. -/
def string_to_square (file rank : Nat) : Nat :=
  to_square (((rank : Int) - ('1'.toNat : Int)) * 8 + ((file : Int) - ('a'.toNat : Int)))

/-- The C library function `isalpha` in the "C" locale, on a character code. -/
def isalpha (c : Nat) : Bool :=
  ('A'.toNat ≤ c && c ≤ 'Z'.toNat) || ('a'.toNat ≤ c && c ≤ 'z'.toNat)

/-! ## position.c: `get_fen_from_pos` -/

/-- The output of `sprintf(buf, "%d", n)` for a non-negative `n`. -/
def sprintf_d (n : Nat) : List Char := (Nat.repr n).toList

/-- One iteration of the inner loop of `get_fen_from_pos` (lines 197-208); the state is
the text written so far and the counter `empty_squares`. -/
def fen_file_step (board : List Nat) (rank : Nat) (st : List Char × Nat) (file : Nat) :
    List Char × Nat :=
  let p := board.getD (rank * 8 + file) 0
  if p = NO_PIECE then (st.1, st.2 + 1)
  else
    ((if st.2 > 0 then st.1 ++ sprintf_d st.2 else st.1) ++ [PIECE_TO_CHAR p], 0)

/-- One iteration of the outer loop of `get_fen_from_pos` (lines 195-211): the text
written for one rank, appended to `out`. -/
def fen_rank_step (board : List Nat) (out : List Char) (rank : Nat) : List Char :=
  let st := (List.range 8).foldl (fen_file_step board rank) (out, 0)
  let out1 := if st.2 > 0 then st.1 ++ sprintf_d st.2 else st.1
  if rank > 0 then out1 ++ ['/'] else out1

/-- The function `get_fen_from_pos`: the characters written to `fen`, without the
terminating NUL. -/
def get_fen_from_pos (pos : Position) : List Char :=
  let placement := [7, 6, 5, 4, 3, 2, 1, 0].foldl (fen_rank_step pos.board) []
  let side := [' '] ++ (if pos.side_to_play = WHITE then ['w', ' '] else ['b', ' '])
  let e := (cur pos).entry
  let castling :=
    (if e &&& OO_MASK WHITE = 0 then ['K'] else []) ++
    (if e &&& OOO_MASK WHITE = 0 then ['Q'] else []) ++
    (if e &&& OO_MASK BLACK = 0 then ['k'] else []) ++
    (if e &&& OOO_MASK BLACK = 0 then ['q'] else []) ++
    (if e &&& ALL_CASTLING_MASK ≠ 0 then ['-', ' '] else [])
  let enpassant_square := (cur pos).enpassant
  placement ++ side ++ castling ++
    ([' '] ++ (if enpassant_square = NO_SQUARE then ['-'] else SQUARE_TO_STRING enpassant_square))

/-- The initial position record built by the clearing loops of `set_from_fen`
(lines 95-105). -/
def fen_cleared : Position :=
  { pieces := List.replicate 12 0
    board := List.replicate 64 NO_PIECE
    side_to_play := WHITE
    ply := 0
    zobrist_hash := 0
    history := List.replicate 256 ⟨ALL_CASTLING_MASK, NO_SQUARE, NO_PIECE⟩ }

/-- The read index of `set_from_fen` when it reaches the en passant field (line 167):
after the placement loop, the side character and the castling loop. -/
def fen_enpassant_index (fen : List Char) : Nat :=
  let fuel := fen.length + 1
  let r1 := fen_placement fuel fen fen_cleared 0 56
  let r2 := fen_castling fuel fen r1.1 (r1.2 + 1 + 1 + 1)
  r2.2 + 1

/-! ## movegen.c: `parse_move` and `get_move_str` -/

/-- The function `parse_move`. The string is given by its characters (NUL is read at and
beyond its end, as with `fen_char`); `flag0` stands for the indeterminate initial value of
the local `move.flag`, which the function returns unchanged on some paths. -/
def parse_move (atomic : Bool) (pos : Position) (move_str : List Char) (flag0 : MoveFlag) :
    Move :=
  let list := generate_legal_moves atomic pos
  let from_sq := string_to_square (fen_char move_str 0) (fen_char move_str 1)
  let to_sq := string_to_square (fen_char move_str 2) (fen_char move_str 3)
  let is_promotion : Bool := decide (move_str.length = 5) && isalpha (fen_char move_str 4)
  match list.find? (fun x => decide (from_sq = x.from_sq) && decide (to_sq = x.to_sq)) with
  | some x =>
    if ¬ is_promotion then x
    else
      let c := fen_char move_str 4
      let flag :=
        if from_sq % 8 = to_sq % 8 then
          if c = 'n'.toNat then PR_KNIGHT else if c = 'b'.toNat then PR_BISHOP
          else if c = 'r'.toNat then PR_ROOK else if c = 'q'.toNat then PR_QUEEN else flag0
        else
          if c = 'n'.toNat then PC_KNIGHT else if c = 'b'.toNat then PC_BISHOP
          else if c = 'r'.toNat then PC_ROOK else if c = 'q'.toNat then PC_QUEEN else flag0
      { flag := flag, from_sq := from_sq, to_sq := to_sq }
  | none => { flag := flag0, from_sq := NO_SQUARE, to_sq := to_sq }

/-- The function `get_move_str`: the C string left in `move_str`. `snprintf` with size
`MAX_MOVE_STR_LEN = 6` writes at most five characters of the two square names, then
`move_str[4]` receives the promotion letter or NUL and `move_str[5]` NUL. -/
def get_move_str (m : Move) : List Char :=
  let s := (SQUARE_TO_STRING m.from_sq ++ SQUARE_TO_STRING m.to_sq).take 5
  let c4 : List Char :=
    if m.flag = PR_KNIGHT ∨ m.flag = PC_KNIGHT then ['n']
    else if m.flag = PR_BISHOP ∨ m.flag = PC_BISHOP then ['b']
    else if m.flag = PR_ROOK ∨ m.flag = PC_ROOK then ['r']
    else if m.flag = PR_QUEEN ∨ m.flag = PC_QUEEN then ['q']
    else []
  if s.length < 4 then s else s.take 4 ++ c4

/-! ## Lines of play -/

/-- The column `history[i].entry` of a position. -/
def entries (pos : Position) : List Nat := pos.history.map Undoinfo.entry

/-- The position reached from `pos` by calling `play` on the moves of `ms` in order. -/
def play_line (atomic : Bool) (pos : Position) (ms : List Move) : Position :=
  ms.foldl (play atomic) pos

end AtomicChess

namespace AtomicChess

open MoveFlag

/-! ## The Zobrist hash of a board -/

/-- The XOR over all occupied squares `s` of `ZOBRIST_TABLE[board[s]][s]`. -/
def zobrist_of_board (board : List Nat) : Nat :=
  (List.range 64).foldl (fun h s =>
    if board.getD s 0 = NO_PIECE then h else h ^^^ ZOBRIST_TABLE (board.getD s 0) s) 0

/-- The field `zobrist_hash` of a position is the hash of its board. -/
def hash_ok (pos : Position) : Prop := pos.zobrist_hash = zobrist_of_board pos.board

instance (pos : Position) : Decidable (hash_ok pos) := by
  unfold hash_ok; infer_instance

/-! ## Well-formed FEN strings -/

/-- One symbol of the placement field of a FEN: a digit `1` to `8` that stands for that
many empty squares, or the letter of a piece. -/
inductive FenToken where
  | empty (n : Nat)
  | piece (p : Nat)
deriving DecidableEq, Repr

/-- The symbol is a digit from 1 to 8 or one of the twelve pieces. -/
def FenToken.valid : FenToken → Prop
  | .empty n => 1 ≤ n ∧ n ≤ 8
  | .piece p => 1 ≤ p ∧ p ≤ 12

instance (t : FenToken) : Decidable t.valid := by
  cases t <;> unfold FenToken.valid <;> infer_instance

/-- The number of squares a symbol covers. -/
def FenToken.width : FenToken → Nat
  | .empty n => n
  | .piece _ => 1

/-- The contents of the squares a symbol covers, from the a-file side on. -/
def FenToken.squares : FenToken → List Nat
  | .empty n => List.replicate n NO_PIECE
  | .piece p => [p]

/-- The character that writes a symbol. -/
def FenToken.char : FenToken → Char
  | .empty n => Char.ofNat ('0'.toNat + n)
  | .piece p => PIECE_TO_CHAR p

/-- The parts of a six-field FEN: the ranks of the placement from rank 8 down to rank 1,
the side to move, the letters of the castling field (none for `-`), the en passant square
as file and rank counted from 0 (or none for `-`), and the two move counters as written. -/
structure Fen where
  ranks : List (List FenToken)
  white : Bool
  castling : List Char
  enpassant : Option (Nat × Nat)
  halfmove : List Char
  fullmove : List Char

/-- The text is a run of decimal digits. -/
def is_number (w : List Char) : Prop := w ≠ [] ∧ ∀ c, c ∈ w → '0'.toNat ≤ c.toNat ∧ c.toNat ≤ '9'.toNat

instance (w : List Char) : Decidable (is_number w) := by
  unfold is_number; infer_instance

/-- The FEN is well formed: eight ranks of valid symbols that cover eight squares each,
castling letters among `KQkq`, an en passant square on the board, two numbers. -/
def Fen.valid (F : Fen) : Prop :=
  F.ranks.length = 8 ∧
  (∀ r, r ∈ F.ranks → (∀ t, t ∈ r → t.valid) ∧ (r.map FenToken.width).sum = 8) ∧
  (∀ c, c ∈ F.castling → c = 'K' ∨ c = 'Q' ∨ c = 'k' ∨ c = 'q') ∧
  (∀ e, F.enpassant = some e → e.1 < 8 ∧ e.2 < 8) ∧
  is_number F.halfmove ∧ is_number F.fullmove

instance (F : Fen) : Decidable F.valid := by
  unfold Fen.valid; infer_instance

/-- The text of the placement field: the ranks separated by `/`. -/
def placement_text : List (List FenToken) → List Char
  | [] => []
  | [r] => r.map FenToken.char
  | r :: rs => r.map FenToken.char ++ '/' :: placement_text rs

/-- The text of the en passant field. -/
def enpassant_text : Option (Nat × Nat) → List Char
  | none => ['-']
  | some e => [Char.ofNat ('a'.toNat + e.1), Char.ofNat ('1'.toNat + e.2)]

/-- The FEN string: the six fields separated by single spaces. -/
def Fen.text (F : Fen) : List Char :=
  placement_text F.ranks ++ ' ' :: (if F.white then 'w' else 'b') :: ' ' ::
    ((if F.castling = [] then ['-'] else F.castling) ++ ' ' ::
      (enpassant_text F.enpassant ++ ' ' :: (F.halfmove ++ ' ' :: F.fullmove)))

/-- The piece the placement field puts on square `s` (`NO_PIECE` for an empty square):
rank 8 is written first, and within a rank the a-file. -/
def Fen.piece_at (F : Fen) (s : Nat) : Nat :=
  ((F.ranks.getD (7 - s / 8) []).flatMap FenToken.squares).getD (s % 8) NO_PIECE

/-- The square the en passant field names, `NO_SQUARE` for `-`. -/
def Fen.enpassant_square (F : Fen) : Nat :=
  match F.enpassant with
  | none => NO_SQUARE
  | some e => 8 * e.2 + e.1

/-- The body of the placement loop of `set_from_fen` for one character that is neither
NUL nor a space; the state is the position and the running square. -/
def fen_placement_step (st : Position × Int) (ch : Char) : Position × Int :=
  let c := ch.toNat
  if '0'.toNat ≤ c ∧ c ≤ '9'.toNat then (st.1, st.2 + (c - '0'.toNat : Nat))
  else if c = '/'.toNat then (st.1, st.2 - 16)
  else
    let p := CHAR_TO_PIECE c
    (put_piece st.1 (PIECE_TO_TYPE p) (PIECE_TO_COLOR p) st.2.toNat, st.2 + 1)

/-- The effect of one character of the castling field on `history[0].entry`. -/
def fen_castling_step (pos : Position) (ch : Char) : Position :=
  let c := ch.toNat
  if c = 'K'.toNat then set_entry0 pos (fun e => e &&& bnot (OO_MASK WHITE))
  else if c = 'Q'.toNat then set_entry0 pos (fun e => e &&& bnot (OOO_MASK WHITE))
  else if c = 'k'.toNat then set_entry0 pos (fun e => e &&& bnot (OO_MASK BLACK))
  else if c = 'q'.toNat then set_entry0 pos (fun e => e &&& bnot (OOO_MASK BLACK))
  else pos

/-- The bits of `history[0].entry` that a character of the castling field clears. -/
def castling_letter_mask (ch : Char) : Nat :=
  if ch.toNat = 'K'.toNat then OO_MASK WHITE
  else if ch.toNat = 'Q'.toNat then OOO_MASK WHITE
  else if ch.toNat = 'k'.toNat then OO_MASK BLACK
  else if ch.toNat = 'q'.toNat then OOO_MASK BLACK
  else 0

/-- The FEN `rnbqkbnr/pppppppp/8/8/4P3/8/PPPP1PPP/RNBQKBNR b KQkq e3 0 1` in parts. -/
def fen_after_e2e4 : Fen :=
  { ranks :=
      [[.piece BLACK_ROOK, .piece BLACK_KNIGHT, .piece BLACK_BISHOP, .piece BLACK_QUEEN,
        .piece BLACK_KING, .piece BLACK_BISHOP, .piece BLACK_KNIGHT, .piece BLACK_ROOK],
       List.replicate 8 (.piece BLACK_PAWN),
       [.empty 8], [.empty 8],
       [.empty 4, .piece WHITE_PAWN, .empty 3],
       [.empty 8],
       [.piece WHITE_PAWN, .piece WHITE_PAWN, .piece WHITE_PAWN, .piece WHITE_PAWN, .empty 1,
        .piece WHITE_PAWN, .piece WHITE_PAWN, .piece WHITE_PAWN],
       [.piece WHITE_ROOK, .piece WHITE_KNIGHT, .piece WHITE_BISHOP, .piece WHITE_QUEEN,
        .piece WHITE_KING, .piece WHITE_BISHOP, .piece WHITE_KNIGHT, .piece WHITE_ROOK]]
    white := false
    castling := ['K', 'Q', 'k', 'q']
    enpassant := some (4, 2)
    halfmove := ['0']
    fullmove := ['1'] }

end AtomicChess

namespace AtomicChess

open MoveFlag

/-! ## perft.c -/

/-- The function `perft` together with the position it leaves behind: the C code works on
one `Position` that `play`, the recursive call and `undo` change in turn. The node count
is a 64-bit word. -/
def perft_pos (atomic : Bool) : Nat → Position → Position × Nat
  | 0, pos => (pos, 1)
  | depth + 1, pos =>
    let list := generate_legal_moves atomic pos
    if depth + 1 = 1 then (pos, list.length)
    else
      list.foldl (fun (st : Position × Nat) (m : Move) =>
        let r := perft_pos atomic depth (play atomic st.1 m)
        (undo atomic r.1 m, (st.2 + r.2) % 2 ^ 64)) (pos, 0)

/-- The value `perft(pos, depth)`. -/
def perft (atomic : Bool) (pos : Position) (depth : Nat) : Nat := (perft_pos atomic depth pos).2

end AtomicChess

namespace AtomicChess

open MoveFlag

/-! ## Notions of the specification used by the later claims -/

/-- The twelve bitboards are pairwise disjoint. -/
def pieces_disjoint (pos : Position) : Prop :=
  ∀ c, c < 2 → ∀ t, t < 6 → ∀ c2, c2 < 2 → ∀ t2, t2 < 6 → 6 * c + t ≠ 6 * c2 + t2 →
    pos.bb c t &&& pos.bb c2 t2 = 0

instance (pos : Position) : Decidable (pieces_disjoint pos) := by
  unfold pieces_disjoint; infer_instance

/-- The legality test of a non-capturing move in the words of the specification: with
`from` removed from the occupancy and `to` added to it, no enemy rook or queen attacks the
king along a rank or file and no enemy bishop or queen along a diagonal. -/
def atomic_quiet_spec (g : Sides) (from_sq to_sq : Nat) : Bool :=
  let occ := (g.all_pieces &&& bnot (SQUARE_TO_BITBOARD from_sq)) ||| SQUARE_TO_BITBOARD to_sq
  decide (get_rook_attacks g.my_king_square occ &&& g.your_orthogonal_sliders = 0) &&
  decide (get_bishop_attacks g.my_king_square occ &&& g.your_diagonal_sliders = 0)

/-- The square `sq` is attacked by a pawn, knight, bishop, rook or queen of colour `c`,
the sliders seeing the occupancy `occ`. -/
def attacked_by_non_king (pos : Position) (c sq occ : Nat) : Prop :=
  ∃ y, y < 64 ∧ PIECE_TO_COLOR (pos.board.getD y 0) = c ∧
    PIECE_TO_TYPE (pos.board.getD y 0) ≠ KING ∧
    (piece_attacks (pos.board.getD y 0) y occ).testBit sq = true

instance (pos : Position) (c sq occ : Nat) : Decidable (attacked_by_non_king pos c sq occ) := by
  unfold attacked_by_non_king; infer_instance

/-- The 4-bit slot number `k` of a packed word, counted from the least significant bits. -/
def slot (w k : Nat) : Nat := (w >>> (4 * k)) &&& 0xF

/-- A flag with the promotion piece forgotten: the four `PR_*` flags become `PR_KNIGHT`,
the four `PC_*` flags `PC_KNIGHT`. -/
def flag_base : MoveFlag → MoveFlag
  | PR_KNIGHT => PR_KNIGHT
  | PR_BISHOP => PR_KNIGHT
  | PR_ROOK => PR_KNIGHT
  | PR_QUEEN => PR_KNIGHT
  | PC_KNIGHT => PC_KNIGHT
  | PC_BISHOP => PC_KNIGHT
  | PC_ROOK => PC_KNIGHT
  | PC_QUEEN => PC_KNIGHT
  | f => f

/-- The flag, up to the promotion piece, that the pair of squares of a move determines on
a position: it is read from the piece on `from`, the content of `to` and the distance
between the two squares. -/
def expected_flag (pos : Position) (f t : Nat) : MoveFlag :=
  let ty := PIECE_TO_TYPE (pos.board.getD f 0)
  let promo := (DOUBLE_PUSH_RANK (pos.side_to_play ^^^ BLACK)).testBit f
  if ty = KING then
    if (KING_ATTACKS f).testBit t = true then
      (if pos.board.getD t 0 = NO_PIECE then QUIET else CAPTURE)
    else if f < t then OO else OOO
  else if ty = PAWN then
    if pos.board.getD t 0 ≠ NO_PIECE then (if promo = true then PC_KNIGHT else CAPTURE)
    else if t % 8 ≠ f % 8 then EN_PASSANT
    else if t = f + 16 ∨ f = t + 16 then DOUBLE_PUSH
    else if promo = true then PR_KNIGHT else QUIET
  else if pos.board.getD t 0 = NO_PIECE then QUIET else CAPTURE

/-- The FEN `k7/8/3N4/3pP3/8/8/8/4K3 w - d6 0 1` in parts: a white knight stands on d6,
the square named in the en passant field. -/
def fen_knight_on_enpassant_square : Fen :=
  { ranks :=
      [[.piece BLACK_KING, .empty 7],
       [.empty 8],
       [.empty 3, .piece WHITE_KNIGHT, .empty 4],
       [.empty 3, .piece BLACK_PAWN, .piece WHITE_PAWN, .empty 3],
       [.empty 8], [.empty 8], [.empty 8],
       [.empty 4, .piece WHITE_KING, .empty 3]]
    white := true
    castling := []
    enpassant := some (3, 5)
    halfmove := ['0']
    fullmove := ['1'] }

end AtomicChess

namespace AtomicChess

/-! ## Bit-level facts about 64-bit words -/

theorem testBit_ALL_ONES (i : Nat) : ALL_ONES.testBit i = decide (i < 64) := by
  have h : ALL_ONES = 2 ^ 64 - 1 := by decide
  rw [h, Nat.testBit_two_pow_sub_one]

theorem ALL_ONES_lt : ALL_ONES < 2 ^ 64 := by decide

theorem testBit_bnot (x i : Nat) : (bnot x).testBit i = (decide (i < 64) != x.testBit i) := by
  unfold bnot
  rw [Nat.testBit_xor, testBit_ALL_ONES]

theorem bnot_lt {x : Nat} (hx : x < 2 ^ 64) : bnot x < 2 ^ 64 :=
  Nat.xor_lt_two_pow ALL_ONES_lt hx

theorem testBit_shl (x n i : Nat) :
    (shl x n).testBit i = (decide (i < 64) && (decide (n ≤ i) && x.testBit (i - n))) := by
  unfold shl
  rw [Nat.testBit_mod_two_pow, Nat.testBit_shiftLeft]

theorem shl_lt (x n : Nat) : shl x n < 2 ^ 64 := by
  unfold shl
  exact Nat.mod_lt _ (by decide)

theorem testBit_SQUARE_TO_BITBOARD (s i : Nat) :
    (SQUARE_TO_BITBOARD s).testBit i = (decide (s < 64) && decide (s = i)) := by
  unfold SQUARE_TO_BITBOARD
  by_cases h : s < 64
  · simp [h, Nat.testBit_two_pow]
  · simp [h]

theorem SQUARE_TO_BITBOARD_lt (s : Nat) : SQUARE_TO_BITBOARD s < 2 ^ 64 := by
  unfold SQUARE_TO_BITBOARD
  by_cases h : s < 64
  · simp only [h, if_true]
    exact Nat.pow_lt_pow_right (by decide) h
  · simp [h]

theorem lt_of_testBit {x i : Nat} (hx : x < 2 ^ 64) (h : x.testBit i = true) : i < 64 := by
  by_contra hi
  have h1 : 2 ^ 64 ≤ 2 ^ i := Nat.pow_le_pow_right (by decide) (by omega)
  have h2 : x.testBit i = false := Nat.testBit_lt_two_pow (by omega)
  rw [h2] at h
  exact Bool.noConfusion h

theorem testBit_false_of_ge {x i : Nat} (hx : x < 2 ^ 64) (hi : 64 ≤ i) : x.testBit i = false := by
  cases h : x.testBit i
  · rfl
  · have := lt_of_testBit hx h
    omega

theorem lt_of_and_left {a b : Nat} (ha : a < 2 ^ 64) : a &&& b < 2 ^ 64 :=
  Nat.lt_of_le_of_lt Nat.and_le_left ha

theorem lt_of_and_right {a b : Nat} (hb : b < 2 ^ 64) : a &&& b < 2 ^ 64 :=
  Nat.lt_of_le_of_lt Nat.and_le_right hb

theorem eq_zero_of_or_eq_zero_left {a b : Nat} (h : a ||| b = 0) : a = 0 := by
  apply Nat.eq_of_testBit_eq
  intro i
  have := congrArg (fun x => x.testBit i) h
  simp only [Nat.testBit_or, Nat.zero_testBit, Bool.or_eq_false_iff] at this
  simp [this.1]

theorem eq_zero_of_or_eq_zero_right {a b : Nat} (h : a ||| b = 0) : b = 0 := by
  rw [Nat.or_comm] at h
  exact eq_zero_of_or_eq_zero_left h

theorem testBit_false_of_eq_zero {a : Nat} (h : a = 0) (i : Nat) : a.testBit i = false := by
  rw [h]; exact Nat.zero_testBit i

/-! ## `get_lsb_idx`, `pop_lsb` and the loops over a bitboard -/

theorem ctz_aux_spec : ∀ (fuel b i : Nat), b ≠ 0 → b < 2 ^ fuel →
    i ≤ ctz_aux fuel b i ∧ ctz_aux fuel b i < i + fuel ∧
    b.testBit (ctz_aux fuel b i - i) = true ∧
    ∀ j, j < ctz_aux fuel b i - i → b.testBit j = false := by
  intro fuel
  induction fuel with
  | zero =>
    intro b i hb hlt
    simp at hlt
    exact absurd hlt hb
  | succ n ih =>
    intro b i hb hlt
    unfold ctz_aux
    by_cases hodd : b % 2 = 1
    · simp only [hodd, if_true]
      refine ⟨Nat.le_refl _, by omega, ?_, ?_⟩
      · simp [Nat.testBit_zero, hodd]
      · intro j hj; omega
    · simp only [hodd, if_false]
      have hb2 : b / 2 ≠ 0 := by omega
      have hlt2 : b / 2 < 2 ^ n := by
        rw [Nat.pow_succ] at hlt; omega
      obtain ⟨h1, h2, h3, h4⟩ := ih (b / 2) (i + 1) hb2 hlt2
      refine ⟨by omega, by omega, ?_, ?_⟩
      · have e : ctz_aux n (b / 2) (i + 1) - i = (ctz_aux n (b / 2) (i + 1) - (i + 1)) + 1 := by
          omega
        rw [e, Nat.testBit_add_one]
        exact h3
      · intro j hj
        cases j with
        | zero =>
          simp only [Nat.testBit_zero]
          simp [hodd]
        | succ j =>
          rw [Nat.testBit_add_one]
          apply h4
          omega

theorem get_lsb_idx_lt {b : Nat} (hb : b ≠ 0) (hlt : b < 2 ^ 64) : get_lsb_idx b < 64 := by
  have := ctz_aux_spec 64 b 0 hb hlt
  unfold get_lsb_idx
  omega

theorem testBit_get_lsb_idx {b : Nat} (hb : b ≠ 0) (hlt : b < 2 ^ 64) :
    b.testBit (get_lsb_idx b) = true := by
  have := (ctz_aux_spec 64 b 0 hb hlt).2.2.1
  simpa [get_lsb_idx] using this

theorem testBit_below_get_lsb_idx {b : Nat} (hb : b ≠ 0) (hlt : b < 2 ^ 64) {j : Nat}
    (hj : j < get_lsb_idx b) : b.testBit j = false := by
  have := (ctz_aux_spec 64 b 0 hb hlt).2.2.2 j
  apply this
  simpa [get_lsb_idx] using hj

theorem get_lsb_idx_two_pow {s : Nat} (hs : s < 64) : get_lsb_idx (2 ^ s) = s := by
  have hne : (2 : Nat) ^ s ≠ 0 := by positivity
  have hlt : (2 : Nat) ^ s < 2 ^ 64 := Nat.pow_lt_pow_right (by decide) hs
  have h1 := testBit_get_lsb_idx hne hlt
  rw [Nat.testBit_two_pow] at h1
  exact (of_decide_eq_true h1).symm

theorem testBit_and_pred_aux : ∀ (fuel b i : Nat), b ≠ 0 → b < 2 ^ fuel → ∀ j,
    (b &&& (b - 1)).testBit j = (b.testBit j && decide (j + i ≠ ctz_aux fuel b i)) := by
  intro fuel
  induction fuel with
  | zero =>
    intro b i hb hlt
    simp at hlt
    exact absurd hlt hb
  | succ n ih =>
    intro b i hb hlt j
    unfold ctz_aux
    by_cases hodd : b % 2 = 1
    · simp only [hodd, if_true]
      cases j with
      | zero =>
        have : (b - 1) % 2 = 0 := by omega
        simp [Nat.testBit_and, Nat.testBit_zero, this]
      | succ j =>
        rw [Nat.testBit_and, Nat.testBit_add_one, Nat.testBit_add_one]
        have : (b - 1) / 2 = b / 2 := by omega
        rw [this]
        have hne : j + 1 + i ≠ i := by omega
        simp [hne]
    · simp only [hodd, if_false]
      have hb2 : b / 2 ≠ 0 := by omega
      have hlt2 : b / 2 < 2 ^ n := by
        rw [Nat.pow_succ] at hlt; omega
      cases j with
      | zero =>
        have : b % 2 = 0 := by omega
        simp [Nat.testBit_and, Nat.testBit_zero, this]
      | succ j =>
        have hih := ih (b / 2) (i + 1) hb2 hlt2 j
        rw [Nat.testBit_and] at hih
        rw [Nat.testBit_and, Nat.testBit_add_one, Nat.testBit_add_one]
        have e : (b - 1) / 2 = b / 2 - 1 := by omega
        rw [e, hih]
        have e2 : j + 1 + i = j + (i + 1) := by omega
        rw [e2]

theorem testBit_pop_lsb {b : Nat} (hb : b ≠ 0) (hlt : b < 2 ^ 64) (j : Nat) :
    (pop_lsb b).2.testBit j = (b.testBit j && decide (j ≠ (pop_lsb b).1)) := by
  have := testBit_and_pred_aux 64 b 0 hb hlt j
  simpa [pop_lsb, get_lsb_idx] using this

theorem pop_lsb_snd_lt {b : Nat} (hlt : b < 2 ^ 64) : (pop_lsb b).2 < 2 ^ 64 :=
  lt_of_and_left hlt

theorem mem_pop_loop_sound : ∀ (fuel b s : Nat), b < 2 ^ 64 → s ∈ pop_loop fuel b →
    b.testBit s = true := by
  intro fuel
  induction fuel with
  | zero => intro b s _ h; simp [pop_loop] at h
  | succ n ih =>
    intro b s hlt h
    unfold pop_loop at h
    by_cases hb : b = 0
    · simp [hb] at h
    · simp only [hb, if_false, List.mem_cons] at h
      rcases h with h | h
      · rw [h]; exact testBit_get_lsb_idx hb hlt
      · have := ih _ s (pop_lsb_snd_lt hlt) h
        rw [testBit_pop_lsb hb hlt] at this
        simp only [Bool.and_eq_true] at this
        exact this.1

theorem mem_pop_loop_complete : ∀ (fuel b : Nat), b < 2 ^ 64 →
    (∀ j, j + fuel < 64 → b.testBit j = false) → ∀ s, b.testBit s = true →
    s ∈ pop_loop fuel b := by
  intro fuel
  induction fuel with
  | zero =>
    intro b hlt hlow s hs
    have := lt_of_testBit hlt hs
    have := hlow s (by omega)
    rw [this] at hs
    exact Bool.noConfusion hs
  | succ n ih =>
    intro b hlt hlow s hs
    have hb : b ≠ 0 := by
      intro h0; rw [h0] at hs; simp at hs
    unfold pop_loop
    simp only [hb, if_false, List.mem_cons]
    by_cases he : s = (pop_lsb b).1
    · exact Or.inl he
    · right
      apply ih _ (pop_lsb_snd_lt hlt)
      · intro j hj
        rw [testBit_pop_lsb hb hlt]
        by_cases hjl : j < get_lsb_idx b
        · simp [testBit_below_get_lsb_idx hb hlt hjl]
        · by_cases hje : j = get_lsb_idx b
          · simp [pop_lsb, hje]
          · have h1 : b.testBit (get_lsb_idx b) = true := testBit_get_lsb_idx hb hlt
            have h2 : b.testBit (get_lsb_idx b) = false := by
              by_cases h64 : get_lsb_idx b + (n + 1) < 64
              · exact hlow _ h64
              · omega
            rw [h1] at h2
            exact Bool.noConfusion h2
      · rw [testBit_pop_lsb hb hlt]
        simp [hs, he]

theorem mem_squares_of {b : Nat} (hlt : b < 2 ^ 64) (s : Nat) :
    s ∈ squares_of b ↔ b.testBit s = true := by
  constructor
  · exact mem_pop_loop_sound 64 b s hlt
  · exact mem_pop_loop_complete 64 b hlt (by intro j hj; omega) s

theorem lt_of_mem_squares_of {b s : Nat} (hlt : b < 2 ^ 64) (h : s ∈ squares_of b) : s < 64 :=
  lt_of_testBit hlt ((mem_squares_of hlt s).1 h)

theorem testBit_foldl_or (f : Nat → Nat) (l : List Nat) (acc i : Nat) :
    (l.foldl (fun a s => a ||| f s) acc).testBit i = true ↔
      acc.testBit i = true ∨ ∃ s, s ∈ l ∧ (f s).testBit i = true := by
  induction l generalizing acc with
  | nil => simp
  | cons x xs ih =>
    rw [List.foldl_cons, ih]
    simp only [Nat.testBit_or, Bool.or_eq_true, List.mem_cons]
    constructor
    · rintro ((h | h) | ⟨s, hs, h⟩)
      · exact Or.inl h
      · exact Or.inr ⟨x, Or.inl rfl, h⟩
      · exact Or.inr ⟨s, Or.inr hs, h⟩
    · rintro (h | ⟨s, hs | hs, h⟩)
      · exact Or.inl (Or.inl h)
      · subst hs; exact Or.inl (Or.inr h)
      · exact Or.inr ⟨s, hs, h⟩

end AtomicChess

namespace AtomicChess
open MoveFlag

/-! ## Lists as arrays -/

theorem getD_set_eq {α : Type} (l : List α) (i : Nat) (v d : α) (h : i < l.length) :
    (l.set i v).getD i d = v := by
  simp [List.getD_eq_getElem?_getD, List.getElem?_set, h]

theorem getD_set_ne {α : Type} (l : List α) (i j : Nat) (v d : α) (h : i ≠ j) :
    (l.set i v).getD j d = l.getD j d := by
  simp [List.getD_eq_getElem?_getD, List.getElem?_set, h]

theorem set_getD_self {α : Type} (l : List α) (i : Nat) (d : α) : l.set i (l.getD i d) = l := by
  by_cases h : i < l.length
  · apply List.ext_getElem
    · simp
    · intro n h1 h2
      by_cases hn : i = n
      · subst hn
        simp [List.getD_eq_getElem?_getD, h]
      · simp [List.getElem_set, hn]
  · exact List.set_eq_of_length_le (by omega)

theorem set_set_same {α : Type} (l : List α) (i : Nat) (a b : α) :
    (l.set i a).set i b = l.set i b := by
  simp

theorem set_set_comm {α : Type} (l : List α) (i j : Nat) (a b : α) (h : i ≠ j) :
    (l.set i a).set j b = (l.set j b).set i a :=
  List.set_comm a b l h

theorem set_eq_self_of_getD {α : Type} (l : List α) (i : Nat) (v d : α)
    (h : l.getD i d = v) : l.set i v = l := by
  rw [← h]; exact set_getD_self l i d

/-! ## Piece tables -/

theorem piece_index {p : Nat} (h1 : 1 ≤ p) (h2 : p ≤ 12) :
    6 * PIECE_TO_COLOR p + PIECE_TO_TYPE p = p - 1 ∧ PIECE_TO_COLOR p < 2 ∧ PIECE_TO_TYPE p < 6 ∧
    TYPE_TO_PIECE (PIECE_TO_COLOR p) (PIECE_TO_TYPE p) = p := by
  interval_cases p <;> decide

theorem color_lt_two_iff {p : Nat} (hp : p ≤ 12) : PIECE_TO_COLOR p < 2 ↔ 1 ≤ p := by
  interval_cases p <;> decide

theorem init_zobrist_table_eq :
    init_zobrist_table = (List.range 832).map (fun i =>
      [5584008249189136266, 9187794072708926828, 16327294880134491134,
        16891251515473123576].getD (i % 4) 0) := by
  decide!

theorem ZOBRIST_TABLE_eq {p s : Nat} (hp : p < 13) (hs : s < 64) :
    ZOBRIST_TABLE p s =
      [5584008249189136266, 9187794072708926828, 16327294880134491134,
        16891251515473123576].getD (s % 4) 0 := by
  unfold ZOBRIST_TABLE
  rw [init_zobrist_table_eq]
  have h1 : 64 * p + s < 832 := by omega
  have h2 : (64 * p + s) % 4 = s % 4 := by omega
  rw [List.getD_eq_getElem?_getD, List.getElem?_map, List.getElem?_range h1]
  simp only [Option.map_some', Option.getD_some, h2]

theorem zobrist_row_indep {p s : Nat} (hp : p < 13) (hs : s < 64) :
    ZOBRIST_TABLE p s = ZOBRIST_TABLE 0 s := by
  rw [ZOBRIST_TABLE_eq hp hs, ZOBRIST_TABLE_eq (by decide) hs]

theorem xor_xor_cancel (h a : Nat) : h ^^^ a ^^^ a = h := by
  rw [Nat.xor_assoc, Nat.xor_self, Nat.xor_zero]

theorem getD_set {α : Type} (l : List α) (i j : Nat) (v d : α) :
    (l.set i v).getD j d = if i = j ∧ i < l.length then v else l.getD j d := by
  by_cases h : i = j
  · subst h
    by_cases h2 : i < l.length
    · simp [h2, getD_set_eq]
    · simp only [h2, and_false, if_false]
      rw [List.set_eq_of_length_le (by omega)]
  · simp [h, getD_set_ne]

theorem list_ext_getD (l1 l2 : List Nat) (hlen : l1.length = l2.length)
    (h : ∀ j, j < l1.length → l1.getD j 0 = l2.getD j 0) : l1 = l2 := by
  apply List.ext_getElem hlen
  intro n h1 h2
  have := h n h1
  simpa [List.getD_eq_getElem?_getD, h1, h2] using this

theorem xor_or_cancel (x a b : Nat) : (x ^^^ (a ||| b)) ^^^ (b ||| a) = x := by
  rw [Nat.or_comm b a, Nat.xor_assoc, Nat.xor_self, Nat.xor_zero]

theorem xor4_cancel (h a b : Nat) : h ^^^ (a ^^^ b) ^^^ (b ^^^ a) = h := by
  rw [Nat.xor_comm b a, Nat.xor_assoc, Nat.xor_self, Nat.xor_zero]

theorem set_xor_twice (l : List Nat) (i a b : Nat) :
    (l.set i (l.getD i 0 ^^^ (a ||| b))).set i
      ((l.set i (l.getD i 0 ^^^ (a ||| b))).getD i 0 ^^^ (b ||| a)) = l := by
  by_cases h : i < l.length
  · rw [getD_set_eq _ _ _ _ h, xor_or_cancel, set_set_same, set_getD_self]
  · rw [List.set_eq_of_length_le (l := l) (by omega), List.set_eq_of_length_le (by omega)]

theorem roundtrip_quiet (pos : Position) (m : Move) (hlen : pos.board.length = 64)
    (hf : m.from_sq < 64) (ht : m.to_sq < 64) (hne : m.from_sq ≠ m.to_sq)
    (hflag : m.flag = QUIET) (hempty : pos.board.getD m.to_sq 0 = 0) :
    restored (undo false (play false pos m) m) pos := by
  have hb : ((pos.board.set m.to_sq (pos.board.getD m.from_sq 0)).set m.from_sq NO_PIECE).getD
      m.to_sq 0 = pos.board.getD m.from_sq 0 := by
    rw [getD_set_ne _ _ _ _ _ hne, getD_set_eq _ _ _ _ (by omega)]
  unfold restored undo play
  simp only [hflag, move_piece_quiet, cur, play_begin, undo_begin, hb]
  refine ⟨?_, ?_, ?_, ?_, ?_, ?_⟩
  · exact set_xor_twice _ _ _ _
  · apply list_ext_getD
    · simp
    · intro j hj
      simp only [getD_set, List.length_set, hlen, hf, ht, NO_PIECE]
      split_ifs <;> simp_all
  · simp [Nat.xor_assoc, BLACK]
  · simp
  · exact xor4_cancel _ _ _
  · simp [getD_set_ne]

theorem roundtrip_double_push (pos : Position) (m : Move) (hlen : pos.board.length = 64)
    (hf : m.from_sq < 64) (ht : m.to_sq < 64) (hne : m.from_sq ≠ m.to_sq)
    (hflag : m.flag = DOUBLE_PUSH) (hempty : pos.board.getD m.to_sq 0 = 0) :
    restored (undo false (play false pos m) m) pos := by
  have hb : ((pos.board.set m.to_sq (pos.board.getD m.from_sq 0)).set m.from_sq NO_PIECE).getD
      m.to_sq 0 = pos.board.getD m.from_sq 0 := by
    rw [getD_set_ne _ _ _ _ _ hne, getD_set_eq _ _ _ _ (by omega)]
  unfold restored undo play
  simp only [hflag, move_piece_quiet, set_enpassant, cur, play_begin, undo_begin, hb]
  refine ⟨?_, ?_, ?_, ?_, ?_, ?_⟩
  · exact set_xor_twice _ _ _ _
  · apply list_ext_getD
    · simp
    · intro j hj
      simp only [getD_set, List.length_set, hlen, hf, ht, NO_PIECE]
      split_ifs <;> simp_all
  · simp [Nat.xor_assoc, BLACK]
  · simp
  · exact xor4_cancel _ _ _
  · simp [getD_set_ne]


theorem xor_cancel_pair (x m n : Nat) : x ^^^ m ^^^ n ^^^ m ^^^ n = x := by
  apply Nat.eq_of_testBit_eq
  intro i
  simp only [Nat.testBit_xor]
  cases x.testBit i <;> cases m.testBit i <;> cases n.testBit i <;> rfl

theorem roundtrip_castle_aux (pos : Position) (hlen : pos.board.length = 64)
    (a b c d : Nat) (ha : a < 64) (hb : b < 64) (hc : c < 64) (hd : d < 64)
    (hab : a ≠ b) (hac : a ≠ c) (had : a ≠ d) (hbc : b ≠ c) (hbd : b ≠ d) (hcd : c ≠ d)
    (hib : pos.board.getD b 0 = 0) (hid : pos.board.getD d 0 = 0)
    (p0 : Position) (hp0b : p0.board = pos.board) (hp0p : p0.pieces = pos.pieces)
    (hp0h : p0.zobrist_hash = pos.zobrist_hash) :
    (move_piece_quiet (move_piece_quiet (undo_begin (move_piece_quiet (move_piece_quiet p0 a b)
        c d)) b a) d c).pieces = pos.pieces ∧
    (move_piece_quiet (move_piece_quiet (undo_begin (move_piece_quiet (move_piece_quiet p0 a b)
        c d)) b a) d c).board = pos.board ∧
    (move_piece_quiet (move_piece_quiet (undo_begin (move_piece_quiet (move_piece_quiet p0 a b)
        c d)) b a) d c).zobrist_hash = pos.zobrist_hash := by
  have hba := hab.symm
  have hca := hac.symm
  have hda := had.symm
  have hcb := hbc.symm
  have hdb := hbd.symm
  have hdc := hcd.symm
  simp only [move_piece_quiet, undo_begin, getD_set, List.length_set, hlen, hp0b, hp0p, hp0h, NO_PIECE,
    ha, hb, hc, hd, hab, hac, had, hbc, hbd, hcd, hba, hca, hda, hcb, hdb, hdc,
    and_true, and_false, if_true, if_false, false_and, true_and]
  generalize 6 * PIECE_TO_COLOR (pos.board.getD a 0) + PIECE_TO_TYPE (pos.board.getD a 0) = i
  generalize 6 * PIECE_TO_COLOR (pos.board.getD c 0) + PIECE_TO_TYPE (pos.board.getD c 0) = k
  rw [Nat.or_comm (SQUARE_TO_BITBOARD b) (SQUARE_TO_BITBOARD a),
    Nat.or_comm (SQUARE_TO_BITBOARD d) (SQUARE_TO_BITBOARD c)]
  generalize SQUARE_TO_BITBOARD a ||| SQUARE_TO_BITBOARD b = m1
  generalize SQUARE_TO_BITBOARD c ||| SQUARE_TO_BITBOARD d = m2
  refine ⟨?_, ?_, ?_⟩
  · apply list_ext_getD
    · simp only [List.length_set]
    · intro j hj
      simp only [List.length_set] at hj
      simp only [getD_set, List.length_set]
      split_ifs <;> (try casesm* _ ∧ _) <;> subst_vars <;>
        first | rfl | exact xor_xor_cancel _ _ | exact xor_cancel_pair _ _ _ | (exfalso; omega)
  · apply list_ext_getD
    · simp only [List.length_set]
    · intro j hj
      simp only [getD_set, List.length_set, hlen, ha, hb, hc, hd, and_true]
      split_ifs <;> simp_all
  · generalize ZOBRIST_TABLE (pos.board.getD a 0) a = z1
    generalize ZOBRIST_TABLE (pos.board.getD a 0) b = z2
    generalize ZOBRIST_TABLE (pos.board.getD c 0) c = z3
    generalize ZOBRIST_TABLE (pos.board.getD c 0) d = z4
    apply Nat.eq_of_testBit_eq
    intro n
    simp only [Nat.testBit_xor]
    cases pos.zobrist_hash.testBit n <;> cases z1.testBit n <;> cases z2.testBit n <;>
      cases z3.testBit n <;> cases z4.testBit n <;> rfl


theorem play_begin_board (pos : Position) (m : Move) : (play_begin pos m).board = pos.board := rfl
theorem play_begin_pieces (pos : Position) (m : Move) : (play_begin pos m).pieces = pos.pieces := rfl
theorem play_begin_hash (pos : Position) (m : Move) :
    (play_begin pos m).zobrist_hash = pos.zobrist_hash := rfl

theorem xor_black_black (s : Nat) : s ^^^ BLACK ^^^ BLACK = s := xor_xor_cancel s BLACK

theorem roundtrip_castle (pos : Position) (m : Move) (hlen : pos.board.length = 64)
    (a b c d : Nat) (ha : a < 64) (hb : b < 64) (hc : c < 64) (hd : d < 64)
    (hab : a ≠ b) (hac : a ≠ c) (had : a ≠ d) (hbc : b ≠ c) (hbd : b ≠ d) (hcd : c ≠ d)
    (hib : pos.board.getD b 0 = 0) (hid : pos.board.getD d 0 = 0)
    (hplay : play false pos m = move_piece_quiet (move_piece_quiet (play_begin pos m) a b) c d)
    (hundo : ∀ X : Position, X.side_to_play = pos.side_to_play ^^^ BLACK → undo false X m =
      { move_piece_quiet (move_piece_quiet (undo_begin X) b a) d c with
        ply := (move_piece_quiet (move_piece_quiet (undo_begin X) b a) d c).ply - 1 }) :
    restored (undo false (play false pos m) m) pos := by
  obtain ⟨h1, h2, h3⟩ := roundtrip_castle_aux pos hlen a b c d ha hb hc hd hab hac had hbc hbd hcd
    hib hid (play_begin pos m) rfl rfl rfl
  rw [hplay, hundo _ rfl]
  refine ⟨h1, h2, ?_, ?_, h3, ?_⟩
  · simp only [move_piece_quiet, undo_begin, play_begin]
    exact xor_black_black _
  · simp only [move_piece_quiet, undo_begin, play_begin]
    omega
  · simp only [cur, move_piece_quiet, undo_begin, play_begin]
    rw [Nat.add_sub_cancel, getD_set_ne _ _ _ _ _ (by omega)]

theorem undo_begin_side (X : Position) (s : Nat) (h : X.side_to_play = s ^^^ BLACK) :
    (undo_begin X).side_to_play = s := by
  simp only [undo_begin, h]
  exact xor_black_black s

theorem roundtrip_oo (pos : Position) (m : Move) (hlen : pos.board.length = 64)
    (hflag : m.flag = OO)
    (hw : pos.side_to_play = WHITE → pos.board.getD 5 0 = 0 ∧ pos.board.getD 6 0 = 0)
    (hb : pos.side_to_play ≠ WHITE → pos.board.getD 61 0 = 0 ∧ pos.board.getD 62 0 = 0) :
    restored (undo false (play false pos m) m) pos := by
  by_cases hside : pos.side_to_play = WHITE
  · obtain ⟨h5, h6⟩ := hw hside
    apply roundtrip_castle pos m hlen 4 6 7 5 (by decide) (by decide) (by decide) (by decide)
      (by decide) (by decide) (by decide) (by decide) (by decide) (by decide) h6 h5
    · unfold play
      simp only [hflag, hside, if_true]
    · intro X hX
      unfold undo
      simp only [hflag, undo_begin_side X _ hX, hside, if_true]
  · obtain ⟨h5, h6⟩ := hb hside
    apply roundtrip_castle pos m hlen 60 62 63 61 (by decide) (by decide) (by decide) (by decide)
      (by decide) (by decide) (by decide) (by decide) (by decide) (by decide) h6 h5
    · unfold play
      simp only [hflag, hside, if_false]
    · intro X hX
      unfold undo
      simp only [hflag, undo_begin_side X _ hX, hside, if_false]

theorem roundtrip_ooo (pos : Position) (m : Move) (hlen : pos.board.length = 64)
    (hflag : m.flag = OOO)
    (hw : pos.side_to_play = WHITE → pos.board.getD 3 0 = 0 ∧ pos.board.getD 2 0 = 0)
    (hb : pos.side_to_play ≠ WHITE → pos.board.getD 59 0 = 0 ∧ pos.board.getD 58 0 = 0) :
    restored (undo false (play false pos m) m) pos := by
  by_cases hside : pos.side_to_play = WHITE
  · obtain ⟨h5, h6⟩ := hw hside
    apply roundtrip_castle pos m hlen 4 2 0 3 (by decide) (by decide) (by decide) (by decide)
      (by decide) (by decide) (by decide) (by decide) (by decide) (by decide) h6 h5
    · unfold play
      simp only [hflag, hside, if_true]
    · intro X hX
      unfold undo
      simp only [hflag, undo_begin_side X _ hX, hside, if_true]
  · obtain ⟨h5, h6⟩ := hb hside
    apply roundtrip_castle pos m hlen 60 58 56 59 (by decide) (by decide) (by decide) (by decide)
      (by decide) (by decide) (by decide) (by decide) (by decide) (by decide) h6 h5
    · unfold play
      simp only [hflag, hside, if_false]
    · intro X hX
      unfold undo
      simp only [hflag, undo_begin_side X _ hX, hside, if_false]


theorem type_to_piece_facts {c t : Nat} (hc : c < 2) (ht : t < 6) :
    PIECE_TO_COLOR (TYPE_TO_PIECE c t) = c ∧ PIECE_TO_TYPE (TYPE_TO_PIECE c t) = t ∧
    1 ≤ TYPE_TO_PIECE c t ∧ TYPE_TO_PIECE c t ≤ 12 := by
  interval_cases c <;> interval_cases t <;> decide

theorem and_not_or_self {x s : Nat} (hx : x < 2 ^ 64) (h : x.testBit s = true) :
    (x &&& bnot (SQUARE_TO_BITBOARD s)) ||| SQUARE_TO_BITBOARD s = x := by
  apply Nat.eq_of_testBit_eq
  intro i
  simp only [Nat.testBit_or, Nat.testBit_and, testBit_bnot, testBit_SQUARE_TO_BITBOARD]
  by_cases hi : s = i
  · subst hi
    have := lt_of_testBit hx h
    simp [h, this]
  · by_cases h64 : i < 64
    · simp [hi, h64]
    · simp [hi, h64, testBit_false_of_ge (i := i) hx (by omega)]

theorem or_and_not_self {x s : Nat} (hx : x < 2 ^ 64) (h : x.testBit s = false) :
    (x ||| SQUARE_TO_BITBOARD s) &&& bnot (SQUARE_TO_BITBOARD s) = x := by
  apply Nat.eq_of_testBit_eq
  intro i
  simp only [Nat.testBit_or, Nat.testBit_and, testBit_bnot, testBit_SQUARE_TO_BITBOARD]
  by_cases hi : s = i
  · subst hi
    simp [h]
  · by_cases h64 : i < 64
    · simp [hi, h64]
    · simp [hi, h64, testBit_false_of_ge (i := i) hx (by omega)]

theorem and_not_mask_or_self {x f t : Nat} (hx : x < 2 ^ 64) (ht : x.testBit t = true)
    (hf : x.testBit f = false) :
    (x &&& bnot (SQUARE_TO_BITBOARD f ||| SQUARE_TO_BITBOARD t)) ||| SQUARE_TO_BITBOARD t = x := by
  apply Nat.eq_of_testBit_eq
  intro i
  simp only [Nat.testBit_or, Nat.testBit_and, testBit_bnot, testBit_SQUARE_TO_BITBOARD]
  by_cases hi : t = i
  · subst hi
    have := lt_of_testBit hx ht
    simp [ht, this]
  · by_cases hi2 : f = i
    · subst hi2
      simp [hf, hi]
    · by_cases h64 : i < 64
      · simp [hi, hi2, h64]
      · simp [hi, hi2, h64, testBit_false_of_ge (i := i) hx (by omega)]

/-- What `consistent` says about the bitboard stored at a list index. -/
theorem consistent_bit {pos : Position} (hc : consistent pos) {c t s : Nat} (hc2 : c < 2)
    (ht : t < 6) (hs : s < 64) :
    (pos.pieces.getD (6 * c + t) 0).testBit s = true ↔ pos.board.getD s 0 = TYPE_TO_PIECE c t :=
  hc.2.2.2.2 c hc2 t ht s hs

theorem consistent_lt {pos : Position} (hc : consistent pos) {c t : Nat} (hc2 : c < 2)
    (ht : t < 6) : pos.pieces.getD (6 * c + t) 0 < 2 ^ 64 :=
  hc.2.2.2.1 c hc2 t ht

theorem consistent_bit_false {pos : Position} (hc : consistent pos) {c t s : Nat} (hc2 : c < 2)
    (ht : t < 6) (hs : s < 64) (h : pos.board.getD s 0 ≠ TYPE_TO_PIECE c t) :
    (pos.pieces.getD (6 * c + t) 0).testBit s = false := by
  cases hb : (pos.pieces.getD (6 * c + t) 0).testBit s
  · rfl
  · exact absurd ((consistent_bit hc hc2 ht hs).1 hb) h


theorem or_bit_self {x s : Nat} (h : x.testBit s = true) : x ||| SQUARE_TO_BITBOARD s = x := by
  apply Nat.eq_of_testBit_eq
  intro i
  simp only [Nat.testBit_or, testBit_SQUARE_TO_BITBOARD]
  by_cases hi : s = i
  · subst hi; simp [h]
  · simp [hi]

theorem and_not_bit_self {x s : Nat} (hx : x < 2 ^ 64) (h : x.testBit s = false) :
    x &&& bnot (SQUARE_TO_BITBOARD s) = x := by
  apply Nat.eq_of_testBit_eq
  intro i
  simp only [Nat.testBit_and, testBit_bnot, testBit_SQUARE_TO_BITBOARD]
  by_cases hi : s = i
  · subst hi; simp [h]
  · by_cases h64 : i < 64
    · simp [hi, h64]
    · simp [hi, h64, testBit_false_of_ge (i := i) hx (by omega)]

theorem xor_cancel_rev (h a b : Nat) : h ^^^ a ^^^ b ^^^ b ^^^ a = h := by
  rw [xor_xor_cancel, xor_xor_cancel]

theorem roundtrip_promotion (pos : Position) (m : Move) (hc : consistent pos)
    (hs : pos.side_to_play < 2) (X : Nat) (hX1 : 1 ≤ X) (hX6 : X < 6)
    (hf : m.from_sq < 64) (ht : m.to_sq < 64)
    (hpf : pos.board.getD m.from_sq 0 = TYPE_TO_PIECE pos.side_to_play PAWN)
    (hpt : pos.board.getD m.to_sq 0 = NO_PIECE)
    (hplay : play false pos m =
      put_piece (remove_piece (play_begin pos m) m.from_sq) X pos.side_to_play m.to_sq)
    (hundo : ∀ Y : Position, Y.side_to_play = pos.side_to_play ^^^ BLACK → undo false Y m =
      { undo_promotion (undo_begin Y) m pos.side_to_play with
        ply := (undo_promotion (undo_begin Y) m pos.side_to_play).ply - 1 }) :
    restored (undo false (play false pos m) m) pos := by
  obtain ⟨hpl, hbl, hb12, hplt, hbit⟩ := hc
  have hc : consistent pos := ⟨hpl, hbl, hb12, hplt, hbit⟩
  have hP := type_to_piece_facts hs (show PAWN < 6 by decide)
  have hXf := type_to_piece_facts hs hX6
  have hne : m.from_sq ≠ m.to_sq := by
    intro h; rw [h, hpt] at hpf
    have := hP.2.2.1
    rw [← hpf] at this
    exact absurd this (by decide)
  have hb1 : ((pos.board.set m.from_sq NO_PIECE).set m.to_sq (TYPE_TO_PIECE pos.side_to_play X)).getD m.to_sq 0
      = TYPE_TO_PIECE pos.side_to_play X := getD_set_eq _ _ _ _ (by simp only [List.length_set]; omega)
  rw [hplay, hundo _ rfl]
  unfold restored
  simp only [undo_promotion, put_piece, remove_piece, undo_begin, play_begin, cur, hpf, hb1,
    hP.1, hP.2.1, hXf.1, hXf.2.1]
  have hPAWN : PAWN = 0 := rfl
  have hbitf : (pos.pieces.getD (6 * pos.side_to_play + PAWN) 0).testBit m.from_sq = true :=
    (consistent_bit hc hs (by decide) hf).2 hpf
  have hbitt : (pos.pieces.getD (6 * pos.side_to_play + X) 0).testBit m.to_sq = false :=
    consistent_bit_false hc hs hX6 ht (by rw [hpt]; have := hXf.2.2.1; unfold NO_PIECE; omega)
  have hltP := consistent_lt hc hs (show PAWN < 6 by decide)
  have hltX := consistent_lt hc hs hX6
  refine ⟨?_, ?_, ?_, ?_, ?_, ?_⟩
  · apply list_ext_getD
    · simp only [List.length_set]
    · intro j hj
      simp only [List.length_set] at hj
      simp only [getD_set, List.length_set, hpl, hPAWN, Nat.add_zero] at hbitf hltP ⊢
      split_ifs <;> (try casesm* _ ∧ _) <;> subst_vars <;>
        first
          | rfl
          | exact and_not_or_self hltP hbitf
          | exact or_and_not_self hltX hbitt
          | exact or_bit_self hbitf
          | exact and_not_bit_self hltX hbitt
          | (exfalso; omega)
  · apply list_ext_getD
    · simp only [List.length_set]
    · intro j hj
      simp only [getD_set, List.length_set, hbl, hf, ht, and_true]
      split_ifs <;> subst_vars <;> first | rfl | exact hpf.symm | exact hpt.symm | (exfalso; omega)
  · exact xor_black_black _
  · omega
  · rw [zobrist_row_indep (p := TYPE_TO_PIECE pos.side_to_play PAWN) (by have := hP.2.2.2; omega) hf,
      zobrist_row_indep (p := X) (by omega) ht,
      zobrist_row_indep (p := TYPE_TO_PIECE pos.side_to_play X) (by have := hXf.2.2.2; omega) ht,
      zobrist_row_indep (p := PAWN) (by decide) hf]
    exact xor_cancel_rev _ _ _
  · rw [Nat.add_sub_cancel, getD_set_ne _ _ _ _ _ (by omega)]

theorem roundtrip_pr (pos : Position) (m : Move) (hc : consistent pos)
    (hs : pos.side_to_play < 2) (hf : m.from_sq < 64) (ht : m.to_sq < 64)
    (hflag : m.flag = PR_KNIGHT ∨ m.flag = PR_BISHOP ∨ m.flag = PR_ROOK ∨ m.flag = PR_QUEEN)
    (hpf : pos.board.getD m.from_sq 0 = TYPE_TO_PIECE pos.side_to_play PAWN)
    (hpt : pos.board.getD m.to_sq 0 = NO_PIECE) :
    restored (undo false (play false pos m) m) pos := by
  rcases hflag with h | h | h | h
  · apply roundtrip_promotion pos m hc hs KNIGHT (by decide) (by decide) hf ht hpf hpt
    · unfold play; simp only [h]
    · intro Y hY; unfold undo; simp only [h, undo_begin_side Y _ hY]
  · apply roundtrip_promotion pos m hc hs BISHOP (by decide) (by decide) hf ht hpf hpt
    · unfold play; simp only [h]
    · intro Y hY; unfold undo; simp only [h, undo_begin_side Y _ hY]
  · apply roundtrip_promotion pos m hc hs ROOK (by decide) (by decide) hf ht hpf hpt
    · unfold play; simp only [h]
    · intro Y hY; unfold undo; simp only [h, undo_begin_side Y _ hY]
  · apply roundtrip_promotion pos m hc hs QUEEN (by decide) (by decide) hf ht hpf hpt
    · unfold play; simp only [h]
    · intro Y hY; unfold undo; simp only [h, undo_begin_side Y _ hY]


theorem zrow {p s : Nat} (hp : p ≤ 12) (hs : s < 64) : ZOBRIST_TABLE p s = ZOBRIST_TABLE 0 s :=
  zobrist_row_indep (by omega) hs

theorem xor_black_facts {s : Nat} (hs : s < 2) : s ^^^ BLACK < 2 ∧ s ^^^ BLACK ≠ s := by
  interval_cases s <;> decide

/-- A board entry whose colour is a real colour is a piece with a valid table index. -/
theorem piece_of_color {p c : Nat} (hp : p ≤ 12) (hc : c < 2) (h : PIECE_TO_COLOR p = c) :
    1 ≤ p ∧ PIECE_TO_TYPE p < 6 ∧ p = TYPE_TO_PIECE c (PIECE_TO_TYPE p) := by
  subst h
  have h1 : 1 ≤ p := (color_lt_two_iff hp).1 hc
  have := piece_index h1 hp
  exact ⟨h1, this.2.2.1, this.2.2.2.symm⟩

theorem roundtrip_capture (pos : Position) (m : Move) (hc : consistent pos)
    (hs : pos.side_to_play < 2) (hh : pos.ply + 1 < pos.history.length)
    (hf : m.from_sq < 64) (ht : m.to_sq < 64) (hflag : m.flag = CAPTURE)
    (hpf : PIECE_TO_COLOR (pos.board.getD m.from_sq 0) = pos.side_to_play)
    (hpt : PIECE_TO_COLOR (pos.board.getD m.to_sq 0) = pos.side_to_play ^^^ BLACK) :
    restored (undo false (play false pos m) m) pos := by
  obtain ⟨hpl, hbl, hb12, hplt, hbit⟩ := hc
  have hc : consistent pos := ⟨hpl, hbl, hb12, hplt, hbit⟩
  have hs' := xor_black_facts hs
  obtain ⟨hF1, hF6, hFe⟩ := piece_of_color (hb12 _ hf) hs hpf
  obtain ⟨hT1, hT6, hTe⟩ := piece_of_color (hb12 _ ht) hs'.1 hpt
  have hne : m.from_sq ≠ m.to_sq := by
    intro h; rw [h, hpt] at hpf; exact hs'.2 hpf
  have hb1 : ((pos.board.set m.to_sq (pos.board.getD m.from_sq 0)).set m.from_sq NO_PIECE).getD
      m.to_sq 0 = pos.board.getD m.from_sq 0 := by
    rw [getD_set_ne _ _ _ _ _ hne, getD_set_eq _ _ _ _ (by omega)]
  have hplay : play false pos m = move_piece (set_captured (play_begin pos m)
      ((play_begin pos m).board.getD m.to_sq 0)) m.from_sq m.to_sq := by
    unfold play; simp only [hflag]; rfl
  have hundo : ∀ Y : Position, undo false Y m =
      { put_piece (move_piece_quiet (undo_begin Y) m.to_sq m.from_sq)
          (PIECE_TO_TYPE (cur (move_piece_quiet (undo_begin Y) m.to_sq m.from_sq)).captured)
          (PIECE_TO_COLOR (cur (move_piece_quiet (undo_begin Y) m.to_sq m.from_sq)).captured)
          m.to_sq with
        ply := (move_piece_quiet (undo_begin Y) m.to_sq m.from_sq).ply - 1 } := by
    intro Y; unfold undo; simp only [hflag]; rfl
  rw [hplay, hundo]
  have hcap : (cur (move_piece_quiet (undo_begin (move_piece (set_captured (play_begin pos m)
      ((play_begin pos m).board.getD m.to_sq 0)) m.from_sq m.to_sq)) m.to_sq m.from_sq)).captured
      = pos.board.getD m.to_sq 0 := by
    simp only [cur, move_piece_quiet, undo_begin, move_piece, set_captured, play_begin]
    rw [getD_set_eq _ _ _ _ (by simp only [List.length_set]; omega)]
  rw [hcap]
  unfold restored
  simp only [put_piece, move_piece_quiet, move_piece, undo_begin, set_captured, play_begin, cur,
    hb1, hpf, hpt, ← hTe]
  generalize hi : 6 * pos.side_to_play + PIECE_TO_TYPE (pos.board.getD m.from_sq 0) = i
  generalize hj : 6 * (pos.side_to_play ^^^ BLACK) + PIECE_TO_TYPE (pos.board.getD m.to_sq 0) = j
  have hij : i ≠ j := by
    have := hs'.1; have := hs'.2; omega
  have hbitt : (pos.pieces.getD j 0).testBit m.to_sq = true := by
    rw [← hj]; exact (consistent_bit hc hs'.1 hT6 ht).2 hTe
  have hbitf : (pos.pieces.getD j 0).testBit m.from_sq = false := by
    rw [← hj]; apply consistent_bit_false hc hs'.1 hT6 hf
    intro h
    have h2 := (type_to_piece_facts hs'.1 hT6).1
    rw [← h, hpf] at h2
    exact hs'.2 h2.symm
  have hltj : pos.pieces.getD j 0 < 2 ^ 64 := by
    rw [← hj]; exact consistent_lt hc hs'.1 hT6
  refine ⟨?_, ?_, ?_, ?_, ?_, ?_⟩
  · apply list_ext_getD
    · simp only [List.length_set]
    · intro k hk
      simp only [List.length_set] at hk
      simp only [getD_set, List.length_set, hpl]
      split_ifs <;> (try casesm* _ ∧ _) <;> subst_vars <;>
        first
          | rfl
          | exact xor_or_cancel _ _ _
          | exact and_not_mask_or_self hltj hbitt hbitf
          | (exfalso; omega)
          | (exfalso; simp only [true_and] at *; omega)
  · apply list_ext_getD
    · simp only [List.length_set]
    · intro k hk
      simp only [getD_set, List.length_set, hbl, hf, ht, and_true]
      split_ifs <;> subst_vars <;> first | rfl | (exfalso; omega)
  · exact xor_black_black _
  · omega
  · rw [zrow (hb12 _ hf) hf, zrow (hb12 _ hf) ht, zrow (hb12 _ ht) ht,
      zrow (p := PIECE_TO_TYPE (pos.board.getD m.to_sq 0)) (by omega) ht]
    generalize ZOBRIST_TABLE 0 m.from_sq = a
    generalize ZOBRIST_TABLE 0 m.to_sq = b
    apply Nat.eq_of_testBit_eq
    intro n
    simp only [Nat.testBit_xor]
    cases pos.zobrist_hash.testBit n <;> cases a.testBit n <;> cases b.testBit n <;> rfl
  · rw [Nat.add_sub_cancel]
    simp only [List.set_set]
    rw [getD_set_ne _ _ _ _ _ (by omega)]

theorem roundtrip_enpassant (pos : Position) (m : Move) (hc : consistent pos)
    (hs : pos.side_to_play < 2)
    (hf : m.from_sq < 64) (ht : m.to_sq < 64) (hflag : m.flag = EN_PASSANT)
    (hpf : pos.board.getD m.from_sq 0 = TYPE_TO_PIECE pos.side_to_play PAWN)
    (hpt : pos.board.getD m.to_sq 0 = NO_PIECE)
    (hv : enpassant_victim pos.side_to_play m.to_sq < 64)
    (hvf : enpassant_victim pos.side_to_play m.to_sq ≠ m.from_sq)
    (hvt : enpassant_victim pos.side_to_play m.to_sq ≠ m.to_sq)
    (hpv : pos.board.getD (enpassant_victim pos.side_to_play m.to_sq) 0 =
      TYPE_TO_PIECE (pos.side_to_play ^^^ BLACK) PAWN) :
    restored (undo false (play false pos m) m) pos := by
  obtain ⟨hpl, hbl, hb12, hplt, hbit⟩ := hc
  have hc : consistent pos := ⟨hpl, hbl, hb12, hplt, hbit⟩
  have hs' := xor_black_facts hs
  have hP := type_to_piece_facts hs (show PAWN < 6 by decide)
  have hP' := type_to_piece_facts hs'.1 (show PAWN < 6 by decide)
  generalize hvdef : enpassant_victim pos.side_to_play m.to_sq = v at hv hvf hvt hpv
  have hne : m.from_sq ≠ m.to_sq := by
    intro h; rw [h, hpt] at hpf
    have := hP.2.2.1
    rw [← hpf] at this
    exact absurd this (by decide)
  have hb1 : ((pos.board.set m.to_sq (pos.board.getD m.from_sq 0)).set m.from_sq NO_PIECE).getD
      v 0 = pos.board.getD v 0 := by
    rw [getD_set_ne _ _ _ _ _ hvf.symm, getD_set_ne _ _ _ _ _ hvt.symm]
  have hb2 : (((pos.board.set m.to_sq (pos.board.getD m.from_sq 0)).set m.from_sq NO_PIECE).set
      v NO_PIECE).getD m.to_sq 0 = pos.board.getD m.from_sq 0 := by
    rw [getD_set_ne _ _ _ _ _ hvt, getD_set_ne _ _ _ _ _ hne,
      getD_set_eq _ _ _ _ (by omega)]
  rw [hpf] at hb1 hb2
  have hplay : play false pos m = remove_piece
      (move_piece_quiet (play_begin pos m) m.from_sq m.to_sq) v := by
    unfold play; simp only [hflag]
    rw [← hvdef]; rfl
  have hundo : ∀ Y : Position, Y.side_to_play = pos.side_to_play ^^^ BLACK → undo false Y m =
      { put_piece (move_piece_quiet (undo_begin Y) m.to_sq m.from_sq) PAWN
          (pos.side_to_play ^^^ BLACK) v with
        ply := (move_piece_quiet (undo_begin Y) m.to_sq m.from_sq).ply - 1 } := by
    intro Y hY; unfold undo; simp only [hflag, undo_begin_side Y _ hY]
    rw [← hvdef]; rfl
  rw [hplay, hundo _ rfl]
  unfold restored
  simp only [put_piece, remove_piece, move_piece_quiet, undo_begin, play_begin, cur,
    hb1, hb2, hpf, hpv, hP.1, hP.2.1, hP'.1, hP'.2.1]
  have hPAWN : PAWN = 0 := rfl
  generalize hi : 6 * pos.side_to_play + PAWN = i
  generalize hj : 6 * (pos.side_to_play ^^^ BLACK) + PAWN = j
  have hij : i ≠ j := by
    have := hs'.1; have := hs'.2; omega
  have hji : j ≠ i := hij.symm
  have hi12 : i < pos.pieces.length := by rw [hpl]; omega
  have hj12 : j < pos.pieces.length := by rw [hpl]; have := hs'.1; omega
  have hbitv : (pos.pieces.getD j 0).testBit v = true := by
    rw [← hj]; exact (consistent_bit hc hs'.1 (by decide) hv).2 hpv
  have hltv : pos.pieces.getD j 0 < 2 ^ 64 := by
    rw [← hj]; exact consistent_lt hc hs'.1 (show PAWN < 6 by decide)
  refine ⟨?_, ?_, ?_, ?_, ?_, ?_⟩
  · simp only [getD_set_eq, getD_set_ne, List.length_set, hi12, hj12, hij, hji, ne_eq,
      not_false_eq_true]
    rw [xor_or_cancel, and_not_or_self hltv hbitv, set_set_comm _ j i _ _ hji, set_set_same,
      set_set_same, set_getD_self, set_getD_self]
  · apply list_ext_getD
    · simp only [List.length_set]
    · intro k hk
      simp only [getD_set, List.length_set, hbl, hf, ht, hv, and_true]
      split_ifs <;> subst_vars <;>
        first | rfl | exact hpv.symm | exact hpt.symm | exact hpf.symm | (exfalso; omega)
  · exact xor_black_black _
  · omega
  · rw [zrow (p := TYPE_TO_PIECE pos.side_to_play PAWN) hP.2.2.2 hf,
      zrow (p := TYPE_TO_PIECE pos.side_to_play PAWN) hP.2.2.2 ht,
      zrow (p := TYPE_TO_PIECE (pos.side_to_play ^^^ BLACK) PAWN) hP'.2.2.2 hv,
      zrow (p := PAWN) (by decide) hv]
    generalize ZOBRIST_TABLE 0 m.from_sq = a
    generalize ZOBRIST_TABLE 0 m.to_sq = b
    generalize ZOBRIST_TABLE 0 v = d
    apply Nat.eq_of_testBit_eq
    intro n
    simp only [Nat.testBit_xor]
    cases pos.zobrist_hash.testBit n <;> cases a.testBit n <;> cases b.testBit n <;>
      cases d.testBit n <;> rfl
  · rw [Nat.add_sub_cancel, getD_set_ne _ _ _ _ _ (by omega)]

theorem roundtrip_promotion_capture (pos : Position) (m : Move) (hc : consistent pos)
    (hs : pos.side_to_play < 2) (hh : pos.ply + 1 < pos.history.length)
    (X : Nat) (hX1 : 1 ≤ X) (hX6 : X < 6)
    (hf : m.from_sq < 64) (ht : m.to_sq < 64)
    (hpf : pos.board.getD m.from_sq 0 = TYPE_TO_PIECE pos.side_to_play PAWN)
    (hpt : PIECE_TO_COLOR (pos.board.getD m.to_sq 0) = pos.side_to_play ^^^ BLACK)
    (hplay : play false pos m =
      play_promotion_capture false (play_begin pos m) m pos.side_to_play X)
    (hundo : ∀ Y : Position, Y.side_to_play = pos.side_to_play ^^^ BLACK → undo false Y m =
      { undo_promotion_capture false (undo_begin Y) m pos.side_to_play with
        ply := (undo_promotion_capture false (undo_begin Y) m pos.side_to_play).ply - 1 }) :
    restored (undo false (play false pos m) m) pos := by
  obtain ⟨hpl, hbl, hb12, hplt, hbit⟩ := hc
  have hc : consistent pos := ⟨hpl, hbl, hb12, hplt, hbit⟩
  have hs' := xor_black_facts hs
  have hP := type_to_piece_facts hs (show PAWN < 6 by decide)
  have hXf := type_to_piece_facts hs hX6
  obtain ⟨hT1, hT6, hTe⟩ := piece_of_color (hb12 _ ht) hs'.1 hpt
  have hne : m.from_sq ≠ m.to_sq := by
    intro h
    rw [h] at hpf
    rw [hpf, hP.1] at hpt
    exact hs'.2 hpt.symm
  have hb1 : (pos.board.set m.from_sq NO_PIECE).getD m.to_sq 0 = pos.board.getD m.to_sq 0 :=
    getD_set_ne _ _ _ _ _ hne
  have hb2 : (((pos.board.set m.from_sq NO_PIECE).set m.to_sq NO_PIECE).set m.to_sq
      (TYPE_TO_PIECE pos.side_to_play X)).getD m.to_sq 0 = TYPE_TO_PIECE pos.side_to_play X :=
    getD_set_eq _ _ _ _ (by simp only [List.length_set]; omega)
  rw [hplay, hundo _ rfl]
  have hcap : (cur (put_piece (remove_piece (undo_begin (play_promotion_capture false
      (play_begin pos m) m pos.side_to_play X)) m.to_sq) PAWN pos.side_to_play
      m.from_sq)).captured = pos.board.getD m.to_sq 0 := by
    simp only [cur, put_piece, remove_piece, undo_begin, play_promotion_capture, set_captured,
      play_begin, hb1, Bool.false_eq_true, if_false]
    rw [getD_set_eq _ _ _ _ (by simp only [List.length_set]; omega)]
  unfold restored
  simp only [undo_promotion_capture, Bool.false_eq_true, if_false]
  rw [hcap]
  simp only [put_piece, remove_piece, undo_begin, play_promotion_capture, set_captured,
    play_begin, cur, Bool.false_eq_true, if_false, hb1, hb2, hpf, hpt, ← hTe, hP.1, hP.2.1,
    hXf.1, hXf.2.1]
  have hPAWN : PAWN = 0 := rfl
  generalize hi : 6 * pos.side_to_play + PAWN = i
  generalize hj : 6 * (pos.side_to_play ^^^ BLACK) + PIECE_TO_TYPE (pos.board.getD m.to_sq 0) = j
  generalize hk : 6 * pos.side_to_play + X = k
  have hij : i ≠ j := by have := hs'.1; have := hs'.2; omega
  have hik : i ≠ k := by omega
  have hjk : j ≠ k := by have := hs'.1; have := hs'.2; omega
  have hji := hij.symm
  have hki := hik.symm
  have hkj := hjk.symm
  have hi12 : i < pos.pieces.length := by rw [hpl]; omega
  have hj12 : j < pos.pieces.length := by rw [hpl]; have := hs'.1; omega
  have hk12 : k < pos.pieces.length := by rw [hpl]; omega
  have hbi : (pos.pieces.getD i 0).testBit m.from_sq = true := by
    rw [← hi]; exact (consistent_bit hc hs (by decide) hf).2 hpf
  have hlti : pos.pieces.getD i 0 < 2 ^ 64 := by
    rw [← hi]; exact consistent_lt hc hs (show PAWN < 6 by decide)
  have hbj : (pos.pieces.getD j 0).testBit m.to_sq = true := by
    rw [← hj]; exact (consistent_bit hc hs'.1 hT6 ht).2 hTe
  have hltj : pos.pieces.getD j 0 < 2 ^ 64 := by
    rw [← hj]; exact consistent_lt hc hs'.1 hT6
  have hbk : (pos.pieces.getD k 0).testBit m.to_sq = false := by
    rw [← hk]; apply consistent_bit_false hc hs hX6 ht
    intro h
    have h2 := hXf.1
    rw [← h, hpt] at h2
    exact hs'.2 h2
  have hltk : pos.pieces.getD k 0 < 2 ^ 64 := by
    rw [← hk]; exact consistent_lt hc hs hX6
  refine ⟨?_, ?_, ?_, ?_, ?_, ?_⟩
  · simp only [getD_set_eq, getD_set_ne, List.length_set, hi12, hj12, hk12, hij, hji, hik, hki,
      hjk, hkj, ne_eq, not_false_eq_true]
    rw [or_and_not_self hltk hbk, and_not_or_self hlti hbi, and_not_or_self hltj hbj,
      set_set_same, set_set_comm _ k i _ _ hki, set_set_comm _ j i _ _ hji, set_set_same,
      set_getD_self, set_set_comm _ k j _ _ hkj, set_set_same, set_getD_self, set_getD_self]
  · apply list_ext_getD
    · simp only [List.length_set]
    · intro n hn
      simp only [getD_set, List.length_set, hbl, hf, ht, and_true]
      split_ifs <;> subst_vars <;>
        first | rfl | exact hpf.symm | (exfalso; omega)
  · exact xor_black_black _
  · omega
  · rw [zrow (p := TYPE_TO_PIECE pos.side_to_play PAWN) hP.2.2.2 hf,
      zrow (hb12 _ ht) ht,
      zrow (p := X) (by omega) ht,
      zrow (p := TYPE_TO_PIECE pos.side_to_play X) hXf.2.2.2 ht,
      zrow (p := PAWN) (by decide) hf,
      zrow (p := PIECE_TO_TYPE (pos.board.getD m.to_sq 0)) (by omega) ht]
    generalize ZOBRIST_TABLE 0 m.from_sq = a
    generalize ZOBRIST_TABLE 0 m.to_sq = b
    apply Nat.eq_of_testBit_eq
    intro n
    simp only [Nat.testBit_xor]
    cases pos.zobrist_hash.testBit n <;> cases a.testBit n <;> cases b.testBit n <;> rfl
  · rw [Nat.add_sub_cancel]
    simp only [List.set_set]
    rw [getD_set_ne _ _ _ _ _ (by omega)]

theorem roundtrip_pc (pos : Position) (m : Move) (hc : consistent pos)
    (hs : pos.side_to_play < 2) (hh : pos.ply + 1 < pos.history.length)
    (hf : m.from_sq < 64) (ht : m.to_sq < 64)
    (hflag : m.flag = PC_KNIGHT ∨ m.flag = PC_BISHOP ∨ m.flag = PC_ROOK ∨ m.flag = PC_QUEEN)
    (hpf : pos.board.getD m.from_sq 0 = TYPE_TO_PIECE pos.side_to_play PAWN)
    (hpt : PIECE_TO_COLOR (pos.board.getD m.to_sq 0) = pos.side_to_play ^^^ BLACK) :
    restored (undo false (play false pos m) m) pos := by
  rcases hflag with h | h | h | h
  · apply roundtrip_promotion_capture pos m hc hs hh KNIGHT (by decide) (by decide) hf ht hpf hpt
    · unfold play; simp only [h]
    · intro Y hY; unfold undo; simp only [h, undo_begin_side Y _ hY]
  · apply roundtrip_promotion_capture pos m hc hs hh BISHOP (by decide) (by decide) hf ht hpf hpt
    · unfold play; simp only [h]
    · intro Y hY; unfold undo; simp only [h, undo_begin_side Y _ hY]
  · apply roundtrip_promotion_capture pos m hc hs hh ROOK (by decide) (by decide) hf ht hpf hpt
    · unfold play; simp only [h]
    · intro Y hY; unfold undo; simp only [h, undo_begin_side Y _ hY]
  · apply roundtrip_promotion_capture pos m hc hs hh QUEEN (by decide) (by decide) hf ht hpf hpt
    · unfold play; simp only [h]
    · intro Y hY; unfold undo; simp only [h, undo_begin_side Y _ hY]

/-- In the standard build `play` followed by `undo` restores the position for every move
that is playable on it. -/
theorem roundtrip_of_playable (pos : Position) (m : Move) (hc : consistent pos)
    (hs : pos.side_to_play < 2) (hh : pos.ply + 1 < pos.history.length)
    (hp : playable pos m) : restored (undo false (play false pos m) m) pos := by
  obtain ⟨hf, ht, hrest⟩ := hp
  have hbl : pos.board.length = 64 := hc.2.1
  have hP := type_to_piece_facts hs (show PAWN < 6 by decide)
  have hne_of : PIECE_TO_COLOR (pos.board.getD m.from_sq 0) = pos.side_to_play →
      pos.board.getD m.to_sq 0 = NO_PIECE → m.from_sq ≠ m.to_sq := by
    intro h1 h2 h
    rw [h, h2] at h1
    have : PIECE_TO_COLOR NO_PIECE = 2 := by decide
    omega
  cases hflag : m.flag <;> simp only [hflag] at hrest
  · exact roundtrip_quiet pos m hbl hf ht (hne_of hrest.1 hrest.2) hflag hrest.2
  · exact roundtrip_double_push pos m hbl hf ht (hne_of hrest.1 hrest.2) hflag hrest.2
  · exact roundtrip_oo pos m hbl hflag (fun h => ⟨(hrest.1 h).2.2.1, (hrest.1 h).2.2.2⟩)
      (fun h => ⟨(hrest.2 h).2.2.1, (hrest.2 h).2.2.2⟩)
  · exact roundtrip_ooo pos m hbl hflag (fun h => ⟨(hrest.1 h).2.2.1, (hrest.1 h).2.2.2⟩)
      (fun h => ⟨(hrest.2 h).2.2.1, (hrest.2 h).2.2.2⟩)
  · exact roundtrip_capture pos m hc hs hh hf ht hflag hrest.1 hrest.2
  · obtain ⟨h1, h2, h3, h4, h5, h6⟩ := hrest
    exact roundtrip_enpassant pos m hc hs hf ht hflag h1 h2 h3 h4 h5 h6
  · exact roundtrip_pr pos m hc hs hf ht (Or.inl hflag) hrest.1 hrest.2
  · exact roundtrip_pr pos m hc hs hf ht (Or.inr (Or.inl hflag)) hrest.1 hrest.2
  · exact roundtrip_pr pos m hc hs hf ht (Or.inr (Or.inr (Or.inl hflag))) hrest.1 hrest.2
  · exact roundtrip_pr pos m hc hs hf ht (Or.inr (Or.inr (Or.inr hflag))) hrest.1 hrest.2
  · exact roundtrip_pc pos m hc hs hh hf ht (Or.inl hflag) hrest.1 hrest.2
  · exact roundtrip_pc pos m hc hs hh hf ht (Or.inr (Or.inl hflag)) hrest.1 hrest.2
  · exact roundtrip_pc pos m hc hs hh hf ht (Or.inr (Or.inr (Or.inl hflag))) hrest.1 hrest.2
  · exact roundtrip_pc pos m hc hs hh hf ht (Or.inr (Or.inr (Or.inr hflag))) hrest.1 hrest.2


end AtomicChess

namespace AtomicChess
open MoveFlag

/-! ## From bitboards to the dense board -/

theorem bb_lt {pos : Position} (hc : consistent pos) {c t : Nat} (hc2 : c < 2) (ht : t < 6) :
    pos.bb c t < 2 ^ 64 := hc.2.2.2.1 c hc2 t ht

theorem board_of_bb {pos : Position} (hc : consistent pos) {c t s : Nat} (hc2 : c < 2)
    (ht : t < 6) (h : (pos.bb c t).testBit s = true) :
    s < 64 ∧ pos.board.getD s 0 = TYPE_TO_PIECE c t := by
  have hs : s < 64 := lt_of_testBit (bb_lt hc hc2 ht) h
  exact ⟨hs, (hc.2.2.2.2 c hc2 t ht s hs).1 h⟩

theorem bb_of_board {pos : Position} (hc : consistent pos) {c t s : Nat} (hc2 : c < 2)
    (ht : t < 6) (hs : s < 64) (h : pos.board.getD s 0 = TYPE_TO_PIECE c t) :
    (pos.bb c t).testBit s = true := (hc.2.2.2.2 c hc2 t ht s hs).2 h

/-- The union of the six bitboards of one colour. -/
theorem testBit_color_union {pos : Position} (hc : consistent pos) {c s : Nat} (hc2 : c < 2) :
    (pos.bb c PAWN ||| pos.bb c KNIGHT ||| pos.bb c BISHOP ||| pos.bb c ROOK ||| pos.bb c QUEEN |||
      pos.bb c KING).testBit s = true ↔ s < 64 ∧ PIECE_TO_COLOR (pos.board.getD s 0) = c := by
  simp only [Nat.testBit_or, Bool.or_eq_true]
  constructor
  · intro h
    have key : ∀ t, t < 6 → (pos.bb c t).testBit s = true →
        s < 64 ∧ PIECE_TO_COLOR (pos.board.getD s 0) = c := by
      intro t ht hb
      obtain ⟨h1, h2⟩ := board_of_bb hc hc2 ht hb
      exact ⟨h1, by rw [h2]; exact (type_to_piece_facts hc2 ht).1⟩
    rcases h with ((((h | h) | h) | h) | h) | h
    · exact key PAWN (by decide) h
    · exact key KNIGHT (by decide) h
    · exact key BISHOP (by decide) h
    · exact key ROOK (by decide) h
    · exact key QUEEN (by decide) h
    · exact key KING (by decide) h
  · rintro ⟨hs, hcol⟩
    obtain ⟨h1, h6, he⟩ := piece_of_color (hc.2.2.1 s hs) hc2 hcol
    have hb := bb_of_board hc hc2 h6 hs he
    generalize PIECE_TO_TYPE (pos.board.getD s 0) = t at h6 hb
    interval_cases t
    · exact Or.inl (Or.inl (Or.inl (Or.inl (Or.inl hb))))
    · exact Or.inl (Or.inl (Or.inl (Or.inl (Or.inr hb))))
    · exact Or.inl (Or.inl (Or.inl (Or.inr hb)))
    · exact Or.inl (Or.inl (Or.inr hb))
    · exact Or.inl (Or.inr hb)
    · exact Or.inr hb

theorem color_union_lt {pos : Position} (hc : consistent pos) {c : Nat} (hc2 : c < 2) :
    pos.bb c PAWN ||| pos.bb c KNIGHT ||| pos.bb c BISHOP ||| pos.bb c ROOK ||| pos.bb c QUEEN |||
      pos.bb c KING < 2 ^ 64 := by
  have h := fun t (ht : t < 6) => bb_lt hc hc2 ht
  exact Nat.or_lt_two_pow (Nat.or_lt_two_pow (Nat.or_lt_two_pow (Nat.or_lt_two_pow
    (Nat.or_lt_two_pow (h _ (by decide)) (h _ (by decide))) (h _ (by decide)))
    (h _ (by decide))) (h _ (by decide))) (h _ (by decide))

/-- The facts about the occupancy bitboards of `sides pos` used throughout. -/
theorem sides_facts {pos : Position} (hc : consistent pos) (hs : pos.side_to_play < 2) :
    (sides pos).me = pos.side_to_play ∧ (sides pos).you = pos.side_to_play ^^^ BLACK ∧
    (sides pos).all_my_pieces < 2 ^ 64 ∧ (sides pos).all_your_pieces < 2 ^ 64 ∧
    (∀ s, (sides pos).all_my_pieces.testBit s = true ↔
      s < 64 ∧ PIECE_TO_COLOR (pos.board.getD s 0) = pos.side_to_play) ∧
    (∀ s, (sides pos).all_your_pieces.testBit s = true ↔
      s < 64 ∧ PIECE_TO_COLOR (pos.board.getD s 0) = pos.side_to_play ^^^ BLACK) ∧
    (∀ s, s < 64 → (sides pos).all_pieces.testBit s = false → pos.board.getD s 0 = NO_PIECE) := by
  have hs' := xor_black_facts hs
  refine ⟨rfl, rfl, color_union_lt hc hs, color_union_lt hc hs'.1,
    fun s => testBit_color_union hc hs, fun s => testBit_color_union hc hs'.1, ?_⟩
  intro s hs64 hall
  have hmine := (testBit_color_union (s := s) hc hs).not
  have hyours := (testBit_color_union (s := s) hc hs'.1).not
  have hall' : ((sides pos).all_my_pieces ||| (sides pos).all_your_pieces).testBit s = false := hall
  rw [Nat.testBit_or, Bool.or_eq_false_iff] at hall'
  have h1 : ¬ (s < 64 ∧ PIECE_TO_COLOR (pos.board.getD s 0) = pos.side_to_play) :=
    hmine.1 (by
      have : (sides pos).all_my_pieces.testBit s = false := hall'.1
      show ¬ ((sides pos).all_my_pieces.testBit s = true)
      rw [this]; exact Bool.false_ne_true)
  have h2 : ¬ (s < 64 ∧ PIECE_TO_COLOR (pos.board.getD s 0) = pos.side_to_play ^^^ BLACK) :=
    hyours.1 (by
      have : (sides pos).all_your_pieces.testBit s = false := hall'.2
      show ¬ ((sides pos).all_your_pieces.testBit s = true)
      rw [this]; exact Bool.false_ne_true)
  have hb := hc.2.2.1 s hs64
  by_contra hne
  have h1' : 1 ≤ pos.board.getD s 0 := by
    unfold NO_PIECE at hne; omega
  have hcol := (color_lt_two_iff hb).2 h1'
  have : PIECE_TO_COLOR (pos.board.getD s 0) = pos.side_to_play ∨
      PIECE_TO_COLOR (pos.board.getD s 0) = pos.side_to_play ^^^ BLACK := by
    have := hs'.1; have := hs'.2; omega
  rcases this with h | h
  · exact h1 ⟨hs64, h⟩
  · exact h2 ⟨hs64, h⟩

/-! ## The moves written by each block of the standard generator are playable -/

theorem mem_get_moves {from_sq bb : Nat} {flag : MoveFlag} {m : Move} (hlt : bb < 2 ^ 64)
    (h : m ∈ get_moves from_sq bb flag) :
    m.flag = flag ∧ m.from_sq = from_sq ∧ m.to_sq < 64 ∧ bb.testBit m.to_sq = true := by
  unfold get_moves at h
  rw [List.mem_map] at h
  obtain ⟨s, hs, rfl⟩ := h
  exact ⟨rfl, rfl, lt_of_mem_squares_of hlt hs, (mem_squares_of hlt s).1 hs⟩

theorem mem_quiet_and_capture {from_sq targets yours : Nat} {m : Move} (hy : yours < 2 ^ 64)
    (h : m ∈ quiet_and_capture from_sq targets yours) :
    m.from_sq = from_sq ∧ m.to_sq < 64 ∧ targets.testBit m.to_sq = true ∧
    ((m.flag = QUIET ∧ yours.testBit m.to_sq = false) ∨
     (m.flag = CAPTURE ∧ yours.testBit m.to_sq = true)) := by
  unfold quiet_and_capture at h
  rw [List.mem_append] at h
  rcases h with h | h
  · obtain ⟨h1, h2, h3, h4⟩ := mem_get_moves (lt_of_and_right (bnot_lt hy)) h
    simp only [Nat.testBit_and, testBit_bnot, Bool.and_eq_true, bne_iff_ne, ne_eq] at h4
    refine ⟨h2, h3, h4.1, Or.inl ⟨h1, ?_⟩⟩
    have := h4.2
    simp only [h3, decide_True] at this
    cases hb : yours.testBit m.to_sq
    · rfl
    · rw [hb] at this; exact absurd rfl this
  · obtain ⟨h1, h2, h3, h4⟩ := mem_get_moves (lt_of_and_right hy) h
    simp only [Nat.testBit_and, Bool.and_eq_true] at h4
    exact ⟨h2, h3, h4.1, Or.inr ⟨h1, h4.2⟩⟩

/-- A move of a piece of the side to play from `from_sq` to a target that is not one of
its own pieces, written by `quiet_and_capture`, is playable. -/
theorem playable_quiet_and_capture {pos : Position} (hc : consistent pos)
    (hs : pos.side_to_play < 2) {from_sq targets : Nat} {m : Move}
    (hfrom : (sides pos).all_my_pieces.testBit from_sq = true)
    (htargets : ∀ t, targets.testBit t = true → (sides pos).all_my_pieces.testBit t = false)
    (h : m ∈ quiet_and_capture from_sq targets (sides pos).all_your_pieces) :
    playable pos m := by
  obtain ⟨_, _, _, hy, hmine, hyours, hempty⟩ := sides_facts hc hs
  obtain ⟨h1, h2, h3, h4⟩ := mem_quiet_and_capture hy h
  obtain ⟨hf64, hfc⟩ := (hmine from_sq).1 hfrom
  have hnm := htargets _ h3
  unfold playable
  rw [h1]
  refine ⟨hf64, h2, ?_⟩
  rcases h4 with ⟨hq, hny⟩ | ⟨hq, hyb⟩
  · simp only [hq]
    refine ⟨hfc, hempty _ h2 ?_⟩
    show ((sides pos).all_my_pieces ||| (sides pos).all_your_pieces).testBit m.to_sq = false
    rw [Nat.testBit_or, hnm, hny]; rfl
  · simp only [hq]
    exact ⟨hfc, ((hyours _).1 hyb).2⟩

theorem not_mine_of_moveable {mine cm t : Nat} (hm : mine < 2 ^ 64)
    (h : (bnot mine &&& cm).testBit t = true) : mine.testBit t = false := by
  simp only [Nat.testBit_and, testBit_bnot, Bool.and_eq_true, bne_iff_ne, ne_eq] at h
  cases hb : mine.testBit t
  · rfl
  · have hlt : t < 64 := lt_of_testBit hm hb
    have := h.1
    rw [hb] at this
    simp [hlt] at this

theorem playable_flatMap_qc {pos : Position} (hc : consistent pos) (hs : pos.side_to_play < 2)
    {bb : Nat} (hbb : bb < 2 ^ 64)
    (hsub : ∀ s, bb.testBit s = true → (sides pos).all_my_pieces.testBit s = true)
    (tg : Nat → Nat)
    (htg : ∀ s t, (tg s).testBit t = true → (sides pos).all_my_pieces.testBit t = false)
    {m : Move}
    (h : m ∈ (squares_of bb).flatMap
      (fun s => quiet_and_capture s (tg s) (sides pos).all_your_pieces)) :
    playable pos m := by
  rw [List.mem_flatMap] at h
  obtain ⟨s, hs1, hs2⟩ := h
  exact playable_quiet_and_capture hc hs (hsub s ((mem_squares_of hbb s).1 hs1)) (htg s) hs2

theorem mine_of_pawn {g : Sides} {s : Nat} (h : g.my_pawns.testBit s = true) :
    g.all_my_pieces.testBit s = true := by
  simp [Sides.all_my_pieces, Nat.testBit_or, h]

theorem mine_of_knight {g : Sides} {s : Nat} (h : g.my_knights.testBit s = true) :
    g.all_my_pieces.testBit s = true := by
  simp [Sides.all_my_pieces, Nat.testBit_or, h]

theorem mine_of_bishop {g : Sides} {s : Nat} (h : g.my_bishops.testBit s = true) :
    g.all_my_pieces.testBit s = true := by
  simp [Sides.all_my_pieces, Nat.testBit_or, h]

theorem mine_of_rook {g : Sides} {s : Nat} (h : g.my_rooks.testBit s = true) :
    g.all_my_pieces.testBit s = true := by
  simp [Sides.all_my_pieces, Nat.testBit_or, h]

theorem mine_of_queen {g : Sides} {s : Nat} (h : g.my_queens.testBit s = true) :
    g.all_my_pieces.testBit s = true := by
  simp [Sides.all_my_pieces, Nat.testBit_or, h]

theorem mine_of_king {g : Sides} {s : Nat} (h : g.my_king.testBit s = true) :
    g.all_my_pieces.testBit s = true := by
  simp [Sides.all_my_pieces, Nat.testBit_or, h]

theorem sides_lt {pos : Position} (hc : consistent pos) (hs : pos.side_to_play < 2) :
    (sides pos).my_pawns < 2 ^ 64 ∧ (sides pos).my_knights < 2 ^ 64 ∧
    (sides pos).my_bishops < 2 ^ 64 ∧ (sides pos).my_rooks < 2 ^ 64 ∧
    (sides pos).my_queens < 2 ^ 64 ∧ (sides pos).my_king < 2 ^ 64 :=
  ⟨bb_lt hc hs (by decide), bb_lt hc hs (by decide), bb_lt hc hs (by decide),
   bb_lt hc hs (by decide), bb_lt hc hs (by decide), bb_lt hc hs (by decide)⟩

theorem playable_std_piece_moves {pos : Position} (hc : consistent pos)
    (hs : pos.side_to_play < 2) (k : Masks) {m : Move}
    (h : m ∈ std_piece_moves (sides pos) k) : playable pos m := by
  obtain ⟨hlp, hln, hlb, hlr, hlq, hlk⟩ := sides_lt hc hs
  have hm := (sides_facts hc hs).2.2.1
  unfold std_piece_moves at h
  simp only [List.mem_append] at h
  rcases h with ((h | h | h) | h | h) | h
  · refine playable_flatMap_qc hc hs (lt_of_and_left hln) ?_ _ ?_ h
    · intro s hb
      rw [Nat.testBit_and, Bool.and_eq_true] at hb
      exact mine_of_knight hb.1
    · intro s t ht
      rw [Nat.testBit_and, Bool.and_eq_true] at ht
      exact not_mine_of_moveable hm ht.2
  · refine playable_flatMap_qc hc hs
      (lt_of_and_left (Nat.or_lt_two_pow hlq (lt_of_and_left hlb))) ?_ _ ?_ h
    · intro s hb
      simp only [Nat.testBit_and, Nat.testBit_or, Bool.and_eq_true, Bool.or_eq_true] at hb
      rcases hb.1 with hq | hq
      · exact mine_of_queen hq
      · exact mine_of_bishop hq.1
    · intro s t ht
      simp only [Nat.testBit_and, Bool.and_eq_true] at ht
      exact not_mine_of_moveable hm (by rw [Nat.testBit_and, Bool.and_eq_true]; exact ht.1.2)
  · refine playable_flatMap_qc hc hs (lt_of_and_left (lt_of_and_left hlb)) ?_ _ ?_ h
    · intro s hb
      simp only [Nat.testBit_and, Bool.and_eq_true] at hb
      exact mine_of_bishop hb.1.1
    · intro s t ht
      rw [Nat.testBit_and, Bool.and_eq_true] at ht
      exact not_mine_of_moveable hm ht.2
  · refine playable_flatMap_qc hc hs
      (lt_of_and_left (Nat.or_lt_two_pow hlq (lt_of_and_left hlr))) ?_ _ ?_ h
    · intro s hb
      simp only [Nat.testBit_and, Nat.testBit_or, Bool.and_eq_true, Bool.or_eq_true] at hb
      rcases hb.1 with hq | hq
      · exact mine_of_queen hq
      · exact mine_of_rook hq.1
    · intro s t ht
      simp only [Nat.testBit_and, Bool.and_eq_true] at ht
      exact not_mine_of_moveable hm (by rw [Nat.testBit_and, Bool.and_eq_true]; exact ht.1.2)
  · refine playable_flatMap_qc hc hs (lt_of_and_left (lt_of_and_left hlr)) ?_ _ ?_ h
    · intro s hb
      simp only [Nat.testBit_and, Bool.and_eq_true] at hb
      exact mine_of_rook hb.1.1
    · intro s t ht
      rw [Nat.testBit_and, Bool.and_eq_true] at ht
      exact not_mine_of_moveable hm ht.2
  · refine playable_flatMap_qc hc hs (lt_of_and_left hlq) ?_ _ ?_ h
    · intro s hb
      rw [Nat.testBit_and, Bool.and_eq_true] at hb
      exact mine_of_queen hb.1
    · intro s t ht
      rw [Nat.testBit_and, Bool.and_eq_true] at ht
      exact not_mine_of_moveable hm ht.2


theorem not_mine_of_bnot {mine t : Nat} (hm : mine < 2 ^ 64)
    (h : (bnot mine).testBit t = true) : mine.testBit t = false := by
  simp only [testBit_bnot, bne_iff_ne, ne_eq] at h
  cases hb : mine.testBit t
  · rfl
  · have hlt : t < 64 := lt_of_testBit hm hb
    rw [hb] at h
    simp [hlt] at h

theorem king_bit_of_one_king {pos : Position} {c : Nat} (hk : one_king pos c) :
    pos.bb c KING ≠ 0 ∧ pos.bb c KING < 2 ^ 64 ∧
    (pos.bb c KING).testBit (get_lsb_idx (pos.bb c KING)) = true := by
  obtain ⟨s, hs, he⟩ := hk
  have hne : pos.bb c KING ≠ 0 := by rw [he]; positivity
  have hlt : pos.bb c KING < 2 ^ 64 := by rw [he]; exact Nat.pow_lt_pow_right (by decide) hs
  exact ⟨hne, hlt, testBit_get_lsb_idx hne hlt⟩

theorem playable_king_moves {pos : Position} (hc : consistent pos) (hs : pos.side_to_play < 2)
    (hk : one_king pos pos.side_to_play) (attacked : Nat) {m : Move}
    (h : m ∈ get_moves (sides pos).my_king_square
        (KING_ATTACKS (sides pos).my_king_square &&& bnot attacked &&&
          bnot (sides pos).all_my_pieces &&& bnot (sides pos).all_your_pieces) QUIET ++
      get_moves (sides pos).my_king_square
        (KING_ATTACKS (sides pos).my_king_square &&& bnot attacked &&&
          bnot (sides pos).all_my_pieces &&& (sides pos).all_your_pieces) CAPTURE) :
    playable pos m := by
  have hm := (sides_facts hc hs).2.2.1
  refine @playable_quiet_and_capture pos hc hs (sides pos).my_king_square
    (KING_ATTACKS (sides pos).my_king_square &&& bnot attacked &&&
      bnot (sides pos).all_my_pieces) m ?_ ?_ h
  · exact mine_of_king (king_bit_of_one_king hk).2.2
  · intro t ht
    rw [Nat.testBit_and, Bool.and_eq_true] at ht
    exact not_mine_of_bnot hm ht.2

theorem mem_castling_moves {entry me all_pieces attacked my_king : Nat} {m : Move}
    (h : m ∈ castling_moves entry me all_pieces attacked my_king) :
    (m = ⟨OO, if me = WHITE then 4 else 60, if me = WHITE then 6 else 62⟩ ∧
      (entry &&& OO_MASK me) ||| ((all_pieces ||| attacked) &&& OO_BLOCKERS_MASK me) |||
        (my_king &&& attacked) = 0) ∨
    (m = ⟨OOO, if me = WHITE then 4 else 60, if me = WHITE then 2 else 58⟩ ∧
      (entry &&& OOO_MASK me) |||
        ((all_pieces ||| (attacked &&& OOO_IGNORE_DANGER me)) &&& OOO_BLOCKERS_MASK me) |||
        (my_king &&& attacked) = 0) := by
  unfold castling_moves at h
  rw [List.mem_append] at h
  rcases h with h | h
  · left
    by_cases hcond : (entry &&& OO_MASK me) ||| ((all_pieces ||| attacked) &&& OO_BLOCKERS_MASK me)
        ||| (my_king &&& attacked) = 0
    · rw [if_pos hcond] at h
      exact ⟨List.mem_singleton.1 h, hcond⟩
    · rw [if_neg hcond] at h
      exact absurd h (List.not_mem_nil _)
  · right
    by_cases hcond : (entry &&& OOO_MASK me) |||
        ((all_pieces ||| (attacked &&& OOO_IGNORE_DANGER me)) &&& OOO_BLOCKERS_MASK me) |||
        (my_king &&& attacked) = 0
    · rw [if_pos hcond] at h
      exact ⟨List.mem_singleton.1 h, hcond⟩
    · rw [if_neg hcond] at h
      exact absurd h (List.not_mem_nil _)

/-- A blockers mask that vanishes on the occupancy leaves its squares empty. -/
theorem empty_of_blockers {all other mask s : Nat} (h : (all ||| other) &&& mask = 0)
    (hs : mask.testBit s = true) : all.testBit s = false := by
  have := testBit_false_of_eq_zero h s
  simp only [Nat.testBit_and, Nat.testBit_or, hs, Bool.and_true, Bool.or_eq_false_iff] at this
  exact this.1

theorem playable_castling {pos : Position} (hc : consistent pos) (hs : pos.side_to_play < 2)
    (hcc : castling_consistent pos) (attacked : Nat) {m : Move}
    (h : m ∈ castling_moves (cur pos).entry (sides pos).me (sides pos).all_pieces attacked
      (sides pos).my_king) : playable pos m := by
  obtain ⟨_, _, _, _, _, _, hempty⟩ := sides_facts hc hs
  obtain ⟨hoo_w, hooo_w, hoo_b, hooo_b⟩ := hcc
  have hme : (sides pos).me = pos.side_to_play := rfl
  rw [hme] at h
  have hside : pos.side_to_play = 0 ∨ pos.side_to_play = 1 := by omega
  rcases mem_castling_moves h with ⟨hm, hcond⟩ | ⟨hm, hcond⟩
  · have hA := eq_zero_of_or_eq_zero_left (eq_zero_of_or_eq_zero_left hcond)
    have hB := eq_zero_of_or_eq_zero_right (eq_zero_of_or_eq_zero_left hcond)
    rcases hside with h0 | h1
    · rw [h0] at hA hB hm
      have hk := hoo_w hA
      have e5 := hempty 5 (by decide) (empty_of_blockers hB (by decide))
      have e6 := hempty 6 (by decide) (empty_of_blockers hB (by decide))
      subst hm
      unfold playable
      simp only [h0, WHITE]
      exact ⟨by decide, by decide, fun _ => ⟨hk.1, hk.2, e5, e6⟩, fun hne => absurd rfl hne⟩
    · rw [h1] at hA hB hm
      have hk := hoo_b hA
      have e5 := hempty 61 (by decide) (empty_of_blockers hB (by decide))
      have e6 := hempty 62 (by decide) (empty_of_blockers hB (by decide))
      subst hm
      unfold playable
      simp only [h1, WHITE]
      exact ⟨by decide, by decide, fun hne => absurd hne (by decide), fun _ => ⟨hk.1, hk.2, e5, e6⟩⟩
  · have hA := eq_zero_of_or_eq_zero_left (eq_zero_of_or_eq_zero_left hcond)
    have hB := eq_zero_of_or_eq_zero_right (eq_zero_of_or_eq_zero_left hcond)
    rcases hside with h0 | h1
    · rw [h0] at hA hB hm
      have hk := hooo_w hA
      have e3 := hempty 3 (by decide) (empty_of_blockers hB (by decide))
      have e2 := hempty 2 (by decide) (empty_of_blockers hB (by decide))
      subst hm
      unfold playable
      simp only [h0, WHITE]
      exact ⟨by decide, by decide, fun _ => ⟨hk.1, hk.2, e3, e2⟩, fun hne => absurd rfl hne⟩
    · rw [h1] at hA hB hm
      have hk := hooo_b hA
      have e3 := hempty 59 (by decide) (empty_of_blockers hB (by decide))
      have e2 := hempty 58 (by decide) (empty_of_blockers hB (by decide))
      subst hm
      unfold playable
      simp only [h1, WHITE]
      exact ⟨by decide, by decide, fun hne => absurd hne (by decide), fun _ => ⟨hk.1, hk.2, e3, e2⟩⟩


theorem lt_of_subset {a b : Nat} (hb : b < 2 ^ 64)
    (h : ∀ s, a.testBit s = true → b.testBit s = true) : a < 2 ^ 64 :=
  Nat.lt_of_le_of_lt (Nat.le_of_testBit h) hb

theorem not_all_of_bnot {all t : Nat} (hall : all < 2 ^ 64) (h : (bnot all).testBit t = true) :
    t < 64 ∧ all.testBit t = false := by
  have h64 : t < 64 := lt_of_testBit (bnot_lt hall) h
  exact ⟨h64, not_mine_of_bnot hall h⟩

theorem pawn_sets_white (g : Sides) (k : Masks) (hme : g.me = WHITE) (s : Nat) :
    ((std_pawn_sets g k).pawns_push_double.testBit s = true →
      g.my_pawns.testBit s = true ∧ (bnot g.all_pieces).testBit (s + 16) = true) ∧
    ((std_pawn_sets g k).pawns_push_single.testBit s = true →
      g.my_pawns.testBit s = true ∧ (bnot g.all_pieces).testBit (s + 8) = true) ∧
    ((std_pawn_sets g k).pawns_take_left.testBit s = true →
      g.my_pawns.testBit s = true ∧ g.all_your_pieces.testBit (s + 7) = true) ∧
    ((std_pawn_sets g k).pawns_take_right.testBit s = true →
      g.my_pawns.testBit s = true ∧ g.all_your_pieces.testBit (s + 9) = true) ∧
    ((std_pawn_sets g k).pawns_take.testBit s = true → g.my_pawns.testBit s = true) := by
  simp only [std_pawn_sets, hme, if_true, Nat.testBit_and, Nat.testBit_or,
    Nat.testBit_shiftRight, Bool.and_eq_true, Bool.or_eq_true]
  refine ⟨?_, ?_, ?_, ?_, ?_⟩
  · rintro (h | h)
    · exact ⟨h.1.1.1.1.1, by rw [Nat.add_comm]; exact h.1.2.1⟩
    · exact ⟨h.1.1.1.1.1, by rw [Nat.add_comm]; exact h.1.2.1⟩
  · rintro (h | h)
    · exact ⟨h.1.1.1.1, by rw [Nat.add_comm]; exact h.1.1.2⟩
    · exact ⟨h.1.1.1.1, by rw [Nat.add_comm]; exact h.1.1.2⟩
  · rintro (h | h)
    · exact ⟨h.1.1.1, by rw [Nat.add_comm]; exact h.1.2.1.1⟩
    · exact ⟨h.1.1.1, by rw [Nat.add_comm]; exact h.1.2.1.1⟩
  · rintro (h | h)
    · exact ⟨h.1.1.1, by rw [Nat.add_comm]; exact h.1.2.1.1⟩
    · exact ⟨h.1.1.1, by rw [Nat.add_comm]; exact h.1.2.1.1⟩
  · intro h; exact h.1

theorem pawn_sets_black (g : Sides) (k : Masks) (hme : g.me ≠ WHITE) (s : Nat) :
    ((std_pawn_sets g k).pawns_push_double.testBit s = true →
      g.my_pawns.testBit s = true ∧ 16 ≤ s ∧ (bnot g.all_pieces).testBit (s - 16) = true) ∧
    ((std_pawn_sets g k).pawns_push_single.testBit s = true →
      g.my_pawns.testBit s = true ∧ 8 ≤ s ∧ (bnot g.all_pieces).testBit (s - 8) = true) ∧
    ((std_pawn_sets g k).pawns_take_left.testBit s = true →
      g.my_pawns.testBit s = true ∧ 9 ≤ s ∧ g.all_your_pieces.testBit (s - 9) = true) ∧
    ((std_pawn_sets g k).pawns_take_right.testBit s = true →
      g.my_pawns.testBit s = true ∧ 7 ≤ s ∧ g.all_your_pieces.testBit (s - 7) = true) ∧
    ((std_pawn_sets g k).pawns_take.testBit s = true → g.my_pawns.testBit s = true) := by
  simp only [std_pawn_sets, hme, if_false, Nat.testBit_and, Nat.testBit_or,
    testBit_shl, Bool.and_eq_true, Bool.or_eq_true, decide_eq_true_eq]
  refine ⟨?_, ?_, ?_, ?_, ?_⟩
  · rintro (h | h)
    · exact ⟨h.1.1.1.1.1, h.1.2.2.1, h.1.2.2.2.1⟩
    · exact ⟨h.1.1.1.1.1, h.1.2.2.1, h.1.2.2.2.1⟩
  · rintro (h | h)
    · exact ⟨h.1.1.1.1, h.1.1.2.2.1, h.1.1.2.2.2⟩
    · exact ⟨h.1.1.1.1, h.1.1.2.2.1, h.1.1.2.2.2⟩
  · rintro (h | h)
    · exact ⟨h.1.1.1, h.1.2.2.1, h.1.2.2.2.1.1⟩
    · exact ⟨h.1.1.1, h.1.2.2.1, h.1.2.2.2.1.1⟩
  · rintro (h | h)
    · exact ⟨h.1.1.1, h.1.2.2.1, h.1.2.2.2.1.1⟩
    · exact ⟨h.1.1.1, h.1.2.2.1, h.1.2.2.2.1.1⟩
  · intro h; exact h.1


theorem DOUBLE_PUSH_RANK_lt (c : Nat) : DOUBLE_PUSH_RANK c < 2 ^ 64 := by
  unfold DOUBLE_PUSH_RANK; split_ifs <;> decide

theorem all_pieces_lt {pos : Position} (hc : consistent pos) (hs : pos.side_to_play < 2) :
    (sides pos).all_pieces < 2 ^ 64 :=
  Nat.or_lt_two_pow (sides_facts hc hs).2.2.1 (sides_facts hc hs).2.2.2.1

/-- A non-capturing pawn move (push, double push or promotion) onto an empty square. -/
theorem playable_pawn_push {pos : Position} (hc : consistent pos) (hs : pos.side_to_play < 2)
    {m : Move} (hfrom : (sides pos).my_pawns.testBit m.from_sq = true)
    (hto : (bnot (sides pos).all_pieces).testBit m.to_sq = true)
    (hflag : m.flag = QUIET ∨ m.flag = DOUBLE_PUSH ∨ m.flag = PR_KNIGHT ∨ m.flag = PR_BISHOP ∨
      m.flag = PR_ROOK ∨ m.flag = PR_QUEEN) : playable pos m := by
  obtain ⟨hf64, hpf⟩ := board_of_bb hc hs (show PAWN < 6 by decide) hfrom
  obtain ⟨ht64, hna⟩ := not_all_of_bnot (all_pieces_lt hc hs) hto
  have hpt := (sides_facts hc hs).2.2.2.2.2.2 _ ht64 hna
  have hcol : PIECE_TO_COLOR (pos.board.getD m.from_sq 0) = pos.side_to_play := by
    rw [hpf]; exact (type_to_piece_facts hs (by decide)).1
  unfold playable
  refine ⟨hf64, ht64, ?_⟩
  rcases hflag with h | h | h | h | h | h <;> simp only [h]
  · exact ⟨hcol, hpt⟩
  · exact ⟨hcol, hpt⟩
  · exact ⟨hpf, hpt⟩
  · exact ⟨hpf, hpt⟩
  · exact ⟨hpf, hpt⟩
  · exact ⟨hpf, hpt⟩

/-- A capturing pawn move (capture or promotion capture) onto an enemy piece. -/
theorem playable_pawn_capture {pos : Position} (hc : consistent pos)
    (hs : pos.side_to_play < 2)
    {m : Move} (hfrom : (sides pos).my_pawns.testBit m.from_sq = true)
    (hto : (sides pos).all_your_pieces.testBit m.to_sq = true)
    (hflag : m.flag = CAPTURE ∨ m.flag = PC_KNIGHT ∨ m.flag = PC_BISHOP ∨
      m.flag = PC_ROOK ∨ m.flag = PC_QUEEN) : playable pos m := by
  obtain ⟨hf64, hpf⟩ := board_of_bb hc hs (show PAWN < 6 by decide) hfrom
  obtain ⟨ht64, hpt⟩ := ((sides_facts hc hs).2.2.2.2.2.1 _).1 hto
  have hcol : PIECE_TO_COLOR (pos.board.getD m.from_sq 0) = pos.side_to_play := by
    rw [hpf]; exact (type_to_piece_facts hs (by decide)).1
  unfold playable
  refine ⟨hf64, ht64, ?_⟩
  rcases hflag with h | h | h | h | h <;> simp only [h]
  · exact ⟨hcol, hpt⟩
  · exact ⟨hpf, hpt⟩
  · exact ⟨hpf, hpt⟩
  · exact ⟨hpf, hpt⟩
  · exact ⟨hpf, hpt⟩

theorem mem_four_moves {f1 f2 f3 f4 : MoveFlag} {a b : Nat} {m : Move}
    (h : m ∈ four_moves f1 f2 f3 f4 a b) :
    m.from_sq = a ∧ m.to_sq = b ∧ (m.flag = f1 ∨ m.flag = f2 ∨ m.flag = f3 ∨ m.flag = f4) := by
  unfold four_moves at h
  simp only [List.mem_cons, List.mem_singleton, List.not_mem_nil, or_false] at h
  rcases h with rfl | rfl | rfl | rfl
  · exact ⟨rfl, rfl, Or.inl rfl⟩
  · exact ⟨rfl, rfl, Or.inr (Or.inl rfl)⟩
  · exact ⟨rfl, rfl, Or.inr (Or.inr (Or.inl rfl))⟩
  · exact ⟨rfl, rfl, Or.inr (Or.inr (Or.inr rfl))⟩

theorem playable_std_pawn_moves {pos : Position} (hc : consistent pos)
    (hs : pos.side_to_play < 2) (k : Masks) {m : Move}
    (h : m ∈ std_pawn_moves (sides pos) (std_pawn_sets (sides pos) k)) : playable pos m := by
  have hlp := (sides_lt hc hs).1
  have hsub : ∀ (X : Nat), (∀ s, X.testBit s = true → (sides pos).my_pawns.testBit s = true) →
      X < 2 ^ 64 := fun X hX => lt_of_subset hlp hX
  unfold std_pawn_moves at h
  simp only [List.mem_append, List.mem_map, List.mem_flatMap] at h
  by_cases hme : (sides pos).me = WHITE
  · have F := pawn_sets_white (sides pos) k hme
    simp only [hme, if_true] at h
    rcases h with (((((⟨s, hs1, rfl⟩ | ⟨s, hs1, hm⟩) | ⟨s, hs1, rfl⟩) | ⟨s, hs1, hm⟩) |
      ⟨s, hs1, rfl⟩) | ⟨s, hs1, hm⟩) | ⟨s, hs1, rfl⟩
    · have hb := (mem_squares_of (hsub _ (fun s h => ((F s).1 h).1)) s).1 hs1
      exact playable_pawn_push hc hs ((F s).1 hb).1 ((F s).1 hb).2 (Or.inr (Or.inl rfl))
    · have hb := (mem_squares_of (lt_of_and_right (DOUBLE_PUSH_RANK_lt _)) s).1 hs1
      rw [Nat.testBit_and, Bool.and_eq_true] at hb
      obtain ⟨e1, e2, e3⟩ := mem_four_moves hm
      refine playable_pawn_push hc hs (by rw [e1]; exact ((F s).2.1 hb.1).1)
        (by rw [e2]; exact ((F s).2.1 hb.1).2) ?_
      rcases e3 with e | e | e | e <;> simp [e]
    · have hb := (mem_squares_of (lt_of_and_right (bnot_lt (DOUBLE_PUSH_RANK_lt _))) s).1 hs1
      rw [Nat.testBit_and, Bool.and_eq_true] at hb
      exact playable_pawn_push hc hs ((F s).2.1 hb.1).1 ((F s).2.1 hb.1).2 (Or.inl rfl)
    · have hb := (mem_squares_of (lt_of_and_right (DOUBLE_PUSH_RANK_lt _)) s).1 hs1
      rw [Nat.testBit_and, Bool.and_eq_true] at hb
      obtain ⟨e1, e2, e3⟩ := mem_four_moves hm
      refine playable_pawn_capture hc hs (by rw [e1]; exact ((F s).2.2.1 hb.1).1)
        (by rw [e2]; exact ((F s).2.2.1 hb.1).2) ?_
      rcases e3 with e | e | e | e <;> simp [e]
    · have hb := (mem_squares_of (lt_of_and_right (bnot_lt (DOUBLE_PUSH_RANK_lt _))) s).1 hs1
      rw [Nat.testBit_and, Bool.and_eq_true] at hb
      exact playable_pawn_capture hc hs ((F s).2.2.1 hb.1).1 ((F s).2.2.1 hb.1).2 (Or.inl rfl)
    · have hb := (mem_squares_of (lt_of_and_right (DOUBLE_PUSH_RANK_lt _)) s).1 hs1
      rw [Nat.testBit_and, Bool.and_eq_true] at hb
      obtain ⟨e1, e2, e3⟩ := mem_four_moves hm
      refine playable_pawn_capture hc hs (by rw [e1]; exact ((F s).2.2.2.1 hb.1).1)
        (by rw [e2]; exact ((F s).2.2.2.1 hb.1).2) ?_
      rcases e3 with e | e | e | e <;> simp [e]
    · have hb := (mem_squares_of (lt_of_and_right (bnot_lt (DOUBLE_PUSH_RANK_lt _))) s).1 hs1
      rw [Nat.testBit_and, Bool.and_eq_true] at hb
      exact playable_pawn_capture hc hs ((F s).2.2.2.1 hb.1).1 ((F s).2.2.2.1 hb.1).2
        (Or.inl rfl)
  · have F := pawn_sets_black (sides pos) k hme
    simp only [hme, if_false] at h
    rcases h with (((((⟨s, hs1, rfl⟩ | ⟨s, hs1, hm⟩) | ⟨s, hs1, rfl⟩) | ⟨s, hs1, hm⟩) |
      ⟨s, hs1, rfl⟩) | ⟨s, hs1, hm⟩) | ⟨s, hs1, rfl⟩
    · have hb := (mem_squares_of (hsub _ (fun s h => ((F s).1 h).1)) s).1 hs1
      exact playable_pawn_push hc hs ((F s).1 hb).1 ((F s).1 hb).2.2 (Or.inr (Or.inl rfl))
    · have hb := (mem_squares_of (lt_of_and_right (DOUBLE_PUSH_RANK_lt _)) s).1 hs1
      rw [Nat.testBit_and, Bool.and_eq_true] at hb
      obtain ⟨e1, e2, e3⟩ := mem_four_moves hm
      refine playable_pawn_push hc hs (by rw [e1]; exact ((F s).2.1 hb.1).1)
        (by rw [e2]; exact ((F s).2.1 hb.1).2.2) ?_
      rcases e3 with e | e | e | e <;> simp [e]
    · have hb := (mem_squares_of (lt_of_and_right (bnot_lt (DOUBLE_PUSH_RANK_lt _))) s).1 hs1
      rw [Nat.testBit_and, Bool.and_eq_true] at hb
      exact playable_pawn_push hc hs ((F s).2.1 hb.1).1 ((F s).2.1 hb.1).2.2 (Or.inl rfl)
    · have hb := (mem_squares_of (lt_of_and_right (DOUBLE_PUSH_RANK_lt _)) s).1 hs1
      rw [Nat.testBit_and, Bool.and_eq_true] at hb
      obtain ⟨e1, e2, e3⟩ := mem_four_moves hm
      refine playable_pawn_capture hc hs (by rw [e1]; exact ((F s).2.2.1 hb.1).1)
        (by rw [e2]; exact ((F s).2.2.1 hb.1).2.2) ?_
      rcases e3 with e | e | e | e <;> simp [e]
    · have hb := (mem_squares_of (lt_of_and_right (bnot_lt (DOUBLE_PUSH_RANK_lt _))) s).1 hs1
      rw [Nat.testBit_and, Bool.and_eq_true] at hb
      exact playable_pawn_capture hc hs ((F s).2.2.1 hb.1).1 ((F s).2.2.1 hb.1).2.2 (Or.inl rfl)
    · have hb := (mem_squares_of (lt_of_and_right (DOUBLE_PUSH_RANK_lt _)) s).1 hs1
      rw [Nat.testBit_and, Bool.and_eq_true] at hb
      obtain ⟨e1, e2, e3⟩ := mem_four_moves hm
      refine playable_pawn_capture hc hs (by rw [e1]; exact ((F s).2.2.2.1 hb.1).1)
        (by rw [e2]; exact ((F s).2.2.2.1 hb.1).2.2) ?_
      rcases e3 with e | e | e | e <;> simp [e]
    · have hb := (mem_squares_of (lt_of_and_right (bnot_lt (DOUBLE_PUSH_RANK_lt _))) s).1 hs1
      rw [Nat.testBit_and, Bool.and_eq_true] at hb
      exact playable_pawn_capture hc hs ((F s).2.2.2.1 hb.1).1 ((F s).2.2.2.1 hb.1).2.2
        (Or.inl rfl)


theorem get_lsb_idx_SQUARE_TO_BITBOARD {s : Nat} (h : SQUARE_TO_BITBOARD s ≠ 0) :
    s < 64 ∧ get_lsb_idx (SQUARE_TO_BITBOARD s) = s := by
  unfold SQUARE_TO_BITBOARD at h ⊢
  by_cases hs : s < 64
  · simp only [hs, if_true]
    exact ⟨trivial, get_lsb_idx_two_pow hs⟩
  · simp [hs] at h

theorem testBit_lsb_of_subset {x p : Nat} (hp : p < 2 ^ 64)
    (hsub : ∀ s, x.testBit s = true → p.testBit s = true) (hx : x ≠ 0) :
    p.testBit (get_lsb_idx x) = true :=
  hsub _ (testBit_get_lsb_idx hx (lt_of_subset hp hsub))

theorem mem_if_singleton {c : Prop} [Decidable c] {a m : Move}
    (h : m ∈ (if c then [a] else [])) : c ∧ m = a := by
  by_cases hc : c
  · rw [if_pos hc, List.mem_singleton] at h
    exact ⟨hc, h⟩
  · rw [if_neg hc] at h
    exact absurd h (List.not_mem_nil _)

theorem mem_std_enpassant_moves {g : Sides} {k : Masks} {pt ep : Nat} {m : Move}
    (hpt : pt < 2 ^ 64) (h : m ∈ std_enpassant_moves g k pt ep) :
    m.flag = EN_PASSANT ∧ ep < 64 ∧ m.to_sq = ep ∧ pt.testBit m.from_sq = true := by
  unfold std_enpassant_moves at h
  by_cases hep : SQUARE_TO_BITBOARD ep ≠ 0
  · obtain ⟨h64, hidx⟩ := get_lsb_idx_SQUARE_TO_BITBOARD hep
    simp only [hep, ne_eq, not_false_eq_true, if_true, List.mem_append] at h
    rcases h with h | h
    · obtain ⟨hne, rfl⟩ := mem_if_singleton h
      refine ⟨rfl, h64, hidx, testBit_lsb_of_subset hpt ?_ hne⟩
      intro s hs
      split_ifs at hs <;> simp only [Nat.testBit_and, Bool.and_eq_true] at hs <;> tauto
    · obtain ⟨hne, rfl⟩ := mem_if_singleton h
      refine ⟨rfl, h64, hidx, testBit_lsb_of_subset hpt ?_ hne⟩
      intro s hs
      split_ifs at hs <;> simp only [Nat.testBit_and, Bool.and_eq_true] at hs <;> tauto
  · simp only [hep, if_false] at h
    exact absurd h (List.not_mem_nil _)

theorem playable_std_enpassant {pos : Position} (hc : consistent pos)
    (hs : pos.side_to_play < 2) (hep : enpassant_consistent pos) (k : Masks) {m : Move}
    (h : m ∈ std_enpassant_moves (sides pos) k (std_pawn_sets (sides pos) k).pawns_take
      (cur pos).enpassant) : playable pos m := by
  have hlp := (sides_lt hc hs).1
  have hsub : ∀ s, (std_pawn_sets (sides pos) k).pawns_take.testBit s = true →
      (sides pos).my_pawns.testBit s = true := by
    intro s hs1
    simp only [std_pawn_sets, Nat.testBit_and, Bool.and_eq_true] at hs1
    exact hs1.1
  obtain ⟨hflag, h64, hto, hfrom⟩ := mem_std_enpassant_moves (lt_of_subset hlp hsub) h
  obtain ⟨hf64, hpf⟩ := board_of_bb hc hs (show PAWN < 6 by decide) (hsub _ hfrom)
  have hs' := xor_black_facts hs
  have hP := type_to_piece_facts hs (show PAWN < 6 by decide)
  have hP' := type_to_piece_facts hs'.1 (show PAWN < 6 by decide)
  unfold playable
  rw [hto]
  refine ⟨hf64, h64, ?_⟩
  simp only [hflag]
  have hne : ∀ v, pos.board.getD v 0 = TYPE_TO_PIECE (pos.side_to_play ^^^ BLACK) PAWN →
      v ≠ m.from_sq := by
    intro v hv hvf
    rw [hvf, hpf] at hv
    have h1 := hP.1
    rw [hv, hP'.1] at h1
    exact hs'.2 h1
  rcases hep with hno | ⟨hside, h40, h48, he, hv, _⟩ | ⟨hside, h16, h24, he, hv, _⟩
  · unfold NO_SQUARE at hno; omega
  · have hvv : enpassant_victim pos.side_to_play (cur pos).enpassant = (cur pos).enpassant - 8 := by
      unfold enpassant_victim; rw [if_pos hside]
    have hbp : BLACK_PAWN = TYPE_TO_PIECE (pos.side_to_play ^^^ BLACK) PAWN := by
      rw [hside]; decide
    rw [hvv]
    rw [hbp] at hv
    exact ⟨hpf, he, by omega, hne _ hv, by omega, hv⟩
  · have hvv : enpassant_victim pos.side_to_play (cur pos).enpassant = (cur pos).enpassant + 8 := by
      unfold enpassant_victim; rw [if_neg (by rw [hside]; decide)]
    have hbp : WHITE_PAWN = TYPE_TO_PIECE (pos.side_to_play ^^^ BLACK) PAWN := by
      rw [hside]; decide
    rw [hvv]
    rw [hbp] at hv
    exact ⟨hpf, he, by omega, hne _ hv, by omega, hv⟩


theorem one_king_side {pos : Position} (hs : pos.side_to_play < 2) (hw : one_king pos WHITE)
    (hb : one_king pos BLACK) :
    one_king pos pos.side_to_play ∧ one_king pos (pos.side_to_play ^^^ BLACK) := by
  have : pos.side_to_play = 0 ∨ pos.side_to_play = 1 := by omega
  rcases this with h | h <;> rw [h]
  · exact ⟨hw, hb⟩
  · exact ⟨hb, hw⟩

/-- Every move the standard generator writes is playable on the position. -/
theorem emitted_playable {pos : Position} (hinv : data_model_invariants pos) {m : Move}
    (h : m ∈ generate_legal_moves_standard pos) : playable pos m := by
  obtain ⟨hc, hs, hkw, hkb, _, hep, hcc, _, _⟩ := hinv
  have hk := (one_king_side hs hkw hkb).1
  unfold generate_legal_moves_standard at h
  simp only at h
  split_ifs at h with hchk
  · exact playable_king_moves hc hs hk _ h
  · simp only [List.mem_append] at h
    rcases h with (((h | h) | h) | h) | h
    · exact playable_king_moves hc hs hk _ (List.mem_append.2 h)
    · exact playable_castling hc hs hcc _ h
    · exact playable_std_enpassant hc hs hep _ h
    · exact playable_std_pawn_moves hc hs _ h
    · exact playable_std_piece_moves hc hs _ h


end AtomicChess

namespace AtomicChess

open MoveFlag

/-! ## Where castling moves come from -/

theorem flag_get_moves {from_sq bb : Nat} {flag : MoveFlag} {m : Move}
    (h : m ∈ get_moves from_sq bb flag) : m.flag = flag := by
  unfold get_moves at h
  rw [List.mem_map] at h
  obtain ⟨s, _, rfl⟩ := h
  rfl

theorem flag_quiet_and_capture {from_sq targets yours : Nat} {m : Move}
    (h : m ∈ quiet_and_capture from_sq targets yours) :
    m.flag ≠ OO ∧ m.flag ≠ OOO ∧ m.flag ≠ EN_PASSANT := by
  unfold quiet_and_capture at h
  rw [List.mem_append] at h
  rcases h with h | h <;> rw [flag_get_moves h] <;> exact ⟨by decide, by decide, by decide⟩

theorem flag_flatMap_qc {l : List Nat} {f : Nat → Nat} {yours : Nat} {m : Move}
    (h : m ∈ l.flatMap (fun s => quiet_and_capture s (f s) yours)) :
    m.flag ≠ OO ∧ m.flag ≠ OOO ∧ m.flag ≠ EN_PASSANT := by
  rw [List.mem_flatMap] at h
  obtain ⟨s, _, hm⟩ := h
  exact flag_quiet_and_capture hm

theorem flag_std_piece_moves {g : Sides} {k : Masks} {m : Move}
    (h : m ∈ std_piece_moves g k) : m.flag ≠ OO ∧ m.flag ≠ OOO ∧ m.flag ≠ EN_PASSANT := by
  unfold std_piece_moves at h
  simp only [List.mem_append] at h
  rcases h with (((h | h | h) | h | h) | h) <;> exact flag_flatMap_qc h

theorem flag_flatMap_four {l : List Nat} {f1 f2 f3 f4 : MoveFlag} {t : Nat → Nat} {m : Move}
    (h : m ∈ l.flatMap (fun s => four_moves f1 f2 f3 f4 s (t s))) :
    m.flag = f1 ∨ m.flag = f2 ∨ m.flag = f3 ∨ m.flag = f4 := by
  rw [List.mem_flatMap] at h
  obtain ⟨s, _, hm⟩ := h
  exact (mem_four_moves hm).2.2

theorem flag_map_move {l : List Nat} {f : MoveFlag} {t : Nat → Nat} {m : Move}
    (h : m ∈ l.map (fun s => ({ flag := f, from_sq := s, to_sq := t s } : Move))) :
    m.flag = f := by
  rw [List.mem_map] at h
  obtain ⟨s, _, rfl⟩ := h
  rfl

theorem flag_std_pawn_moves {g : Sides} {ps : PawnSets} {m : Move}
    (h : m ∈ std_pawn_moves g ps) : m.flag ≠ OO ∧ m.flag ≠ OOO ∧ m.flag ≠ EN_PASSANT := by
  unfold std_pawn_moves at h
  simp only [List.mem_append] at h
  rcases h with (((((h | h) | h) | h) | h) | h) | h
  · rw [flag_map_move h]; exact ⟨by decide, by decide, by decide⟩
  · rcases flag_flatMap_four h with e | e | e | e <;> rw [e] <;>
      exact ⟨by decide, by decide, by decide⟩
  · rw [flag_map_move h]; exact ⟨by decide, by decide, by decide⟩
  · rcases flag_flatMap_four h with e | e | e | e <;> rw [e] <;>
      exact ⟨by decide, by decide, by decide⟩
  · rw [flag_map_move h]; exact ⟨by decide, by decide, by decide⟩
  · rcases flag_flatMap_four h with e | e | e | e <;> rw [e] <;>
      exact ⟨by decide, by decide, by decide⟩
  · rw [flag_map_move h]; exact ⟨by decide, by decide, by decide⟩

theorem flag_std_enpassant_moves {g : Sides} {k : Masks} {pt ep : Nat} {m : Move}
    (h : m ∈ std_enpassant_moves g k pt ep) : m.flag = EN_PASSANT := by
  unfold std_enpassant_moves at h
  by_cases hep : SQUARE_TO_BITBOARD ep ≠ 0
  · simp only [hep, ne_eq, not_false_eq_true, if_true, List.mem_append] at h
    rcases h with h | h
    · obtain ⟨_, rfl⟩ := mem_if_singleton h
      rfl
    · obtain ⟨_, rfl⟩ := mem_if_singleton h
      rfl
  · simp only [hep, if_false, List.not_mem_nil] at h

/-- A move with flag `OO` or `OOO` in the output of the standard generator was written by
the castling block. -/
theorem castle_of_flag {pos : Position} {m : Move}
    (h : m ∈ generate_legal_moves_standard pos) (hf : m.flag = OO ∨ m.flag = OOO) :
    m ∈ castling_moves (cur pos).entry (sides pos).me (sides pos).all_pieces
      (attacked_squares (sides pos) true) (sides pos).my_king := by
  have hking : ∀ {a b c : Nat}, m ∈ get_moves a b QUIET ++ get_moves a c CAPTURE → False := by
    intro a b c hk
    rw [List.mem_append] at hk
    rcases hk with hk | hk <;> have e := flag_get_moves hk <;> rw [e] at hf <;>
      rcases hf with hf | hf <;> exact absurd hf (by decide)
  unfold generate_legal_moves_standard at h
  simp only at h
  split_ifs at h with hchk
  · exact (hking h).elim
  · simp only [List.mem_append] at h
    rcases h with (((h | h) | h) | h) | h
    · exact (hking (List.mem_append.2 h)).elim
    · exact h
    · have e := flag_std_enpassant_moves h
      rw [e] at hf
      rcases hf with hf | hf <;> exact absurd hf (by decide)
    · have e := flag_std_pawn_moves h
      rcases hf with hf | hf
      · exact absurd hf e.1
      · exact absurd hf e.2.1
    · have e := flag_std_piece_moves h
      rcases hf with hf | hf
      · exact absurd hf e.1
      · exact absurd hf e.2.1

/-- A move with flag `EN_PASSANT` in the output of the standard generator was written by
the en passant block. -/
theorem enpassant_of_flag {pos : Position} {m : Move}
    (h : m ∈ generate_legal_moves_standard pos) (hf : m.flag = EN_PASSANT) :
    m ∈ std_enpassant_moves (sides pos) (std_masks (sides pos))
      (std_pawn_sets (sides pos) (std_masks (sides pos))).pawns_take (cur pos).enpassant := by
  have hking : ∀ {a b c : Nat}, m ∈ get_moves a b QUIET ++ get_moves a c CAPTURE → False := by
    intro a b c hk
    rw [List.mem_append] at hk
    rcases hk with hk | hk <;> have e := flag_get_moves hk <;> rw [e] at hf <;>
      exact absurd hf (by decide)
  unfold generate_legal_moves_standard at h
  simp only at h
  split_ifs at h with hchk
  · exact (hking h).elim
  · simp only [List.mem_append] at h
    rcases h with (((h | h) | h) | h) | h
    · exact (hking (List.mem_append.2 h)).elim
    · rcases mem_castling_moves h with ⟨e, _⟩ | ⟨e, _⟩ <;> rw [e] at hf <;>
        exact MoveFlag.noConfusion hf
    · exact h
    · exact absurd hf (flag_std_pawn_moves h).2.2
    · exact absurd hf (flag_std_piece_moves h).2.2

/-! ## The attacked set contains every square attacked by an enemy piece -/

theorem testBit_foldl_or_of {α : Type} (f : α → Nat) (l : List α) (acc i : Nat) :
    (l.foldl (fun a s => a ||| f s) acc).testBit i = true ↔
      acc.testBit i = true ∨ ∃ s, s ∈ l ∧ (f s).testBit i = true := by
  induction l generalizing acc with
  | nil => simp
  | cons x xs ih =>
    rw [List.foldl_cons, ih]
    simp only [Nat.testBit_or, Bool.or_eq_true, List.mem_cons]
    constructor
    · rintro ((h | h) | ⟨s, hs, h⟩)
      · exact Or.inl h
      · exact Or.inr ⟨x, Or.inl rfl, h⟩
      · exact Or.inr ⟨s, Or.inr hs, h⟩
    · rintro (h | ⟨s, rfl | hs, h⟩)
      · exact Or.inl (Or.inl h)
      · exact Or.inl (Or.inr h)
      · exact Or.inr ⟨s, hs, h⟩

/-- Removing pieces from the occupancy can only lengthen a ray. -/
theorem ray_attacks_mono {occ occ2 : Nat}
    (h : ∀ s, occ2.testBit s = true → occ.testBit s = true) (l : List Nat) (i : Nat)
    (hi : (ray_attacks occ l).testBit i = true) : (ray_attacks occ2 l).testBit i = true := by
  induction l with
  | nil => exact hi
  | cons s rest ih =>
    simp only [ray_attacks] at hi ⊢
    by_cases h1 : occ.testBit s = true
    · rw [if_pos h1] at hi
      split_ifs
      · exact hi
      · rw [Nat.testBit_or, hi]; rfl
    · rw [if_neg h1] at hi
      have h2 : ¬ occ2.testBit s = true := fun h2 => h1 (h s h2)
      rw [if_neg h2]
      rw [Nat.testBit_or, Bool.or_eq_true] at hi ⊢
      exact hi.imp id ih

theorem slider_attacks_mono {occ occ2 : Nat}
    (h : ∀ s, occ2.testBit s = true → occ.testBit s = true) (dirs : List (Int × Int))
    (sq i : Nat) (hi : (slider_attacks dirs sq occ).testBit i = true) :
    (slider_attacks dirs sq occ2).testBit i = true := by
  unfold slider_attacks at hi ⊢
  rw [testBit_foldl_or_of (fun d => ray_attacks occ (ray_squares sq d))] at hi
  rw [testBit_foldl_or_of (fun d => ray_attacks occ2 (ray_squares sq d))]
  rcases hi with hi | ⟨d, hd, hi⟩
  · exact Or.inl hi
  · exact Or.inr ⟨d, hd, ray_attacks_mono h _ i hi⟩

theorem get_all_pawn_attacks_mono {a b : Nat}
    (h : ∀ s, a.testBit s = true → b.testBit s = true) (c i : Nat)
    (hi : (get_all_pawn_attacks a c).testBit i = true) :
    (get_all_pawn_attacks b c).testBit i = true := by
  unfold get_all_pawn_attacks at hi ⊢
  split_ifs at hi ⊢
  · simp only [Nat.testBit_or, testBit_shl, Nat.testBit_and, Bool.or_eq_true,
      Bool.and_eq_true, decide_eq_true_eq] at hi ⊢
    rcases hi with ⟨h1, h2, h3, h4⟩ | ⟨h1, h2, h3, h4⟩
    · exact Or.inl ⟨h1, h2, h _ h3, h4⟩
    · exact Or.inr ⟨h1, h2, h _ h3, h4⟩
  · simp only [Nat.testBit_or, Nat.testBit_shiftRight, Nat.testBit_and, Bool.or_eq_true,
      Bool.and_eq_true] at hi ⊢
    rcases hi with ⟨h3, h4⟩ | ⟨h3, h4⟩
    · exact Or.inl ⟨h _ h3, h4⟩
    · exact Or.inr ⟨h _ h3, h4⟩

theorem pawn_attacks_subset {pawns c y i : Nat} (hy : pawns.testBit y = true)
    (h : (PAWN_ATTACKS c y).testBit i = true) :
    (get_all_pawn_attacks pawns c).testBit i = true := by
  unfold PAWN_ATTACKS at h
  refine get_all_pawn_attacks_mono ?_ c i h
  intro s hs
  rw [testBit_SQUARE_TO_BITBOARD, Bool.and_eq_true, decide_eq_true_eq, decide_eq_true_eq] at hs
  rw [← hs.2]
  exact hy

theorem testBit_attacked_squares (g : Sides) (i : Nat) :
    (attacked_squares g true).testBit i = true ↔
      (get_all_pawn_attacks g.your_pawns g.you).testBit i = true ∨
      (∃ s, s ∈ squares_of g.your_knights ∧ (KNIGHT_ATTACKS s).testBit i = true) ∨
      (∃ s, s ∈ squares_of g.your_diagonal_sliders ∧
        (get_bishop_attacks s (g.all_pieces ^^^ g.my_king)).testBit i = true) ∨
      (∃ s, s ∈ squares_of g.your_orthogonal_sliders ∧
        (get_rook_attacks s (g.all_pieces ^^^ g.my_king)).testBit i = true) ∨
      (KING_ATTACKS (get_lsb_idx g.your_king)).testBit i = true := by
  unfold attacked_squares
  simp only [if_true, Nat.testBit_or, Bool.or_eq_true]
  rw [testBit_foldl_or (fun s => get_rook_attacks s (g.all_pieces ^^^ g.my_king)),
    testBit_foldl_or (fun s => get_bishop_attacks s (g.all_pieces ^^^ g.my_king)),
    testBit_foldl_or KNIGHT_ATTACKS]
  constructor
  · rintro ((((h | h) | h) | h) | h)
    · exact Or.inl h
    · exact Or.inr (Or.inl h)
    · exact Or.inr (Or.inr (Or.inl h))
    · exact Or.inr (Or.inr (Or.inr (Or.inl h)))
    · exact Or.inr (Or.inr (Or.inr (Or.inr h)))
  · rintro (h | h | h | h | h)
    · exact Or.inl (Or.inl (Or.inl (Or.inl h)))
    · exact Or.inl (Or.inl (Or.inl (Or.inr h)))
    · exact Or.inl (Or.inl (Or.inr h))
    · exact Or.inl (Or.inr h)
    · exact Or.inr h

theorem occ_without_king_subset (g : Sides) (s : Nat)
    (h : (g.all_pieces ^^^ g.my_king).testBit s = true) : g.all_pieces.testBit s = true := by
  rw [Nat.testBit_xor] at h
  cases ha : g.all_pieces.testBit s
  · rw [ha] at h
    have hk : g.my_king.testBit s = true := by simpa using h
    have := mine_of_king hk
    unfold Sides.all_pieces at ha
    rw [Nat.testBit_or, this] at ha
    exact Bool.noConfusion ha
  · rfl

/-- Every square attacked by an enemy piece on the full occupancy is in the attacked set
computed by the standard generator. -/
theorem attacked_of_attacked_by {pos : Position} (hc : consistent pos)
    (hs : pos.side_to_play < 2) (hk : one_king pos (pos.side_to_play ^^^ BLACK)) {sq : Nat}
    (h : attacked_by pos (pos.side_to_play ^^^ BLACK) sq) :
    (attacked_squares (sides pos) true).testBit sq = true := by
  obtain ⟨y, hy, hcol, hbit⟩ := h
  have hs2 := (xor_black_facts hs).1
  obtain ⟨_, ht6, hp⟩ := piece_of_color (hc.2.2.1 y hy) hs2 hcol
  have hbb := bb_of_board hc hs2 ht6 hy hp
  clear hp
  have hsub := occ_without_king_subset (sides pos)
  rw [testBit_attacked_squares]
  unfold piece_attacks at hbit
  rw [hcol] at hbit
  generalize PIECE_TO_TYPE (pos.board.getD y 0) = t at ht6 hbb hbit
  interval_cases t
  · rw [if_pos (by decide)] at hbit
    exact Or.inl (pawn_attacks_subset hbb hbit)
  · rw [if_neg (by decide), if_pos (by decide)] at hbit
    exact Or.inr (Or.inl ⟨y, (mem_squares_of (bb_lt hc hs2 (by decide)) y).2 hbb, hbit⟩)
  · rw [if_neg (by decide), if_neg (by decide), if_pos (by decide)] at hbit
    refine Or.inr (Or.inr (Or.inl ⟨y, ?_, slider_attacks_mono hsub DIAGONAL_DIRS y sq hbit⟩))
    refine (mem_squares_of (Nat.or_lt_two_pow (bb_lt hc hs2 (by decide))
      (bb_lt hc hs2 (by decide))) y).2 ?_
    rw [Nat.testBit_or, Bool.or_eq_true]
    exact Or.inl hbb
  · rw [if_neg (by decide), if_neg (by decide), if_neg (by decide), if_pos (by decide)] at hbit
    refine Or.inr (Or.inr (Or.inr (Or.inl
      ⟨y, ?_, slider_attacks_mono hsub ORTHOGONAL_DIRS y sq hbit⟩)))
    refine (mem_squares_of (Nat.or_lt_two_pow (bb_lt hc hs2 (by decide))
      (bb_lt hc hs2 (by decide))) y).2 ?_
    rw [Nat.testBit_or, Bool.or_eq_true]
    exact Or.inl hbb
  · rw [if_neg (by decide), if_neg (by decide), if_neg (by decide), if_neg (by decide),
      if_pos (by decide)] at hbit
    unfold get_queen_attacks at hbit
    rw [Nat.testBit_or, Bool.or_eq_true] at hbit
    rcases hbit with hbit | hbit
    · refine Or.inr (Or.inr (Or.inr (Or.inl
        ⟨y, ?_, slider_attacks_mono hsub ORTHOGONAL_DIRS y sq hbit⟩)))
      refine (mem_squares_of (Nat.or_lt_two_pow (bb_lt hc hs2 (by decide))
        (bb_lt hc hs2 (by decide))) y).2 ?_
      rw [Nat.testBit_or, Bool.or_eq_true]
      exact Or.inr hbb
    · refine Or.inr (Or.inr (Or.inl ⟨y, ?_, slider_attacks_mono hsub DIAGONAL_DIRS y sq hbit⟩))
      refine (mem_squares_of (Nat.or_lt_two_pow (bb_lt hc hs2 (by decide))
        (bb_lt hc hs2 (by decide))) y).2 ?_
      rw [Nat.testBit_or, Bool.or_eq_true]
      exact Or.inr hbb
  · rw [if_neg (by decide), if_neg (by decide), if_neg (by decide), if_neg (by decide),
      if_neg (by decide), if_pos (by decide)] at hbit
    obtain ⟨s, hs64, he⟩ := hk
    have hbb2 : (pos.bb (pos.side_to_play ^^^ BLACK) KING).testBit y = true := hbb
    rw [he, Nat.testBit_two_pow] at hbb2
    have hsy : s = y := of_decide_eq_true hbb2
    have hidx : get_lsb_idx (sides pos).your_king = y := by
      have : (sides pos).your_king = 2 ^ s := he
      rw [this, get_lsb_idx_two_pow hs64, hsy]
    refine Or.inr (Or.inr (Or.inr (Or.inr ?_)))
    rw [hidx]
    exact hbit

theorem blockers_bits {all att mask s : Nat} (h : (all ||| att) &&& mask = 0)
    (hs : mask.testBit s = true) : all.testBit s = false ∧ att.testBit s = false := by
  have := testBit_false_of_eq_zero h s
  simp only [Nat.testBit_and, Nat.testBit_or, hs, Bool.and_true, Bool.or_eq_false_iff] at this
  exact this

theorem king_not_in {king att s : Nat} (h : king &&& att = 0) (hs : king.testBit s = true) :
    att.testBit s = false := by
  have := testBit_false_of_eq_zero h s
  simp only [Nat.testBit_and, hs, Bool.true_and] at this
  exact this

end AtomicChess

namespace AtomicChess

open MoveFlag

/-! ## The discovered-check test of the en passant block -/

theorem single_or_zero {b V : Nat} (h : ∀ s, b.testBit s = true → s = V) :
    b = 0 ∨ b = 2 ^ V := by
  by_cases hb : b.testBit V = true
  · right
    apply Nat.eq_of_testBit_eq
    intro i
    rw [Nat.testBit_two_pow]
    by_cases hi : V = i
    · rw [← hi, hb]; simp
    · cases hbi : b.testBit i
      · simp [hi]
      · exact absurd (h i hbi).symm hi
  · left
    apply Nat.eq_of_testBit_eq
    intro i
    rw [Nat.zero_testBit]
    cases hbi : b.testBit i
    · rfl
    · have := h i hbi
      rw [this] at hbi
      exact absurd hbi hb

theorem and_ALL_ONES {x : Nat} (hx : x < 2 ^ 64) : x &&& ALL_ONES = x := by
  apply Nat.eq_of_testBit_eq
  intro i
  rw [Nat.testBit_and, testBit_ALL_ONES]
  by_cases hi : i < 64
  · simp [hi]
  · rw [testBit_false_of_ge hx (i := i) (by omega)]; simp

theorem enpassant_core {b l V F c : Nat} (f : Nat → Nat)
    (hne : l &&& negb (decide (f (b ||| l) ||| c = 0)) ≠ 0)
    (hb : ∀ s, b.testBit s = true → s = V)
    (hl : ∀ s, l.testBit s = true → s = F ∧ s < 64 ∧ b.testBit V = true) :
    F < 64 ∧ f (2 ^ V ||| 2 ^ F) = 0 ∧
      get_lsb_idx (l &&& negb (decide (f (b ||| l) ||| c = 0))) = F := by
  have hl1 : l ≠ 0 := by
    rintro rfl
    exact hne (Nat.zero_and _)
  obtain ⟨i, hi⟩ := Nat.ne_zero_implies_bit_true hl1
  obtain ⟨hiF, hi64, hbV⟩ := hl i hi
  have hF : F < 64 := hiF ▸ hi64
  have eb : b = 2 ^ V := (single_or_zero hb).resolve_left (fun h0 => by
    rw [h0, Nat.zero_testBit] at hbV
    exact Bool.noConfusion hbV)
  have el : l = 2 ^ F := (single_or_zero (fun s hs => (hl s hs).1)).resolve_left hl1
  rw [eb, el] at hne ⊢
  by_cases hcnd : f (2 ^ V ||| 2 ^ F) ||| c = 0
  · have hlt : (2 : Nat) ^ F < 2 ^ 64 := Nat.pow_lt_pow_right (by decide) hF
    simp only [hcnd, decide_True, negb, if_true]
    rw [and_ALL_ONES hlt]
    exact ⟨hF, eq_zero_of_or_eq_zero_left hcnd, get_lsb_idx_two_pow hF⟩
  · exfalso
    apply hne
    simp only [hcnd, decide_False, negb]
    exact Nat.and_zero _

theorem testBit_victim_shift {me ep s : Nat}
    (h : (if me = WHITE then SQUARE_TO_BITBOARD ep >>> 8
      else shl (SQUARE_TO_BITBOARD ep) 8).testBit s = true) :
    s = enpassant_victim me ep ∧ s < 64 := by
  unfold enpassant_victim
  split_ifs at h ⊢
  · rw [Nat.testBit_shiftRight, testBit_SQUARE_TO_BITBOARD, Bool.and_eq_true, decide_eq_true_eq,
      decide_eq_true_eq] at h
    omega
  · rw [testBit_shl, testBit_SQUARE_TO_BITBOARD] at h
    simp only [Bool.and_eq_true, decide_eq_true_eq] at h
    omega

/-- When the king stands on the en passant rank, an en passant move is written only if
no enemy rook or queen is reached from the king square once the capturing pawn and the
captured pawn are taken off the occupancy. -/
theorem enpassant_rank_test {g : Sides} {k : Masks} {pt ep : Nat} {m : Move}
    (hking : g.my_king &&& EP_RANK g.me ≠ 0)
    (h : m ∈ std_enpassant_moves g k pt ep) :
    m.from_sq < 64 ∧
    get_rook_attacks g.my_king_square (g.all_pieces ^^^
      (2 ^ enpassant_victim g.me ep ||| 2 ^ m.from_sq)) &&& g.your_orthogonal_sliders = 0 := by
  unfold std_enpassant_moves at h
  by_cases hep : SQUARE_TO_BITBOARD ep ≠ 0
  · simp only [hep, hking, ne_eq, not_false_eq_true, if_true, List.mem_append] at h
    have hb : ∀ s, ((if g.me = WHITE then SQUARE_TO_BITBOARD ep >>> 8
        else shl (SQUARE_TO_BITBOARD ep) 8) &&& k.checkmask &&& bnot k.diagonal_pin).testBit s
          = true → s = enpassant_victim g.me ep := by
      intro s hs
      simp only [Nat.testBit_and, Bool.and_eq_true] at hs
      exact (testBit_victim_shift hs.1.1).1
    have hb64 : ∀ s, ((if g.me = WHITE then SQUARE_TO_BITBOARD ep >>> 8
        else shl (SQUARE_TO_BITBOARD ep) 8) &&& k.checkmask &&& bnot k.diagonal_pin).testBit s
          = true → s < 64 := by
      intro s hs
      simp only [Nat.testBit_and, Bool.and_eq_true] at hs
      exact (testBit_victim_shift hs.1.1).2
    rcases h with h | h
    · obtain ⟨hne, rfl⟩ := mem_if_singleton h
      obtain ⟨h0, h1, h2⟩ := enpassant_core
        (fun o => get_rook_attacks g.my_king_square (g.all_pieces ^^^ o) &&&
          g.your_orthogonal_sliders) (V := enpassant_victim g.me ep)
        (F := enpassant_victim g.me ep + 1) hne hb (by
          intro s hs
          simp only [Nat.testBit_and, Bool.and_eq_true] at hs
          have h3 := hs.1.2
          rw [testBit_shl] at h3
          simp only [Bool.and_eq_true, decide_eq_true_eq] at h3
          have h4 := hb _ h3.2.2
          have h5 : s = enpassant_victim g.me ep + 1 := by omega
          refine ⟨h5, h3.1, ?_⟩
          rw [← h4]
          exact h3.2.2)
      show get_lsb_idx _ < 64 ∧ get_rook_attacks _ (_ ^^^ (_ ||| 2 ^ get_lsb_idx _)) &&& _ = 0
      rw [h2]
      exact ⟨h0, h1⟩
    · obtain ⟨hne, rfl⟩ := mem_if_singleton h
      obtain ⟨h0, h1, h2⟩ := enpassant_core
        (fun o => get_rook_attacks g.my_king_square (g.all_pieces ^^^ o) &&&
          g.your_orthogonal_sliders) (V := enpassant_victim g.me ep)
        (F := enpassant_victim g.me ep - 1) hne hb (by
          intro s hs
          simp only [Nat.testBit_and, Bool.and_eq_true] at hs
          have h3 := hs.1.2
          rw [Nat.testBit_shiftRight] at h3
          have h4 := hb _ h3
          have h6 := hb64 _ h3
          have h5 : s = enpassant_victim g.me ep - 1 := by omega
          refine ⟨h5, by omega, ?_⟩
          rw [← h4]
          exact h3)
      show get_lsb_idx _ < 64 ∧ get_rook_attacks _ (_ ^^^ (_ ||| 2 ^ get_lsb_idx _)) &&& _ = 0
      rw [h2]
      exact ⟨h0, h1⟩
  · simp only [hep, if_false] at h
    exact absurd h (List.not_mem_nil _)

/-! ## Rays along a rank -/

theorem walk_rank (n : Nat) (f r df : Int) (hr0 : 0 ≤ r) (hr8 : r < 8) (s : Nat)
    (h : s ∈ walk n f r df 0) : s / 8 = r.toNat ∧ s < 64 := by
  induction n generalizing f with
  | zero => exact absurd h (List.not_mem_nil _)
  | succ n ih =>
    unfold walk at h
    simp only [add_zero] at h
    split_ifs at h with hc
    · rw [List.mem_cons] at h
      rcases h with h | h
      · subst h
        omega
      · exact ih (f + df) h
    · exact absurd h (List.not_mem_nil _)

theorem ray_squares_rank {sq : Nat} (hsq : sq < 64) {df : Int} {s : Nat}
    (h : s ∈ ray_squares sq (df, 0)) : s / 8 = sq / 8 ∧ s < 64 := by
  unfold ray_squares at h
  have := walk_rank 7 _ _ df (by omega) (by omega) s h
  omega

theorem ray_attacks_congr {occ occ2 : Nat} (l : List Nat)
    (h : ∀ s, s ∈ l → occ.testBit s = occ2.testBit s) :
    ray_attacks occ l = ray_attacks occ2 l := by
  induction l with
  | nil => rfl
  | cons s rest ih =>
    simp only [ray_attacks]
    rw [h s (List.mem_cons_self _ _), ih (fun t ht => h t (List.mem_cons_of_mem _ ht))]

theorem ray_subset_rook {sq occ i : Nat} {d : Int × Int} (hd : d ∈ ORTHOGONAL_DIRS)
    (h : (ray_attacks occ (ray_squares sq d)).testBit i = true) :
    (get_rook_attacks sq occ).testBit i = true := by
  unfold get_rook_attacks slider_attacks
  rw [testBit_foldl_or_of (fun d => ray_attacks occ (ray_squares sq d))]
  exact Or.inr ⟨d, hd, h⟩

/-! ## The occupancy after an en passant capture -/

theorem testBit_occupancy {Q : Position} (hs : Q.side_to_play < 2) (s : Nat) :
    (occupancy Q).testBit s = true ↔ ∃ k, k < 12 ∧ (Q.pieces.getD k 0).testBit s = true := by
  have hside : Q.side_to_play = 0 ∨ Q.side_to_play = 1 := by omega
  unfold occupancy Sides.all_pieces Sides.all_my_pieces Sides.all_your_pieces sides Position.bb
  simp only [Nat.testBit_or, Bool.or_eq_true]
  rcases hside with h | h <;> rw [h]
  · constructor
    · intro hh
      rcases hh with (((((hh | hh) | hh) | hh) | hh) | hh) | (((((hh | hh) | hh) | hh) | hh) | hh)
      all_goals exact ⟨_, by decide, hh⟩
    · rintro ⟨k, hk, hh⟩
      interval_cases k
      · exact Or.inl (Or.inl (Or.inl (Or.inl (Or.inl (Or.inl hh)))))
      · exact Or.inl (Or.inl (Or.inl (Or.inl (Or.inl (Or.inr hh)))))
      · exact Or.inl (Or.inl (Or.inl (Or.inl (Or.inr hh))))
      · exact Or.inl (Or.inl (Or.inl (Or.inr hh)))
      · exact Or.inl (Or.inl (Or.inr hh))
      · exact Or.inl (Or.inr hh)
      · exact Or.inr (Or.inl (Or.inl (Or.inl (Or.inl (Or.inl hh)))))
      · exact Or.inr (Or.inl (Or.inl (Or.inl (Or.inl (Or.inr hh)))))
      · exact Or.inr (Or.inl (Or.inl (Or.inl (Or.inr hh))))
      · exact Or.inr (Or.inl (Or.inl (Or.inr hh)))
      · exact Or.inr (Or.inl (Or.inr hh))
      · exact Or.inr (Or.inr hh)
  · constructor
    · intro hh
      rcases hh with (((((hh | hh) | hh) | hh) | hh) | hh) | (((((hh | hh) | hh) | hh) | hh) | hh)
      all_goals exact ⟨_, by decide, hh⟩
    · rintro ⟨k, hk, hh⟩
      interval_cases k
      · exact Or.inr (Or.inl (Or.inl (Or.inl (Or.inl (Or.inl hh)))))
      · exact Or.inr (Or.inl (Or.inl (Or.inl (Or.inl (Or.inr hh)))))
      · exact Or.inr (Or.inl (Or.inl (Or.inl (Or.inr hh))))
      · exact Or.inr (Or.inl (Or.inl (Or.inr hh)))
      · exact Or.inr (Or.inl (Or.inr hh))
      · exact Or.inr (Or.inr hh)
      · exact Or.inl (Or.inl (Or.inl (Or.inl (Or.inl (Or.inl hh)))))
      · exact Or.inl (Or.inl (Or.inl (Or.inl (Or.inl (Or.inr hh)))))
      · exact Or.inl (Or.inl (Or.inl (Or.inl (Or.inr hh))))
      · exact Or.inl (Or.inl (Or.inl (Or.inr hh)))
      · exact Or.inl (Or.inl (Or.inr hh))
      · exact Or.inl (Or.inr hh)


theorem piece_bit_iff {pos : Position} (hc : consistent pos) {k s : Nat} (hk : k < 12)
    (hs : s < 64) : (pos.pieces.getD k 0).testBit s = true ↔ pos.board.getD s 0 = k + 1 := by
  have := hc.2.2.2.2 (k / 6) (by omega) (k % 6) (by omega) s hs
  unfold Position.bb TYPE_TO_PIECE at this
  have e : 6 * (k / 6) + k % 6 = k := by omega
  rw [e] at this
  exact this

theorem play_enpassant_pieces (pos : Position) (m : Move)
    (hs : pos.side_to_play < 2) (hflag : m.flag = EN_PASSANT) (hp : playable pos m) :
    (play false pos m).side_to_play = pos.side_to_play ^^^ BLACK ∧
    (play false pos m).pieces =
      (pos.pieces.set (6 * pos.side_to_play + PAWN)
        (pos.pieces.getD (6 * pos.side_to_play + PAWN) 0 ^^^
          (SQUARE_TO_BITBOARD m.from_sq ||| SQUARE_TO_BITBOARD m.to_sq))).set
        (6 * (pos.side_to_play ^^^ BLACK) + PAWN)
        (pos.pieces.getD (6 * (pos.side_to_play ^^^ BLACK) + PAWN) 0 &&&
          bnot (SQUARE_TO_BITBOARD (enpassant_victim pos.side_to_play m.to_sq))) := by
  unfold playable at hp
  simp only [hflag] at hp
  obtain ⟨hf, ht, hpf, hpt, hv, hvf, hvt, hpv⟩ := hp
  have hs2 := xor_black_facts hs
  have hP := type_to_piece_facts hs (show PAWN < 6 by decide)
  have hP2 := type_to_piece_facts hs2.1 (show PAWN < 6 by decide)
  generalize hvdef : enpassant_victim pos.side_to_play m.to_sq = v at hv hvf hvt hpv
  have hb1 : ((pos.board.set m.to_sq (pos.board.getD m.from_sq 0)).set m.from_sq NO_PIECE).getD
      v 0 = pos.board.getD v 0 := by
    rw [getD_set_ne _ _ _ _ _ hvf.symm, getD_set_ne _ _ _ _ _ hvt.symm]
  rw [hpf] at hb1
  have hplay : play false pos m = remove_piece
      (move_piece_quiet (play_begin pos m) m.from_sq m.to_sq) v := by
    unfold play; simp only [hflag]
    rw [← hvdef]; rfl
  rw [hplay]
  simp only [remove_piece, move_piece_quiet, play_begin, hb1, hpf, hpv, hP.1, hP.2.1, hP2.1,
    hP2.2.1]
  refine ⟨trivial, ?_⟩
  have hij : 6 * pos.side_to_play + PAWN ≠ 6 * (pos.side_to_play ^^^ BLACK) + PAWN := by
    have := hs2.1; have := hs2.2; omega
  rw [getD_set_ne _ _ _ _ _ hij]

theorem occupancy_after_enpassant (pos : Position) (m : Move) (hc : consistent pos)
    (hs : pos.side_to_play < 2) (hflag : m.flag = EN_PASSANT) (hp : playable pos m)
    {s : Nat} (hs64 : s < 64) (hst : s ≠ m.to_sq) :
    (occupancy (play false pos m)).testBit s =
      ((sides pos).all_pieces ^^^
        (2 ^ enpassant_victim pos.side_to_play m.to_sq ||| 2 ^ m.from_sq)).testBit s := by
  obtain ⟨hside2, hpieces⟩ := play_enpassant_pieces pos m hs hflag hp
  unfold playable at hp
  simp only [hflag] at hp
  obtain ⟨hf, ht, hpf, hpt, hv, hvf, hvt, hpv⟩ := hp
  have hs2 := xor_black_facts hs
  generalize enpassant_victim pos.side_to_play m.to_sq = v at hv hvf hvt hpv hpieces ⊢
  generalize hi : 6 * pos.side_to_play + PAWN = i at hpieces
  generalize hj : 6 * (pos.side_to_play ^^^ BLACK) + PAWN = j at hpieces
  have hi12 : i < 12 := by rw [← hi]; unfold PAWN; omega
  have hj12 : j < 12 := by rw [← hj]; unfold PAWN; have := hs2.1; omega
  have hij : i ≠ j := by
    rw [← hi, ← hj]; have := hs2.1; have := hs2.2; omega
  have hbF : pos.board.getD m.from_sq 0 = i + 1 := by rw [hpf, ← hi]; rfl
  have hbV : pos.board.getD v 0 = j + 1 := by rw [hpv, ← hj]; rfl
  have hlen : pos.pieces.length = 12 := hc.1
  have hQ : ∀ k, k < 12 → (((play false pos m).pieces.getD k 0).testBit s = true ↔
      (pos.pieces.getD k 0).testBit s = true ∧ s ≠ m.from_sq ∧ s ≠ v) := by
    intro k hk
    rw [hpieces]
    have hnF : k ≠ i → (pos.pieces.getD k 0).testBit s = true → s ≠ m.from_sq := by
      intro hki hb hsF
      rw [hsF, piece_bit_iff hc hk hf, hbF] at hb
      omega
    have hnV : k ≠ j → (pos.pieces.getD k 0).testBit s = true → s ≠ v := by
      intro hkj hb hsV
      rw [hsV, piece_bit_iff hc hk hv, hbV] at hb
      omega
    by_cases hkj : k = j
    · subst hkj
      rw [getD_set_eq _ _ _ _ (by rw [List.length_set, hlen]; exact hk)]
      rw [Nat.testBit_and, testBit_bnot, testBit_SQUARE_TO_BITBOARD]
      by_cases hsV : s = v
      · have e : (decide (s < 64) != (decide (v < 64) && decide (v = s))) = false := by
          simp [hs64, hv, hsV]
        rw [e, Bool.and_false]
        constructor
        · intro h; exact Bool.noConfusion h
        · intro h; exact absurd hsV h.2.2
      · have e : (decide (s < 64) != (decide (v < 64) && decide (v = s))) = true := by
          simp [hs64, hv, Ne.symm hsV]
        rw [e, Bool.and_true]
        constructor
        · intro h1
          exact ⟨h1, hnF (Ne.symm hij) h1, hsV⟩
        · exact fun h => h.1
    · rw [getD_set_ne _ _ _ _ _ (Ne.symm hkj)]
      by_cases hki : k = i
      · subst hki
        rw [getD_set_eq _ _ _ _ (by rw [hlen]; exact hk)]
        rw [Nat.testBit_xor, Nat.testBit_or, testBit_SQUARE_TO_BITBOARD,
          testBit_SQUARE_TO_BITBOARD]
        by_cases hsF : s = m.from_sq
        · have hx : (pos.pieces.getD k 0).testBit s = true := by
            rw [hsF]; exact (piece_bit_iff hc hk hf).2 hbF
          have e : (decide (m.from_sq < 64) && decide (m.from_sq = s) ||
              decide (m.to_sq < 64) && decide (m.to_sq = s)) = true := by
            simp [hf, hsF]
          rw [hx, e]
          constructor
          · intro h; exact Bool.noConfusion h
          · intro h; exact absurd hsF h.2.1
        · have e : (decide (m.from_sq < 64) && decide (m.from_sq = s) ||
              decide (m.to_sq < 64) && decide (m.to_sq = s)) = false := by
            simp [Ne.symm hsF, Ne.symm hst]
          rw [e, Bool.xor_false]
          constructor
          · intro h1
            exact ⟨h1, hsF, hnV hkj h1⟩
          · exact fun h => h.1
      · rw [getD_set_ne _ _ _ _ _ (Ne.symm hki)]
        constructor
        · intro h1
          exact ⟨h1, hnF hki h1, hnV hkj h1⟩
        · exact fun h => h.1
  have hside3 : (play false pos m).side_to_play < 2 := by rw [hside2]; exact hs2.1
  have hall : ∀ t, (sides pos).all_pieces.testBit t = true ↔
      ∃ k, k < 12 ∧ (pos.pieces.getD k 0).testBit t = true := testBit_occupancy hs
  rw [Bool.eq_iff_iff, testBit_occupancy hside3, Nat.testBit_xor, Nat.testBit_or,
    Nat.testBit_two_pow, Nat.testBit_two_pow]
  constructor
  · rintro ⟨k, hk, hb⟩
    obtain ⟨h1, h2, h3⟩ := (hQ k hk).1 hb
    have h4 : (sides pos).all_pieces.testBit s = true := (hall s).2 ⟨k, hk, h1⟩
    have h5 : decide (v = s) = false := decide_eq_false (Ne.symm h3)
    have h6 : decide (m.from_sq = s) = false := decide_eq_false (Ne.symm h2)
    rw [h4, h5, h6]
    rfl
  · intro h
    have hFall : (sides pos).all_pieces.testBit m.from_sq = true :=
      (hall _).2 ⟨i, hi12, (piece_bit_iff hc hi12 hf).2 hbF⟩
    have hVall : (sides pos).all_pieces.testBit v = true :=
      (hall _).2 ⟨j, hj12, (piece_bit_iff hc hj12 hv).2 hbV⟩
    have h2 : s ≠ m.from_sq := by
      intro e
      rw [e, hFall] at h
      simp at h
    have h3 : s ≠ v := by
      intro e
      rw [e, hVall] at h
      simp at h
    have h5 : decide (v = s) = false := decide_eq_false (Ne.symm h3)
    have h6 : decide (m.from_sq = s) = false := decide_eq_false (Ne.symm h2)
    rw [h5, h6] at h
    have h4 : (sides pos).all_pieces.testBit s = true := by simpa using h
    obtain ⟨k, hk, hb⟩ := (hall s).1 h4
    exact ⟨k, hk, (hQ k hk).2 ⟨hb, h2, h3⟩⟩


/-! ## The rank of the capturing pawn -/

theorem not_a_file_bit : ∀ s, s < 64 → NOT_A_FILE.testBit s = true → s % 8 ≠ 0 := by decide

theorem not_h_file_bit : ∀ s, s < 64 → NOT_H_FILE.testBit s = true → s % 8 ≠ 7 := by decide

theorem left_capturer_rank {x p b V : Nat}
    (hsub : ∀ s, x.testBit s = true → (p &&& NOT_A_FILE &&& shl b 1).testBit s = true)
    (hx : x ≠ 0) (hb : ∀ s, b.testBit s = true → s = V ∧ s < 64) :
    get_lsb_idx x / 8 = V / 8 := by
  have hlt : x < 2 ^ 64 := lt_of_subset (lt_of_and_right (shl_lt b 1)) hsub
  have h := hsub _ (testBit_get_lsb_idx hx hlt)
  rw [Nat.testBit_and, Nat.testBit_and, testBit_shl] at h
  simp only [Bool.and_eq_true, decide_eq_true_eq] at h
  obtain ⟨⟨_, h1⟩, h2, h3, h4⟩ := h
  have h5 := not_a_file_bit _ h2 h1
  have h6 := (hb _ h4).1
  omega

theorem right_capturer_rank {x p b V : Nat}
    (hsub : ∀ s, x.testBit s = true → (p &&& NOT_H_FILE &&& (b >>> 1)).testBit s = true)
    (hx : x ≠ 0) (hb : ∀ s, b.testBit s = true → s = V ∧ s < 64) :
    get_lsb_idx x / 8 = V / 8 := by
  have hlt : x < 2 ^ 64 := by
    refine lt_of_subset (lt_of_and_left (lt_of_and_right (?_ : NOT_H_FILE < 2 ^ 64))) hsub
    decide
  have h := hsub _ (testBit_get_lsb_idx hx hlt)
  rw [Nat.testBit_and, Nat.testBit_and, Nat.testBit_shiftRight] at h
  simp only [Bool.and_eq_true] at h
  obtain ⟨⟨_, h1⟩, h4⟩ := h
  have h6 := hb _ h4
  have h5 := not_h_file_bit _ (by omega) h1
  omega

theorem enpassant_from_rank {g : Sides} {k : Masks} {pt ep : Nat} {m : Move}
    (h : m ∈ std_enpassant_moves g k pt ep) :
    m.from_sq / 8 = enpassant_victim g.me ep / 8 ∧ m.to_sq = ep ∧ ep < 64 := by
  unfold std_enpassant_moves at h
  by_cases hep : SQUARE_TO_BITBOARD ep ≠ 0
  · obtain ⟨h64, hidx⟩ := get_lsb_idx_SQUARE_TO_BITBOARD hep
    simp only [hep, ne_eq, not_false_eq_true, if_true, List.mem_append] at h
    have hb : ∀ s, ((if g.me = WHITE then SQUARE_TO_BITBOARD ep >>> 8
        else shl (SQUARE_TO_BITBOARD ep) 8) &&& k.checkmask &&& bnot k.diagonal_pin).testBit s
          = true → s = enpassant_victim g.me ep ∧ s < 64 := by
      intro s hs
      simp only [Nat.testBit_and, Bool.and_eq_true] at hs
      exact testBit_victim_shift hs.1.1
    generalize (if g.me = WHITE then SQUARE_TO_BITBOARD ep >>> 8
      else shl (SQUARE_TO_BITBOARD ep) 8) &&& k.checkmask &&& bnot k.diagonal_pin = B at h hb
    rcases h with h | h
    · obtain ⟨hne, rfl⟩ := mem_if_singleton h
      refine ⟨left_capturer_rank (p := pt) ?_ hne hb, hidx, h64⟩
      intro s hs
      split_ifs at hs <;> simp only [Nat.testBit_and, Bool.and_eq_true] at hs ⊢ <;> tauto
    · obtain ⟨hne, rfl⟩ := mem_if_singleton h
      refine ⟨right_capturer_rank (p := pt) ?_ hne hb, hidx, h64⟩
      intro s hs
      split_ifs at hs <;> simp only [Nat.testBit_and, Bool.and_eq_true] at hs ⊢ <;> tauto
  · simp only [hep, if_false] at h
    exact absurd h (List.not_mem_nil _)


/-! ## No en passant capture opens the king's rank -/

theorem ep_rank_bit : ∀ c, c < 2 → ∀ s, s < 64 → s / 8 = (if c = WHITE then 4 else 3) →
    (EP_RANK c).testBit s = true := by decide

/-- An en passant move written by the standard generator for a pawn on the king's rank
leaves no enemy rook or queen attacking the king along that rank. -/
theorem enpassant_keeps_rank_closed {pos : Position} (hinv : data_model_invariants pos)
    {m : Move} (hm : m ∈ generate_legal_moves_standard pos) (hflag : m.flag = EN_PASSANT)
    (hrank : king_square pos pos.side_to_play / 8 = m.from_sq / 8) :
    ¬ rank_attacked (play false pos m) (pos.side_to_play ^^^ BLACK)
      (king_square pos pos.side_to_play) := by
  have hp : playable pos m := emitted_playable hinv hm
  obtain ⟨hc, hs, hkw, hkb, _, hep, _, _, _⟩ := hinv
  obtain ⟨hkme, _⟩ := one_king_side hs hkw hkb
  have hs2 := xor_black_facts hs
  have hmem := enpassant_of_flag hm hflag
  obtain ⟨hFrank, hto, hT64⟩ := enpassant_from_rank hmem
  have hme : (sides pos).me = pos.side_to_play := rfl
  rw [hme] at hFrank
  -- the king square
  obtain ⟨ks, hks64, hkbb⟩ := hkme
  have hksq : king_square pos pos.side_to_play = ks := by
    unfold king_square; rw [hkbb]; exact get_lsb_idx_two_pow hks64
  have hksq2 : (sides pos).my_king_square = ks := hksq
  rw [hksq] at hrank ⊢
  -- the ranks of the squares involved
  have hgeo : ks / 8 = (if pos.side_to_play = WHITE then 4 else 3) ∧ m.to_sq / 8 ≠ ks / 8 := by
    rw [hrank, hFrank, hto]
    unfold enpassant_victim
    rcases hep with hno | ⟨hside, h40, h48, _⟩ | ⟨hside, h16, h24, _⟩
    · unfold NO_SQUARE at hno; omega
    · rw [if_pos hside, if_pos hside]; omega
    · have hnw : pos.side_to_play ≠ WHITE := by rw [hside]; decide
      rw [if_neg hnw, if_neg hnw]; omega
  have hking : (sides pos).my_king &&& EP_RANK (sides pos).me ≠ 0 := by
    intro h0
    have hb := testBit_false_of_eq_zero h0 ks
    have h1 : (sides pos).my_king.testBit ks = true := by
      show (pos.bb pos.side_to_play KING).testBit ks = true
      rw [hkbb, Nat.testBit_two_pow]; simp
    rw [Nat.testBit_and, h1, hme, ep_rank_bit _ hs _ hks64 hgeo.1] at hb
    exact Bool.noConfusion hb
  obtain ⟨hF64, hX⟩ := enpassant_rank_test hking hmem
  rw [hme, ← hto, hksq2] at hX
  -- occupancy and sliders after the move
  obtain ⟨_, hpieces⟩ := play_enpassant_pieces pos m hs hflag hp
  have hocc : ∀ d : Int, ray_attacks (occupancy (play false pos m)) (ray_squares ks (d, 0)) =
      ray_attacks ((sides pos).all_pieces ^^^
        (2 ^ enpassant_victim pos.side_to_play m.to_sq ||| 2 ^ m.from_sq))
        (ray_squares ks (d, 0)) := by
    intro d
    apply ray_attacks_congr
    intro s hsmem
    obtain ⟨h1, h2⟩ := ray_squares_rank hks64 hsmem
    refine occupancy_after_enpassant pos m hc hs hflag hp h2 ?_
    intro e
    rw [e] at h1
    exact hgeo.2 h1
  have hrq : ∀ t, t = ROOK ∨ t = QUEEN → (play false pos m).bb (pos.side_to_play ^^^ BLACK) t =
      pos.bb (pos.side_to_play ^^^ BLACK) t := by
    intro t ht
    unfold Position.bb
    rw [hpieces, getD_set_ne, getD_set_ne]
    · have := hs2.1; have := hs2.2
      rcases ht with ht | ht <;> rw [ht] <;> simp only [PAWN, ROOK, QUEEN] <;> omega
    · rcases ht with ht | ht <;> rw [ht] <;> simp only [PAWN, ROOK, QUEEN] <;> omega
  unfold rank_attacked
  rw [hocc 1, hocc (-1), hrq ROOK (Or.inl rfl), hrq QUEEN (Or.inr rfl)]
  intro hne
  apply hne
  apply Nat.eq_of_testBit_eq
  intro i
  rw [Nat.zero_testBit]
  have hXi := testBit_false_of_eq_zero hX i
  rw [Nat.testBit_and] at hXi ⊢
  cases hq : (pos.bb (pos.side_to_play ^^^ BLACK) ROOK |||
      pos.bb (pos.side_to_play ^^^ BLACK) QUEEN).testBit i
  · exact Bool.and_false _
  · have hq2 : (sides pos).your_orthogonal_sliders.testBit i = true := hq
    rw [hq2, Bool.and_true] at hXi
    rw [Bool.and_true, Nat.testBit_or]
    cases h1 : (ray_attacks ((sides pos).all_pieces ^^^
        (2 ^ enpassant_victim pos.side_to_play m.to_sq ||| 2 ^ m.from_sq))
        (ray_squares ks (1, 0))).testBit i
    · cases h2 : (ray_attacks ((sides pos).all_pieces ^^^
          (2 ^ enpassant_victim pos.side_to_play m.to_sq ||| 2 ^ m.from_sq))
          (ray_squares ks (-1, 0))).testBit i
      · rfl
      · rw [ray_subset_rook (by decide) h2] at hXi
        exact Bool.noConfusion hXi
    · rw [ray_subset_rook (by decide) h1] at hXi
      exact Bool.noConfusion hXi


end AtomicChess

namespace AtomicChess

open MoveFlag

/-! ## The castling record along a line of play -/

theorem entries_getD (pos : Position) (k : Nat) :
    (pos.history.getD k ⟨0, 0, 0⟩).entry = (entries pos).getD k 0 := by
  unfold entries
  simp only [List.getD_eq_getElem?_getD, List.getElem?_map]
  cases pos.history[k]? <;> rfl

theorem cur_entry (pos : Position) : (cur pos).entry = (entries pos).getD pos.ply 0 :=
  entries_getD pos pos.ply

theorem entries_set_captured (pos : Position) (v : Nat) :
    entries (set_captured pos v) = entries pos := by
  unfold set_captured entries
  simp only [List.map_set]
  exact set_eq_self_of_getD _ _ _ 0 (entries_getD pos pos.ply).symm

theorem entries_set_enpassant (pos : Position) (v : Nat) :
    entries (set_enpassant pos v) = entries pos := by
  unfold set_enpassant entries
  simp only [List.map_set]
  exact set_eq_self_of_getD _ _ _ 0 (entries_getD pos pos.ply).symm

theorem entries_capture_fold (l : List Nat) (st : Position × Nat × Nat) :
    entries (l.foldl atomic_capture_step st).1 = entries st.1 ∧
    (l.foldl atomic_capture_step st).1.ply = st.1.ply := by
  induction l generalizing st with
  | nil => exact ⟨rfl, rfl⟩
  | cons s rest ih =>
    rw [List.foldl_cons]
    obtain ⟨h1, h2⟩ := ih (atomic_capture_step st s)
    rw [h1, h2]
    unfold atomic_capture_step
    simp only
    split_ifs <;> exact ⟨rfl, rfl⟩

theorem entries_atomic_capture (pos : Position) (a b : Nat) :
    entries (atomic_capture pos a b) = entries pos ∧ (atomic_capture pos a b).ply = pos.ply := by
  unfold atomic_capture
  simp only
  rw [entries_set_captured]
  obtain ⟨h1, h2⟩ := entries_capture_fold (squares_of (KING_ATTACKS a))
    (remove_piece (remove_piece pos b) a,
      pos.board.getD b 0 ||| shl (pos.board.getD a 0) 4, 2)
  exact ⟨h1, h2⟩

theorem entries_play_begin (pos : Position) (m : Move) :
    entries (play_begin pos m) = (entries pos).set (pos.ply + 1)
      ((entries pos).getD pos.ply 0 |||
        (SQUARE_TO_BITBOARD m.to_sq ||| SQUARE_TO_BITBOARD m.from_sq)) ∧
    (play_begin pos m).ply = pos.ply + 1 := by
  refine ⟨?_, rfl⟩
  unfold play_begin entries
  simp only [List.map_set, Nat.add_sub_cancel]
  rw [entries_getD]
  rfl

/-- Apart from its prologue `play` leaves the column of `entry` values and the ply as they
are. -/
theorem entries_play (atomic : Bool) (pos : Position) (m : Move) :
    entries (play atomic pos m) = entries (play_begin pos m) ∧
    (play atomic pos m).ply = pos.ply + 1 := by
  have hpc : ∀ pt, entries (play_promotion_capture atomic (play_begin pos m) m
      pos.side_to_play pt) = entries (play_begin pos m) ∧
      (play_promotion_capture atomic (play_begin pos m) m pos.side_to_play pt).ply
        = pos.ply + 1 := by
    intro pt
    unfold play_promotion_capture
    cases atomic
    · simp only [Bool.false_eq_true, if_false]
      refine ⟨?_, rfl⟩
      show entries (set_captured _ _) = _
      rw [entries_set_captured]
      rfl
    · simp only [if_true]
      obtain ⟨h1, h2⟩ := entries_atomic_capture (play_begin pos m) m.to_sq m.from_sq
      exact ⟨h1, h2⟩
  unfold play
  cases hf : m.flag <;> simp only
  · exact ⟨rfl, rfl⟩
  · refine ⟨?_, rfl⟩
    rw [entries_set_enpassant]
    rfl
  · split_ifs <;> exact ⟨rfl, rfl⟩
  · split_ifs <;> exact ⟨rfl, rfl⟩
  · cases atomic
    · simp only [Bool.false_eq_true, if_false]
      refine ⟨?_, rfl⟩
      show entries (set_captured _ _) = _
      rw [entries_set_captured]
    · simp only [if_true]
      exact entries_atomic_capture _ _ _
  · cases atomic
    · simp only [Bool.false_eq_true, if_false]
      exact ⟨rfl, rfl⟩
    · simp only [if_true]
      obtain ⟨h1, h2⟩ := entries_atomic_capture
        (remove_piece (play_begin pos m)
          (if pos.side_to_play = WHITE then m.to_sq - 8 else m.to_sq + 8)) m.to_sq m.from_sq
      exact ⟨h1, h2⟩
  · exact ⟨rfl, rfl⟩
  · exact ⟨rfl, rfl⟩
  · exact ⟨rfl, rfl⟩
  · exact ⟨rfl, rfl⟩
  · exact hpc KNIGHT
  · exact hpc BISHOP
  · exact hpc ROOK
  · exact hpc QUEEN

/-- The effect of `play` on the castling record: the new `history[ply].entry` is the old
one with the bits of `to` and `from` added, and the old record is still at `ply - 1`. -/
theorem play_entry (atomic : Bool) (pos : Position) (m : Move)
    (h : pos.ply + 1 < pos.history.length) :
    (play atomic pos m).ply = pos.ply + 1 ∧
    (entries (play atomic pos m)).length = (entries pos).length ∧
    (entries (play atomic pos m)).getD pos.ply 0 = (cur pos).entry ∧
    (cur (play atomic pos m)).entry = (cur pos).entry |||
      (SQUARE_TO_BITBOARD m.to_sq ||| SQUARE_TO_BITBOARD m.from_sq) := by
  obtain ⟨h1, h2⟩ := entries_play atomic pos m
  obtain ⟨h3, _⟩ := entries_play_begin pos m
  have hlen : (entries pos).length = pos.history.length := by
    unfold entries; exact List.length_map _ _
  rw [cur_entry, cur_entry, h2, h1, h3]
  refine ⟨rfl, List.length_set _ _ _, ?_, ?_⟩
  · exact getD_set_ne _ _ _ _ _ (by omega)
  · exact getD_set_eq _ _ _ _ (by omega)

theorem line_entry (atomic : Bool) (ms : List Move) (pos : Position)
    (h : pos.ply + ms.length < pos.history.length) (i : Nat)
    (hi : (cur pos).entry.testBit i = true) :
    (cur (play_line atomic pos ms)).entry.testBit i = true := by
  induction ms generalizing pos with
  | nil => exact hi
  | cons m rest ih =>
    have hlen : ∀ q : Position, (entries q).length = q.history.length := by
      intro q; unfold entries; exact List.length_map _ _
    have hb : pos.ply + 1 < pos.history.length := by
      rw [List.length_cons] at h; omega
    obtain ⟨h1, h2, _, h4⟩ := play_entry atomic pos m hb
    rw [hlen, hlen] at h2
    apply ih (play atomic pos m)
    · rw [h1, h2]
      rw [List.length_cons] at h
      omega
    · rw [h4, Nat.testBit_or, hi]
      rfl

/-! ## Castling moves of the atomic generator -/

theorem flag_atomic_add_move {me you a b c d e f g from_sq to_sq ksq : Nat} {ip ie : Bool}
    {m : Move} (h : m ∈ atomic_add_move me you a b c d e f g from_sq to_sq ksq ip ie) :
    m.flag ≠ OO ∧ m.flag ≠ OOO := by
  unfold atomic_add_move at h
  simp only at h
  split_ifs at h
  all_goals first
    | exact absurd h (List.not_mem_nil _)
    | (rcases (mem_four_moves h).2.2 with e | e | e | e <;> rw [e] <;>
        exact ⟨by decide, by decide⟩)
    | (rw [List.mem_singleton] at h
       rw [h]; exact ⟨fun e => MoveFlag.noConfusion e, fun e => MoveFlag.noConfusion e⟩)

theorem flag_atomic_quiet_move {g : Sides} {fl : MoveFlag} {a b : Nat} {m : Move}
    (h : m ∈ atomic_quiet_move g fl a b) : m.flag = fl := by
  unfold atomic_quiet_move at h
  split_ifs at h
  · rw [List.mem_singleton] at h
    rw [h]
  · exact absurd h (List.not_mem_nil _)

theorem flag_atomic_piece_targets {g : Sides} {a t : Nat} {m : Move}
    (h : m ∈ atomic_piece_targets g a t) : m.flag ≠ OO ∧ m.flag ≠ OOO := by
  unfold atomic_piece_targets at h
  rw [List.mem_flatMap] at h
  obtain ⟨s, _, hm⟩ := h
  split_ifs at hm
  · exact flag_atomic_add_move hm
  · rw [flag_atomic_quiet_move hm]; exact ⟨by decide, by decide⟩

theorem flag_atomic_enpassant_moves {g : Sides} {ep : Nat} {m : Move}
    (h : m ∈ atomic_enpassant_moves g ep) : m.flag ≠ OO ∧ m.flag ≠ OOO := by
  unfold atomic_enpassant_moves at h
  simp only at h
  split_ifs at h
  all_goals first
    | exact absurd h (List.not_mem_nil _)
    | (rw [List.mem_append] at h
       rcases h with h | h
       all_goals first
         | exact absurd h (List.not_mem_nil _)
         | exact flag_atomic_add_move h)

/-- A move with flag `OO` or `OOO` in the output of the atomic generator was written by
the castling block. -/
theorem castle_of_flag_atomic {pos : Position} {m : Move}
    (h : m ∈ generate_legal_moves_atomic pos) (hf : m.flag = OO ∨ m.flag = OOO) :
    m ∈ castling_moves (cur pos).entry (sides pos).me (sides pos).all_pieces
      (attacked_squares (sides pos) false) (sides pos).my_king := by
  have hno : m.flag ≠ OO ∧ m.flag ≠ OOO → False := by
    rintro ⟨h1, h2⟩
    rcases hf with hf | hf
    · exact h1 hf
    · exact h2 hf
  unfold generate_legal_moves_atomic at h
  simp only [List.mem_append] at h
  rcases h with ((((((((h | h) | h) | h) | h) | h) | h) | h) | h) | h
  · exact (hno (by rw [flag_get_moves h]; exact ⟨by decide, by decide⟩)).elim
  · exact h
  · rw [List.mem_flatMap] at h
    obtain ⟨s, _, hm⟩ := h
    exact (hno (by rw [flag_atomic_quiet_move hm]; exact ⟨by decide, by decide⟩)).elim
  · rw [List.mem_flatMap] at h
    obtain ⟨s, _, hm⟩ := h
    exact (hno (by rw [flag_atomic_quiet_move hm]; exact ⟨by decide, by decide⟩)).elim
  · rw [List.mem_flatMap] at h
    obtain ⟨s, _, hm⟩ := h
    exact (hno (flag_atomic_add_move hm)).elim
  · rw [List.mem_flatMap] at h
    obtain ⟨s, _, hm⟩ := h
    exact (hno (flag_atomic_add_move hm)).elim
  · exact (hno (flag_atomic_enpassant_moves h)).elim
  · rw [List.mem_flatMap] at h
    obtain ⟨s, _, hm⟩ := h
    exact (hno (flag_atomic_piece_targets hm)).elim
  · rw [List.mem_flatMap] at h
    obtain ⟨s, _, hm⟩ := h
    exact (hno (flag_atomic_piece_targets hm)).elim
  · rw [List.mem_flatMap] at h
    obtain ⟨s, _, hm⟩ := h
    exact (hno (flag_atomic_piece_targets hm)).elim

/-- In either build a castling move is written only when the bits of its mask are all
clear in `history[ply].entry`. -/
theorem castle_needs_clear_entry (atomic : Bool) {pos : Position} {m : Move}
    (h : m ∈ generate_legal_moves atomic pos) :
    (m.flag = OO → (cur pos).entry &&& OO_MASK pos.side_to_play = 0) ∧
    (m.flag = OOO → (cur pos).entry &&& OOO_MASK pos.side_to_play = 0) := by
  have key : ∀ att, m ∈ castling_moves (cur pos).entry (sides pos).me (sides pos).all_pieces
      att (sides pos).my_king →
      (m.flag = OO → (cur pos).entry &&& OO_MASK pos.side_to_play = 0) ∧
      (m.flag = OOO → (cur pos).entry &&& OOO_MASK pos.side_to_play = 0) := by
    intro att hmem
    rcases mem_castling_moves hmem with ⟨e, h0⟩ | ⟨e, h0⟩
    · refine ⟨fun _ => eq_zero_of_or_eq_zero_left (eq_zero_of_or_eq_zero_left h0), ?_⟩
      intro hf
      rw [e] at hf
      exact MoveFlag.noConfusion (show OO = OOO from hf)
    · refine ⟨?_, fun _ => eq_zero_of_or_eq_zero_left (eq_zero_of_or_eq_zero_left h0)⟩
      intro hf
      rw [e] at hf
      exact MoveFlag.noConfusion (show OOO = OO from hf)
  cases atomic
  · have hstd : m ∈ generate_legal_moves_standard pos := h
    exact ⟨fun hf => (key _ (castle_of_flag hstd (Or.inl hf))).1 hf,
      fun hf => (key _ (castle_of_flag hstd (Or.inr hf))).2 hf⟩
  · have hat : m ∈ generate_legal_moves_atomic pos := h
    exact ⟨fun hf => (key _ (castle_of_flag_atomic hat (Or.inl hf))).1 hf,
      fun hf => (key _ (castle_of_flag_atomic hat (Or.inr hf))).2 hf⟩

end AtomicChess

namespace AtomicChess
open MoveFlag

/-! ## Symmetry of slider attacks -/

theorem testBit_ray_attacks (occ : Nat) (L : List Nat) (y : Nat) :
    (ray_attacks occ L).testBit y = true ↔
      ∃ j, j < L.length ∧ L[j]? = some y ∧
        ∀ t s, t < j → L[t]? = some s → occ.testBit s = false := by
  induction L with
  | nil =>
    simp only [ray_attacks, Nat.zero_testBit, List.length_nil]
    constructor
    · intro h; exact Bool.noConfusion h
    · rintro ⟨j, hj, _⟩; omega
  | cons s rest ih =>
    simp only [ray_attacks]
    constructor
    · intro h
      by_cases hs : y = s
      · exact ⟨0, by simp, by simp [hs], fun t _ ht => by omega⟩
      · have hocc : ¬ occ.testBit s = true := by
          intro ho
          rw [if_pos ho, Nat.testBit_two_pow] at h
          exact hs (of_decide_eq_true h).symm
        rw [if_neg hocc, Nat.testBit_or, Nat.testBit_two_pow, Bool.or_eq_true] at h
        rcases h with h | h
        · exact absurd (of_decide_eq_true h).symm hs
        · obtain ⟨j, hj, hy, hfree⟩ := ih.1 h
          refine ⟨j + 1, by simp [hj], by simpa using hy, ?_⟩
          intro t u ht hu
          cases t with
          | zero =>
            simp only [List.getElem?_cons_zero, Option.some.injEq] at hu
            rw [← hu]
            simpa using hocc
          | succ t =>
            simp only [List.getElem?_cons_succ] at hu
            exact hfree t u (by omega) hu
    · rintro ⟨j, hj, hy, hfree⟩
      cases j with
      | zero =>
        simp only [List.getElem?_cons_zero, Option.some.injEq] at hy
        split_ifs
        · rw [Nat.testBit_two_pow]; exact decide_eq_true hy
        · rw [Nat.testBit_or, Nat.testBit_two_pow, decide_eq_true hy]; rfl
      | succ j =>
        have hocc : occ.testBit s = false := hfree 0 s (by omega) (by simp)
        simp only [hocc, Bool.false_eq_true, if_false]
        rw [Nat.testBit_or, Bool.or_eq_true]
        right
        refine ih.2 ⟨j, by simpa using hj, by simpa using hy, ?_⟩
        intro t u ht hu
        exact hfree (t + 1) u (by omega) (by simpa using hu)

theorem walk_length (n : Nat) (f r df dr : Int) : (walk n f r df dr).length ≤ n := by
  induction n generalizing f r with
  | zero => simp [walk]
  | succ n ih =>
    unfold walk
    split_ifs
    · simp only [List.length_cons]
      have := ih (f + df) (r + dr)
      omega
    · simp

set_option maxRecDepth 100000 in
/-- On the board, the squares passed on the way from `k` to the `j`-th square `y` of a
ray are passed in reverse order on the way back from `y` to `k`. -/
theorem ray_reverse_geometry : ∀ k, k < 64 → ∀ d, d ∈ ORTHOGONAL_DIRS ++ DIAGONAL_DIRS →
    ∀ j, j < 7 →
      (ray_squares k d).length ≤ j ∨
      (ray_squares ((ray_squares k d).getD j 0) (-d.1, -d.2)).take (j + 1) =
        ((ray_squares k d).take j).reverse ++ [k] := by
  decide!

theorem ray_symm {occ k y : Nat} {d : Int × Int} (hk : k < 64)
    (hd : d ∈ ORTHOGONAL_DIRS ++ DIAGONAL_DIRS)
    (h : (ray_attacks occ (ray_squares k d)).testBit y = true) :
    (ray_attacks occ (ray_squares y (-d.1, -d.2))).testBit k = true := by
  rw [testBit_ray_attacks] at h ⊢
  obtain ⟨j, hj, hy, hfree⟩ := h
  have hlen : (ray_squares k d).length ≤ 7 := walk_length _ _ _ _ _
  have hgeo := (ray_reverse_geometry k hk d hd j (by omega)).resolve_left (by omega)
  have hyD : (ray_squares k d).getD j 0 = y := by
    rw [List.getD_eq_getElem?_getD, hy]; rfl
  rw [hyD] at hgeo
  have hidx : ∀ t, t ≤ j → (ray_squares y (-d.1, -d.2))[t]? =
      (((ray_squares k d).take j).reverse ++ [k])[t]? := by
    intro t ht
    rw [← hgeo, List.getElem?_take]
    simp only [show t < j + 1 by omega, if_true]
  have hlen2 : ((ray_squares k d).take j).length = j := by
    rw [List.length_take]; omega
  have hj2 := hidx j (le_refl j)
  rw [List.getElem?_append_right (by rw [List.length_reverse, hlen2]),
    List.length_reverse, hlen2, Nat.sub_self] at hj2
  simp only [List.getElem?_cons_zero] at hj2
  refine ⟨j, ?_, hj2, ?_⟩
  · by_contra hcon
    rw [List.getElem?_eq_none (by omega)] at hj2
    exact Option.noConfusion hj2
  · intro t s ht hs
    rw [hidx t (by omega), List.getElem?_append_left (by rw [List.length_reverse, hlen2]; exact ht),
      List.getElem?_reverse (by rw [hlen2]; exact ht), hlen2, List.getElem?_take] at hs
    simp only [show j - 1 - t < j by omega, if_true] at hs
    exact hfree (j - 1 - t) s (by omega) hs

theorem neg_dir_mem : (∀ d, d ∈ ORTHOGONAL_DIRS → ((-d.1, -d.2) : Int × Int) ∈ ORTHOGONAL_DIRS) ∧
    (∀ d, d ∈ DIAGONAL_DIRS → ((-d.1, -d.2) : Int × Int) ∈ DIAGONAL_DIRS) := by
  decide

theorem rook_attacks_symm {occ k y : Nat} (hk : k < 64)
    (h : (get_rook_attacks k occ).testBit y = true) :
    (get_rook_attacks y occ).testBit k = true := by
  unfold get_rook_attacks slider_attacks at h ⊢
  rw [testBit_foldl_or_of (fun d => ray_attacks occ (ray_squares k d))] at h
  rw [testBit_foldl_or_of (fun d => ray_attacks occ (ray_squares y d))]
  rcases h with h | ⟨d, hd, h⟩
  · rw [Nat.zero_testBit] at h; exact Bool.noConfusion h
  · exact Or.inr ⟨_, neg_dir_mem.1 d hd, ray_symm hk (List.mem_append_left _ hd) h⟩

theorem bishop_attacks_symm {occ k y : Nat} (hk : k < 64)
    (h : (get_bishop_attacks k occ).testBit y = true) :
    (get_bishop_attacks y occ).testBit k = true := by
  unfold get_bishop_attacks slider_attacks at h ⊢
  rw [testBit_foldl_or_of (fun d => ray_attacks occ (ray_squares k d))] at h
  rw [testBit_foldl_or_of (fun d => ray_attacks occ (ray_squares y d))]
  rcases h with h | ⟨d, hd, h⟩
  · rw [Nat.zero_testBit] at h; exact Bool.noConfusion h
  · exact Or.inr ⟨_, neg_dir_mem.2 d hd, ray_symm hk (List.mem_append_right _ hd) h⟩

end AtomicChess

namespace AtomicChess
open MoveFlag

/-! ## The attacked set holds only attacked squares -/

theorem attacked_by_intro {pos : Position} {c t y sq : Nat} (hc2 : c < 2) (ht : t < 6)
    (hy : y < 64) (hb : pos.board.getD y 0 = TYPE_TO_PIECE c t)
    (hbit : (piece_attacks (TYPE_TO_PIECE c t) y (occupancy pos)).testBit sq = true) :
    attacked_by pos c sq :=
  ⟨y, hy, by rw [hb]; exact (type_to_piece_facts hc2 ht).1, by rw [hb]; exact hbit⟩

theorem piece_attacks_of_type {c : Nat} (hc2 : c < 2) (y occ : Nat) :
    piece_attacks (TYPE_TO_PIECE c PAWN) y occ = PAWN_ATTACKS c y ∧
    piece_attacks (TYPE_TO_PIECE c KNIGHT) y occ = KNIGHT_ATTACKS y ∧
    piece_attacks (TYPE_TO_PIECE c BISHOP) y occ = get_bishop_attacks y occ ∧
    piece_attacks (TYPE_TO_PIECE c ROOK) y occ = get_rook_attacks y occ ∧
    piece_attacks (TYPE_TO_PIECE c QUEEN) y occ = get_queen_attacks y occ ∧
    piece_attacks (TYPE_TO_PIECE c KING) y occ = KING_ATTACKS y := by
  interval_cases c <;> exact ⟨rfl, rfl, rfl, rfl, rfl, rfl⟩

theorem pawn_attacker {pawns c sq : Nat} (hp : pawns < 2 ^ 64)
    (h : (get_all_pawn_attacks pawns c).testBit sq = true) :
    ∃ y, y < 64 ∧ pawns.testBit y = true ∧ (PAWN_ATTACKS c y).testBit sq = true := by
  unfold PAWN_ATTACKS
  unfold get_all_pawn_attacks at h ⊢
  split_ifs at h ⊢
  · simp only [Nat.testBit_or, testBit_shl, Nat.testBit_and, Bool.or_eq_true,
      Bool.and_eq_true, decide_eq_true_eq, testBit_SQUARE_TO_BITBOARD] at h ⊢
    rcases h with ⟨h1, h2, h3, h4⟩ | ⟨h1, h2, h3, h4⟩
    · exact ⟨sq - 9, by omega, h3, Or.inl ⟨h1, h2, ⟨by omega, rfl⟩, h4⟩⟩
    · exact ⟨sq - 7, by omega, h3, Or.inr ⟨h1, h2, ⟨by omega, rfl⟩, h4⟩⟩
  · simp only [Nat.testBit_or, Nat.testBit_shiftRight, Nat.testBit_and, Bool.or_eq_true,
      Bool.and_eq_true, decide_eq_true_eq, testBit_SQUARE_TO_BITBOARD] at h ⊢
    rcases h with ⟨h3, h4⟩ | ⟨h3, h4⟩
    · have := lt_of_testBit hp h3
      exact ⟨7 + sq, this, h3, Or.inl ⟨⟨this, rfl⟩, h4⟩⟩
    · have := lt_of_testBit hp h3
      exact ⟨9 + sq, this, h3, Or.inr ⟨⟨this, rfl⟩, h4⟩⟩

/-- A ray computed without the piece on `k` either is the ray computed with it or passes
through `k`. -/
theorem ray_attacks_without {occ k : Nat} (hk : occ.testBit k = true) (l : List Nat) (i : Nat)
    (h : (ray_attacks (occ ^^^ 2 ^ k) l).testBit i = true) :
    (ray_attacks occ l).testBit i = true ∨ (ray_attacks occ l).testBit k = true := by
  induction l with
  | nil => exact Or.inl h
  | cons s rest ih =>
    simp only [ray_attacks] at h ⊢
    by_cases hsk : s = k
    · right
      rw [hsk, if_pos hk, Nat.testBit_two_pow]
      simp
    · have hoc : (occ ^^^ 2 ^ k).testBit s = occ.testBit s := by
        rw [Nat.testBit_xor, Nat.testBit_two_pow]
        have : decide (k = s) = false := decide_eq_false (Ne.symm hsk)
        rw [this, Bool.xor_false]
      rw [hoc] at h
      by_cases ho : occ.testBit s = true
      · rw [if_pos ho] at h ⊢
        exact Or.inl h
      · rw [if_neg ho] at h ⊢
        rw [Nat.testBit_or, Bool.or_eq_true] at h
        rcases h with h | h
        · left; rw [Nat.testBit_or, h]; rfl
        · rcases ih h with h2 | h2
          · left; rw [Nat.testBit_or, h2]; exact Bool.or_true _
          · right; rw [Nat.testBit_or, h2]; exact Bool.or_true _

theorem slider_attacks_without {occ k : Nat} (hk : occ.testBit k = true)
    (dirs : List (Int × Int)) (y i : Nat)
    (h : (slider_attacks dirs y (occ ^^^ 2 ^ k)).testBit i = true) :
    (slider_attacks dirs y occ).testBit i = true ∨
      (slider_attacks dirs y occ).testBit k = true := by
  unfold slider_attacks at h ⊢
  rw [testBit_foldl_or_of (fun d => ray_attacks (occ ^^^ 2 ^ k) (ray_squares y d))] at h
  rw [testBit_foldl_or_of (fun d => ray_attacks occ (ray_squares y d)),
    testBit_foldl_or_of (fun d => ray_attacks occ (ray_squares y d))]
  rcases h with h | ⟨d, hd, h⟩
  · exact Or.inl (Or.inl h)
  · rcases ray_attacks_without hk _ i h with h2 | h2
    · exact Or.inl (Or.inr ⟨d, hd, h2⟩)
    · exact Or.inr (Or.inr ⟨d, hd, h2⟩)

/-- Every square of the attacked set of the standard generator is attacked by an enemy
piece, or the mover's king is (the set is computed on the occupancy without that king). -/
theorem attacked_sound {pos : Position} (hc : consistent pos) (hs : pos.side_to_play < 2)
    (hkme : one_king pos pos.side_to_play) (hkyou : one_king pos (pos.side_to_play ^^^ BLACK))
    {sq : Nat} (h : (attacked_squares (sides pos) true).testBit sq = true) :
    attacked_by pos (pos.side_to_play ^^^ BLACK) sq ∨
      attacked_by pos (pos.side_to_play ^^^ BLACK) (king_square pos pos.side_to_play) := by
  have hs2 := (xor_black_facts hs).1
  have hpa := fun y => piece_attacks_of_type hs2 y (occupancy pos)
  obtain ⟨ks, hks64, hkbb⟩ := hkme
  have hksq : king_square pos pos.side_to_play = ks := by
    unfold king_square; rw [hkbb]; exact get_lsb_idx_two_pow hks64
  have hmyking : (sides pos).my_king = 2 ^ ks := hkbb
  have hkall : (sides pos).all_pieces.testBit ks = true := by
    unfold Sides.all_pieces
    rw [Nat.testBit_or, mine_of_king (by rw [hmyking, Nat.testBit_two_pow]; simp)]
    rfl
  have hslide : ∀ dirs y, (slider_attacks dirs y
      ((sides pos).all_pieces ^^^ (sides pos).my_king)).testBit sq = true →
      (slider_attacks dirs y (occupancy pos)).testBit sq = true ∨
      (slider_attacks dirs y (occupancy pos)).testBit ks = true := by
    intro dirs y hy
    rw [hmyking] at hy
    exact slider_attacks_without hkall dirs y sq hy
  have hqueen : ∀ y a, (get_rook_attacks y (occupancy pos)).testBit a = true ∨
      (get_bishop_attacks y (occupancy pos)).testBit a = true →
      (get_queen_attacks y (occupancy pos)).testBit a = true := by
    intro y a ha
    unfold get_queen_attacks
    rw [Nat.testBit_or, Bool.or_eq_true]
    exact ha
  rw [hksq]
  rw [testBit_attacked_squares] at h
  rcases h with h | ⟨y, hy, h⟩ | ⟨y, hy, h⟩ | ⟨y, hy, h⟩ | h
  · obtain ⟨y, hy64, hyp, hbit⟩ := pawn_attacker (bb_lt hc hs2 (by decide)) h
    obtain ⟨_, hb⟩ := board_of_bb hc hs2 (show PAWN < 6 by decide) hyp
    exact Or.inl (attacked_by_intro hs2 (by decide) hy64 hb (by rw [(hpa y).1]; exact hbit))
  · have hyb := (mem_squares_of (bb_lt hc hs2 (by decide)) y).1 hy
    obtain ⟨hy64, hb⟩ := board_of_bb hc hs2 (show KNIGHT < 6 by decide) hyb
    exact Or.inl (attacked_by_intro hs2 (by decide) hy64 hb (by rw [(hpa y).2.1]; exact h))
  · have hyb := (mem_squares_of (Nat.or_lt_two_pow (bb_lt hc hs2 (by decide))
      (bb_lt hc hs2 (by decide))) y).1 hy
    rw [Nat.testBit_or, Bool.or_eq_true] at hyb
    rcases hyb with hyb | hyb
    · obtain ⟨hy64, hb⟩ := board_of_bb hc hs2 (show BISHOP < 6 by decide) hyb
      rcases hslide DIAGONAL_DIRS y h with h2 | h2
      · exact Or.inl (attacked_by_intro hs2 (by decide) hy64 hb
          (by rw [(hpa y).2.2.1]; exact h2))
      · exact Or.inr (attacked_by_intro hs2 (by decide) hy64 hb
          (by rw [(hpa y).2.2.1]; exact h2))
    · obtain ⟨hy64, hb⟩ := board_of_bb hc hs2 (show QUEEN < 6 by decide) hyb
      rcases hslide DIAGONAL_DIRS y h with h2 | h2
      · exact Or.inl (attacked_by_intro hs2 (by decide) hy64 hb
          (by rw [(hpa y).2.2.2.2.1]; exact hqueen y sq (Or.inr h2)))
      · exact Or.inr (attacked_by_intro hs2 (by decide) hy64 hb
          (by rw [(hpa y).2.2.2.2.1]; exact hqueen y ks (Or.inr h2)))
  · have hyb := (mem_squares_of (Nat.or_lt_two_pow (bb_lt hc hs2 (by decide))
      (bb_lt hc hs2 (by decide))) y).1 hy
    rw [Nat.testBit_or, Bool.or_eq_true] at hyb
    rcases hyb with hyb | hyb
    · obtain ⟨hy64, hb⟩ := board_of_bb hc hs2 (show ROOK < 6 by decide) hyb
      rcases hslide ORTHOGONAL_DIRS y h with h2 | h2
      · exact Or.inl (attacked_by_intro hs2 (by decide) hy64 hb
          (by rw [(hpa y).2.2.2.1]; exact h2))
      · exact Or.inr (attacked_by_intro hs2 (by decide) hy64 hb
          (by rw [(hpa y).2.2.2.1]; exact h2))
    · obtain ⟨hy64, hb⟩ := board_of_bb hc hs2 (show QUEEN < 6 by decide) hyb
      rcases hslide ORTHOGONAL_DIRS y h with h2 | h2
      · exact Or.inl (attacked_by_intro hs2 (by decide) hy64 hb
          (by rw [(hpa y).2.2.2.2.1]; exact hqueen y sq (Or.inl h2)))
      · exact Or.inr (attacked_by_intro hs2 (by decide) hy64 hb
          (by rw [(hpa y).2.2.2.2.1]; exact hqueen y ks (Or.inl h2)))
  · obtain ⟨ys, hys64, hybb⟩ := hkyou
    have hidx : get_lsb_idx (sides pos).your_king = ys := by
      have : (sides pos).your_king = 2 ^ ys := hybb
      rw [this]; exact get_lsb_idx_two_pow hys64
    rw [hidx] at h
    have hyb : (pos.bb (pos.side_to_play ^^^ BLACK) KING).testBit ys = true := by
      rw [hybb, Nat.testBit_two_pow]; simp
    obtain ⟨_, hb⟩ := board_of_bb hc hs2 (show KING < 6 by decide) hyb
    exact Or.inl (attacked_by_intro hs2 (by decide) hys64 hb
      (by rw [(hpa ys).2.2.2.2.2]; exact h))

/-! ## A king that is not attacked is not counted as checked -/

theorem no_slider_check {pos : Position} (hc : consistent pos) (hs : pos.side_to_play < 2)
    (hkme : one_king pos pos.side_to_play)
    (hking : ¬ attacked_by pos (pos.side_to_play ^^^ BLACK) (king_square pos pos.side_to_play)) :
    get_rook_attacks (sides pos).my_king_square (sides pos).all_pieces &&&
      (sides pos).your_orthogonal_sliders = 0 ∧
    get_bishop_attacks (sides pos).my_king_square (sides pos).all_pieces &&&
      (sides pos).your_diagonal_sliders = 0 := by
  have hs2 := (xor_black_facts hs).1
  have hpa := fun y => piece_attacks_of_type hs2 y (occupancy pos)
  obtain ⟨ks, hks64, hkbb⟩ := hkme
  have hksq : king_square pos pos.side_to_play = ks := by
    unfold king_square; rw [hkbb]; exact get_lsb_idx_two_pow hks64
  have hksq2 : (sides pos).my_king_square = ks := hksq
  rw [hksq] at hking
  rw [hksq2]
  constructor
  · by_contra hne
    obtain ⟨y, hy⟩ := Nat.ne_zero_implies_bit_true hne
    rw [Nat.testBit_and, Bool.and_eq_true] at hy
    obtain ⟨h1, h2⟩ := hy
    have h3 := rook_attacks_symm hks64 h1
    have h2b : ((sides pos).your_rooks ||| (sides pos).your_queens).testBit y = true := h2
    rw [Nat.testBit_or, Bool.or_eq_true] at h2b
    rcases h2b with hyb | hyb
    · obtain ⟨hy64, hb⟩ := board_of_bb hc hs2 (show ROOK < 6 by decide) hyb
      exact hking (attacked_by_intro hs2 (by decide) hy64 hb (by rw [(hpa y).2.2.2.1]; exact h3))
    · obtain ⟨hy64, hb⟩ := board_of_bb hc hs2 (show QUEEN < 6 by decide) hyb
      refine hking (attacked_by_intro hs2 (by decide) hy64 hb ?_)
      rw [(hpa y).2.2.2.2.1]
      unfold get_queen_attacks
      rw [Nat.testBit_or, Bool.or_eq_true]
      exact Or.inl h3
  · by_contra hne
    obtain ⟨y, hy⟩ := Nat.ne_zero_implies_bit_true hne
    rw [Nat.testBit_and, Bool.and_eq_true] at hy
    obtain ⟨h1, h2⟩ := hy
    have h3 := bishop_attacks_symm hks64 h1
    have h2b : ((sides pos).your_bishops ||| (sides pos).your_queens).testBit y = true := h2
    rw [Nat.testBit_or, Bool.or_eq_true] at h2b
    rcases h2b with hyb | hyb
    · obtain ⟨hy64, hb⟩ := board_of_bb hc hs2 (show BISHOP < 6 by decide) hyb
      exact hking (attacked_by_intro hs2 (by decide) hy64 hb (by rw [(hpa y).2.2.1]; exact h3))
    · obtain ⟨hy64, hb⟩ := board_of_bb hc hs2 (show QUEEN < 6 by decide) hyb
      refine hking (attacked_by_intro hs2 (by decide) hy64 hb ?_)
      rw [(hpa y).2.2.2.2.1]
      unfold get_queen_attacks
      rw [Nat.testBit_or, Bool.or_eq_true]
      exact Or.inr h3

theorem checking_pieces_le_one (g : Sides)
    (h1 : get_rook_attacks g.my_king_square g.all_pieces &&& g.your_orthogonal_sliders = 0)
    (h2 : get_bishop_attacks g.my_king_square g.all_pieces &&& g.your_diagonal_sliders = 0) :
    (std_masks g).checking_pieces ≤ 1 := by
  have h0 : squares_of 0 = [] := by decide
  unfold std_masks
  simp only [h1, h2, h0, List.length_nil]
  split_ifs <;> simp

theorem or_eq_zero {a b : Nat} (ha : a = 0) (hb : b = 0) : a ||| b = 0 := by
  rw [ha, hb]; rfl

end AtomicChess

namespace AtomicChess
open MoveFlag

/-! ## The hash of a board under single-square updates -/

theorem xor_fold_congr (g g2 : Nat → Nat) (n : Nat) (h : ∀ x, x < n → g2 x = g x) (a : Nat) :
    (List.range n).foldl (fun h x => h ^^^ g2 x) a =
      (List.range n).foldl (fun h x => h ^^^ g x) a := by
  induction n with
  | zero => rfl
  | succ n ih =>
    rw [List.range_succ, List.foldl_append, List.foldl_append,
      ih (fun x hx => h x (by omega))]
    simp only [List.foldl_cons, List.foldl_nil]
    rw [h n (by omega)]

theorem xor_fold_update (g g2 : Nat → Nat) (n s d : Nat) (hs : s < n)
    (hg : ∀ x, x ≠ s → g2 x = g x) (hd : g2 s = g s ^^^ d) :
    (List.range n).foldl (fun h x => h ^^^ g2 x) 0 =
      (List.range n).foldl (fun h x => h ^^^ g x) 0 ^^^ d := by
  induction n with
  | zero => omega
  | succ n ih =>
    rw [List.range_succ, List.foldl_append, List.foldl_append]
    simp only [List.foldl_cons, List.foldl_nil]
    by_cases hsn : s = n
    · rw [xor_fold_congr g g2 n (fun x hx => hg x (by omega)), ← hsn, hd, Nat.xor_assoc]
    · rw [ih (by omega), hg n (Ne.symm hsn), Nat.xor_assoc, Nat.xor_assoc, Nat.xor_comm d]

theorem zobrist_of_board_eq (board : List Nat) :
    zobrist_of_board board = (List.range 64).foldl (fun h s =>
      h ^^^ (if board.getD s 0 = NO_PIECE then 0 else ZOBRIST_TABLE (board.getD s 0) s)) 0 := by
  unfold zobrist_of_board
  congr 1
  funext h s
  split_ifs
  · exact (Nat.xor_zero h).symm
  · rfl

/-- Writing `q` on square `s` changes the hash of the board by the terms of the old and of
the new content of `s`. -/
theorem zobrist_of_board_set (board : List Nat) (s q : Nat) (hlen : board.length = 64)
    (hs : s < 64) :
    zobrist_of_board (board.set s q) = zobrist_of_board board ^^^
      ((if board.getD s 0 = NO_PIECE then 0 else ZOBRIST_TABLE (board.getD s 0) s) ^^^
       (if q = NO_PIECE then 0 else ZOBRIST_TABLE q s)) := by
  rw [zobrist_of_board_eq, zobrist_of_board_eq]
  apply xor_fold_update _ _ 64 s _ hs
  · intro x hx
    rw [getD_set_ne _ _ _ _ _ (Ne.symm hx)]
  · rw [getD_set_eq _ _ _ _ (by omega), ← Nat.xor_assoc, Nat.xor_self, Nat.zero_xor]

theorem zterm_piece {p s : Nat} (h1 : 1 ≤ p) (h12 : p ≤ 12) (hs : s < 64) :
    (if p = NO_PIECE then 0 else ZOBRIST_TABLE p s) = ZOBRIST_TABLE 0 s := by
  have : p ≠ NO_PIECE := by unfold NO_PIECE; omega
  rw [if_neg this, zrow h12 hs]

theorem hash_ok_remove_piece {pos : Position} (h : hash_ok pos) (hlen : pos.board.length = 64)
    {s : Nat} (hs : s < 64) (h1 : 1 ≤ pos.board.getD s 0) (h12 : pos.board.getD s 0 ≤ 12) :
    hash_ok (remove_piece pos s) := by
  unfold hash_ok at h ⊢
  show pos.zobrist_hash ^^^ ZOBRIST_TABLE (pos.board.getD s 0) s =
    zobrist_of_board (pos.board.set s NO_PIECE)
  rw [zobrist_of_board_set _ _ _ hlen hs, zterm_piece h1 h12 hs, h, zrow h12 hs]
  simp only [if_true, Nat.xor_zero]

theorem hash_ok_put_piece {pos : Position} (h : hash_ok pos) (hlen : pos.board.length = 64)
    {s pt c : Nat} (hs : s < 64) (hc : c < 2) (hpt : pt < 6)
    (hempty : pos.board.getD s 0 = NO_PIECE) : hash_ok (put_piece pos pt c s) := by
  unfold hash_ok at h ⊢
  show pos.zobrist_hash ^^^ ZOBRIST_TABLE pt s =
    zobrist_of_board (pos.board.set s (TYPE_TO_PIECE c pt))
  have hP := type_to_piece_facts hc hpt
  rw [zobrist_of_board_set _ _ _ hlen hs, zterm_piece hP.2.2.1 hP.2.2.2 hs, h, hempty,
    zrow (show pt ≤ 12 by omega) hs]
  simp only [if_true, Nat.zero_xor]

theorem hash_ok_move_piece_quiet {pos : Position} (h : hash_ok pos)
    (hlen : pos.board.length = 64) {a b : Nat} (ha : a < 64) (hb : b < 64) (hab : a ≠ b)
    (h1 : 1 ≤ pos.board.getD a 0) (h12 : pos.board.getD a 0 ≤ 12)
    (hempty : pos.board.getD b 0 = NO_PIECE) : hash_ok (move_piece_quiet pos a b) := by
  unfold hash_ok at h ⊢
  show pos.zobrist_hash ^^^ (ZOBRIST_TABLE (pos.board.getD a 0) a ^^^
      ZOBRIST_TABLE (pos.board.getD a 0) b) =
    zobrist_of_board ((pos.board.set b (pos.board.getD a 0)).set a NO_PIECE)
  rw [zobrist_of_board_set _ _ _ (by rw [List.length_set]; exact hlen) ha,
    zobrist_of_board_set _ _ _ hlen hb, getD_set_ne _ _ _ _ _ (Ne.symm hab),
    zterm_piece h1 h12 ha, zterm_piece h1 h12 hb, hempty, h, zrow h12 ha, zrow h12 hb]
  simp only [if_true, Nat.zero_xor, Nat.xor_zero]
  rw [Nat.xor_assoc, Nat.xor_comm (ZOBRIST_TABLE 0 a)]

theorem hash_ok_move_piece {pos : Position} (h : hash_ok pos)
    (hlen : pos.board.length = 64) {a b : Nat} (ha : a < 64) (hb : b < 64) (hab : a ≠ b)
    (h1 : 1 ≤ pos.board.getD a 0) (h12 : pos.board.getD a 0 ≤ 12)
    (g1 : 1 ≤ pos.board.getD b 0) (g12 : pos.board.getD b 0 ≤ 12) :
    hash_ok (move_piece pos a b) := by
  unfold hash_ok at h ⊢
  show pos.zobrist_hash ^^^ (ZOBRIST_TABLE (pos.board.getD a 0) a ^^^
      ZOBRIST_TABLE (pos.board.getD a 0) b ^^^ ZOBRIST_TABLE (pos.board.getD b 0) b) =
    zobrist_of_board ((pos.board.set b (pos.board.getD a 0)).set a NO_PIECE)
  rw [zobrist_of_board_set _ _ _ (by rw [List.length_set]; exact hlen) ha,
    zobrist_of_board_set _ _ _ hlen hb, getD_set_ne _ _ _ _ _ (Ne.symm hab),
    zterm_piece h1 h12 ha, zterm_piece h1 h12 hb, zterm_piece g1 g12 hb, h, zrow h12 ha,
    zrow h12 hb, zrow g12 hb]
  simp only [if_true, Nat.xor_zero, Nat.xor_self]
  rw [Nat.xor_assoc (ZOBRIST_TABLE 0 a), Nat.xor_self, Nat.xor_zero]

/-! ## `play` keeps the hash in step with the board -/

theorem hash_ok_two_quiet {pos : Position} (h : hash_ok pos) (hlen : pos.board.length = 64)
    {a b c d : Nat} (ha : a < 64) (hb : b < 64) (hc : c < 64) (hd : d < 64)
    (hab : a ≠ b) (hac : a ≠ c) (had : a ≠ d) (hbc : b ≠ c) (hbd : b ≠ d) (hcd : c ≠ d)
    (a1 : 1 ≤ pos.board.getD a 0) (a12 : pos.board.getD a 0 ≤ 12)
    (c1 : 1 ≤ pos.board.getD c 0) (c12 : pos.board.getD c 0 ≤ 12)
    (hbe : pos.board.getD b 0 = NO_PIECE) (hde : pos.board.getD d 0 = NO_PIECE) :
    hash_ok (move_piece_quiet (move_piece_quiet pos a b) c d) := by
  have h1 := hash_ok_move_piece_quiet h hlen ha hb hab a1 a12 hbe
  have hb1 : (move_piece_quiet pos a b).board =
      (pos.board.set b (pos.board.getD a 0)).set a NO_PIECE := rfl
  have hc1 : (move_piece_quiet pos a b).board.getD c 0 = pos.board.getD c 0 := by
    rw [hb1, getD_set_ne _ _ _ _ _ hac, getD_set_ne _ _ _ _ _ hbc]
  have hd1 : (move_piece_quiet pos a b).board.getD d 0 = pos.board.getD d 0 := by
    rw [hb1, getD_set_ne _ _ _ _ _ had, getD_set_ne _ _ _ _ _ hbd]
  refine hash_ok_move_piece_quiet h1 ?_ hc hd hcd ?_ ?_ ?_
  · rw [hb1, List.length_set, List.length_set]; exact hlen
  · rw [hc1]; exact c1
  · rw [hc1]; exact c12
  · rw [hd1]; exact hde

theorem hash_ok_promotion {pos : Position} (h : hash_ok pos) (hlen : pos.board.length = 64)
    {a b c pt : Nat} (ha : a < 64) (hb : b < 64) (hab : a ≠ b) (hc : c < 2) (hpt : pt < 6)
    (a1 : 1 ≤ pos.board.getD a 0) (a12 : pos.board.getD a 0 ≤ 12)
    (hbe : pos.board.getD b 0 = NO_PIECE) :
    hash_ok (put_piece (remove_piece pos a) pt c b) := by
  have h1 := hash_ok_remove_piece h hlen ha a1 a12
  have hb1 : (remove_piece pos a).board = pos.board.set a NO_PIECE := rfl
  refine hash_ok_put_piece h1 ?_ hb hc hpt ?_
  · rw [hb1, List.length_set]; exact hlen
  · rw [hb1, getD_set_ne _ _ _ _ _ hab]; exact hbe

theorem hash_ok_promotion_capture {pos : Position} (h : hash_ok pos)
    (hlen : pos.board.length = 64) {m : Move} {c pt : Nat} (ha : m.from_sq < 64)
    (hb : m.to_sq < 64) (hab : m.from_sq ≠ m.to_sq) (hc : c < 2) (hpt : pt < 6)
    (a1 : 1 ≤ pos.board.getD m.from_sq 0) (a12 : pos.board.getD m.from_sq 0 ≤ 12)
    (b1 : 1 ≤ pos.board.getD m.to_sq 0) (b12 : pos.board.getD m.to_sq 0 ≤ 12) :
    hash_ok (play_promotion_capture false pos m c pt) := by
  have h1 := hash_ok_remove_piece h hlen ha a1 a12
  have hb1 : (remove_piece pos m.from_sq).board = pos.board.set m.from_sq NO_PIECE := rfl
  have h2 : hash_ok (set_captured (remove_piece pos m.from_sq)
      ((remove_piece pos m.from_sq).board.getD m.to_sq 0)) := h1
  have hb2 : (set_captured (remove_piece pos m.from_sq)
      ((remove_piece pos m.from_sq).board.getD m.to_sq 0)).board =
      pos.board.set m.from_sq NO_PIECE := rfl
  have hto : (pos.board.set m.from_sq NO_PIECE).getD m.to_sq 0 = pos.board.getD m.to_sq 0 :=
    getD_set_ne _ _ _ _ _ hab
  have h3 := hash_ok_remove_piece h2 (by rw [hb2, List.length_set]; exact hlen) hb
    (by rw [hb2, hto]; exact b1) (by rw [hb2, hto]; exact b12)
  unfold play_promotion_capture
  simp only [Bool.false_eq_true, if_false]
  refine hash_ok_put_piece h3 ?_ hb hc hpt ?_
  · show ((pos.board.set m.from_sq NO_PIECE).set m.to_sq NO_PIECE).length = 64
    rw [List.length_set, List.length_set]; exact hlen
  · show ((pos.board.set m.from_sq NO_PIECE).set m.to_sq NO_PIECE).getD m.to_sq 0 = NO_PIECE
    exact getD_set_eq _ _ _ _ (by rw [List.length_set, hlen]; exact hb)

/-- In the standard build `play` of a playable move keeps `zobrist_hash` equal to the
hash of the board. -/
theorem hash_ok_play {pos : Position} {m : Move} (hc : consistent pos)
    (hs : pos.side_to_play < 2) (hp : playable pos m) (h : hash_ok pos) :
    hash_ok (play false pos m) := by
  obtain ⟨hf, ht, hrest⟩ := hp
  have hbl : pos.board.length = 64 := hc.2.1
  have hs2 := xor_black_facts hs
  have hP := type_to_piece_facts hs (show PAWN < 6 by decide)
  have hP2 := type_to_piece_facts hs2.1 (show PAWN < 6 by decide)
  have h0 : hash_ok (play_begin pos m) := h
  have hbl0 : (play_begin pos m).board.length = 64 := hbl
  have hb0 : ∀ s, (play_begin pos m).board.getD s 0 = pos.board.getD s 0 := fun _ => rfl
  have hmine : ∀ s, s < 64 → PIECE_TO_COLOR (pos.board.getD s 0) = pos.side_to_play →
      1 ≤ pos.board.getD s 0 ∧ pos.board.getD s 0 ≤ 12 := by
    intro s hs64 hcol
    exact ⟨(piece_of_color (hc.2.2.1 s hs64) hs hcol).1, hc.2.2.1 s hs64⟩
  have hyours : ∀ s, s < 64 →
      PIECE_TO_COLOR (pos.board.getD s 0) = pos.side_to_play ^^^ BLACK →
      1 ≤ pos.board.getD s 0 ∧ pos.board.getD s 0 ≤ 12 := by
    intro s hs64 hcol
    exact ⟨(piece_of_color (hc.2.2.1 s hs64) hs2.1 hcol).1, hc.2.2.1 s hs64⟩
  have hne_of : 1 ≤ pos.board.getD m.from_sq 0 → pos.board.getD m.to_sq 0 = NO_PIECE →
      m.from_sq ≠ m.to_sq := by
    intro h1 h2 e
    rw [e, h2] at h1
    exact absurd h1 (by decide)
  have hne_cap : PIECE_TO_COLOR (pos.board.getD m.from_sq 0) = pos.side_to_play →
      PIECE_TO_COLOR (pos.board.getD m.to_sq 0) = pos.side_to_play ^^^ BLACK →
      m.from_sq ≠ m.to_sq := by
    intro h1 h2 e
    rw [e, h2] at h1
    exact hs2.2 h1
  have hpawn : pos.board.getD m.from_sq 0 = TYPE_TO_PIECE pos.side_to_play PAWN →
      PIECE_TO_COLOR (pos.board.getD m.from_sq 0) = pos.side_to_play := by
    intro e; rw [e]; exact hP.1
  have hside : pos.side_to_play = 0 ∨ pos.side_to_play = 1 := by omega
  unfold play
  cases hflag : m.flag <;> simp only [hflag] at hrest <;> simp only
  · obtain ⟨a1, a12⟩ := hmine _ hf hrest.1
    exact hash_ok_move_piece_quiet h0 hbl0 hf ht (hne_of a1 hrest.2) a1 a12 hrest.2
  · obtain ⟨a1, a12⟩ := hmine _ hf hrest.1
    exact hash_ok_move_piece_quiet h0 hbl0 hf ht (hne_of a1 hrest.2) a1 a12 hrest.2
  · rcases hside with e | e
    · have e2 : pos.side_to_play = WHITE := e
      obtain ⟨k1, k2, k3, k4⟩ := hrest.1 e2
      rw [if_pos e2]
      exact hash_ok_two_quiet h0 hbl0 (a := 4) (b := 6) (c := 7) (d := 5)
        (by decide) (by decide) (by decide) (by decide)
        (by decide) (by decide) (by decide) (by decide) (by decide) (by decide)
        (by rw [hb0, k1]; decide) (by rw [hb0, k1]; decide)
        (by rw [hb0, k2]; decide) (by rw [hb0, k2]; decide) k4 k3
    · have hnw : pos.side_to_play ≠ WHITE := by rw [e]; decide
      obtain ⟨k1, k2, k3, k4⟩ := hrest.2 hnw
      rw [if_neg hnw]
      exact hash_ok_two_quiet h0 hbl0 (a := 60) (b := 62) (c := 63) (d := 61)
        (by decide) (by decide) (by decide) (by decide)
        (by decide) (by decide) (by decide) (by decide) (by decide) (by decide)
        (by rw [hb0, k1]; decide) (by rw [hb0, k1]; decide)
        (by rw [hb0, k2]; decide) (by rw [hb0, k2]; decide) k4 k3
  · rcases hside with e | e
    · have e2 : pos.side_to_play = WHITE := e
      obtain ⟨k1, k2, k3, k4⟩ := hrest.1 e2
      rw [if_pos e2]
      exact hash_ok_two_quiet h0 hbl0 (a := 4) (b := 2) (c := 0) (d := 3)
        (by decide) (by decide) (by decide) (by decide)
        (by decide) (by decide) (by decide) (by decide) (by decide) (by decide)
        (by rw [hb0, k1]; decide) (by rw [hb0, k1]; decide)
        (by rw [hb0, k2]; decide) (by rw [hb0, k2]; decide) k4 k3
    · have hnw : pos.side_to_play ≠ WHITE := by rw [e]; decide
      obtain ⟨k1, k2, k3, k4⟩ := hrest.2 hnw
      rw [if_neg hnw]
      exact hash_ok_two_quiet h0 hbl0 (a := 60) (b := 58) (c := 56) (d := 59)
        (by decide) (by decide) (by decide) (by decide)
        (by decide) (by decide) (by decide) (by decide) (by decide) (by decide)
        (by rw [hb0, k1]; decide) (by rw [hb0, k1]; decide)
        (by rw [hb0, k2]; decide) (by rw [hb0, k2]; decide) k4 k3
  · obtain ⟨a1, a12⟩ := hmine _ hf hrest.1
    obtain ⟨b1, b12⟩ := hyours _ ht hrest.2
    simp only [Bool.false_eq_true, if_false]
    exact @hash_ok_move_piece (set_captured (play_begin pos m)
      ((play_begin pos m).board.getD m.to_sq 0)) h0 hbl0 _ _ hf ht
      (hne_cap hrest.1 hrest.2) a1 a12 b1 b12
  · obtain ⟨k1, k2, k3, k4, k5, k6⟩ := hrest
    obtain ⟨a1, a12⟩ := hmine _ hf (hpawn k1)
    simp only [Bool.false_eq_true, if_false]
    have h1 := hash_ok_move_piece_quiet h0 hbl0 hf ht (hne_of a1 k2) a1 a12 k2
    have hv : (if pos.side_to_play = WHITE then m.to_sq - 8 else m.to_sq + 8) =
        enpassant_victim pos.side_to_play m.to_sq := rfl
    rw [hv]
    have hbv : (move_piece_quiet (play_begin pos m) m.from_sq m.to_sq).board.getD
        (enpassant_victim pos.side_to_play m.to_sq) 0 =
        TYPE_TO_PIECE (pos.side_to_play ^^^ BLACK) PAWN := by
      show ((pos.board.set m.to_sq (pos.board.getD m.from_sq 0)).set m.from_sq NO_PIECE).getD
        (enpassant_victim pos.side_to_play m.to_sq) 0 = _
      rw [getD_set_ne _ _ _ _ _ (Ne.symm k4), getD_set_ne _ _ _ _ _ (Ne.symm k5), k6]
    refine hash_ok_remove_piece h1 ?_ k3 ?_ ?_
    · show ((pos.board.set m.to_sq (pos.board.getD m.from_sq 0)).set m.from_sq
        NO_PIECE).length = 64
      rw [List.length_set, List.length_set]; exact hbl
    · rw [hbv]; exact hP2.2.2.1
    · rw [hbv]; exact hP2.2.2.2
  all_goals first
    | (obtain ⟨a1, a12⟩ := hmine _ hf (hpawn hrest.1)
       exact hash_ok_promotion h0 hbl0 hf ht (hne_of a1 hrest.2) hs (by decide) a1 a12
         hrest.2)
    | (obtain ⟨a1, a12⟩ := hmine _ hf (hpawn hrest.1)
       obtain ⟨b1, b12⟩ := hyours _ ht hrest.2
       exact hash_ok_promotion_capture h0 hbl0 hf ht (hne_cap (hpawn hrest.1) hrest.2) hs
         (by decide) a1 a12 b1 b12)

end AtomicChess

namespace AtomicChess
open MoveFlag

/-! ## The loops of `set_from_fen` on a known run of characters -/

theorem fen_char_append (pre rest : List Char) (k : Nat) :
    fen_char (pre ++ rest) (pre.length + k) = fen_char rest k := by
  unfold fen_char
  rw [List.getD_append_right _ _ _ _ (by omega), Nat.add_sub_cancel_left]

theorem fen_char_cons_zero (c : Char) (rest : List Char) : fen_char (c :: rest) 0 = c.toNat := rfl

theorem fen_char_cons_succ (c : Char) (rest : List Char) (k : Nat) :
    fen_char (c :: rest) (k + 1) = fen_char rest k := rfl

theorem fen_char_at (pre : List Char) (c : Char) (rest : List Char) :
    fen_char (pre ++ c :: rest) pre.length = c.toNat := by
  have := fen_char_append pre (c :: rest) 0
  rw [Nat.add_zero] at this
  rw [this]; rfl

/-- The placement loop started in front of a run `w` of characters, none of them NUL or a
space, that is followed by a space or by the end of the string: it applies the loop body
to each character of `w` and stops behind `w`. -/
theorem fen_placement_run (w : List Char) : ∀ (pre rest : List Char) (pos : Position)
    (sq : Int) (fuel : Nat), w.length < fuel →
    (∀ c, c ∈ w → c.toNat ≠ 0 ∧ c.toNat ≠ ' '.toNat) →
    (fen_char rest 0 = 0 ∨ fen_char rest 0 = ' '.toNat) →
    fen_placement fuel (pre ++ (w ++ rest)) pos pre.length sq =
      ((w.foldl fen_placement_step (pos, sq)).1, pre.length + w.length) := by
  induction w with
  | nil =>
    intro pre rest pos sq fuel hfuel _ hrest
    obtain ⟨f, rfl⟩ : ∃ f, fuel = f + 1 := ⟨fuel - 1, by simp at hfuel; omega⟩
    unfold fen_placement
    have hc : fen_char (pre ++ ([] ++ rest)) pre.length = fen_char rest 0 := by
      have := fen_char_append pre rest 0
      rw [Nat.add_zero] at this
      exact this
    simp only [hc]
    rw [if_neg (by rcases hrest with h | h <;> simp [h])]
    rfl
  | cons ch w ih =>
    intro pre rest pos sq fuel hfuel hw hrest
    obtain ⟨f, rfl⟩ : ∃ f, fuel = f + 1 := ⟨fuel - 1, by simp at hfuel; omega⟩
    have hch := hw ch (List.mem_cons_self _ _)
    have hc : fen_char (pre ++ (ch :: w ++ rest)) pre.length = ch.toNat := fen_char_at pre ch _
    have hfen : pre ++ (ch :: w ++ rest) = (pre ++ [ch]) ++ (w ++ rest) := by simp
    have hlen : (pre ++ [ch]).length = pre.length + 1 := by simp
    have hrec := fun p s => ih (pre ++ [ch]) rest p s f (by simp at hfuel; omega)
      (fun c hcm => hw c (List.mem_cons_of_mem _ hcm)) hrest
    unfold fen_placement
    simp only [hc]
    rw [if_pos hch]
    simp only [List.foldl_cons]
    rw [hfen, ← hlen]
    have hstep : fen_placement_step (pos, sq) ch =
        (if '0'.toNat ≤ ch.toNat ∧ ch.toNat ≤ '9'.toNat then
          (pos, sq + (ch.toNat - '0'.toNat : Nat))
        else if ch.toNat = '/'.toNat then (pos, sq - 16)
        else (put_piece pos (PIECE_TO_TYPE (CHAR_TO_PIECE ch.toNat))
          (PIECE_TO_COLOR (CHAR_TO_PIECE ch.toNat)) sq.toNat, sq + 1)) := rfl
    rw [hstep]
    split_ifs <;> rw [hrec] <;> simp only [hlen, List.length_cons] <;>
      rw [Nat.add_assoc, Nat.add_comm 1]

/-- The castling loop started in front of a run `w` of characters, none of them NUL or
white space, that is followed by a space or by the end of the string. -/
theorem fen_castling_run (w : List Char) : ∀ (pre rest : List Char) (pos : Position)
    (fuel : Nat), w.length < fuel →
    (∀ c, c ∈ w → c.toNat ≠ 0 ∧ c.toNat ≠ ' '.toNat ∧ ¬ (9 ≤ c.toNat ∧ c.toNat ≤ 13)) →
    (fen_char rest 0 = 0 ∨ fen_char rest 0 = ' '.toNat) →
    fen_castling fuel (pre ++ (w ++ rest)) pos pre.length =
      (w.foldl fen_castling_step pos, pre.length + w.length) := by
  induction w with
  | nil =>
    intro pre rest pos fuel hfuel _ hrest
    obtain ⟨f, rfl⟩ : ∃ f, fuel = f + 1 := ⟨fuel - 1, by simp at hfuel; omega⟩
    unfold fen_castling
    have hc : fen_char (pre ++ ([] ++ rest)) pre.length = fen_char rest 0 := by
      have := fen_char_append pre rest 0
      rw [Nat.add_zero] at this
      exact this
    simp only [hc]
    rw [if_neg (by rcases hrest with h | h <;> simp [h])]
    rfl
  | cons ch w ih =>
    intro pre rest pos fuel hfuel hw hrest
    obtain ⟨f, rfl⟩ : ∃ f, fuel = f + 1 := ⟨fuel - 1, by simp at hfuel; omega⟩
    have hch := hw ch (List.mem_cons_self _ _)
    have hc : fen_char (pre ++ (ch :: w ++ rest)) pre.length = ch.toNat := fen_char_at pre ch _
    have hfen : pre ++ (ch :: w ++ rest) = (pre ++ [ch]) ++ (w ++ rest) := by simp
    have hlen : (pre ++ [ch]).length = pre.length + 1 := by simp
    have hrec := fun p => ih (pre ++ [ch]) rest p f (by simp at hfuel; omega)
      (fun c hcm => hw c (List.mem_cons_of_mem _ hcm)) hrest
    unfold fen_castling
    simp only [hc]
    rw [if_pos ⟨hch.1, by
      rintro (h | h)
      · exact hch.2.1 h
      · exact hch.2.2 h⟩]
    simp only [List.foldl_cons]
    rw [hfen, ← hlen, hrec]
    simp only [hlen, List.length_cons]
    rw [Nat.add_assoc, Nat.add_comm 1]
    rfl

end AtomicChess

namespace AtomicChess
open MoveFlag

/-! ## Placing the pieces of a well-formed placement field -/

theorem type_to_piece_inj {c t c2 t2 : Nat} (ht : t < 6) (ht2 : t2 < 6)
    (h : 6 * c + t ≠ 6 * c2 + t2) : TYPE_TO_PIECE c t ≠ TYPE_TO_PIECE c2 t2 := by
  unfold TYPE_TO_PIECE; omega

/-- Putting a piece on an empty square keeps board and bitboards in agreement. -/
theorem consistent_put_piece {pos : Position} (hc : consistent pos) {s c t : Nat}
    (hs : s < 64) (hc2 : c < 2) (ht : t < 6) (hempty : pos.board.getD s 0 = NO_PIECE) :
    consistent (put_piece pos t c s) := by
  obtain ⟨hpl, hbl, hb12, hplt, hbit⟩ := hc
  have hP := type_to_piece_facts hc2 ht
  refine ⟨?_, ?_, ?_, ?_, ?_⟩
  · show (pos.pieces.set _ _).length = 12
    rw [List.length_set]; exact hpl
  · show (pos.board.set _ _).length = 64
    rw [List.length_set]; exact hbl
  · intro x hx
    show (pos.board.set s (TYPE_TO_PIECE c t)).getD x 0 ≤ 12
    rw [getD_set]
    split_ifs
    · exact hP.2.2.2
    · exact hb12 x hx
  · intro c3 hc3 t3 ht3
    show (pos.pieces.set (6 * c + t) (pos.pieces.getD (6 * c + t) 0 ||| SQUARE_TO_BITBOARD s)).getD
      (6 * c3 + t3) 0 < 2 ^ 64
    rw [getD_set]
    split_ifs
    · exact Nat.or_lt_two_pow (hplt c hc2 t ht) (SQUARE_TO_BITBOARD_lt s)
    · exact hplt c3 hc3 t3 ht3
  · intro c3 hc3 t3 ht3 x hx
    show ((pos.pieces.set (6 * c + t) (pos.pieces.getD (6 * c + t) 0 |||
      SQUARE_TO_BITBOARD s)).getD (6 * c3 + t3) 0).testBit x = true ↔
      (pos.board.set s (TYPE_TO_PIECE c t)).getD x 0 = TYPE_TO_PIECE c3 t3
    have hold := hbit c3 hc3 t3 ht3 x hx
    unfold Position.bb at hold
    by_cases hidx : 6 * c + t = 6 * c3 + t3
    · have hct : c3 = c ∧ t3 = t := by omega
      rw [hct.1, hct.2] at hold ⊢
      rw [getD_set_eq _ _ _ _ (by rw [hpl]; omega), Nat.testBit_or, Bool.or_eq_true,
        testBit_SQUARE_TO_BITBOARD]
      by_cases hxs : s = x
      · rw [hxs, getD_set_eq _ _ _ _ (by rw [hbl]; exact hx)]
        simp [hx]
      · rw [getD_set_ne _ _ _ _ _ hxs]
        simp only [hxs, decide_False, Bool.and_false, Bool.false_eq_true, or_false]
        exact hold
    · rw [getD_set_ne _ _ _ _ _ hidx]
      by_cases hxs : s = x
      · rw [hxs, getD_set_eq _ _ _ _ (by rw [hbl]; exact hx)]
        rw [hxs] at hempty
        rw [hold, hempty]
        have h1 := (type_to_piece_facts hc3 ht3).2.2.1
        constructor
        · intro e
          rw [← e] at h1
          exact absurd h1 (by decide)
        · intro e
          exact absurd e (type_to_piece_inj ht ht3 hidx)
      · rw [getD_set_ne _ _ _ _ _ hxs]
        exact hold

theorem digit_char_facts : ∀ n, 1 ≤ n → n ≤ 8 →
    (FenToken.char (.empty n)).toNat = '0'.toNat + n ∧
    (FenToken.char (.empty n)).toNat ≠ 0 ∧ (FenToken.char (.empty n)).toNat ≠ ' '.toNat ∧
    ('0'.toNat ≤ (FenToken.char (.empty n)).toNat ∧
      (FenToken.char (.empty n)).toNat ≤ '9'.toNat) := by
  decide

theorem piece_char_facts : ∀ p, 1 ≤ p → p ≤ 12 →
    (FenToken.char (.piece p)).toNat ≠ 0 ∧ (FenToken.char (.piece p)).toNat ≠ ' '.toNat ∧
    ¬ ('0'.toNat ≤ (FenToken.char (.piece p)).toNat ∧
      (FenToken.char (.piece p)).toNat ≤ '9'.toNat) ∧
    (FenToken.char (.piece p)).toNat ≠ '/'.toNat ∧
    CHAR_TO_PIECE (FenToken.char (.piece p)).toNat = p := by
  decide

/-- The placement loop on the symbols of one rank, started on square `q` with the squares
of the rank still empty: it ends on square `q + 8` (more generally `q` plus the width of
the symbols), writes the contents the symbols describe and changes no other square. -/
theorem place_rank (ts : List FenToken) : ∀ (pos : Position) (q : Nat),
    (∀ t, t ∈ ts → t.valid) → q + (ts.map FenToken.width).sum ≤ 64 →
    consistent pos → hash_ok pos →
    (∀ s, q ≤ s → s < q + (ts.map FenToken.width).sum → pos.board.getD s 0 = NO_PIECE) →
    ((ts.map FenToken.char).foldl fen_placement_step (pos, (q : Int))).2 =
      ((q + (ts.map FenToken.width).sum : Nat) : Int) ∧
    consistent ((ts.map FenToken.char).foldl fen_placement_step (pos, (q : Int))).1 ∧
    hash_ok ((ts.map FenToken.char).foldl fen_placement_step (pos, (q : Int))).1 ∧
    (∀ s, (s < q ∨ q + (ts.map FenToken.width).sum ≤ s) →
      ((ts.map FenToken.char).foldl fen_placement_step (pos, (q : Int))).1.board.getD s 0 =
        pos.board.getD s 0) ∧
    (∀ k, k < (ts.map FenToken.width).sum →
      ((ts.map FenToken.char).foldl fen_placement_step (pos, (q : Int))).1.board.getD (q + k) 0 =
        (ts.flatMap FenToken.squares).getD k NO_PIECE) ∧
    ((ts.map FenToken.char).foldl fen_placement_step (pos, (q : Int))).1.side_to_play =
      pos.side_to_play ∧
    ((ts.map FenToken.char).foldl fen_placement_step (pos, (q : Int))).1.ply = pos.ply ∧
    ((ts.map FenToken.char).foldl fen_placement_step (pos, (q : Int))).1.history =
      pos.history := by
  induction ts with
  | nil =>
    intro pos q _ _ hc hh _
    exact ⟨rfl, hc, hh, fun _ _ => rfl, fun k hk => absurd hk (Nat.not_lt_zero k), rfl, rfl, rfl⟩
  | cons t ts ih =>
    intro pos q hv hw hc hh hempty
    simp only [List.map_cons, List.foldl_cons, List.sum_cons] at hw hempty ⊢
    have hvt := hv t (List.mem_cons_self _ _)
    have hvr : ∀ u, u ∈ ts → u.valid := fun u hu => hv u (List.mem_cons_of_mem _ hu)
    cases t with
    | empty n =>
      obtain ⟨h1, h8⟩ : 1 ≤ n ∧ n ≤ 8 := hvt
      obtain ⟨d1, _, _, d4⟩ := digit_char_facts n h1 h8
      have hstep : fen_placement_step (pos, (q : Int)) (FenToken.char (.empty n)) =
          (pos, ((q + n : Nat) : Int)) := by
        unfold fen_placement_step
        simp only
        rw [if_pos d4, d1, Nat.add_sub_cancel_left, Nat.cast_add]
      rw [hstep]
      have hw2 : FenToken.width (.empty n) = n := rfl
      rw [hw2] at hw hempty ⊢
      obtain ⟨r1, r2, r3, r4, r5, r6, r7, r8⟩ := ih pos (q + n) hvr (by omega) hc hh
        (fun s hs1 hs2 => hempty s (by omega) (by omega))
      refine ⟨by rw [r1, Nat.add_assoc], r2, r3, ?_, ?_, r6, r7, r8⟩
      · intro s hs
        exact r4 s (by omega)
      · intro k hk
        have hsq : ((FenToken.empty n :: ts).flatMap FenToken.squares) =
            List.replicate n NO_PIECE ++ ts.flatMap FenToken.squares := rfl
        rw [hsq]
        by_cases hkn : k < n
        · rw [r4 (q + k) (Or.inl (by omega)), hempty (q + k) (by omega) (by omega),
            List.getD_append _ _ _ _ (by rw [List.length_replicate]; exact hkn)]
          simp [List.getD_eq_getElem?_getD, hkn]
        · rw [List.getD_append_right _ _ _ _ (by rw [List.length_replicate]; omega),
            List.length_replicate]
          have := r5 (k - n) (by omega)
          rw [← this]
          congr 1
          omega
    | piece p =>
      obtain ⟨h1, h12⟩ : 1 ≤ p ∧ p ≤ 12 := hvt
      obtain ⟨_, _, c3, c4, c5⟩ := piece_char_facts p h1 h12
      obtain ⟨_, pc2, pt6, ptp⟩ := piece_index h1 h12
      have hstep : fen_placement_step (pos, (q : Int)) (FenToken.char (.piece p)) =
          (put_piece pos (PIECE_TO_TYPE p) (PIECE_TO_COLOR p) q, ((q + 1 : Nat) : Int)) := by
        unfold fen_placement_step
        simp only
        rw [if_neg c3, if_neg c4, c5, Int.toNat_ofNat, Nat.cast_add]
        rfl
      rw [hstep]
      have hw2 : FenToken.width (.piece p) = 1 := rfl
      rw [hw2] at hw hempty ⊢
      have hq64 : q < 64 := by omega
      have hq0 : pos.board.getD q 0 = NO_PIECE := hempty q (le_refl q) (by omega)
      have hc1 := consistent_put_piece hc hq64 pc2 pt6 hq0
      have hh1 := hash_ok_put_piece hh hc.2.1 hq64 pc2 pt6 hq0
      have hb1 : ∀ s, (put_piece pos (PIECE_TO_TYPE p) (PIECE_TO_COLOR p) q).board.getD s 0 =
          (pos.board.set q p).getD s 0 := by
        intro s
        show (pos.board.set q (TYPE_TO_PIECE (PIECE_TO_COLOR p) (PIECE_TO_TYPE p))).getD s 0 = _
        rw [ptp]
      obtain ⟨r1, r2, r3, r4, r5, r6, r7, r8⟩ := ih
        (put_piece pos (PIECE_TO_TYPE p) (PIECE_TO_COLOR p) q) (q + 1) hvr (by omega) hc1 hh1
        (fun s hs1 hs2 => by
          rw [hb1, getD_set_ne _ _ _ _ _ (by omega)]
          exact hempty s (by omega) (by omega))
      refine ⟨by rw [r1]; congr 1; omega, r2, r3, ?_, ?_, r6, r7, r8⟩
      · intro s hs
        rw [r4 s (by omega), hb1, getD_set_ne _ _ _ _ _ (by omega)]
      · intro k hk
        have hsq : ((FenToken.piece p :: ts).flatMap FenToken.squares) =
            p :: ts.flatMap FenToken.squares := rfl
        rw [hsq]
        cases k with
        | zero =>
          have e0 := r4 q (Or.inl (by omega))
          rw [hb1, getD_set_eq _ _ _ _ (by rw [hc.2.1]; exact hq64)] at e0
          exact e0
        | succ k =>
          have := r5 k (by omega)
          rw [List.getD_cons_succ, ← this]
          congr 1
          omega

theorem slash_step (pos : Position) (x : Int) :
    fen_placement_step (pos, x) '/' = (pos, x - 16) := rfl

/-- The placement loop on the text of `rs.length` ranks, started on the a-file square of
the topmost of them with all their squares still empty: rank by rank from the top it
writes the contents the symbols describe, and it changes no square above them. -/
theorem place_ranks (rs : List (List FenToken)) : ∀ (pos : Position),
    (∀ r, r ∈ rs → (∀ t, t ∈ r → t.valid) ∧ (r.map FenToken.width).sum = 8) →
    rs.length ≤ 8 → consistent pos → hash_ok pos →
    (∀ s, s < 8 * rs.length → pos.board.getD s 0 = NO_PIECE) →
    consistent ((placement_text rs).foldl fen_placement_step
      (pos, ((8 * (rs.length - 1) : Nat) : Int))).1 ∧
    hash_ok ((placement_text rs).foldl fen_placement_step
      (pos, ((8 * (rs.length - 1) : Nat) : Int))).1 ∧
    (∀ s, 8 * rs.length ≤ s →
      ((placement_text rs).foldl fen_placement_step
        (pos, ((8 * (rs.length - 1) : Nat) : Int))).1.board.getD s 0 = pos.board.getD s 0) ∧
    (∀ j f, j < rs.length → f < 8 →
      ((placement_text rs).foldl fen_placement_step
        (pos, ((8 * (rs.length - 1) : Nat) : Int))).1.board.getD
          (8 * (rs.length - 1 - j) + f) 0 =
        ((rs.getD j []).flatMap FenToken.squares).getD f NO_PIECE) ∧
    ((placement_text rs).foldl fen_placement_step
      (pos, ((8 * (rs.length - 1) : Nat) : Int))).1.side_to_play = pos.side_to_play ∧
    ((placement_text rs).foldl fen_placement_step
      (pos, ((8 * (rs.length - 1) : Nat) : Int))).1.ply = pos.ply ∧
    ((placement_text rs).foldl fen_placement_step
      (pos, ((8 * (rs.length - 1) : Nat) : Int))).1.history = pos.history := by
  induction rs with
  | nil =>
    intro pos _ _ hc hh _
    exact ⟨hc, hh, fun _ _ => rfl, fun j f hj _ => absurd hj (Nat.not_lt_zero j), rfl, rfl, rfl⟩
  | cons r tl ih =>
    intro pos hv hlen hc hh hempty
    obtain ⟨hvr, hwr⟩ := hv r (List.mem_cons_self _ _)
    have hvtl : ∀ u, u ∈ tl → (∀ t, t ∈ u → t.valid) ∧ (u.map FenToken.width).sum = 8 :=
      fun u hu => hv u (List.mem_cons_of_mem _ hu)
    rw [List.length_cons] at hlen hempty ⊢
    rw [Nat.add_sub_cancel]
    obtain ⟨p1, p2, p3, p4, p5, p6, p7, p8⟩ := place_rank r pos (8 * tl.length) hvr
      (by rw [hwr]; omega) hc hh (fun s _ hs2 => hempty s (by rw [hwr] at hs2; omega))
    rw [hwr] at p1 p4 p5
    cases tl with
    | nil =>
      have htxt : placement_text [r] = r.map FenToken.char := rfl
      rw [htxt]
      refine ⟨p2, p3, ?_, ?_, p6, p7, p8⟩
      · intro s hs
        exact p4 s (Or.inr (by simpa using hs))
      · intro j f hj hf
        have hj0 : j = 0 := by simp at hj; omega
        subst hj0
        exact p5 f hf
    | cons r2 rs2 =>
      have htxt : placement_text (r :: r2 :: rs2) =
          r.map FenToken.char ++ '/' :: placement_text (r2 :: rs2) := rfl
      rw [htxt, List.foldl_append, List.foldl_cons]
      have hst : (r.map FenToken.char).foldl fen_placement_step
          (pos, ((8 * (r2 :: rs2).length : Nat) : Int)) =
          (((r.map FenToken.char).foldl fen_placement_step
            (pos, ((8 * (r2 :: rs2).length : Nat) : Int))).1,
           ((8 * (r2 :: rs2).length + 8 : Nat) : Int)) := by
        rw [← p1]
      rw [hst, slash_step]
      have hsq : (((8 * (r2 :: rs2).length + 8 : Nat) : Int) - 16) =
          ((8 * ((r2 :: rs2).length - 1) : Nat) : Int) := by
        simp only [List.length_cons]
        omega
      rw [hsq]
      obtain ⟨q2, q3, q4, q5, q6, q7, q8⟩ := ih _ hvtl (by omega) p2 p3
        (fun s hs => by
          rw [p4 s (Or.inl hs)]
          exact hempty s (by omega))
      refine ⟨q2, q3, ?_, ?_, by rw [q6, p6], by rw [q7, p7], by rw [q8, p8]⟩
      · intro s hs
        rw [q4 s (by omega), p4 s (Or.inr (by omega))]
      · intro j f hj hf
        cases j with
        | zero =>
          rw [Nat.sub_zero, q4 _ (by omega), List.getD_cons_zero]
          exact p5 f hf
        | succ j =>
          have := q5 j f (by omega) hf
          rw [List.getD_cons_succ, ← this]
          congr 2
          omega

end AtomicChess

namespace AtomicChess
open MoveFlag

/-! ## The fields of a well-formed FEN as `set_from_fen` reads them -/

theorem placement_text_chars (rs : List (List FenToken))
    (hv : ∀ r, r ∈ rs → ∀ t, t ∈ r → t.valid) :
    ∀ c, c ∈ placement_text rs → c.toNat ≠ 0 ∧ c.toNat ≠ ' '.toNat := by
  have hrank : ∀ r : List FenToken, (∀ t, t ∈ r → t.valid) →
      ∀ c, c ∈ r.map FenToken.char → c.toNat ≠ 0 ∧ c.toNat ≠ ' '.toNat := by
    intro r hr c hc
    rw [List.mem_map] at hc
    obtain ⟨t, ht, rfl⟩ := hc
    have hvt := hr t ht
    cases t with
    | empty n =>
      obtain ⟨h1, h8⟩ : 1 ≤ n ∧ n ≤ 8 := hvt
      exact ⟨(digit_char_facts n h1 h8).2.1, (digit_char_facts n h1 h8).2.2.1⟩
    | piece p =>
      obtain ⟨h1, h12⟩ : 1 ≤ p ∧ p ≤ 12 := hvt
      exact ⟨(piece_char_facts p h1 h12).1, (piece_char_facts p h1 h12).2.1⟩
  induction rs with
  | nil => intro c hc; exact absurd hc (List.not_mem_nil _)
  | cons r tl ih =>
    have hr := hrank r (hv r (List.mem_cons_self _ _))
    have htl := ih (fun u hu => hv u (List.mem_cons_of_mem _ hu))
    cases tl with
    | nil => exact hr
    | cons r2 rs2 =>
      intro c hc
      have htxt : placement_text (r :: r2 :: rs2) =
          r.map FenToken.char ++ '/' :: placement_text (r2 :: rs2) := rfl
      rw [htxt, List.mem_append, List.mem_cons] at hc
      rcases hc with hc | hc | hc
      · exact hr c hc
      · rw [hc]; decide
      · exact htl c hc

theorem fen_cleared_facts : consistent fen_cleared ∧ hash_ok fen_cleared ∧
    (∀ s, fen_cleared.board.getD s 0 = NO_PIECE) := by
  have hlt : ∀ s, s < 64 → fen_cleared.board.getD s 0 = NO_PIECE := by decide
  refine ⟨by decide, by decide, ?_⟩
  intro s
  by_cases h : s < 64
  · exact hlt s h
  · refine List.getD_eq_default _ _ ?_
    show (List.replicate 64 NO_PIECE).length ≤ s
    rw [List.length_replicate]; omega

/-! ## The castling field -/

theorem castling_step_facts (pos : Position) (ch : Char) (hlen : 0 < pos.history.length)
    (he : (pos.history.getD 0 ⟨0, 0, 0⟩).entry < 2 ^ 64) :
    (fen_castling_step pos ch).board = pos.board ∧
    (fen_castling_step pos ch).pieces = pos.pieces ∧
    (fen_castling_step pos ch).zobrist_hash = pos.zobrist_hash ∧
    (fen_castling_step pos ch).side_to_play = pos.side_to_play ∧
    (fen_castling_step pos ch).ply = pos.ply ∧
    (fen_castling_step pos ch).history.length = pos.history.length ∧
    ((fen_castling_step pos ch).history.getD 0 ⟨0, 0, 0⟩).enpassant =
      (pos.history.getD 0 ⟨0, 0, 0⟩).enpassant ∧
    ((fen_castling_step pos ch).history.getD 0 ⟨0, 0, 0⟩).entry =
      (pos.history.getD 0 ⟨0, 0, 0⟩).entry &&& bnot (castling_letter_mask ch) := by
  have hset : ∀ f : Nat → Nat,
      (set_entry0 pos f).board = pos.board ∧ (set_entry0 pos f).pieces = pos.pieces ∧
      (set_entry0 pos f).zobrist_hash = pos.zobrist_hash ∧
      (set_entry0 pos f).side_to_play = pos.side_to_play ∧ (set_entry0 pos f).ply = pos.ply ∧
      (set_entry0 pos f).history.length = pos.history.length ∧
      ((set_entry0 pos f).history.getD 0 ⟨0, 0, 0⟩).enpassant =
        (pos.history.getD 0 ⟨0, 0, 0⟩).enpassant ∧
      ((set_entry0 pos f).history.getD 0 ⟨0, 0, 0⟩).entry =
        f (pos.history.getD 0 ⟨0, 0, 0⟩).entry := by
    intro f
    refine ⟨rfl, rfl, rfl, rfl, rfl, ?_, ?_, ?_⟩
    · show (pos.history.set 0 _).length = _
      exact List.length_set _ _ _
    · show ((pos.history.set 0 _).getD 0 _).enpassant = _
      rw [getD_set_eq _ _ _ _ hlen]
    · show ((pos.history.set 0 _).getD 0 _).entry = _
      rw [getD_set_eq _ _ _ _ hlen]
  unfold fen_castling_step castling_letter_mask
  simp only
  split_ifs
  · exact hset _
  · exact hset _
  · exact hset _
  · exact hset _
  · refine ⟨rfl, rfl, rfl, rfl, rfl, rfl, rfl, ?_⟩
    have : bnot 0 = ALL_ONES := rfl
    rw [this, and_ALL_ONES he]

theorem castling_fold_facts (w : List Char) : ∀ (pos : Position), 0 < pos.history.length →
    (pos.history.getD 0 ⟨0, 0, 0⟩).entry < 2 ^ 64 →
    (w.foldl fen_castling_step pos).board = pos.board ∧
    (w.foldl fen_castling_step pos).pieces = pos.pieces ∧
    (w.foldl fen_castling_step pos).zobrist_hash = pos.zobrist_hash ∧
    (w.foldl fen_castling_step pos).side_to_play = pos.side_to_play ∧
    (w.foldl fen_castling_step pos).ply = pos.ply ∧
    (w.foldl fen_castling_step pos).history.length = pos.history.length ∧
    ((w.foldl fen_castling_step pos).history.getD 0 ⟨0, 0, 0⟩).enpassant =
      (pos.history.getD 0 ⟨0, 0, 0⟩).enpassant ∧
    ((w.foldl fen_castling_step pos).history.getD 0 ⟨0, 0, 0⟩).entry < 2 ^ 64 ∧
    ∀ i, i < 64 → ((w.foldl fen_castling_step pos).history.getD 0 ⟨0, 0, 0⟩).entry.testBit i =
      ((pos.history.getD 0 ⟨0, 0, 0⟩).entry.testBit i &&
        w.all (fun c => !(castling_letter_mask c).testBit i)) := by
  induction w with
  | nil =>
    intro pos _ he
    refine ⟨rfl, rfl, rfl, rfl, rfl, rfl, rfl, he, ?_⟩
    intro i _
    simp only [List.foldl_nil, List.all_nil, Bool.and_true]
  | cons ch w ih =>
    intro pos hlen he
    obtain ⟨s1, s2, s3, s4, s5, s6, s7, s8⟩ := castling_step_facts pos ch hlen he
    obtain ⟨r1, r2, r3, r4, r5, r6, r7, r8, r9⟩ := ih (fen_castling_step pos ch)
      (by rw [s6]; exact hlen) (by rw [s8]; exact lt_of_and_left he)
    rw [List.foldl_cons]
    refine ⟨by rw [r1, s1], by rw [r2, s2], by rw [r3, s3], by rw [r4, s4], by rw [r5, s5],
      by rw [r6, s6], by rw [r7, s7], r8, ?_⟩
    intro i hi
    rw [r9 i hi, s8, Nat.testBit_and, testBit_bnot, List.all_cons]
    simp only [hi, decide_True, Bool.true_bne, Bool.and_assoc]

/-! ## The fields in sequence -/

/-- On a string made of a placement field `P`, a side character, a castling field `C` and
a remainder `T`, each separated by one space, `set_from_fen` applies the placement loop
body to the characters of `P`, reads the side, applies the castling loop body to the
characters of `C` and reads the en passant square from the first two characters of `T`. -/
theorem set_from_fen_fields (P C T : List Char) (side : Char)
    (hP : ∀ c, c ∈ P → c.toNat ≠ 0 ∧ c.toNat ≠ ' '.toNat)
    (hC : ∀ c, c ∈ C → c.toNat ≠ 0 ∧ c.toNat ≠ ' '.toNat ∧ ¬ (9 ≤ c.toNat ∧ c.toNat ≤ 13))
    (p1 q : Position) (hp1 : p1 = (P.foldl fen_placement_step (fen_cleared, 56)).1)
    (hq : q = C.foldl fen_castling_step
      { p1 with side_to_play := if side.toNat = 'w'.toNat then WHITE else BLACK }) :
    (set_from_fen_len (P ++ ' ' :: side :: ' ' :: (C ++ ' ' :: T))).1 =
      (if fen_char T 0 ≠ '-'.toNat then
        { q with
          history := q.history.set 0
            ⟨(q.history.getD 0 ⟨0, 0, 0⟩).entry,
              ((((fen_char T 1 : Int) - ('0'.toNat : Int) - 1) * 8 +
                ((fen_char T 0 : Int) - ('a'.toNat : Int))).toNat),
              (q.history.getD 0 ⟨0, 0, 0⟩).captured⟩ }
      else q) := by
  have hlen : P.length < (P ++ ' ' :: side :: ' ' :: (C ++ ' ' :: T)).length + 1 := by
    simp only [List.length_append, List.length_cons]; omega
  have hlenC : C.length < (P ++ ' ' :: side :: ' ' :: (C ++ ' ' :: T)).length + 1 := by
    simp only [List.length_append, List.length_cons]; omega
  have h1 := fen_placement_run P [] (' ' :: side :: ' ' :: (C ++ ' ' :: T)) fen_cleared 56 _
    hlen hP (Or.inr rfl)
  simp only [List.nil_append, List.length_nil, Nat.zero_add] at h1
  have hside : fen_char (P ++ ' ' :: side :: ' ' :: (C ++ ' ' :: T)) (P.length + 1) =
      side.toNat := by
    rw [fen_char_append]; rfl
  have hsplit : P ++ ' ' :: side :: ' ' :: (C ++ ' ' :: T) =
      (P ++ [' ', side, ' ']) ++ (C ++ ' ' :: T) := by simp
  have hl3 : (P ++ [' ', side, ' ']).length = P.length + 1 + 1 + 1 := by simp
  have h2 := fun p => fen_castling_run C (P ++ [' ', side, ' ']) (' ' :: T) p
    ((P ++ ' ' :: side :: ' ' :: (C ++ ' ' :: T)).length + 1) hlenC hC (Or.inr rfl)
  rw [← hsplit, hl3] at h2
  have he : ∀ k, fen_char (P ++ ' ' :: side :: ' ' :: (C ++ ' ' :: T))
      (P.length + 1 + 1 + 1 + C.length + 1 + k) = fen_char T k := by
    intro k
    have e : P ++ ' ' :: side :: ' ' :: (C ++ ' ' :: T) =
        (P ++ [' ', side, ' '] ++ C ++ [' ']) ++ T := by simp
    have l : (P ++ [' ', side, ' '] ++ C ++ [' ']).length = P.length + 1 + 1 + 1 + C.length + 1 := by
      simp only [List.length_append, List.length_cons, List.length_nil]
    rw [e, ← l, fen_char_append]
  have he0 := he 0
  have he1 := he 1
  rw [Nat.add_zero] at he0
  unfold set_from_fen_len
  simp only
  have hpos0 : (⟨List.replicate 12 0, List.replicate 64 NO_PIECE, WHITE, 0, 0,
      List.replicate 256 ⟨ALL_CASTLING_MASK, NO_SQUARE, NO_PIECE⟩⟩ : Position) =
      fen_cleared := rfl
  rw [hpos0, h1]
  simp only
  rw [hside, h2]
  simp only
  rw [he0, he1, ← hp1, ← hq]

/-! ## The castling tests and the en passant square -/

theorem castling_test (L : Char) (b : Nat) (w : List Char) (E : Nat) (hb : b < 64)
    (hMb : (castling_letter_mask L).testBit b = true)
    (hAb : ALL_CASTLING_MASK.testBit b = true)
    (hM : castling_letter_mask L < 2 ^ 64)
    (hother : ∀ c, c ∈ w → c ≠ L → (castling_letter_mask c).testBit b = false)
    (hE : E < 2 ^ 64)
    (hbits : ∀ i, i < 64 → E.testBit i =
      (ALL_CASTLING_MASK.testBit i && w.all (fun c => !(castling_letter_mask c).testBit i))) :
    E &&& castling_letter_mask L = 0 ↔ L ∈ w := by
  constructor
  · intro h0
    by_contra hL
    have hall : w.all (fun c => !(castling_letter_mask c).testBit b) = true := by
      rw [List.all_eq_true]
      intro c hc
      rw [hother c hc (fun e => hL (e ▸ hc))]
      rfl
    have hEb : E.testBit b = true := by rw [hbits b hb, hAb, hall]; rfl
    have : (E &&& castling_letter_mask L).testBit b = true := by
      rw [Nat.testBit_and, hEb, hMb]; rfl
    rw [h0, Nat.zero_testBit] at this
    exact Bool.noConfusion this
  · intro hL
    apply Nat.eq_of_testBit_eq
    intro i
    rw [Nat.testBit_and, Nat.zero_testBit]
    by_cases hi : i < 64
    · cases hMi : (castling_letter_mask L).testBit i with
      | false => exact Bool.and_false _
      | true =>
        have hall : w.all (fun c => !(castling_letter_mask c).testBit i) = false := by
          rw [List.all_eq_false]
          exact ⟨L, hL, by rw [hMi]; exact Bool.noConfusion⟩
        rw [hbits i hi, hall, Bool.and_false, Bool.false_and]
    · have : E.testBit i = false :=
        Nat.testBit_lt_two_pow (lt_of_lt_of_le hE (Nat.pow_le_pow_right (by decide) (by omega)))
      rw [this, Bool.false_and]

theorem enpassant_char_facts : ∀ f, f < 8 →
    (Char.ofNat ('a'.toNat + f)).toNat = 'a'.toNat + f ∧
    (Char.ofNat ('1'.toNat + f)).toNat = '1'.toNat + f := by
  decide

theorem enpassant_field (e : Option (Nat × Nat)) (R : List Char)
    (he : ∀ x, e = some x → x.1 < 8 ∧ x.2 < 8) :
    (e = none → fen_char (enpassant_text e ++ R) 0 = '-'.toNat) ∧
    (∀ x, e = some x → fen_char (enpassant_text e ++ R) 0 ≠ '-'.toNat ∧
      ((((fen_char (enpassant_text e ++ R) 1 : Int) - ('0'.toNat : Int) - 1) * 8 +
        ((fen_char (enpassant_text e ++ R) 0 : Int) - ('a'.toNat : Int))).toNat) =
        8 * x.2 + x.1) := by
  constructor
  · intro h
    rw [h]; rfl
  · intro x h
    obtain ⟨h1, h2⟩ := he x h
    have c0 : fen_char (enpassant_text e ++ R) 0 = 'a'.toNat + x.1 := by
      rw [h]
      exact (enpassant_char_facts x.1 h1).1
    have c1 : fen_char (enpassant_text e ++ R) 1 = '1'.toNat + x.2 := by
      rw [h]
      exact (enpassant_char_facts x.2 h2).2
    rw [c0, c1]
    have ha : 'a'.toNat = 97 := rfl
    have h1c : '1'.toNat = 49 := rfl
    have h0c : '0'.toNat = 48 := rfl
    have hm : '-'.toNat = 45 := rfl
    rw [ha, h1c, h0c, hm]
    constructor
    · omega
    · push_cast
      omega

/-! ## `set_from_fen` on a well-formed FEN -/

theorem castling_field_chars (F : Fen)
    (hcast : ∀ c, c ∈ F.castling → c = 'K' ∨ c = 'Q' ∨ c = 'k' ∨ c = 'q') :
    ∀ c, c ∈ (if F.castling = [] then ['-'] else F.castling) →
      c = 'K' ∨ c = 'Q' ∨ c = 'k' ∨ c = 'q' ∨ c = '-' := by
  intro c hc
  split_ifs at hc with h
  · rw [List.mem_singleton] at hc
    exact Or.inr (Or.inr (Or.inr (Or.inr hc)))
  · rcases hcast c hc with h | h | h | h
    · exact Or.inl h
    · exact Or.inr (Or.inl h)
    · exact Or.inr (Or.inr (Or.inl h))
    · exact Or.inr (Or.inr (Or.inr (Or.inl h)))

theorem castling_field_mem (F : Fen) (L : Char) (hL : L ≠ '-') :
    L ∈ (if F.castling = [] then ['-'] else F.castling) ↔ L ∈ F.castling := by
  split_ifs with h
  · rw [h, List.mem_singleton]
    constructor
    · intro e; exact absurd e hL
    · intro e; exact absurd e (List.not_mem_nil _)
  · exact Iff.rfl

set_option maxRecDepth 100000 in
/-- The position `set_from_fen` builds from a well-formed FEN: the board holds the
placement, the bitboards agree with the board, the hash is the hash of the board, and
side, ply, en passant square and castling record are those of the FEN. -/
theorem set_from_fen_valid (F : Fen) (hF : F.valid) (pos : Position)
    (hpos : pos = set_from_fen (String.mk F.text)) :
    consistent pos ∧ hash_ok pos ∧ (∀ s, s < 64 → pos.board.getD s 0 = F.piece_at s) ∧
    pos.side_to_play = (if F.white = true then WHITE else BLACK) ∧ pos.ply = 0 ∧
    (pos.history.getD 0 ⟨0, 0, 0⟩).enpassant = F.enpassant_square ∧
    ((pos.history.getD 0 ⟨0, 0, 0⟩).entry &&& OO_MASK WHITE = 0 ↔ 'K' ∈ F.castling) ∧
    ((pos.history.getD 0 ⟨0, 0, 0⟩).entry &&& OOO_MASK WHITE = 0 ↔ 'Q' ∈ F.castling) ∧
    ((pos.history.getD 0 ⟨0, 0, 0⟩).entry &&& OO_MASK BLACK = 0 ↔ 'k' ∈ F.castling) ∧
    ((pos.history.getD 0 ⟨0, 0, 0⟩).entry &&& OOO_MASK BLACK = 0 ↔ 'q' ∈ F.castling) := by
  obtain ⟨hlen, hranks, hcast, hep, _, _⟩ := hF
  have hC := castling_field_chars F hcast
  have hCc : ∀ c, c ∈ (if F.castling = [] then ['-'] else F.castling) →
      c.toNat ≠ 0 ∧ c.toNat ≠ ' '.toNat ∧ ¬ (9 ≤ c.toNat ∧ c.toNat ≤ 13) := by
    intro c hc
    rcases hC c hc with h | h | h | h | h <;> rw [h] <;> decide
  have hP := placement_text_chars F.ranks (fun r hr => (hranks r hr).1)
  -- the placement
  have h56 : ((8 * (F.ranks.length - 1) : Nat) : Int) = 56 := by rw [hlen]; rfl
  obtain ⟨hc0, hh0, hb0⟩ := fen_cleared_facts
  obtain ⟨a1, a2, _, a4, a5, a6, a7⟩ := place_ranks F.ranks fen_cleared hranks (le_of_eq hlen)
    hc0 hh0 (fun s _ => hb0 s)
  rw [h56] at a1 a2 a4 a5 a6 a7
  generalize hp1 : ((placement_text F.ranks).foldl fen_placement_step (fen_cleared, 56)).1 = p1
    at a1 a2 a4 a5 a6 a7
  -- the castling field
  obtain ⟨b1, b2, b3, b4, b5, b6, b7, b8, b9⟩ := castling_fold_facts
    (if F.castling = [] then ['-'] else F.castling)
    { p1 with side_to_play := if (if F.white = true then 'w' else 'b').toNat = 'w'.toNat
        then WHITE else BLACK }
    (by show 0 < p1.history.length; rw [a7]; decide)
    (by show (p1.history.getD 0 ⟨0, 0, 0⟩).entry < 2 ^ 64; rw [a7]; decide)
  have hfields := set_from_fen_fields (placement_text F.ranks)
    (if F.castling = [] then ['-'] else F.castling)
    (enpassant_text F.enpassant ++ ' ' :: (F.halfmove ++ ' ' :: F.fullmove))
    (if F.white = true then 'w' else 'b') hP hCc p1 _ hp1.symm rfl
  generalize hq : (if F.castling = [] then ['-'] else F.castling).foldl fen_castling_step
    { p1 with side_to_play := if (if F.white = true then 'w' else 'b').toNat = 'w'.toNat
        then WHITE else BLACK } = q at b1 b2 b3 b4 b5 b6 b7 b8 b9 hfields
  have hb1 : q.board = p1.board := b1
  have hb2 : q.pieces = p1.pieces := b2
  have hb3 : q.zobrist_hash = p1.zobrist_hash := b3
  have hb4 : q.side_to_play = (if F.white = true then WHITE else BLACK) := by
    rw [b4]
    show (if (if F.white = true then 'w' else 'b').toNat = 'w'.toNat then WHITE else BLACK) = _
    cases F.white <;> rfl
  have hb5 : q.ply = 0 := by rw [b5]; show p1.ply = 0; rw [a6]; rfl
  have hb6 : 0 < q.history.length := by rw [b6]; show 0 < p1.history.length; rw [a7]; decide
  have hb7 : (q.history.getD 0 ⟨0, 0, 0⟩).enpassant = NO_SQUARE := by
    rw [b7]; show (p1.history.getD 0 ⟨0, 0, 0⟩).enpassant = _; rw [a7]; rfl
  have hb9 : ∀ i, i < 64 → (q.history.getD 0 ⟨0, 0, 0⟩).entry.testBit i =
      (ALL_CASTLING_MASK.testBit i && (if F.castling = [] then ['-'] else F.castling).all
        (fun c => !(castling_letter_mask c).testBit i)) := by
    intro i hi
    rw [b9 i hi]
    show ((p1.history.getD 0 ⟨0, 0, 0⟩).entry.testBit i && _) = _
    rw [a7]; rfl
  have hqc : consistent q := by
    obtain ⟨c1, c2, c3, c4, c5⟩ := a1
    refine ⟨by rw [hb2]; exact c1, by rw [hb1]; exact c2, by rw [hb1]; exact c3, ?_, ?_⟩
    · intro c hc t ht
      show q.pieces.getD _ 0 < _
      rw [hb2]; exact c4 c hc t ht
    · intro c hc t ht s hs
      show (q.pieces.getD _ 0).testBit s = true ↔ _
      rw [hb2, hb1]; exact c5 c hc t ht s hs
  have hqh : hash_ok q := by
    show q.zobrist_hash = zobrist_of_board q.board
    rw [hb3, hb1]; exact a2
  have hqb : ∀ s, s < 64 → q.board.getD s 0 = F.piece_at s := by
    intro s hs
    rw [hb1]
    have := a4 (7 - s / 8) (s % 8) (by rw [hlen]; omega) (Nat.mod_lt _ (by decide))
    rw [hlen] at this
    have hsq : 8 * (8 - 1 - (7 - s / 8)) + s % 8 = s := by omega
    rw [hsq] at this
    exact this
  -- the four castling tests
  have hother : ∀ (L : Char) (b : Nat), (∀ c, (c = 'K' ∨ c = 'Q' ∨ c = 'k' ∨ c = 'q' ∨ c = '-') →
      c ≠ L → (castling_letter_mask c).testBit b = false) →
      ∀ c, c ∈ (if F.castling = [] then ['-'] else F.castling) → c ≠ L →
        (castling_letter_mask c).testBit b = false := fun L b h c hc hne => h c (hC c hc) hne
  have tK := castling_test 'K' 7 _ _ (by decide) (by decide) (by decide) (by decide)
    (hother 'K' 7 (by
      rintro c (h | h | h | h | h) hne <;> first | exact absurd h hne | (rw [h]; decide))) b8 hb9
  have tQ := castling_test 'Q' 0 _ _ (by decide) (by decide) (by decide) (by decide)
    (hother 'Q' 0 (by
      rintro c (h | h | h | h | h) hne <;> first | exact absurd h hne | (rw [h]; decide))) b8 hb9
  have tk := castling_test 'k' 63 _ _ (by decide) (by decide) (by decide) (by decide)
    (hother 'k' 63 (by
      rintro c (h | h | h | h | h) hne <;> first | exact absurd h hne | (rw [h]; decide))) b8 hb9
  have tq := castling_test 'q' 56 _ _ (by decide) (by decide) (by decide) (by decide)
    (hother 'q' 56 (by
      rintro c (h | h | h | h | h) hne <;> first | exact absurd h hne | (rw [h]; decide))) b8 hb9
  rw [castling_field_mem F 'K' (by decide)] at tK
  rw [castling_field_mem F 'Q' (by decide)] at tQ
  rw [castling_field_mem F 'k' (by decide)] at tk
  rw [castling_field_mem F 'q' (by decide)] at tq
  -- the en passant field
  obtain ⟨e1, e2⟩ := enpassant_field F.enpassant (' ' :: (F.halfmove ++ ' ' :: F.fullmove)) hep
  have hpos2 : pos = (set_from_fen_len F.text).1 := hpos
  unfold Fen.text at hpos2
  rw [hfields] at hpos2
  cases hE : F.enpassant with
  | none =>
    rw [if_neg (by rw [e1 hE]; exact fun h => h rfl)] at hpos2
    rw [hpos2]
    refine ⟨hqc, hqh, hqb, hb4, hb5, ?_, tK, tQ, tk, tq⟩
    rw [hb7]
    unfold Fen.enpassant_square
    rw [hE]
  | some x =>
    obtain ⟨x1, x2⟩ := e2 x hE
    rw [if_pos x1, x2] at hpos2
    have hen : (pos.history.getD 0 ⟨0, 0, 0⟩).entry = (q.history.getD 0 ⟨0, 0, 0⟩).entry := by
      rw [hpos2]
      show ((q.history.set 0 _).getD 0 _).entry = _
      rw [getD_set_eq _ _ _ _ hb6]
    have hep2 : (pos.history.getD 0 ⟨0, 0, 0⟩).enpassant = 8 * x.2 + x.1 := by
      rw [hpos2]
      show ((q.history.set 0 _).getD 0 _).enpassant = _
      rw [getD_set_eq _ _ _ _ hb6]
    rw [hen, hep2]
    rw [hpos2]
    refine ⟨hqc, hqh, hqb, hb4, hb5, ?_, tK, tQ, tk, tq⟩
    unfold Fen.enpassant_square
    rw [hE]

end AtomicChess

namespace AtomicChess

open MoveFlag

/-! ## The en passant square, the side and the ply after `play` -/

theorem enpassant_set_captured (pos : Position) (v k : Nat) :
    ((set_captured pos v).history.getD k ⟨0, 0, 0⟩).enpassant =
      (pos.history.getD k ⟨0, 0, 0⟩).enpassant := by
  unfold set_captured
  simp only
  rw [getD_set]
  split_ifs with h
  · rw [← h.1]; rfl
  · rfl

theorem history_capture_fold (l : List Nat) (st : Position × Nat × Nat) :
    (l.foldl atomic_capture_step st).1.history = st.1.history := by
  induction l generalizing st with
  | nil => rfl
  | cons s rest ih =>
    rw [List.foldl_cons, ih (atomic_capture_step st s)]
    unfold atomic_capture_step
    simp only
    split_ifs <;> rfl

theorem enpassant_atomic_capture (pos : Position) (a b k : Nat) :
    ((atomic_capture pos a b).history.getD k ⟨0, 0, 0⟩).enpassant =
      (pos.history.getD k ⟨0, 0, 0⟩).enpassant := by
  unfold atomic_capture
  simp only
  rw [enpassant_set_captured, history_capture_fold]
  rfl

theorem enpassant_play_begin (pos : Position) (m : Move)
    (h : pos.ply + 1 < pos.history.length) :
    ((play_begin pos m).history.getD (pos.ply + 1) ⟨0, 0, 0⟩).enpassant = NO_SQUARE := by
  unfold play_begin
  simp only
  rw [getD_set_eq _ _ _ _ h]

theorem side_capture_fold (l : List Nat) (st : Position × Nat × Nat) :
    (l.foldl atomic_capture_step st).1.side_to_play = st.1.side_to_play := by
  induction l generalizing st with
  | nil => rfl
  | cons s rest ih =>
    rw [List.foldl_cons, ih (atomic_capture_step st s)]
    unfold atomic_capture_step
    simp only
    split_ifs <;> rfl

theorem side_atomic_capture (pos : Position) (a b : Nat) :
    (atomic_capture pos a b).side_to_play = pos.side_to_play := by
  unfold atomic_capture
  simp only
  show (List.foldl atomic_capture_step _ _).1.side_to_play = _
  rw [side_capture_fold]
  rfl

/-- The function `play` flips the side to play, whatever the move. -/
theorem side_play (atomic : Bool) (pos : Position) (m : Move) :
    (play atomic pos m).side_to_play = pos.side_to_play ^^^ BLACK := by
  have hpc : ∀ pt, (play_promotion_capture atomic (play_begin pos m) m
      pos.side_to_play pt).side_to_play = pos.side_to_play ^^^ BLACK := by
    intro pt
    unfold play_promotion_capture
    cases atomic
    · rfl
    · simp only [if_true]
      show (atomic_capture _ _ _).side_to_play = _
      rw [side_atomic_capture]
      rfl
  unfold play
  cases hf : m.flag <;> simp only
  · rfl
  · rfl
  · split_ifs <;> rfl
  · split_ifs <;> rfl
  · cases atomic
    · rfl
    · simp only [if_true]
      rw [side_atomic_capture]
      rfl
  · cases atomic
    · rfl
    · simp only [if_true]
      rw [side_atomic_capture]
      rfl
  · rfl
  · rfl
  · rfl
  · rfl
  · exact hpc KNIGHT
  · exact hpc BISHOP
  · exact hpc ROOK
  · exact hpc QUEEN

/-- The en passant square of the new record after `play`. -/
theorem enpassant_play (atomic : Bool) (pos : Position) (m : Move)
    (h : pos.ply + 1 < pos.history.length) :
    (cur (play atomic pos m)).enpassant =
      if m.flag = DOUBLE_PUSH then
        (if pos.side_to_play = WHITE then m.from_sq + 8 else m.from_sq - 8)
      else NO_SQUARE := by
  have hply := (entries_play atomic pos m).2
  have h0 := enpassant_play_begin pos m h
  unfold cur
  rw [hply]
  have hpc : ∀ pt, ((play_promotion_capture atomic (play_begin pos m) m
      pos.side_to_play pt).history.getD (pos.ply + 1) ⟨0, 0, 0⟩).enpassant = NO_SQUARE := by
    intro pt
    unfold play_promotion_capture
    cases atomic
    · simp only [Bool.false_eq_true, if_false]
      show ((set_captured _ _).history.getD _ _).enpassant = _
      rw [enpassant_set_captured]
      exact h0
    · simp only [if_true]
      show ((atomic_capture _ _ _).history.getD _ _).enpassant = _
      rw [enpassant_atomic_capture]
      exact h0
  unfold play
  cases hf : m.flag <;> simp only [reduceCtorEq, if_false, if_true]
  · exact h0
  · unfold set_enpassant
    simp only
    have hlen : (move_piece_quiet (play_begin pos m) m.from_sq m.to_sq).history.length =
        pos.history.length := by
      show (pos.history.set _ _).length = _
      exact List.length_set _ _ _
    have hp : (move_piece_quiet (play_begin pos m) m.from_sq m.to_sq).ply = pos.ply + 1 := rfl
    rw [hp, getD_set_eq _ _ _ _ (by rw [hlen]; exact h)]
  · split_ifs <;> exact h0
  · split_ifs <;> exact h0
  · cases atomic
    · simp only [Bool.false_eq_true, if_false]
      show ((set_captured _ _).history.getD _ _).enpassant = _
      rw [enpassant_set_captured]
      exact h0
    · simp only [if_true]
      rw [enpassant_atomic_capture]
      exact h0
  · cases atomic
    · simp only [Bool.false_eq_true, if_false]
      exact h0
    · simp only [if_true]
      rw [enpassant_atomic_capture]
      exact h0
  · exact h0
  · exact h0
  · exact h0
  · exact h0
  · exact hpc KNIGHT
  · exact hpc BISHOP
  · exact hpc ROOK
  · exact hpc QUEEN

/-! ## Where double pushes come from -/

theorem double_push_rank_bit {c s : Nat} (h : (DOUBLE_PUSH_RANK c).testBit s = true) :
    (c = WHITE → 8 ≤ s ∧ s < 16) ∧ (c ≠ WHITE → 48 ≤ s ∧ s < 56) := by
  have hs : s < 64 := lt_of_testBit (DOUBLE_PUSH_RANK_lt c) h
  have hw : ∀ x, x < 64 → (DOUBLE_PUSH_RANK 0).testBit x = true → 8 ≤ x ∧ x < 16 := by decide
  have hb : ∀ x, x < 64 → (DOUBLE_PUSH_RANK 1).testBit x = true → 48 ≤ x ∧ x < 56 := by decide
  constructor
  · intro e
    rw [e] at h
    exact hw s hs h
  · intro e
    have e2 : DOUBLE_PUSH_RANK c = DOUBLE_PUSH_RANK 1 := by
      have e0 : ¬ c = 0 := e
      unfold DOUBLE_PUSH_RANK
      rw [if_neg e0]
      rfl
    rw [e2] at h
    exact hb s hs h

theorem flag_quiet_or_capture {from_sq targets yours : Nat} {m : Move}
    (h : m ∈ quiet_and_capture from_sq targets yours) : m.flag = QUIET ∨ m.flag = CAPTURE := by
  unfold quiet_and_capture at h
  rw [List.mem_append] at h
  rcases h with h | h
  · exact Or.inl (flag_get_moves h)
  · exact Or.inr (flag_get_moves h)

theorem flag_std_piece_moves_qc {g : Sides} {k : Masks} {m : Move}
    (h : m ∈ std_piece_moves g k) : m.flag = QUIET ∨ m.flag = CAPTURE := by
  unfold std_piece_moves at h
  simp only [List.mem_append, List.mem_flatMap] at h
  rcases h with (((h | h | h) | h | h) | h) <;> obtain ⟨s, _, hm⟩ := h <;>
    exact flag_quiet_or_capture hm

theorem testBit_std_push_double {g : Sides} {k : Masks} {s : Nat}
    (h : s ∈ squares_of (std_pawn_sets g k).pawns_push_double) :
    (DOUBLE_PUSH_RANK g.me).testBit s = true := by
  have key : ∀ a b c d : Nat, ((a &&& DOUBLE_PUSH_RANK g.me &&& b) &&& c |||
      (a &&& DOUBLE_PUSH_RANK g.me &&& b) &&& d) < 2 ^ 64 ∧
      (((a &&& DOUBLE_PUSH_RANK g.me &&& b) &&& c |||
        (a &&& DOUBLE_PUSH_RANK g.me &&& b) &&& d).testBit s = true →
        (DOUBLE_PUSH_RANK g.me).testBit s = true) := by
    intro a b c d
    have hlt : a &&& DOUBLE_PUSH_RANK g.me &&& b < 2 ^ 64 :=
      lt_of_and_left (lt_of_and_right (DOUBLE_PUSH_RANK_lt _))
    refine ⟨Nat.or_lt_two_pow (lt_of_and_left hlt) (lt_of_and_left hlt), ?_⟩
    intro hb
    simp only [Nat.testBit_or, Nat.testBit_and, Bool.or_eq_true, Bool.and_eq_true] at hb
    rcases hb with hb | hb <;> exact hb.1.1.2
  unfold std_pawn_sets at h
  simp only at h
  exact (key _ _ _ _).2 ((mem_squares_of (key _ _ _ _).1 s).1 h)

/-- A move with flag `DOUBLE_PUSH` in the output of the standard generator starts on the
mover's second rank and ends two ranks further. -/
theorem double_push_of_flag_std {pos : Position} {m : Move}
    (h : m ∈ generate_legal_moves_standard pos) (hf : m.flag = DOUBLE_PUSH) :
    (DOUBLE_PUSH_RANK pos.side_to_play).testBit m.from_sq = true ∧
    m.to_sq = if pos.side_to_play = WHITE then m.from_sq + 16 else m.from_sq - 16 := by
  have hking : ∀ {a b c : Nat}, m ∈ get_moves a b QUIET ++ get_moves a c CAPTURE → False := by
    intro a b c hk
    rw [List.mem_append] at hk
    rcases hk with hk | hk <;> have e := flag_get_moves hk <;> rw [e] at hf <;>
      exact MoveFlag.noConfusion hf
  unfold generate_legal_moves_standard at h
  simp only at h
  split_ifs at h with hchk
  · exact (hking h).elim
  · simp only [List.mem_append] at h
    rcases h with (((h | h) | h) | h) | h
    · exact (hking (List.mem_append.2 h)).elim
    · rcases mem_castling_moves h with ⟨e, _⟩ | ⟨e, _⟩ <;> rw [e] at hf <;>
        exact MoveFlag.noConfusion hf
    · rw [flag_std_enpassant_moves h] at hf
      exact MoveFlag.noConfusion hf
    · unfold std_pawn_moves at h
      simp only [List.mem_append] at h
      rcases h with (((((h | h) | h) | h) | h) | h) | h
      · rw [List.mem_map] at h
        obtain ⟨s, hs, rfl⟩ := h
        exact ⟨testBit_std_push_double hs, rfl⟩
      · rcases flag_flatMap_four h with e | e | e | e <;> rw [e] at hf <;>
          exact MoveFlag.noConfusion hf
      · rw [flag_map_move h] at hf
        exact MoveFlag.noConfusion hf
      · rcases flag_flatMap_four h with e | e | e | e <;> rw [e] at hf <;>
          exact MoveFlag.noConfusion hf
      · rw [flag_map_move h] at hf
        exact MoveFlag.noConfusion hf
      · rcases flag_flatMap_four h with e | e | e | e <;> rw [e] at hf <;>
          exact MoveFlag.noConfusion hf
      · rw [flag_map_move h] at hf
        exact MoveFlag.noConfusion hf
    · rcases flag_std_piece_moves_qc h with e | e <;> rw [e] at hf <;>
        exact MoveFlag.noConfusion hf

theorem flag_atomic_add_move_ne {me you a b c d e f g from_sq to_sq ksq : Nat} {ip ie : Bool}
    {m : Move} (h : m ∈ atomic_add_move me you a b c d e f g from_sq to_sq ksq ip ie) :
    m.flag ≠ DOUBLE_PUSH ∧ m.flag ≠ QUIET := by
  unfold atomic_add_move at h
  simp only at h
  split_ifs at h
  all_goals first
    | exact absurd h (List.not_mem_nil _)
    | (rcases (mem_four_moves h).2.2 with e | e | e | e <;> rw [e] <;>
        exact ⟨by decide, by decide⟩)
    | (rw [List.mem_singleton] at h
       rw [h]; exact ⟨fun e => MoveFlag.noConfusion e, fun e => MoveFlag.noConfusion e⟩)

theorem flag_atomic_piece_targets_ne {g : Sides} {a t : Nat} {m : Move}
    (h : m ∈ atomic_piece_targets g a t) : m.flag ≠ DOUBLE_PUSH := by
  unfold atomic_piece_targets at h
  rw [List.mem_flatMap] at h
  obtain ⟨s, _, hm⟩ := h
  split_ifs at hm
  · exact (flag_atomic_add_move_ne hm).1
  · rw [flag_atomic_quiet_move hm]; decide

theorem flag_atomic_enpassant_moves_ne {g : Sides} {ep : Nat} {m : Move}
    (h : m ∈ atomic_enpassant_moves g ep) : m.flag ≠ DOUBLE_PUSH ∧ m.flag ≠ QUIET := by
  unfold atomic_enpassant_moves at h
  simp only at h
  split_ifs at h
  all_goals first
    | exact absurd h (List.not_mem_nil _)
    | (rw [List.mem_append] at h
       rcases h with h | h
       all_goals first
         | exact absurd h (List.not_mem_nil _)
         | exact flag_atomic_add_move_ne h)

theorem mem_atomic_quiet_move {g : Sides} {fl : MoveFlag} {a b : Nat} {m : Move}
    (h : m ∈ atomic_quiet_move g fl a b) : m = ⟨fl, a, b⟩ := by
  unfold atomic_quiet_move at h
  by_cases hok : atomic_quiet_ok g a b = true
  · rw [if_pos hok, List.mem_singleton] at h
    exact h
  · rw [if_neg hok] at h
    exact absurd h (List.not_mem_nil _)

/-- A move with flag `DOUBLE_PUSH` in the output of the atomic generator starts on the
mover's second rank and ends two ranks further. -/
theorem double_push_of_flag_atomic {pos : Position} {m : Move}
    (h : m ∈ generate_legal_moves_atomic pos) (hf : m.flag = DOUBLE_PUSH) :
    (DOUBLE_PUSH_RANK pos.side_to_play).testBit m.from_sq = true ∧
    m.to_sq = if pos.side_to_play = WHITE then m.from_sq + 16 else m.from_sq - 16 := by
  unfold generate_legal_moves_atomic at h
  simp only [List.mem_append] at h
  rcases h with ((((((((h | h) | h) | h) | h) | h) | h) | h) | h) | h
  · rw [flag_get_moves h] at hf
    exact MoveFlag.noConfusion hf
  · rcases mem_castling_moves h with ⟨e, _⟩ | ⟨e, _⟩ <;> rw [e] at hf <;>
      exact MoveFlag.noConfusion hf
  · rw [List.mem_flatMap] at h
    obtain ⟨s, hs, hm⟩ := h
    rw [mem_atomic_quiet_move hm]
    refine ⟨?_, rfl⟩
    have hlt : ∀ a b : Nat, a &&& DOUBLE_PUSH_RANK (sides pos).me &&& b < 2 ^ 64 :=
      fun a b => lt_of_and_left (lt_of_and_right (DOUBLE_PUSH_RANK_lt _))
    have hb := (mem_squares_of (hlt _ _) s).1 hs
    simp only [Nat.testBit_and, Bool.and_eq_true] at hb
    exact hb.1.2
  · rw [List.mem_flatMap] at h
    obtain ⟨s, _, hm⟩ := h
    rw [flag_atomic_quiet_move hm] at hf
    exact MoveFlag.noConfusion hf
  · rw [List.mem_flatMap] at h
    obtain ⟨s, _, hm⟩ := h
    exact absurd hf (flag_atomic_add_move_ne hm).1
  · rw [List.mem_flatMap] at h
    obtain ⟨s, _, hm⟩ := h
    exact absurd hf (flag_atomic_add_move_ne hm).1
  · exact absurd hf (flag_atomic_enpassant_moves_ne h).1
  · rw [List.mem_flatMap] at h
    obtain ⟨s, _, hm⟩ := h
    exact absurd hf (flag_atomic_piece_targets_ne hm)
  · rw [List.mem_flatMap] at h
    obtain ⟨s, _, hm⟩ := h
    exact absurd hf (flag_atomic_piece_targets_ne hm)
  · rw [List.mem_flatMap] at h
    obtain ⟨s, _, hm⟩ := h
    exact absurd hf (flag_atomic_piece_targets_ne hm)

/-- In either build a double push written by the generator goes from the mover's second
rank to the square two ranks further. -/
theorem double_push_squares (atomic : Bool) {pos : Position} {m : Move}
    (h : m ∈ generate_legal_moves atomic pos) (hf : m.flag = DOUBLE_PUSH) :
    (pos.side_to_play = WHITE → 8 ≤ m.from_sq ∧ m.from_sq < 16 ∧ m.to_sq = m.from_sq + 16) ∧
    (pos.side_to_play ≠ WHITE → 48 ≤ m.from_sq ∧ m.from_sq < 56 ∧ m.to_sq + 16 = m.from_sq) := by
  have key : (DOUBLE_PUSH_RANK pos.side_to_play).testBit m.from_sq = true ∧
      m.to_sq = if pos.side_to_play = WHITE then m.from_sq + 16 else m.from_sq - 16 := by
    cases atomic
    · exact double_push_of_flag_std h hf
    · exact double_push_of_flag_atomic h hf
  obtain ⟨hb, ht⟩ := key
  obtain ⟨hw, hbl⟩ := double_push_rank_bit hb
  constructor
  · intro e
    rw [if_pos e] at ht
    exact ⟨(hw e).1, (hw e).2, ht⟩
  · intro e
    rw [if_neg e] at ht
    have := hbl e
    exact ⟨this.1, this.2, by omega⟩

end AtomicChess

namespace AtomicChess

open MoveFlag

/-! ## The explosion of `atomic_capture` -/

theorem remove_index_iff {p : Nat} (hp : p ≤ 12) {c t : Nat} (_hc : c < 2) (ht : t < 6) :
    6 * PIECE_TO_COLOR p + PIECE_TO_TYPE p = 6 * c + t ↔ p = TYPE_TO_PIECE c t := by
  by_cases h0 : p = 0
  · subst h0
    have e : 6 * PIECE_TO_COLOR 0 + PIECE_TO_TYPE 0 = 18 := by decide
    rw [e]
    unfold TYPE_TO_PIECE
    omega
  · have h1 : 1 ≤ p := by omega
    rw [(piece_index h1 hp).1]
    unfold TYPE_TO_PIECE
    omega

/-- Removing whatever stands on a square keeps board and bitboards in agreement. -/
theorem consistent_remove_piece {pos : Position} (hc : consistent pos) {s : Nat} (hs : s < 64) :
    consistent (remove_piece pos s) := by
  obtain ⟨hpl, hbl, hb12, hplt, hbit⟩ := hc
  have hp12 := hb12 s hs
  refine ⟨?_, ?_, ?_, ?_, ?_⟩
  · show (pos.pieces.set _ _).length = 12
    rw [List.length_set]; exact hpl
  · show (pos.board.set _ _).length = 64
    rw [List.length_set]; exact hbl
  · intro x hx
    show (pos.board.set s NO_PIECE).getD x 0 ≤ 12
    rw [getD_set]
    split_ifs
    · decide
    · exact hb12 x hx
  · intro c3 hc3 t3 ht3
    show (pos.pieces.set _ _).getD (6 * c3 + t3) 0 < 2 ^ 64
    rw [getD_set]
    split_ifs with h
    · rw [h.1]
      exact lt_of_and_left (hplt c3 hc3 t3 ht3)
    · exact hplt c3 hc3 t3 ht3
  · intro c3 hc3 t3 ht3 x hx
    show ((pos.pieces.set (6 * PIECE_TO_COLOR (pos.board.getD s 0) +
        PIECE_TO_TYPE (pos.board.getD s 0))
      (pos.pieces.getD (6 * PIECE_TO_COLOR (pos.board.getD s 0) +
        PIECE_TO_TYPE (pos.board.getD s 0)) 0 &&& bnot (SQUARE_TO_BITBOARD s))).getD
      (6 * c3 + t3) 0).testBit x = true ↔
      (pos.board.set s NO_PIECE).getD x 0 = TYPE_TO_PIECE c3 t3
    have hold := hbit c3 hc3 t3 ht3 x hx
    unfold Position.bb at hold
    have hidx := remove_index_iff hp12 hc3 ht3
    have hne0 : NO_PIECE ≠ TYPE_TO_PIECE c3 t3 := by
      unfold TYPE_TO_PIECE NO_PIECE; omega
    by_cases hi : 6 * PIECE_TO_COLOR (pos.board.getD s 0) +
        PIECE_TO_TYPE (pos.board.getD s 0) = 6 * c3 + t3
    · rw [hi, getD_set_eq _ _ _ _ (by rw [hpl]; omega), Nat.testBit_and, testBit_bnot,
        testBit_SQUARE_TO_BITBOARD]
      by_cases hxs : s = x
      · rw [hxs, getD_set_eq _ _ _ _ (by rw [hbl]; exact hx)]
        simp [hx, hne0]
      · rw [getD_set_ne _ _ _ _ _ hxs]
        simp only [hxs, decide_False, Bool.and_false, hx, decide_True, Bool.true_bne,
          Bool.not_false, Bool.and_true]
        exact hold
    · rw [getD_set_ne _ _ _ _ _ hi]
      by_cases hxs : s = x
      · rw [hxs, getD_set_eq _ _ _ _ (by rw [hbl]; exact hx)]
        rw [hold]
        constructor
        · intro e
          rw [hxs] at hi hidx
          exact absurd (hidx.2 e) hi
        · intro e
          exact absurd e hne0
      · rw [getD_set_ne _ _ _ _ _ hxs]
        exact hold

theorem board_remove_piece (pos : Position) (s x : Nat) :
    (remove_piece pos s).board.getD x 0 =
      if s = x then NO_PIECE else pos.board.getD x 0 := by
  show (pos.board.set s NO_PIECE).getD x 0 = _
  rw [getD_set]
  by_cases h : s = x
  · rw [if_pos h]
    split_ifs with h2
    · rfl
    · subst h
      rw [List.getD_eq_default _ _ (by omega)]
      rfl
  · rw [if_neg h, if_neg (fun h2 => h h2.1)]

/-- The explosion loop over a list of squares: every listed square that holds a piece
other than a pawn is emptied, and nothing else changes on the board. -/
theorem capture_fold_board (l : List Nat) : ∀ (st : Position × Nat × Nat),
    consistent st.1 → (∀ s, s ∈ l → s < 64) →
    consistent (l.foldl atomic_capture_step st).1 ∧
    ∀ x, (l.foldl atomic_capture_step st).1.board.getD x 0 =
      if x ∈ l ∧ ¬ (PIECE_TO_TYPE (st.1.board.getD x 0) = PAWN ∨
          PIECE_TO_TYPE (st.1.board.getD x 0) = NO_TYPE)
      then NO_PIECE else st.1.board.getD x 0 := by
  induction l with
  | nil =>
    intro st hc _
    refine ⟨hc, ?_⟩
    intro x
    simp only [List.foldl_nil, List.not_mem_nil, false_and, if_false]
  | cons s rest ih =>
    intro st hc hl
    have hs : s < 64 := hl s (List.mem_cons_self _ _)
    have hrest : ∀ y, y ∈ rest → y < 64 := fun y hy => hl y (List.mem_cons_of_mem _ hy)
    rw [List.foldl_cons]
    have hstep : consistent (atomic_capture_step st s).1 ∧
        ∀ x, (atomic_capture_step st s).1.board.getD x 0 =
          if s = x ∧ ¬ (PIECE_TO_TYPE (st.1.board.getD x 0) = PAWN ∨
              PIECE_TO_TYPE (st.1.board.getD x 0) = NO_TYPE)
          then NO_PIECE else st.1.board.getD x 0 := by
      unfold atomic_capture_step
      simp only
      by_cases hcond : ¬ (PIECE_TO_TYPE (st.1.board.getD s 0) = PAWN ∨
          PIECE_TO_TYPE (st.1.board.getD s 0) = NO_TYPE)
      · rw [if_pos hcond]
        refine ⟨consistent_remove_piece hc hs, ?_⟩
        intro x
        show (remove_piece st.1 s).board.getD x 0 = _
        rw [board_remove_piece]
        by_cases hx : s = x
        · subst hx
          rw [if_pos rfl, if_pos ⟨rfl, hcond⟩]
        · rw [if_neg hx, if_neg (fun h => hx h.1)]
      · rw [if_neg hcond]
        refine ⟨hc, ?_⟩
        intro x
        by_cases hx : s = x
        · subst hx
          rw [if_neg (fun h => hcond h.2)]
        · rw [if_neg (fun h => hx h.1)]
    obtain ⟨hc1, hb1⟩ := hstep
    obtain ⟨hc2, hb2⟩ := ih (atomic_capture_step st s) hc1 hrest
    refine ⟨hc2, ?_⟩
    intro x
    have hnt : ¬ (PIECE_TO_TYPE NO_PIECE = PAWN ∨ PIECE_TO_TYPE NO_PIECE = NO_TYPE) → False :=
      fun h => h (Or.inr (by decide))
    by_cases hx : s = x
    · subst hx
      by_cases hcond : ¬ (PIECE_TO_TYPE (st.1.board.getD s 0) = PAWN ∨
          PIECE_TO_TYPE (st.1.board.getD s 0) = NO_TYPE)
      · have hv : (atomic_capture_step st s).1.board.getD s 0 = NO_PIECE := by
          rw [hb1 s, if_pos ⟨rfl, hcond⟩]
        rw [hb2 s, hv, if_neg (fun h => hnt h.2), if_pos ⟨List.mem_cons_self _ _, hcond⟩]
      · have hv : (atomic_capture_step st s).1.board.getD s 0 = st.1.board.getD s 0 := by
          rw [hb1 s, if_neg (fun h => hcond h.2)]
        rw [hb2 s, hv, if_neg (fun h => hcond h.2), if_neg (fun h => hcond h.2)]
    · have hv : (atomic_capture_step st s).1.board.getD x 0 = st.1.board.getD x 0 := by
        rw [hb1 x, if_neg (fun h => hx h.1)]
      rw [hb2 x, hv]
      have hmem : x ∈ s :: rest ↔ x ∈ rest := by
        rw [List.mem_cons]
        constructor
        · rintro (h | h)
          · exact absurd h.symm hx
          · exact h
        · exact Or.inr
      simp only [hmem]

set_option maxRecDepth 100000 in
theorem KING_ATTACKS_facts : ∀ c, c < 64 →
    KING_ATTACKS c < 2 ^ 64 ∧ (KING_ATTACKS c).testBit c = false := by
  decide!

/-- The board after `atomic_capture`: `center` and `attacker_square` are empty, a square of
`KING_ATTACKS[center]` that held a piece other than a pawn is empty, every other square is
as before; and the bitboards agree with the new board. -/
theorem atomic_capture_board {pos : Position} (hc : consistent pos) {center attacker_square : Nat}
    (h1 : center < 64) (h2 : attacker_square < 64) :
    consistent (atomic_capture pos center attacker_square) ∧
    ∀ x, (atomic_capture pos center attacker_square).board.getD x 0 =
      if x = center ∨ x = attacker_square then NO_PIECE
      else if (KING_ATTACKS center).testBit x = true ∧
          ¬ (PIECE_TO_TYPE (pos.board.getD x 0) = PAWN ∨
            PIECE_TO_TYPE (pos.board.getD x 0) = NO_TYPE)
        then NO_PIECE else pos.board.getD x 0 := by
  have hk := (KING_ATTACKS_facts center h1).1
  have hc2 : consistent (remove_piece (remove_piece pos attacker_square) center) :=
    consistent_remove_piece (consistent_remove_piece hc h2) h1
  obtain ⟨f1, f2⟩ := capture_fold_board (squares_of (KING_ATTACKS center))
    (remove_piece (remove_piece pos attacker_square) center,
      pos.board.getD attacker_square 0 ||| shl (pos.board.getD center 0) 4, 2) hc2
    (fun s hs => lt_of_mem_squares_of hk hs)
  have hb2 : ∀ x, (remove_piece (remove_piece pos attacker_square) center).board.getD x 0 =
      if x = center ∨ x = attacker_square then NO_PIECE else pos.board.getD x 0 := by
    intro x
    rw [board_remove_piece, board_remove_piece]
    by_cases e1 : center = x
    · rw [if_pos e1, if_pos (Or.inl e1.symm)]
    · rw [if_neg e1]
      by_cases e2 : attacker_square = x
      · rw [if_pos e2, if_pos (Or.inr e2.symm)]
      · rw [if_neg e2, if_neg]
        rintro (e | e)
        · exact e1 e.symm
        · exact e2 e.symm
  constructor
  · exact f1
  · intro x
    show (List.foldl atomic_capture_step _ _).1.board.getD x 0 = _
    rw [f2 x]
    simp only
    rw [hb2 x]
    have hmem := mem_squares_of hk x
    by_cases e : x = center ∨ x = attacker_square
    · simp only [if_pos e]
      split_ifs <;> rfl
    · simp only [if_neg e, hmem]

end AtomicChess

namespace AtomicChess

open MoveFlag

/-! ## The packed word `captured` -/

theorem testBit_slot (w k b : Nat) :
    (slot w k).testBit b = (w.testBit (4 * k + b) && decide (b < 4)) := by
  unfold slot
  have h : (0xF : Nat) = 2 ^ 4 - 1 := by decide
  rw [Nat.testBit_and, Nat.testBit_shiftRight, h, Nat.testBit_two_pow_sub_one]

theorem testBit_small {p b : Nat} (hp : p < 16) (hb : 4 ≤ b) : p.testBit b = false :=
  Nat.testBit_lt_two_pow (lt_of_lt_of_le hp (by
    have : (16 : Nat) = 2 ^ 4 := by decide
    rw [this]
    exact Nat.pow_le_pow_right (by decide) hb))

theorem slot_lt (w k : Nat) : slot w k < 16 := by
  unfold slot
  exact Nat.lt_of_le_of_lt Nat.and_le_right (by decide)

theorem slot_zero_of_small {p : Nat} (hp : p < 16) : slot p 0 = p := by
  apply Nat.eq_of_testBit_eq
  intro b
  rw [testBit_slot, Nat.mul_zero, Nat.zero_add]
  by_cases hb : b < 4
  · simp [hb]
  · have hpb : p.testBit b = false := testBit_small hp (by omega)
    simp [hb, hpb]

theorem sixteen_pow (i : Nat) : 16 ^ i = 2 ^ (4 * i) := by
  have : (16 : Nat) = 2 ^ 4 := by decide
  rw [this, ← Nat.pow_mul]

theorem slot_of_lt {w i k : Nat} (hw : w < 16 ^ i) (hk : i ≤ k) : slot w k = 0 := by
  apply Nat.eq_of_testBit_eq
  intro b
  rw [testBit_slot, Nat.zero_testBit]
  have : w.testBit (4 * k + b) = false := by
    apply Nat.testBit_lt_two_pow
    rw [sixteen_pow] at hw
    exact lt_of_lt_of_le hw (Nat.pow_le_pow_right (by decide) (by omega))
  rw [this, Bool.false_and]

theorem slot_or_shl {w p i : Nat} (hp : p < 16) (hi : i < 16) (k : Nat) :
    slot (w ||| shl p (4 * i)) k = if k = i then slot w i ||| p else slot w k := by
  apply Nat.eq_of_testBit_eq
  intro b
  rw [testBit_slot, Nat.testBit_or, testBit_shl]
  by_cases hb : b < 4
  · by_cases hk : k = i
    · subst hk
      rw [if_pos rfl, Nat.testBit_or, testBit_slot]
      have h1 : 4 * k + b < 64 := by omega
      have h2 : 4 * k ≤ 4 * k + b := by omega
      simp [hb, h1, h2]
    · rw [if_neg hk, testBit_slot]
      by_cases hlt : 4 * i ≤ 4 * k + b
      · have : p.testBit (4 * k + b - 4 * i) = false := testBit_small hp (by omega)
        simp [this]
      · simp [hlt]
  · have hb4 : decide (b < 4) = false := by simp [hb]
    rw [hb4, Bool.and_false]
    symm
    apply Nat.testBit_lt_two_pow
    have h16 : (if k = i then slot w i ||| p else slot w k) < 2 ^ 4 := by
      split_ifs
      · exact Nat.or_lt_two_pow (slot_lt _ _) hp
      · exact slot_lt _ _
    exact lt_of_lt_of_le h16 (Nat.pow_le_pow_right (by decide) (by omega))

theorem or_shl_lt {w p i : Nat} (hw : w < 16 ^ i) (hp : p < 16) :
    w ||| shl p (4 * i) < 16 ^ (i + 1) := by
  rw [sixteen_pow] at hw ⊢
  apply Nat.or_lt_two_pow
  · exact lt_of_lt_of_le hw (Nat.pow_le_pow_right (by decide) (by omega))
  · unfold shl
    apply lt_of_le_of_lt (Nat.mod_le _ _)
    rw [Nat.shiftLeft_eq]
    have e : 2 ^ (4 * (i + 1)) = 16 * 2 ^ (4 * i) := by
      rw [Nat.mul_add, Nat.pow_add]
      ring
    rw [e]
    exact Nat.mul_lt_mul_of_pos_right hp (by positivity)

theorem slot_shiftRight (w k : Nat) : slot (w >>> 4) k = slot w (k + 1) := by
  unfold slot
  rw [← Nat.shiftRight_add]
  congr 2
  omega

theorem and_fifteen (w : Nat) : w &&& 0xF = slot w 0 := by
  unfold slot
  rfl

set_option maxRecDepth 100000 in
theorem ring_facts : ∀ c, c < 64 →
    (squares_of (KING_ATTACKS c)).Pairwise (fun a b => a < b) ∧
    (squares_of (KING_ATTACKS c)).length ≤ 8 := by
  decide!

theorem type_cond_lt {p : Nat} (h : ¬ (PIECE_TO_TYPE p = PAWN ∨ PIECE_TO_TYPE p = NO_TYPE)) :
    1 ≤ p ∧ p ≤ 12 := by
  by_contra hc
  apply h
  right
  unfold PIECE_TO_TYPE
  by_cases h0 : p = 0
  · rw [if_pos h0]
  · have : ¬ p ≤ 12 := by omega
    rw [if_neg h0, if_neg (by omega), if_neg this]

/-- One iteration of the explosion loop: the slot of the iteration receives the piece it
removes (or stays 0), the lower slots and the other squares are unchanged. -/
theorem capture_step_slots (st : Position × Nat × Nat) (s : Nat) (hw : st.2.1 < 16 ^ st.2.2)
    (hi : st.2.2 < 16) :
    (atomic_capture_step st s).2.2 = st.2.2 + 1 ∧
    (atomic_capture_step st s).2.1 < 16 ^ (st.2.2 + 1) ∧
    (∀ k, k < st.2.2 → slot (atomic_capture_step st s).2.1 k = slot st.2.1 k) ∧
    slot (atomic_capture_step st s).2.1 st.2.2 =
      (if ¬ (PIECE_TO_TYPE (st.1.board.getD s 0) = PAWN ∨
          PIECE_TO_TYPE (st.1.board.getD s 0) = NO_TYPE) then st.1.board.getD s 0 else 0) ∧
    (∀ x, x ≠ s → (atomic_capture_step st s).1.board.getD x 0 = st.1.board.getD x 0) := by
  unfold atomic_capture_step
  simp only
  by_cases hcond : ¬ (PIECE_TO_TYPE (st.1.board.getD s 0) = PAWN ∨
      PIECE_TO_TYPE (st.1.board.getD s 0) = NO_TYPE)
  · rw [if_pos hcond, if_pos hcond]
    have hp : st.1.board.getD s 0 < 16 := by
      have := (type_cond_lt hcond).2
      omega
    have hmul : st.2.2 * 4 = 4 * st.2.2 := Nat.mul_comm _ _
    simp only [hmul]
    refine ⟨by first | rfl | trivial, or_shl_lt hw hp, ?_, ?_, ?_⟩
    · intro k hk
      rw [slot_or_shl hp hi, if_neg (by omega)]
    · rw [slot_or_shl hp hi, if_pos rfl, slot_of_lt hw (le_refl _), Nat.zero_or]
    · intro x hx
      show (remove_piece st.1 s).board.getD x 0 = _
      rw [board_remove_piece, if_neg (fun e => hx e.symm)]
  · rw [if_neg hcond, if_neg hcond]
    refine ⟨by first | rfl | trivial, ?_, fun k _ => rfl, slot_of_lt hw (le_refl _), fun x _ => rfl⟩
    exact lt_of_lt_of_le hw (Nat.pow_le_pow_right (by decide) (by omega))

/-- The explosion loop over a list of distinct squares, started with slot counter `i`: slot
`i + j` receives the piece removed from the `j`-th square, or 0. -/
theorem capture_fold_slots (l : List Nat) : ∀ (st : Position × Nat × Nat), l.Nodup →
    st.2.1 < 16 ^ st.2.2 → st.2.2 + l.length ≤ 16 →
    (l.foldl atomic_capture_step st).2.1 < 16 ^ (st.2.2 + l.length) ∧
    (∀ k, k < st.2.2 → slot (l.foldl atomic_capture_step st).2.1 k = slot st.2.1 k) ∧
    (∀ j, j < l.length → slot (l.foldl atomic_capture_step st).2.1 (st.2.2 + j) =
      if ¬ (PIECE_TO_TYPE (st.1.board.getD (l.getD j 0) 0) = PAWN ∨
          PIECE_TO_TYPE (st.1.board.getD (l.getD j 0) 0) = NO_TYPE)
      then st.1.board.getD (l.getD j 0) 0 else 0) := by
  induction l with
  | nil =>
    intro st _ hw _
    exact ⟨hw, fun _ _ => rfl, fun j hj => absurd hj (Nat.not_lt_zero j)⟩
  | cons s rest ih =>
    intro st hnd hw hlen
    rw [List.length_cons] at hlen
    obtain ⟨hns, hndr⟩ := List.nodup_cons.1 hnd
    obtain ⟨s1, s2, s3, s4, s5⟩ := capture_step_slots st s hw (by omega)
    obtain ⟨r1, r2, r3⟩ := ih (atomic_capture_step st s) hndr (by rw [s1]; exact s2)
      (by rw [s1]; omega)
    rw [List.foldl_cons, List.length_cons]
    rw [s1] at r1 r2 r3
    refine ⟨by rw [← Nat.add_assoc, Nat.add_right_comm]; exact r1, ?_, ?_⟩
    · intro k hk
      rw [r2 k (by omega), s3 k hk]
    · intro j hj
      cases j with
      | zero =>
        rw [Nat.add_zero, r2 _ (by omega), s4, List.getD_cons_zero]
      | succ j =>
        have hj2 : j < rest.length := by omega
        have hmem : rest.getD j 0 ∈ rest := by
          rw [List.getD_eq_getElem _ _ hj2]
          exact List.getElem_mem _
        have hne : rest.getD j 0 ≠ s := fun e => hns (e ▸ hmem)
        have := r3 j hj2
        rw [s5 _ hne] at this
        rw [List.getD_cons_succ, ← this]
        congr 1
        omega

theorem ply_capture_fold (l : List Nat) (st : Position × Nat × Nat) :
    (l.foldl atomic_capture_step st).1.ply = st.1.ply := by
  induction l generalizing st with
  | nil => rfl
  | cons s rest ih =>
    rw [List.foldl_cons, ih (atomic_capture_step st s)]
    unfold atomic_capture_step
    simp only
    split_ifs <;> rfl

theorem ring_nodup {c : Nat} (hc : c < 64) : (squares_of (KING_ATTACKS c)).Nodup :=
  ((ring_facts c hc).1).imp (fun h => Nat.ne_of_lt h)

theorem ring_getD_mem {c j : Nat} (hj : j < (squares_of (KING_ATTACKS c)).length) :
    (squares_of (KING_ATTACKS c)).getD j 0 ∈ squares_of (KING_ATTACKS c) := by
  rw [List.getD_eq_getElem _ _ hj]
  exact List.getElem_mem _

/-- The word written by `atomic_capture`. -/
theorem captured_atomic_capture (pos : Position) (center attacker_square : Nat)
    (hply : pos.ply < pos.history.length) :
    (cur (atomic_capture pos center attacker_square)).captured =
      ((squares_of (KING_ATTACKS center)).foldl atomic_capture_step
        (remove_piece (remove_piece pos attacker_square) center,
          pos.board.getD attacker_square 0 ||| shl (pos.board.getD center 0) 4, 2)).2.1 := by
  unfold atomic_capture
  simp only
  generalize hst : (squares_of (KING_ATTACKS center)).foldl atomic_capture_step
    (remove_piece (remove_piece pos attacker_square) center,
      pos.board.getD attacker_square 0 ||| shl (pos.board.getD center 0) 4, 2) = st
  have h1 : st.1.history = pos.history := by
    rw [← hst, history_capture_fold]; rfl
  have h2 : st.1.ply = pos.ply := by
    rw [← hst, ply_capture_fold]; rfl
  unfold cur set_captured
  simp only
  rw [getD_set_eq _ _ _ _ (by rw [h1, h2]; exact hply)]

/-- The two slots written before the loop. -/
theorem first_word_facts {p q : Nat} (hp : p ≤ 12) (hq : q ≤ 12) :
    p ||| shl q 4 < 16 ^ 2 ∧ slot (p ||| shl q 4) 0 = p ∧ slot (p ||| shl q 4) 1 = q := by
  have hp0 : p < 16 ^ 1 := by omega
  have h := @slot_or_shl p q 1 (by omega) (by decide)
  have hlt := @or_shl_lt p q 1 hp0 (by omega)
  simp only [Nat.mul_one] at h hlt
  refine ⟨hlt, ?_, ?_⟩
  · rw [h 0, if_neg (by decide)]
    have := @and_fifteen p
    unfold slot
    simp only [Nat.mul_zero, Nat.shiftRight_zero]
    apply Nat.eq_of_testBit_eq
    intro i
    rw [Nat.testBit_and]
    by_cases hi : i < 4
    · have : (0xF : Nat).testBit i = true := by
        interval_cases i <;> decide
      rw [this, Bool.and_true]
    · have e1 : p.testBit i = false := testBit_small (show p < 16 by omega) (by omega)
      rw [e1, Bool.false_and]
  · rw [h 1, if_pos rfl, slot_of_lt hp0 (le_refl _), Nat.zero_or]

/-- The packed word of `atomic_capture`, slot by slot. -/
theorem capture_slots (pos : Position) (hb : ∀ s, pos.board.getD s 0 ≤ 12)
    (center attacker_square : Nat) (hcen : center < 64)
    (hply : pos.ply < pos.history.length) :
    slot (cur (atomic_capture pos center attacker_square)).captured 0 =
      pos.board.getD attacker_square 0 ∧
    slot (cur (atomic_capture pos center attacker_square)).captured 1 =
      pos.board.getD center 0 ∧
    (∀ j, j < (squares_of (KING_ATTACKS center)).length →
      slot (cur (atomic_capture pos center attacker_square)).captured (2 + j) =
        if (squares_of (KING_ATTACKS center)).getD j 0 ≠ attacker_square ∧
          ¬ (PIECE_TO_TYPE (pos.board.getD ((squares_of (KING_ATTACKS center)).getD j 0) 0) = PAWN ∨
            PIECE_TO_TYPE (pos.board.getD ((squares_of (KING_ATTACKS center)).getD j 0) 0) =
              NO_TYPE)
        then pos.board.getD ((squares_of (KING_ATTACKS center)).getD j 0) 0 else 0) ∧
    (∀ k, 2 + (squares_of (KING_ATTACKS center)).length ≤ k →
      slot (cur (atomic_capture pos center attacker_square)).captured k = 0) := by
  rw [captured_atomic_capture pos center attacker_square hply]
  obtain ⟨w1, w2, w3⟩ := first_word_facts (hb attacker_square) (hb center)
  have hlen := (ring_facts center hcen).2
  obtain ⟨f1, f2, f3⟩ := capture_fold_slots (squares_of (KING_ATTACKS center))
    (remove_piece (remove_piece pos attacker_square) center,
      pos.board.getD attacker_square 0 ||| shl (pos.board.getD center 0) 4, 2)
    (ring_nodup hcen) w1 (by show 2 + _ ≤ 16; omega)
  refine ⟨?_, ?_, ?_, ?_⟩
  · rw [f2 0 (show 0 < 2 by decide)]; exact w2
  · rw [f2 1 (show 1 < 2 by decide)]; exact w3
  · intro j hj
    have h := f3 j hj
    have hmem := ring_getD_mem hj
    rw [mem_squares_of (KING_ATTACKS_facts center hcen).1] at hmem
    have hne : center ≠ (squares_of (KING_ATTACKS center)).getD j 0 := by
      intro e
      rw [← e, (KING_ATTACKS_facts center hcen).2] at hmem
      exact Bool.noConfusion hmem
    have hbd : (remove_piece (remove_piece pos attacker_square) center).board.getD
        ((squares_of (KING_ATTACKS center)).getD j 0) 0 =
        if attacker_square = (squares_of (KING_ATTACKS center)).getD j 0 then NO_PIECE
        else pos.board.getD ((squares_of (KING_ATTACKS center)).getD j 0) 0 := by
      rw [board_remove_piece, if_neg hne, board_remove_piece]
    simp only at h
    rw [hbd] at h
    rw [show (2 : Nat) + j = 2 + j from rfl, h]
    by_cases e : attacker_square = (squares_of (KING_ATTACKS center)).getD j 0
    · rw [if_pos e]
      have e2 : ¬ ((squares_of (KING_ATTACKS center)).getD j 0 ≠ attacker_square ∧
          ¬ (PIECE_TO_TYPE (pos.board.getD ((squares_of (KING_ATTACKS center)).getD j 0) 0) = PAWN ∨
            PIECE_TO_TYPE (pos.board.getD ((squares_of (KING_ATTACKS center)).getD j 0) 0) =
              NO_TYPE)) := fun h2 => h2.1 e.symm
      rw [if_neg e2]
      rfl
    · rw [if_neg e]
      have e3 : (squares_of (KING_ATTACKS center)).getD j 0 ≠ attacker_square :=
        fun h2 => e h2.symm
      by_cases hcond : ¬ (PIECE_TO_TYPE
          (pos.board.getD ((squares_of (KING_ATTACKS center)).getD j 0) 0) = PAWN ∨
          PIECE_TO_TYPE (pos.board.getD ((squares_of (KING_ATTACKS center)).getD j 0) 0) =
            NO_TYPE)
      · rw [if_pos hcond, if_pos ⟨e3, hcond⟩]
      · rw [if_neg hcond, if_neg (fun h2 => hcond h2.2)]
  · intro k hk
    exact slot_of_lt f1 hk

end AtomicChess

namespace AtomicChess

theorem board_put_piece (pos : Position) (hbl : pos.board.length = 64) (pt col s x : Nat)
    (hs : s < 64) :
    (put_piece pos pt col s).board.getD x 0 =
      if s = x then TYPE_TO_PIECE col pt else pos.board.getD x 0 := by
  show (pos.board.set s (TYPE_TO_PIECE col pt)).getD x 0 = _
  rw [getD_set]
  by_cases h : s = x
  · rw [if_pos h, if_pos ⟨h, by omega⟩]
  · rw [if_neg h, if_neg (fun h2 => h h2.1)]

/-- One iteration of the second loop of `atomic_undo_capture`. -/
theorem undo_step_board (st : Position × Nat) (s : Nat) (hbl : st.1.board.length = 64)
    (hs : s < 64) :
    (atomic_undo_step st s).2 = st.2 >>> 4 ∧
    (atomic_undo_step st s).1.board.length = 64 ∧
    ∀ x, (atomic_undo_step st s).1.board.getD x 0 =
      if s = x ∧ slot st.2 0 ≠ 0
      then TYPE_TO_PIECE (PIECE_TO_COLOR (slot st.2 0)) (PIECE_TO_TYPE (slot st.2 0))
      else st.1.board.getD x 0 := by
  unfold atomic_undo_step
  simp only [and_fifteen]
  by_cases h0 : slot st.2 0 = NO_PIECE
  · rw [if_pos h0]
    refine ⟨rfl, hbl, ?_⟩
    intro x
    rw [if_neg (fun h => h.2 h0)]
  · rw [if_neg h0]
    refine ⟨rfl, ?_, ?_⟩
    · show (st.1.board.set _ _).length = 64
      rw [List.length_set]; exact hbl
    · intro x
      show (put_piece st.1 _ _ s).board.getD x 0 = _
      rw [board_put_piece _ hbl _ _ _ _ hs]
      by_cases e : s = x
      · rw [if_pos e, if_pos ⟨e, h0⟩]
      · rw [if_neg e, if_neg (fun h => e h.1)]

/-- The second loop of `atomic_undo_capture`: the `j`-th square of the list receives the
piece of slot `j` when that slot is not 0; nothing else changes. -/
theorem undo_fold_board (l : List Nat) : ∀ (st : Position × Nat), st.1.board.length = 64 →
    (∀ s, s ∈ l → s < 64) → l.Nodup →
    (l.foldl atomic_undo_step st).1.board.length = 64 ∧
    (∀ x, x ∉ l → (l.foldl atomic_undo_step st).1.board.getD x 0 = st.1.board.getD x 0) ∧
    (∀ j, j < l.length → (l.foldl atomic_undo_step st).1.board.getD (l.getD j 0) 0 =
      if slot st.2 j ≠ 0
      then TYPE_TO_PIECE (PIECE_TO_COLOR (slot st.2 j)) (PIECE_TO_TYPE (slot st.2 j))
      else st.1.board.getD (l.getD j 0) 0) := by
  induction l with
  | nil =>
    intro st hbl _ _
    exact ⟨hbl, fun _ _ => rfl, fun j hj => absurd hj (Nat.not_lt_zero j)⟩
  | cons s rest ih =>
    intro st hbl hlt hnd
    obtain ⟨hns, hndr⟩ := List.nodup_cons.1 hnd
    obtain ⟨s1, s2, s3⟩ := undo_step_board st s hbl (hlt s (List.mem_cons_self _ _))
    obtain ⟨r1, r2, r3⟩ := ih (atomic_undo_step st s) s2
      (fun x hx => hlt x (List.mem_cons_of_mem _ hx)) hndr
    rw [List.foldl_cons]
    refine ⟨r1, ?_, ?_⟩
    · intro x hx
      rw [List.mem_cons, not_or] at hx
      rw [r2 x hx.2, s3 x, if_neg (fun h => hx.1 h.1.symm)]
    · intro j hj
      cases j with
      | zero =>
        rw [List.getD_cons_zero, r2 s hns, s3 s]
        by_cases h0 : slot st.2 0 ≠ 0
        · rw [if_pos ⟨rfl, h0⟩, if_pos h0]
        · rw [if_neg (fun h => h0 h.2), if_neg h0]
      | succ j =>
        rw [List.length_cons] at hj
        have hj2 : j < rest.length := by omega
        have hmem : rest.getD j 0 ∈ rest := by
          rw [List.getD_eq_getElem _ _ hj2]
          exact List.getElem_mem _
        have hne : s ≠ rest.getD j 0 := fun e => hns (e ▸ hmem)
        have hv := s3 (rest.getD j 0)
        rw [if_neg (fun h => hne h.1)] at hv
        rw [List.getD_cons_succ, r3 j hj2, s1, slot_shiftRight, hv]

/-- The board after `atomic_undo_capture`, read from the slots of `history[ply].captured`:
slot 0 goes to `attacker_square`, slot 1 (when not 0) to `center`, slot `2 + j` (when not
0) to the `j`-th square of `KING_ATTACKS[center]`. -/
theorem undo_capture_board (q : Position) (hbl : q.board.length = 64)
    (center attacker_square : Nat) (hcen : center < 64) (hatt : attacker_square < 64) :
    (∀ j, j < (squares_of (KING_ATTACKS center)).length →
      slot (cur q).captured (2 + j) ≠ 0 →
      (atomic_undo_capture q center attacker_square).board.getD
        ((squares_of (KING_ATTACKS center)).getD j 0) 0 =
        TYPE_TO_PIECE (PIECE_TO_COLOR (slot (cur q).captured (2 + j)))
          (PIECE_TO_TYPE (slot (cur q).captured (2 + j)))) ∧
    (∀ x, (∀ j, j < (squares_of (KING_ATTACKS center)).length →
        (squares_of (KING_ATTACKS center)).getD j 0 = x → slot (cur q).captured (2 + j) = 0) →
      (atomic_undo_capture q center attacker_square).board.getD x 0 =
        if x = center ∧ slot (cur q).captured 1 ≠ 0
        then TYPE_TO_PIECE (PIECE_TO_COLOR (slot (cur q).captured 1))
          (PIECE_TO_TYPE (slot (cur q).captured 1))
        else if x = attacker_square
        then TYPE_TO_PIECE (PIECE_TO_COLOR (slot (cur q).captured 0))
          (PIECE_TO_TYPE (slot (cur q).captured 0))
        else q.board.getD x 0) := by
  unfold atomic_undo_capture
  simp only [and_fifteen, slot_shiftRight, Nat.zero_add]
  generalize hw : (cur q).captured = w
  have hl1 : (put_piece q (PIECE_TO_TYPE (slot w 0)) (PIECE_TO_COLOR (slot w 0))
      attacker_square).board.length = 64 := by
    show (q.board.set _ _).length = 64
    rw [List.length_set]; exact hbl
  generalize hp2 : (if slot w 1 ≠ 0 then
      put_piece (put_piece q (PIECE_TO_TYPE (slot w 0)) (PIECE_TO_COLOR (slot w 0))
        attacker_square) (PIECE_TO_TYPE (slot w 1)) (PIECE_TO_COLOR (slot w 1)) center
    else put_piece q (PIECE_TO_TYPE (slot w 0)) (PIECE_TO_COLOR (slot w 0))
        attacker_square) = pos2
  have hb2 : pos2.board.length = 64 ∧ ∀ x, pos2.board.getD x 0 =
      if x = center ∧ slot w 1 ≠ 0
      then TYPE_TO_PIECE (PIECE_TO_COLOR (slot w 1)) (PIECE_TO_TYPE (slot w 1))
      else if x = attacker_square
      then TYPE_TO_PIECE (PIECE_TO_COLOR (slot w 0)) (PIECE_TO_TYPE (slot w 0))
      else q.board.getD x 0 := by
    rw [← hp2]
    by_cases h1 : slot w 1 ≠ 0
    · rw [if_pos h1]
      refine ⟨?_, ?_⟩
      · show (List.set _ _ _).length = 64
        rw [List.length_set]; exact hl1
      · intro x
        rw [board_put_piece _ hl1 _ _ _ _ hcen, board_put_piece _ hbl _ _ _ _ hatt]
        split_ifs <;> first | rfl | (exfalso; omega)
    · rw [if_neg h1]
      refine ⟨hl1, ?_⟩
      intro x
      rw [board_put_piece _ hbl _ _ _ _ hatt]
      split_ifs <;> first | rfl | (exfalso; omega)
  obtain ⟨u1, u2, u3⟩ := undo_fold_board (squares_of (KING_ATTACKS center))
    (pos2, w >>> 4 >>> 4) hb2.1
    (fun s hs => lt_of_mem_squares_of (KING_ATTACKS_facts center hcen).1 hs) (ring_nodup hcen)
  simp only [slot_shiftRight] at u3
  refine ⟨?_, ?_⟩
  · intro j hj hne
    have e : j + 1 + 1 = 2 + j := by omega
    have := u3 j hj
    rw [e, if_pos hne] at this
    exact this
  · intro x hx
    by_cases hmem : x ∈ squares_of (KING_ATTACKS center)
    · obtain ⟨j, hj, hjx⟩ := List.getElem_of_mem hmem
      have hgd : (squares_of (KING_ATTACKS center)).getD j 0 = x := by
        rw [List.getD_eq_getElem _ _ hj]; exact hjx
      have h0 := hx j hj hgd
      have e : j + 1 + 1 = 2 + j := by omega
      have := u3 j hj
      rw [e, h0, if_neg (fun h => h rfl), hgd] at this
      rw [this, hb2.2 x]
    · rw [u2 x hmem, hb2.2 x]

end AtomicChess

namespace AtomicChess
open MoveFlag

/-! ## The king moves of the atomic generator -/

theorem testBit_attacked_squares_atomic (g : Sides) (i : Nat) :
    (attacked_squares g false).testBit i = true ↔
      (get_all_pawn_attacks g.your_pawns g.you).testBit i = true ∨
      (∃ s, s ∈ squares_of g.your_knights ∧ (KNIGHT_ATTACKS s).testBit i = true) ∨
      (∃ s, s ∈ squares_of g.your_diagonal_sliders ∧
        (get_bishop_attacks s (g.all_pieces ^^^ g.my_king)).testBit i = true) ∨
      (∃ s, s ∈ squares_of g.your_orthogonal_sliders ∧
        (get_rook_attacks s (g.all_pieces ^^^ g.my_king)).testBit i = true) := by
  unfold attacked_squares
  simp only [Bool.false_eq_true, if_false]
  rw [testBit_foldl_or (fun s => get_rook_attacks s (g.all_pieces ^^^ g.my_king)),
    testBit_foldl_or (fun s => get_bishop_attacks s (g.all_pieces ^^^ g.my_king)),
    testBit_foldl_or KNIGHT_ATTACKS]
  constructor
  · rintro (((h | h) | h) | h)
    · exact Or.inl h
    · exact Or.inr (Or.inl h)
    · exact Or.inr (Or.inr (Or.inl h))
    · exact Or.inr (Or.inr (Or.inr h))
  · rintro (h | h | h | h)
    · exact Or.inl (Or.inl (Or.inl h))
    · exact Or.inl (Or.inl (Or.inr h))
    · exact Or.inl (Or.inr h)
    · exact Or.inr h

/-- The attacked set of the atomic generator is the set of squares attacked by an enemy
pawn, knight, bishop, rook or queen on the occupancy without the mover's king. -/
theorem attacked_atomic_iff {pos : Position} (hc : consistent pos) (hs : pos.side_to_play < 2)
    (sq : Nat) :
    (attacked_squares (sides pos) false).testBit sq = true ↔
      attacked_by_non_king pos (pos.side_to_play ^^^ BLACK) sq
        ((sides pos).all_pieces ^^^ (sides pos).my_king) := by
  have hs2 := (xor_black_facts hs).1
  have hpa := fun y => piece_attacks_of_type hs2 y
    ((sides pos).all_pieces ^^^ (sides pos).my_king)
  have hdl : (sides pos).your_diagonal_sliders < 2 ^ 64 :=
    Nat.or_lt_two_pow (bb_lt hc hs2 (by decide)) (bb_lt hc hs2 (by decide))
  have hol : (sides pos).your_orthogonal_sliders < 2 ^ 64 :=
    Nat.or_lt_two_pow (bb_lt hc hs2 (by decide)) (bb_lt hc hs2 (by decide))
  have mk : ∀ t, t < 5 → ∀ y, (pos.bb (pos.side_to_play ^^^ BLACK) t).testBit y = true →
      (piece_attacks (TYPE_TO_PIECE (pos.side_to_play ^^^ BLACK) t) y
        ((sides pos).all_pieces ^^^ (sides pos).my_king)).testBit sq = true →
      attacked_by_non_king pos (pos.side_to_play ^^^ BLACK) sq
        ((sides pos).all_pieces ^^^ (sides pos).my_king) := by
    intro t ht y hy hbit
    obtain ⟨hy64, hb⟩ := board_of_bb hc hs2 (show t < 6 by omega) hy
    have hf := type_to_piece_facts hs2 (show t < 6 by omega)
    refine ⟨y, hy64, by rw [hb]; exact hf.1, ?_, by rw [hb]; exact hbit⟩
    rw [hb, hf.2.1]
    unfold KING
    omega
  rw [testBit_attacked_squares_atomic]
  constructor
  · rintro (h | ⟨s, hmem, h⟩ | ⟨s, hmem, h⟩ | ⟨s, hmem, h⟩)
    · obtain ⟨y, _, hy, hbit⟩ := pawn_attacker (bb_lt hc hs2 (show PAWN < 6 by decide)) h
      exact mk PAWN (by decide) y hy (by rw [(hpa y).1]; exact hbit)
    · have hy := (mem_squares_of (bb_lt hc hs2 (show KNIGHT < 6 by decide)) s).1 hmem
      exact mk KNIGHT (by decide) s hy (by rw [(hpa s).2.1]; exact h)
    · have hy := (mem_squares_of hdl s).1 hmem
      have hy2 : ((pos.bb (pos.side_to_play ^^^ BLACK) BISHOP) |||
          (pos.bb (pos.side_to_play ^^^ BLACK) QUEEN)).testBit s = true := hy
      rw [Nat.testBit_or, Bool.or_eq_true] at hy2
      rcases hy2 with hy2 | hy2
      · exact mk BISHOP (by decide) s hy2 (by rw [(hpa s).2.2.1]; exact h)
      · refine mk QUEEN (by decide) s hy2 ?_
        rw [(hpa s).2.2.2.2.1]
        unfold get_queen_attacks
        rw [Nat.testBit_or, h, Bool.or_true]
    · have hy := (mem_squares_of hol s).1 hmem
      have hy2 : ((pos.bb (pos.side_to_play ^^^ BLACK) ROOK) |||
          (pos.bb (pos.side_to_play ^^^ BLACK) QUEEN)).testBit s = true := hy
      rw [Nat.testBit_or, Bool.or_eq_true] at hy2
      rcases hy2 with hy2 | hy2
      · exact mk ROOK (by decide) s hy2 (by rw [(hpa s).2.2.2.1]; exact h)
      · refine mk QUEEN (by decide) s hy2 ?_
        rw [(hpa s).2.2.2.2.1]
        unfold get_queen_attacks
        rw [Nat.testBit_or, h, Bool.true_or]
  · rintro ⟨y, hy, hcol, hnk, hbit⟩
    obtain ⟨_, ht6, hp⟩ := piece_of_color (hc.2.2.1 y hy) hs2 hcol
    have hbb := bb_of_board hc hs2 ht6 hy hp
    rw [hp] at hbit
    generalize PIECE_TO_TYPE (pos.board.getD y 0) = t at ht6 hbb hbit hnk
    clear hp
    interval_cases t
    · have e := (hpa y).1
      change piece_attacks (TYPE_TO_PIECE _ 0) _ _ = _ at e
      rw [e] at hbit
      exact Or.inl (pawn_attacks_subset hbb hbit)
    · have e := (hpa y).2.1
      change piece_attacks (TYPE_TO_PIECE _ 1) _ _ = _ at e
      rw [e] at hbit
      exact Or.inr (Or.inl ⟨y, (mem_squares_of (bb_lt hc hs2 (by decide)) y).2 hbb, hbit⟩)
    · have e := (hpa y).2.2.1
      change piece_attacks (TYPE_TO_PIECE _ 2) _ _ = _ at e
      rw [e] at hbit
      refine Or.inr (Or.inr (Or.inl ⟨y, (mem_squares_of hdl y).2 ?_, hbit⟩))
      show Nat.testBit (_ ||| _) y = true
      rw [Nat.testBit_or, Bool.or_eq_true]
      exact Or.inl hbb
    · have e := (hpa y).2.2.2.1
      change piece_attacks (TYPE_TO_PIECE _ 3) _ _ = _ at e
      rw [e] at hbit
      refine Or.inr (Or.inr (Or.inr ⟨y, (mem_squares_of hol y).2 ?_, hbit⟩))
      show Nat.testBit (_ ||| _) y = true
      rw [Nat.testBit_or, Bool.or_eq_true]
      exact Or.inl hbb
    · have e := (hpa y).2.2.2.2.1
      change piece_attacks (TYPE_TO_PIECE _ 4) _ _ = _ at e
      rw [e] at hbit
      unfold get_queen_attacks at hbit
      rw [Nat.testBit_or, Bool.or_eq_true] at hbit
      rcases hbit with hbit | hbit
      · refine Or.inr (Or.inr (Or.inr ⟨y, (mem_squares_of hol y).2 ?_, hbit⟩))
        show Nat.testBit (_ ||| _) y = true
        rw [Nat.testBit_or, Bool.or_eq_true]
        exact Or.inr hbb
      · refine Or.inr (Or.inr (Or.inl ⟨y, (mem_squares_of hdl y).2 ?_, hbit⟩))
        show Nat.testBit (_ ||| _) y = true
        rw [Nat.testBit_or, Bool.or_eq_true]
        exact Or.inr hbb
    · exact absurd rfl hnk

theorem from_atomic_add_move {me you a b c d e f g from_sq to_sq ksq : Nat} {ip ie : Bool}
    {m : Move} (h : m ∈ atomic_add_move me you a b c d e f g from_sq to_sq ksq ip ie) :
    m.from_sq = from_sq := by
  unfold atomic_add_move at h
  simp only at h
  split_ifs at h
  all_goals first
    | exact absurd h (List.not_mem_nil _)
    | exact (mem_four_moves h).1
    | (rw [List.mem_singleton] at h
       rw [h])

theorem from_atomic_piece_targets {g : Sides} {a t : Nat} {m : Move}
    (h : m ∈ atomic_piece_targets g a t) : m.from_sq = a := by
  unfold atomic_piece_targets at h
  rw [List.mem_flatMap] at h
  obtain ⟨s, _, hm⟩ := h
  split_ifs at hm
  · exact from_atomic_add_move hm
  · rw [mem_atomic_quiet_move hm]

theorem from_atomic_enpassant_moves {g : Sides} {ep : Nat} {m : Move}
    (hp : g.my_pawns < 2 ^ 64) (h : m ∈ atomic_enpassant_moves g ep) :
    g.my_pawns.testBit m.from_sq = true := by
  unfold atomic_enpassant_moves at h
  simp only at h
  have key : ∀ x : Nat, g.my_pawns &&& x ≠ 0 →
      g.my_pawns.testBit (get_lsb_idx (g.my_pawns &&& x)) = true := by
    intro x hx
    refine testBit_lsb_of_subset hp ?_ hx
    intro s hs
    rw [Nat.testBit_and, Bool.and_eq_true] at hs
    exact hs.1
  have key2 : ∀ x y : Nat, g.my_pawns &&& x &&& y ≠ 0 →
      g.my_pawns.testBit (get_lsb_idx (g.my_pawns &&& x &&& y)) = true := by
    intro x y hx
    rw [Nat.and_assoc] at hx ⊢
    exact key _ hx
  split_ifs at h with h1 h2 h3 h4 h5 h6 h7
  all_goals first
    | exact absurd h (List.not_mem_nil _)
    | (rw [List.mem_append] at h
       rcases h with h | h
       all_goals first
         | exact absurd h (List.not_mem_nil _)
         | (rw [from_atomic_add_move h]
            exact key2 _ _ (by assumption)))

/-- Every move of the atomic generator outside the king block and the castling block
starts on a square of an own pawn, knight, bishop, rook or queen. -/
theorem atomic_other_from {pos : Position} (hc : consistent pos) (hs : pos.side_to_play < 2)
    {m : Move} (h : m ∈ generate_legal_moves_atomic pos) :
    m ∈ get_moves (sides pos).my_king_square
      (KING_ATTACKS (sides pos).my_king_square &&& bnot (attacked_squares (sides pos) false) &&&
        bnot (sides pos).all_my_pieces &&& bnot (sides pos).all_your_pieces) QUIET ∨
    m ∈ castling_moves (cur pos).entry (sides pos).me (sides pos).all_pieces
      (attacked_squares (sides pos) false) (sides pos).my_king ∨
    (∃ t, t < 5 ∧ (pos.bb pos.side_to_play t).testBit m.from_sq = true) := by
  obtain ⟨lp, ln, lb, lr, lq, _⟩ := sides_lt hc hs
  have hP : ∀ s, (sides pos).my_pawns.testBit s = true →
      ∃ t, t < 5 ∧ (pos.bb pos.side_to_play t).testBit s = true :=
    fun s h => ⟨PAWN, by decide, h⟩
  have hN : ∀ s, (sides pos).my_knights.testBit s = true →
      ∃ t, t < 5 ∧ (pos.bb pos.side_to_play t).testBit s = true :=
    fun s h => ⟨KNIGHT, by decide, h⟩
  have hBQ : ∀ s, ((sides pos).my_bishops ||| (sides pos).my_queens).testBit s = true →
      ∃ t, t < 5 ∧ (pos.bb pos.side_to_play t).testBit s = true := by
    intro s h
    rw [Nat.testBit_or, Bool.or_eq_true] at h
    rcases h with h | h
    · exact ⟨BISHOP, by decide, h⟩
    · exact ⟨QUEEN, by decide, h⟩
  have hRQ : ∀ s, ((sides pos).my_rooks ||| (sides pos).my_queens).testBit s = true →
      ∃ t, t < 5 ∧ (pos.bb pos.side_to_play t).testBit s = true := by
    intro s h
    rw [Nat.testBit_or, Bool.or_eq_true] at h
    rcases h with h | h
    · exact ⟨ROOK, by decide, h⟩
    · exact ⟨QUEEN, by decide, h⟩
  have hsubP : ∀ (x : Nat) (s : Nat), s ∈ squares_of ((sides pos).my_pawns &&& x) →
      (sides pos).my_pawns.testBit s = true := by
    intro x s hmem
    have := (mem_squares_of (lt_of_and_left lp) s).1 hmem
    rw [Nat.testBit_and, Bool.and_eq_true] at this
    exact this.1
  unfold generate_legal_moves_atomic at h
  simp only [List.mem_append, List.mem_flatMap] at h
  rcases h with (((((((((h | h) | ⟨s, hmem, h⟩) | ⟨s, hmem, h⟩) | ⟨s, hmem, h⟩) |
    ⟨s, hmem, h⟩) | h) | ⟨s, hmem, h⟩) | ⟨s, hmem, h⟩) | ⟨s, hmem, h⟩)
  · exact Or.inl h
  · exact Or.inr (Or.inl h)
  · refine Or.inr (Or.inr ?_)
    rw [mem_atomic_quiet_move h]
    rw [Nat.and_assoc, Nat.and_assoc] at hmem
    exact hP s (hsubP _ s hmem)
  · refine Or.inr (Or.inr ?_)
    rw [mem_atomic_quiet_move h]
    exact hP s (hsubP _ s hmem)
  · refine Or.inr (Or.inr ?_)
    rw [from_atomic_add_move h]
    rw [Nat.and_assoc] at hmem
    exact hP s (hsubP _ s hmem)
  · refine Or.inr (Or.inr ?_)
    rw [from_atomic_add_move h]
    rw [Nat.and_assoc] at hmem
    exact hP s (hsubP _ s hmem)
  · exact Or.inr (Or.inr (hP _ (from_atomic_enpassant_moves lp h)))
  · refine Or.inr (Or.inr ?_)
    rw [from_atomic_piece_targets h]
    exact hN s ((mem_squares_of ln s).1 hmem)
  · refine Or.inr (Or.inr ?_)
    rw [from_atomic_piece_targets h]
    exact hBQ s ((mem_squares_of (Nat.or_lt_two_pow lb lq) s).1 hmem)
  · refine Or.inr (Or.inr ?_)
    rw [from_atomic_piece_targets h]
    exact hRQ s ((mem_squares_of (Nat.or_lt_two_pow lr lq) s).1 hmem)

end AtomicChess

namespace AtomicChess

open MoveFlag

/-! ## `play` keeps board and bitboards in agreement -/

/-- The agreement of board and bitboards, with the bitboards indexed by `6 * c + t`. -/
theorem consistent_iff_index (pos : Position) :
    consistent pos ↔
      pos.pieces.length = 12 ∧ pos.board.length = 64 ∧
      (∀ s, s < 64 → pos.board.getD s 0 ≤ 12) ∧
      (∀ k, k < 12 → pos.pieces.getD k 0 < 2 ^ 64) ∧
      (∀ k, k < 12 → ∀ s, s < 64 →
        ((pos.pieces.getD k 0).testBit s = true ↔ pos.board.getD s 0 = k + 1)) := by
  constructor
  · rintro ⟨h1, h2, h3, h4, h5⟩
    refine ⟨h1, h2, h3, ?_, ?_⟩
    · intro k hk
      have := h4 (k / 6) (by omega) (k % 6) (by omega)
      unfold Position.bb at this
      have e : 6 * (k / 6) + k % 6 = k := by omega
      rw [e] at this
      exact this
    · intro k hk s hs
      exact piece_bit_iff ⟨h1, h2, h3, h4, h5⟩ hk hs
  · rintro ⟨h1, h2, h3, h4, h5⟩
    refine ⟨h1, h2, h3, ?_, ?_⟩
    · intro c hc t ht
      exact h4 (6 * c + t) (by omega)
    · intro c hc t ht s hs
      exact h5 (6 * c + t) (by omega) s hs

/-- Agreement of board and bitboards depends on these two fields only. -/
theorem consistent_congr {p q : Position} (hp : q.pieces = p.pieces) (hb : q.board = p.board)
    (h : consistent p) : consistent q := by
  unfold consistent Position.bb at h ⊢
  rw [hp, hb]
  exact h

theorem board_move_piece_quiet (pos : Position) (hbl : pos.board.length = 64) (f t x : Nat)
    (hf : f < 64) (ht : t < 64) :
    (move_piece_quiet pos f t).board.getD x 0 =
      if x = f then NO_PIECE else if x = t then pos.board.getD f 0 else pos.board.getD x 0 := by
  show ((pos.board.set t (pos.board.getD f 0)).set f NO_PIECE).getD x 0 = _
  rw [getD_set, getD_set, List.length_set, hbl]
  by_cases e1 : x = f
  · rw [if_pos e1, if_pos ⟨e1.symm, hf⟩]
  · rw [if_neg e1, if_neg (fun h => e1 h.1.symm)]
    by_cases e2 : x = t
    · rw [if_pos e2, if_pos ⟨e2.symm, ht⟩]
    · rw [if_neg e2, if_neg (fun h => e2 h.1.symm)]

theorem board_move_piece (pos : Position) (hbl : pos.board.length = 64) (f t x : Nat)
    (hf : f < 64) (ht : t < 64) :
    (move_piece pos f t).board.getD x 0 =
      if x = f then NO_PIECE else if x = t then pos.board.getD f 0 else pos.board.getD x 0 := by
  show ((pos.board.set t (pos.board.getD f 0)).set f NO_PIECE).getD x 0 = _
  rw [getD_set, getD_set, List.length_set, hbl]
  by_cases e1 : x = f
  · rw [if_pos e1, if_pos ⟨e1.symm, hf⟩]
  · rw [if_neg e1, if_neg (fun h => e1 h.1.symm)]
    by_cases e2 : x = t
    · rw [if_pos e2, if_pos ⟨e2.symm, ht⟩]
    · rw [if_neg e2, if_neg (fun h => e2 h.1.symm)]

theorem testBit_from_to (f t s : Nat) (hs : s < 64) :
    (SQUARE_TO_BITBOARD f ||| SQUARE_TO_BITBOARD t).testBit s = (decide (f = s) || decide (t = s)) := by
  rw [Nat.testBit_or, testBit_SQUARE_TO_BITBOARD, testBit_SQUARE_TO_BITBOARD]
  by_cases e1 : f = s <;> by_cases e2 : t = s <;> simp [e1, e2] <;> omega

/-- A non-capturing move of a piece to an empty square keeps board and bitboards in
agreement. -/
theorem consistent_move_piece_quiet {pos : Position} (hc : consistent pos) {f t : Nat}
    (hf : f < 64) (ht : t < 64) (hpf : 1 ≤ pos.board.getD f 0)
    (hempty : pos.board.getD t 0 = NO_PIECE) : consistent (move_piece_quiet pos f t) := by
  rw [consistent_iff_index] at hc ⊢
  obtain ⟨h1, h2, h3, h4, h5⟩ := hc
  have hp12 := h3 f hf
  have hidx := (piece_index hpf hp12).1
  have hbd := fun x => board_move_piece_quiet pos h2 f t x hf ht
  have hpieces : (move_piece_quiet pos f t).pieces =
      pos.pieces.set (pos.board.getD f 0 - 1)
        (pos.pieces.getD (pos.board.getD f 0 - 1) 0 ^^^
          (SQUARE_TO_BITBOARD f ||| SQUARE_TO_BITBOARD t)) := by
    show pos.pieces.set _ _ = _
    rw [hidx]
  have hne : f ≠ t := by
    intro e
    rw [e, hempty] at hpf
    exact absurd hpf (by decide)
  refine ⟨?_, ?_, ?_, ?_, ?_⟩
  · rw [hpieces, List.length_set]; exact h1
  · show ((pos.board.set _ _).set _ _).length = 64
    rw [List.length_set, List.length_set]; exact h2
  · intro s hs
    rw [hbd]
    split_ifs
    · exact Nat.zero_le _
    · exact hp12
    · exact h3 s hs
  · intro k hk
    rw [hpieces, getD_set]
    split_ifs with e
    · exact Nat.xor_lt_two_pow (h4 _ (by omega))
        (Nat.or_lt_two_pow (SQUARE_TO_BITBOARD_lt _) (SQUARE_TO_BITBOARD_lt _))
    · exact h4 k hk
  · intro k hk s hs
    rw [hpieces, getD_set, hbd]
    have hbf := h5 (pos.board.getD f 0 - 1) (by omega)
    have hbk := h5 k hk
    by_cases e : pos.board.getD f 0 - 1 = k
    · rw [if_pos ⟨e, by rw [h1]; omega⟩, Nat.testBit_xor, testBit_from_to f t s hs, e]
      rw [e] at hbf
      by_cases e1 : s = f
      · subst e1
        have : (pos.pieces.getD k 0).testBit s = true := (hbf s hs).2 (by omega)
        rw [this, if_pos rfl]
        simp
        unfold NO_PIECE; omega
      · rw [if_neg e1]
        by_cases e2 : s = t
        · subst e2
          have : (pos.pieces.getD k 0).testBit s = false := by
            cases hb : (pos.pieces.getD k 0).testBit s
            · rfl
            · have := (hbf s hs).1 hb
              rw [hempty] at this
              unfold NO_PIECE at this; omega
          rw [this, if_pos rfl]
          exact ⟨fun _ => by omega, fun _ => by simp⟩
        · rw [if_neg e2]
          have d1 : decide (f = s) = false := decide_eq_false (fun h => e1 h.symm)
          have d2 : decide (t = s) = false := decide_eq_false (fun h => e2 h.symm)
          rw [d1, d2]
          simp only [Bool.or_false, Bool.xor_false]
          exact hbf s hs
    · rw [if_neg (fun h => e h.1)]
      by_cases e1 : s = f
      · subst e1
        rw [if_pos rfl]
        constructor
        · intro hb
          have := (hbk s hs).1 hb
          omega
        · intro hb
          unfold NO_PIECE at hb; omega
      · rw [if_neg e1]
        by_cases e2 : s = t
        · subst e2
          rw [if_pos rfl]
          constructor
          · intro hb
            have := (hbk s hs).1 hb
            rw [hempty] at this
            unfold NO_PIECE at this; omega
          · intro hb
            omega
        · rw [if_neg e2]
          exact hbk s hs

theorem testBit_bnot_from_to (f t s : Nat) (hs : s < 64) :
    (bnot (SQUARE_TO_BITBOARD f ||| SQUARE_TO_BITBOARD t)).testBit s =
      !(decide (f = s) || decide (t = s)) := by
  rw [testBit_bnot, testBit_from_to f t s hs]
  simp [hs]

/-- A capturing move of a piece onto a different piece keeps board and bitboards in
agreement. -/
theorem consistent_move_piece {pos : Position} (hc : consistent pos) {f t : Nat}
    (hf : f < 64) (ht : t < 64) (hpf : 1 ≤ pos.board.getD f 0)
    (hpt : 1 ≤ pos.board.getD t 0) (hdiff : pos.board.getD f 0 ≠ pos.board.getD t 0) :
    consistent (move_piece pos f t) := by
  rw [consistent_iff_index] at hc ⊢
  obtain ⟨h1, h2, h3, h4, h5⟩ := hc
  have hp12 := h3 f hf
  have hq12 := h3 t ht
  have hidx := (piece_index hpf hp12).1
  have hidx2 := (piece_index hpt hq12).1
  have hbd := fun x => board_move_piece pos h2 f t x hf ht
  have hne : f ≠ t := fun e => hdiff (by rw [e])
  have hlen1 : (pos.pieces.set (pos.board.getD f 0 - 1)
      (pos.pieces.getD (pos.board.getD f 0 - 1) 0 ^^^
        (SQUARE_TO_BITBOARD f ||| SQUARE_TO_BITBOARD t))).length = 12 := by
    rw [List.length_set]; exact h1
  have hpieces : ∀ k, (move_piece pos f t).pieces.getD k 0 =
      if k = pos.board.getD t 0 - 1 then
        pos.pieces.getD k 0 &&& bnot (SQUARE_TO_BITBOARD f ||| SQUARE_TO_BITBOARD t)
      else if k = pos.board.getD f 0 - 1 then
        pos.pieces.getD k 0 ^^^ (SQUARE_TO_BITBOARD f ||| SQUARE_TO_BITBOARD t)
      else pos.pieces.getD k 0 := by
    intro k
    show ((pos.pieces.set _ _).set _ _).getD k 0 = _
    rw [hidx, hidx2, getD_set, hlen1, getD_set, getD_set, h1]
    have hij : ¬ (pos.board.getD f 0 - 1 = pos.board.getD t 0 - 1) := by omega
    by_cases e : k = pos.board.getD t 0 - 1
    · rw [if_pos e, if_pos ⟨e.symm, by omega⟩, if_neg (fun h => hij h.1), e]
    · rw [if_neg e, if_neg (fun h => e h.1.symm)]
      by_cases e2 : k = pos.board.getD f 0 - 1
      · rw [if_pos e2, if_pos ⟨e2.symm, by omega⟩, e2]
      · rw [if_neg e2, if_neg (fun h => e2 h.1.symm)]
  have hmask := Nat.or_lt_two_pow (SQUARE_TO_BITBOARD_lt f) (SQUARE_TO_BITBOARD_lt t)
  refine ⟨?_, ?_, ?_, ?_, ?_⟩
  · show ((pos.pieces.set _ _).set _ _).length = 12
    rw [List.length_set, List.length_set]; exact h1
  · show ((pos.board.set _ _).set _ _).length = 64
    rw [List.length_set, List.length_set]; exact h2
  · intro s hs
    rw [hbd]
    split_ifs
    · exact Nat.zero_le _
    · exact hp12
    · exact h3 s hs
  · intro k hk
    rw [hpieces]
    split_ifs
    · exact lt_of_and_left (h4 k hk)
    · exact Nat.xor_lt_two_pow (h4 k hk) hmask
    · exact h4 k hk
  · intro k hk s hs
    rw [hpieces, hbd]
    have hbk := h5 k hk s hs
    have hkf := h5 k hk f hf
    have hkt := h5 k hk t ht
    by_cases e1 : s = f
    · subst e1
      rw [if_pos rfl]
      have d1 : decide (s = s) = true := decide_eq_true rfl
      by_cases ka : k = pos.board.getD t 0 - 1
      · rw [if_pos ka, Nat.testBit_and, testBit_bnot_from_to s t s hs, d1]
        simp
        unfold NO_PIECE; omega
      · rw [if_neg ka]
        by_cases kb : k = pos.board.getD s 0 - 1
        · rw [if_pos kb, Nat.testBit_xor, testBit_from_to s t s hs, d1, hkf.2 (by omega)]
          simp
          unfold NO_PIECE; omega
        · rw [if_neg kb]
          constructor
          · intro hb
            have := hkf.1 hb
            omega
          · intro hb
            unfold NO_PIECE at hb; omega
    · rw [if_neg e1]
      have d1 : decide (f = s) = false := decide_eq_false (fun h => e1 h.symm)
      by_cases e2 : s = t
      · subst e2
        rw [if_pos rfl]
        have d2 : decide (s = s) = true := decide_eq_true rfl
        by_cases ka : k = pos.board.getD s 0 - 1
        · rw [if_pos ka, Nat.testBit_and, testBit_bnot_from_to f s s hs, d1, d2]
          simp only [Bool.or_true, Bool.not_true, Bool.and_false]
          exact ⟨fun h => Bool.noConfusion h, fun _ => by omega⟩
        · rw [if_neg ka]
          have hbf : (pos.pieces.getD k 0).testBit s = false := by
            cases hb : (pos.pieces.getD k 0).testBit s
            · rfl
            · have := hkt.1 hb
              omega
          by_cases kb : k = pos.board.getD f 0 - 1
          · rw [if_pos kb, Nat.testBit_xor, testBit_from_to f s s hs, d1, d2, hbf]
            exact ⟨fun _ => by omega, fun _ => by simp⟩
          · rw [if_neg kb, hbf]
            exact ⟨fun h => Bool.noConfusion h, fun _ => by omega⟩
      · rw [if_neg e2]
        have d2 : decide (t = s) = false := decide_eq_false (fun h => e2 h.symm)
        by_cases ka : k = pos.board.getD t 0 - 1
        · rw [if_pos ka, Nat.testBit_and, testBit_bnot_from_to f t s hs, d1, d2]
          simp only [Bool.or_false, Bool.not_false, Bool.and_true]
          exact hbk
        · rw [if_neg ka]
          by_cases kb : k = pos.board.getD f 0 - 1
          · rw [if_pos kb, Nat.testBit_xor, testBit_from_to f t s hs, d1, d2]
            simp only [Bool.or_false, Bool.xor_false]
            exact hbk
          · rw [if_neg kb]
            exact hbk

theorem consistent_two_quiet {pos : Position} (hc : consistent pos) {a b c d : Nat}
    (ha : a < 64) (hb : b < 64) (hcc : c < 64) (hd : d < 64)
    (hca : c ≠ a) (hcb : c ≠ b) (hda : d ≠ a) (hdb : d ≠ b)
    (hpa : 1 ≤ pos.board.getD a 0) (hpc : 1 ≤ pos.board.getD c 0)
    (heb : pos.board.getD b 0 = NO_PIECE) (hed : pos.board.getD d 0 = NO_PIECE) :
    consistent (move_piece_quiet (move_piece_quiet pos a b) c d) := by
  have h1 := consistent_move_piece_quiet hc ha hb hpa heb
  have hbd := fun x => board_move_piece_quiet pos hc.2.1 a b x ha hb
  refine consistent_move_piece_quiet h1 hcc hd ?_ ?_
  · rw [hbd, if_neg hca, if_neg hcb]; exact hpc
  · rw [hbd, if_neg hda, if_neg hdb]; exact hed

theorem consistent_promotion {pos : Position} (hc : consistent pos) {f t c pt : Nat}
    (hf : f < 64) (ht : t < 64) (hc2 : c < 2) (hpt : pt < 6)
    (hempty : pos.board.getD t 0 = NO_PIECE) :
    consistent (put_piece (remove_piece pos f) pt c t) := by
  refine consistent_put_piece (consistent_remove_piece hc hf) ht hc2 hpt ?_
  rw [board_remove_piece]
  split_ifs
  · rfl
  · exact hempty

theorem consistent_promotion_capture {pos : Position} (hc : consistent pos) {f t c pt : Nat}
    (hf : f < 64) (ht : t < 64) (hc2 : c < 2) (hpt : pt < 6) :
    consistent (play_promotion_capture false pos ⟨QUIET, f, t⟩ c pt) := by
  unfold play_promotion_capture
  simp only [Bool.false_eq_true, if_false]
  have h1 := consistent_remove_piece hc hf
  have h2 : consistent (set_captured (remove_piece pos f)
      ((remove_piece pos f).board.getD t 0)) := consistent_congr rfl rfl h1
  refine consistent_put_piece (consistent_remove_piece h2 ht) ht hc2 hpt ?_
  rw [board_remove_piece, if_pos rfl]

/-- In the standard build `play` of a playable move keeps board and bitboards in
agreement. -/
theorem consistent_play {pos : Position} {m : Move} (hc : consistent pos)
    (hs : pos.side_to_play < 2) (hp : playable pos m) : consistent (play false pos m) := by
  obtain ⟨hf, ht, hrest⟩ := hp
  have hs2 := xor_black_facts hs
  have hP := type_to_piece_facts hs (show PAWN < 6 by decide)
  have h0 : consistent (play_begin pos m) := hc
  have hb0 : ∀ s, (play_begin pos m).board.getD s 0 = pos.board.getD s 0 := fun _ => rfl
  have hmine : ∀ s, s < 64 → PIECE_TO_COLOR (pos.board.getD s 0) = pos.side_to_play →
      1 ≤ pos.board.getD s 0 := by
    intro s hs64 hcol
    exact (piece_of_color (hc.2.2.1 s hs64) hs hcol).1
  have hyours : ∀ s, s < 64 →
      PIECE_TO_COLOR (pos.board.getD s 0) = pos.side_to_play ^^^ BLACK →
      1 ≤ pos.board.getD s 0 := by
    intro s hs64 hcol
    exact (piece_of_color (hc.2.2.1 s hs64) hs2.1 hcol).1
  have hpawn : pos.board.getD m.from_sq 0 = TYPE_TO_PIECE pos.side_to_play PAWN →
      PIECE_TO_COLOR (pos.board.getD m.from_sq 0) = pos.side_to_play := by
    intro e; rw [e]; exact hP.1
  have hside : pos.side_to_play = 0 ∨ pos.side_to_play = 1 := by omega
  have hpc : ∀ pt, pt < 6 → consistent (play_promotion_capture false (play_begin pos m) m
      pos.side_to_play pt) := by
    intro pt hpt
    have := @consistent_promotion_capture (play_begin pos m) h0 m.from_sq m.to_sq
      pos.side_to_play pt hf ht hs hpt
    exact this
  unfold play
  cases hflag : m.flag <;> simp only [hflag] at hrest <;> simp only
  · exact consistent_move_piece_quiet h0 hf ht (hmine _ hf hrest.1) hrest.2
  · exact consistent_congr rfl rfl
      (consistent_move_piece_quiet h0 hf ht (hmine _ hf hrest.1) hrest.2)
  · rcases hside with e | e
    · have e2 : pos.side_to_play = WHITE := e
      obtain ⟨k1, k2, k3, k4⟩ := hrest.1 e2
      rw [if_pos e2]
      exact @consistent_two_quiet (play_begin pos m) h0 4 6 7 5 (by decide) (by decide)
        (by decide) (by decide) (by decide) (by decide) (by decide) (by decide)
        (by rw [hb0, k1]; decide) (by rw [hb0, k2]; decide) k4 k3
    · have hnw : pos.side_to_play ≠ WHITE := by rw [e]; decide
      obtain ⟨k1, k2, k3, k4⟩ := hrest.2 hnw
      rw [if_neg hnw]
      exact @consistent_two_quiet (play_begin pos m) h0 60 62 63 61 (by decide) (by decide)
        (by decide) (by decide) (by decide) (by decide) (by decide) (by decide)
        (by rw [hb0, k1]; decide) (by rw [hb0, k2]; decide) k4 k3
  · rcases hside with e | e
    · have e2 : pos.side_to_play = WHITE := e
      obtain ⟨k1, k2, k3, k4⟩ := hrest.1 e2
      rw [if_pos e2]
      exact @consistent_two_quiet (play_begin pos m) h0 4 2 0 3 (by decide) (by decide)
        (by decide) (by decide) (by decide) (by decide) (by decide) (by decide)
        (by rw [hb0, k1]; decide) (by rw [hb0, k2]; decide) k4 k3
    · have hnw : pos.side_to_play ≠ WHITE := by rw [e]; decide
      obtain ⟨k1, k2, k3, k4⟩ := hrest.2 hnw
      rw [if_neg hnw]
      exact @consistent_two_quiet (play_begin pos m) h0 60 58 56 59 (by decide) (by decide)
        (by decide) (by decide) (by decide) (by decide) (by decide) (by decide)
        (by rw [hb0, k1]; decide) (by rw [hb0, k2]; decide) k4 k3
  · simp only [Bool.false_eq_true, if_false]
    have a1 := hmine _ hf hrest.1
    have b1 := hyours _ ht hrest.2
    have h1 : consistent (set_captured (play_begin pos m)
        ((play_begin pos m).board.getD m.to_sq 0)) := consistent_congr rfl rfl h0
    refine consistent_move_piece h1 hf ht a1 b1 ?_
    intro e
    have e2 : pos.board.getD m.from_sq 0 = pos.board.getD m.to_sq 0 := e
    rw [e2, hrest.2] at hrest
    exact hs2.2 hrest.1
  · obtain ⟨k1, k2, k3, k4, k5, k6⟩ := hrest
    simp only [Bool.false_eq_true, if_false]
    have h1 := consistent_move_piece_quiet h0 hf ht (hmine _ hf (hpawn k1)) k2
    exact consistent_remove_piece h1 k3
  all_goals first
    | exact consistent_promotion h0 hf ht hs (by decide) hrest.2
    | exact hpc _ (by decide)

/-- Bitboards that agree with the board are pairwise disjoint. -/
theorem pieces_disjoint_of_consistent {pos : Position} (hc : consistent pos) :
    pieces_disjoint pos := by
  intro c hc2 t ht c2 hc3 t2 ht2 hne
  apply Nat.eq_of_testBit_eq
  intro s
  rw [Nat.zero_testBit, Nat.testBit_and]
  cases h1 : (pos.bb c t).testBit s
  · rfl
  · cases h2 : (pos.bb c2 t2).testBit s
    · rfl
    · exfalso
      have e1 := (board_of_bb hc hc2 ht h1).2
      have e2 := (board_of_bb hc hc3 ht2 h2).2
      rw [e1] at e2
      exact type_to_piece_inj ht ht2 hne e2

end AtomicChess

namespace AtomicChess

open MoveFlag

/-! ## The blocks of the standard generator -/

theorem testBit_bnot_true {x s : Nat} (hs : s < 64) :
    (bnot x).testBit s = true ↔ x.testBit s = false := by
  rw [testBit_bnot]
  cases x.testBit s <;> simp [hs]

/-- Pin pruning of the pawn sets, White to move. -/
theorem pawn_pins_white (g : Sides) (k : Masks) (hme : g.me = WHITE) (s : Nat) (hs : s < 64) :
    ((std_pawn_sets g k).pawns_push_double.testBit s = true →
      k.diagonal_pin.testBit s = false ∧
      (k.orthogonal_pin.testBit s = true → k.orthogonal_pin.testBit (s + 16) = true)) ∧
    ((std_pawn_sets g k).pawns_push_single.testBit s = true →
      k.diagonal_pin.testBit s = false ∧
      (k.orthogonal_pin.testBit s = true → k.orthogonal_pin.testBit (s + 8) = true)) ∧
    ((std_pawn_sets g k).pawns_take_left.testBit s = true →
      k.orthogonal_pin.testBit s = false ∧
      (k.diagonal_pin.testBit s = true → k.diagonal_pin.testBit (s + 7) = true)) ∧
    ((std_pawn_sets g k).pawns_take_right.testBit s = true →
      k.orthogonal_pin.testBit s = false ∧
      (k.diagonal_pin.testBit s = true → k.diagonal_pin.testBit (s + 9) = true)) ∧
    ((std_pawn_sets g k).pawns_take.testBit s = true → k.orthogonal_pin.testBit s = false) := by
  simp only [std_pawn_sets, hme, if_true, Nat.testBit_and, Nat.testBit_or,
    Nat.testBit_shiftRight, Bool.and_eq_true, Bool.or_eq_true, testBit_bnot_true hs]
  have e16 : 16 + s = s + 16 := Nat.add_comm _ _
  have e8 : 8 + s = s + 8 := Nat.add_comm _ _
  have e7 : 7 + s = s + 7 := Nat.add_comm _ _
  have e9 : 9 + s = s + 9 := Nat.add_comm _ _
  simp only [e16, e8, e7, e9]
  refine ⟨?_, ?_, ?_, ?_, ?_⟩
  all_goals
    intro h
    cases hd : k.diagonal_pin.testBit s <;> cases ho : k.orthogonal_pin.testBit s <;>
      simp_all

/-- Pin pruning of the pawn sets, Black to move. -/
theorem pawn_pins_black (g : Sides) (k : Masks) (hme : g.me ≠ WHITE) (s : Nat) (hs : s < 64) :
    ((std_pawn_sets g k).pawns_push_double.testBit s = true →
      k.diagonal_pin.testBit s = false ∧
      (k.orthogonal_pin.testBit s = true → k.orthogonal_pin.testBit (s - 16) = true)) ∧
    ((std_pawn_sets g k).pawns_push_single.testBit s = true →
      k.diagonal_pin.testBit s = false ∧
      (k.orthogonal_pin.testBit s = true → k.orthogonal_pin.testBit (s - 8) = true)) ∧
    ((std_pawn_sets g k).pawns_take_left.testBit s = true →
      k.orthogonal_pin.testBit s = false ∧
      (k.diagonal_pin.testBit s = true → k.diagonal_pin.testBit (s - 9) = true)) ∧
    ((std_pawn_sets g k).pawns_take_right.testBit s = true →
      k.orthogonal_pin.testBit s = false ∧
      (k.diagonal_pin.testBit s = true → k.diagonal_pin.testBit (s - 7) = true)) ∧
    ((std_pawn_sets g k).pawns_take.testBit s = true → k.orthogonal_pin.testBit s = false) := by
  simp only [std_pawn_sets, hme, if_false, Nat.testBit_and, Nat.testBit_or,
    testBit_shl, Bool.and_eq_true, Bool.or_eq_true, decide_eq_true_eq, testBit_bnot_true hs]
  refine ⟨?_, ?_, ?_, ?_, ?_⟩
  all_goals
    intro h
    cases hd : k.diagonal_pin.testBit s <;> cases ho : k.orthogonal_pin.testBit s <;>
      simp_all

theorem pawn_sets_sub (g : Sides) (k : Masks) (s : Nat) :
    ((std_pawn_sets g k).pawns_push_double.testBit s = true → g.my_pawns.testBit s = true) ∧
    ((std_pawn_sets g k).pawns_push_single.testBit s = true → g.my_pawns.testBit s = true) ∧
    ((std_pawn_sets g k).pawns_take_left.testBit s = true → g.my_pawns.testBit s = true) ∧
    ((std_pawn_sets g k).pawns_take_right.testBit s = true → g.my_pawns.testBit s = true) := by
  by_cases hme : g.me = WHITE
  · obtain ⟨a, b, c, d, _⟩ := pawn_sets_white g k hme s
    exact ⟨fun h => (a h).1, fun h => (b h).1, fun h => (c h).1, fun h => (d h).1⟩
  · obtain ⟨a, b, c, d, _⟩ := pawn_sets_black g k hme s
    exact ⟨fun h => (a h).1, fun h => (b h).1, fun h => (c h).1, fun h => (d h).1⟩

/-- The moves of the pawn block: the set the `from` square was taken from, the flag and
the `to` square. -/
theorem mem_std_pawn_moves {g : Sides} {k : Masks} {m : Move} (hp : g.my_pawns < 2 ^ 64)
    (h : m ∈ std_pawn_moves g (std_pawn_sets g k)) :
    m.from_sq < 64 ∧
    ((m.flag = DOUBLE_PUSH ∧ (std_pawn_sets g k).pawns_push_double.testBit m.from_sq = true ∧
        m.to_sq = if g.me = WHITE then m.from_sq + 16 else m.from_sq - 16) ∨
     ((m.flag = PR_KNIGHT ∨ m.flag = PR_BISHOP ∨ m.flag = PR_ROOK ∨ m.flag = PR_QUEEN) ∧
        (std_pawn_sets g k).pawns_push_single.testBit m.from_sq = true ∧
        (DOUBLE_PUSH_RANK g.you).testBit m.from_sq = true ∧
        m.to_sq = if g.me = WHITE then m.from_sq + 8 else m.from_sq - 8) ∨
     (m.flag = QUIET ∧ (std_pawn_sets g k).pawns_push_single.testBit m.from_sq = true ∧
        (DOUBLE_PUSH_RANK g.you).testBit m.from_sq = false ∧
        m.to_sq = if g.me = WHITE then m.from_sq + 8 else m.from_sq - 8) ∨
     ((m.flag = PC_KNIGHT ∨ m.flag = PC_BISHOP ∨ m.flag = PC_ROOK ∨ m.flag = PC_QUEEN) ∧
        (std_pawn_sets g k).pawns_take_left.testBit m.from_sq = true ∧
        (DOUBLE_PUSH_RANK g.you).testBit m.from_sq = true ∧
        m.to_sq = if g.me = WHITE then m.from_sq + 7 else m.from_sq - 9) ∨
     (m.flag = CAPTURE ∧ (std_pawn_sets g k).pawns_take_left.testBit m.from_sq = true ∧
        (DOUBLE_PUSH_RANK g.you).testBit m.from_sq = false ∧
        m.to_sq = if g.me = WHITE then m.from_sq + 7 else m.from_sq - 9) ∨
     ((m.flag = PC_KNIGHT ∨ m.flag = PC_BISHOP ∨ m.flag = PC_ROOK ∨ m.flag = PC_QUEEN) ∧
        (std_pawn_sets g k).pawns_take_right.testBit m.from_sq = true ∧
        (DOUBLE_PUSH_RANK g.you).testBit m.from_sq = true ∧
        m.to_sq = if g.me = WHITE then m.from_sq + 9 else m.from_sq - 7) ∨
     (m.flag = CAPTURE ∧ (std_pawn_sets g k).pawns_take_right.testBit m.from_sq = true ∧
        (DOUBLE_PUSH_RANK g.you).testBit m.from_sq = false ∧
        m.to_sq = if g.me = WHITE then m.from_sq + 9 else m.from_sq - 7)) := by
  have hsub := pawn_sets_sub g k
  have l1 := lt_of_subset hp (fun s => (hsub s).1)
  have l2 := lt_of_subset hp (fun s => (hsub s).2.1)
  have l3 := lt_of_subset hp (fun s => (hsub s).2.2.1)
  have l4 := lt_of_subset hp (fun s => (hsub s).2.2.2)
  have yes : ∀ {x s : Nat}, x < 2 ^ 64 → s ∈ squares_of (x &&& DOUBLE_PUSH_RANK g.you) →
      s < 64 ∧ x.testBit s = true ∧ (DOUBLE_PUSH_RANK g.you).testBit s = true := by
    intro x s hx hmem
    have hb := (mem_squares_of (lt_of_and_left hx) s).1 hmem
    rw [Nat.testBit_and, Bool.and_eq_true] at hb
    exact ⟨lt_of_testBit hx hb.1, hb.1, hb.2⟩
  have no : ∀ {x s : Nat}, x < 2 ^ 64 →
      s ∈ squares_of (x &&& bnot (DOUBLE_PUSH_RANK g.you)) →
      s < 64 ∧ x.testBit s = true ∧ (DOUBLE_PUSH_RANK g.you).testBit s = false := by
    intro x s hx hmem
    have hb := (mem_squares_of (lt_of_and_left hx) s).1 hmem
    rw [Nat.testBit_and, Bool.and_eq_true] at hb
    have h64 := lt_of_testBit hx hb.1
    exact ⟨h64, hb.1, (testBit_bnot_true h64).1 hb.2⟩
  unfold std_pawn_moves at h
  simp only [List.mem_append, List.mem_map, List.mem_flatMap] at h
  rcases h with (((((⟨s, hmem, rfl⟩ | ⟨s, hmem, h⟩) | ⟨s, hmem, rfl⟩) | ⟨s, hmem, h⟩) |
    ⟨s, hmem, rfl⟩) | ⟨s, hmem, h⟩) | ⟨s, hmem, rfl⟩
  · have hb := (mem_squares_of l1 s).1 hmem
    exact ⟨lt_of_testBit l1 hb, Or.inl ⟨rfl, hb, rfl⟩⟩
  · obtain ⟨a, b, c⟩ := yes l2 hmem
    obtain ⟨f1, f2, f3⟩ := mem_four_moves h
    rw [f1, f2]
    exact ⟨a, Or.inr (Or.inl ⟨f3, b, c, rfl⟩)⟩
  · obtain ⟨a, b, c⟩ := no l2 hmem
    exact ⟨a, Or.inr (Or.inr (Or.inl ⟨rfl, b, c, rfl⟩))⟩
  · obtain ⟨a, b, c⟩ := yes l3 hmem
    obtain ⟨f1, f2, f3⟩ := mem_four_moves h
    rw [f1, f2]
    exact ⟨a, Or.inr (Or.inr (Or.inr (Or.inl ⟨f3, b, c, rfl⟩)))⟩
  · obtain ⟨a, b, c⟩ := no l3 hmem
    exact ⟨a, Or.inr (Or.inr (Or.inr (Or.inr (Or.inl ⟨rfl, b, c, rfl⟩))))⟩
  · obtain ⟨a, b, c⟩ := yes l4 hmem
    obtain ⟨f1, f2, f3⟩ := mem_four_moves h
    rw [f1, f2]
    exact ⟨a, Or.inr (Or.inr (Or.inr (Or.inr (Or.inr (Or.inl ⟨f3, b, c, rfl⟩)))))⟩
  · obtain ⟨a, b, c⟩ := no l4 hmem
    exact ⟨a, Or.inr (Or.inr (Or.inr (Or.inr (Or.inr (Or.inr ⟨rfl, b, c, rfl⟩)))))⟩

theorem mem_flatMap_qc {bb : Nat} (hbb : bb < 2 ^ 64) {tg : Nat → Nat} {yours : Nat}
    (hy : yours < 2 ^ 64) {m : Move}
    (h : m ∈ (squares_of bb).flatMap (fun s => quiet_and_capture s (tg s) yours)) :
    m.from_sq < 64 ∧ bb.testBit m.from_sq = true ∧ m.to_sq < 64 ∧
    (tg m.from_sq).testBit m.to_sq = true ∧
    ((m.flag = QUIET ∧ yours.testBit m.to_sq = false) ∨
     (m.flag = CAPTURE ∧ yours.testBit m.to_sq = true)) := by
  rw [List.mem_flatMap] at h
  obtain ⟨s, hs1, hs2⟩ := h
  obtain ⟨a, b, c, d⟩ := mem_quiet_and_capture hy hs2
  have hb := (mem_squares_of hbb s).1 hs1
  rw [a]
  exact ⟨lt_of_testBit hbb hb, hb, b, c, d⟩

/-- The moves of the knight, bishop, rook and queen blocks: the piece on the `from`
square, the pin masks and the flag. -/
theorem mem_std_piece_moves {g : Sides} {k : Masks} {m : Move}
    (hn : g.my_knights < 2 ^ 64) (hb : g.my_bishops < 2 ^ 64) (hr : g.my_rooks < 2 ^ 64)
    (hq : g.my_queens < 2 ^ 64) (hy : g.all_your_pieces < 2 ^ 64)
    (h : m ∈ std_piece_moves g k) :
    m.from_sq < 64 ∧ m.to_sq < 64 ∧
    ((m.flag = QUIET ∧ g.all_your_pieces.testBit m.to_sq = false) ∨
     (m.flag = CAPTURE ∧ g.all_your_pieces.testBit m.to_sq = true)) ∧
    ((g.my_knights.testBit m.from_sq = true ∧ k.orthogonal_pin.testBit m.from_sq = false ∧
        k.diagonal_pin.testBit m.from_sq = false) ∨
     ((g.my_queens.testBit m.from_sq = true ∨
        (g.my_bishops.testBit m.from_sq = true ∧ k.orthogonal_pin.testBit m.from_sq = false)) ∧
        k.diagonal_pin.testBit m.from_sq = true ∧ k.diagonal_pin.testBit m.to_sq = true) ∨
     (g.my_bishops.testBit m.from_sq = true ∧ k.orthogonal_pin.testBit m.from_sq = false ∧
        k.diagonal_pin.testBit m.from_sq = false) ∨
     ((g.my_queens.testBit m.from_sq = true ∨
        (g.my_rooks.testBit m.from_sq = true ∧ k.diagonal_pin.testBit m.from_sq = false)) ∧
        k.orthogonal_pin.testBit m.from_sq = true ∧ k.orthogonal_pin.testBit m.to_sq = true) ∨
     (g.my_rooks.testBit m.from_sq = true ∧ k.diagonal_pin.testBit m.from_sq = false ∧
        k.orthogonal_pin.testBit m.from_sq = false) ∨
     (g.my_queens.testBit m.from_sq = true ∧ k.orthogonal_pin.testBit m.from_sq = false ∧
        k.diagonal_pin.testBit m.from_sq = false)) := by
  unfold std_piece_moves at h
  simp only [List.mem_append] at h
  rcases h with ((h | h | h) | h | h) | h
  · obtain ⟨a, b, c, d, e⟩ := mem_flatMap_qc (lt_of_and_left hn) hy h
    refine ⟨a, c, e, Or.inl ?_⟩
    simp only [Nat.testBit_and, Nat.testBit_or, Bool.and_eq_true, Bool.or_eq_true,
      testBit_bnot_true a, Bool.or_eq_false_iff] at b
    exact ⟨b.1, b.2.1, b.2.2⟩
  · obtain ⟨a, b, c, d, e⟩ := mem_flatMap_qc
      (lt_of_and_left (Nat.or_lt_two_pow hq (lt_of_and_left hb))) hy h
    refine ⟨a, c, e, Or.inr (Or.inl ?_)⟩
    simp only [Nat.testBit_and, Nat.testBit_or, Bool.and_eq_true, Bool.or_eq_true,
      testBit_bnot_true a] at b d
    exact ⟨b.1, b.2, d.2⟩
  · obtain ⟨a, b, c, d, e⟩ := mem_flatMap_qc (lt_of_and_left (lt_of_and_left hb)) hy h
    refine ⟨a, c, e, Or.inr (Or.inr (Or.inl ?_))⟩
    simp only [Nat.testBit_and, Nat.testBit_or, Bool.and_eq_true, Bool.or_eq_true,
      testBit_bnot_true a] at b
    exact ⟨b.1.1, b.1.2, b.2⟩
  · obtain ⟨a, b, c, d, e⟩ := mem_flatMap_qc
      (lt_of_and_left (Nat.or_lt_two_pow hq (lt_of_and_left hr))) hy h
    refine ⟨a, c, e, Or.inr (Or.inr (Or.inr (Or.inl ?_)))⟩
    simp only [Nat.testBit_and, Nat.testBit_or, Bool.and_eq_true, Bool.or_eq_true,
      testBit_bnot_true a] at b d
    exact ⟨b.1, b.2, d.2⟩
  · obtain ⟨a, b, c, d, e⟩ := mem_flatMap_qc (lt_of_and_left (lt_of_and_left hr)) hy h
    refine ⟨a, c, e, Or.inr (Or.inr (Or.inr (Or.inr (Or.inl ?_))))⟩
    simp only [Nat.testBit_and, Nat.testBit_or, Bool.and_eq_true, Bool.or_eq_true,
      testBit_bnot_true a] at b
    exact ⟨b.1.1, b.1.2, b.2⟩
  · obtain ⟨a, b, c, d, e⟩ := mem_flatMap_qc (lt_of_and_left hq) hy h
    refine ⟨a, c, e, Or.inr (Or.inr (Or.inr (Or.inr (Or.inr ?_))))⟩
    simp only [Nat.testBit_and, Nat.testBit_or, Bool.and_eq_true, Bool.or_eq_true,
      testBit_bnot_true a, Bool.or_eq_false_iff] at b
    exact ⟨b.1, b.2.1, b.2.2⟩

theorem negb_bit {c : Bool} {s : Nat} (h : (negb c).testBit s = true) : c = true := by
  cases c
  · unfold negb at h
    simp at h
  · rfl

/-- An en passant capture by a pawn on the diagonal pin mask ends on the diagonal pin
mask. -/
theorem enpassant_pins {g : Sides} {k : Masks} {pt ep : Nat} {m : Move}
    (hpt : pt < 2 ^ 64) (h : m ∈ std_enpassant_moves g k pt ep)
    (hd : k.diagonal_pin.testBit m.from_sq = true) :
    k.diagonal_pin.testBit m.to_sq = true := by
  obtain ⟨_, h64, hto, hfrom⟩ := mem_std_enpassant_moves hpt h
  have hf64 := lt_of_testBit hpt hfrom
  have key : (pt &&& (negb (decide (SQUARE_TO_BITBOARD ep &&& k.diagonal_pin ≠ 0)) |||
      bnot k.diagonal_pin)).testBit m.from_sq = true := by
    unfold std_enpassant_moves at h
    by_cases hep : SQUARE_TO_BITBOARD ep ≠ 0
    · simp only [hep, ne_eq, not_false_eq_true, if_true, List.mem_append] at h
      rcases h with h | h
      · obtain ⟨hne, rfl⟩ := mem_if_singleton h
        refine testBit_lsb_of_subset (lt_of_and_left hpt) ?_ hne
        intro s hs
        split_ifs at hs <;>
          simp only [Nat.testBit_and, Nat.testBit_or, Bool.and_eq_true, Bool.or_eq_true,
            ne_eq] at hs ⊢ <;> tauto
      · obtain ⟨hne, rfl⟩ := mem_if_singleton h
        refine testBit_lsb_of_subset (lt_of_and_left hpt) ?_ hne
        intro s hs
        split_ifs at hs <;>
          simp only [Nat.testBit_and, Nat.testBit_or, Bool.and_eq_true, Bool.or_eq_true,
            ne_eq] at hs ⊢ <;> tauto
    · simp only [hep, if_false] at h
      exact absurd h (List.not_mem_nil _)
  rw [Nat.testBit_and, Nat.testBit_or, Bool.and_eq_true, Bool.or_eq_true] at key
  rcases key.2 with hb | hb
  · have hne := of_decide_eq_true (negb_bit hb)
    rw [hto]
    by_contra hcon
    apply hne
    apply Nat.eq_of_testBit_eq
    intro i
    rw [Nat.testBit_and, testBit_SQUARE_TO_BITBOARD, Nat.zero_testBit]
    by_cases e : ep = i
    · subst e
      have : k.diagonal_pin.testBit ep = false := by
        cases hx : k.diagonal_pin.testBit ep
        · rfl
        · exact absurd hx hcon
      rw [this, Bool.and_false]
    · have : decide (ep = i) = false := decide_eq_false e
      rw [this, Bool.and_false, Bool.false_and]
  · rw [(testBit_bnot_true hf64).1 hb] at hd
    exact Bool.noConfusion hd

theorem ray_until_bit (b : Nat) : ∀ (l : List Nat) (acc x : Nat),
    (ray_until b l acc).testBit x = true → b ∈ l ∧ (acc.testBit x = true ∨ x ∈ l) := by
  intro l
  induction l with
  | nil =>
    intro acc x h
    simp only [ray_until, Nat.zero_testBit] at h
    exact Bool.noConfusion h
  | cons s rest ih =>
    intro acc x h
    unfold ray_until at h
    by_cases e : s = b
    · rw [if_pos e, Nat.testBit_or, Bool.or_eq_true, Nat.testBit_two_pow, decide_eq_true_eq] at h
      refine ⟨by rw [e]; exact List.mem_cons_self _ _, ?_⟩
      rcases h with h | h
      · exact Or.inl h
      · exact Or.inr (by rw [← h]; exact List.mem_cons_self _ _)
    · rw [if_neg e] at h
      obtain ⟨h1, h2⟩ := ih _ _ h
      refine ⟨List.mem_cons_of_mem _ h1, ?_⟩
      rcases h2 with h2 | h2
      · rw [Nat.testBit_or, Bool.or_eq_true, Nat.testBit_two_pow, decide_eq_true_eq] at h2
        rcases h2 with h2 | h2
        · exact Or.inl h2
        · exact Or.inr (by rw [← h2]; exact List.mem_cons_self _ _)
      · exact Or.inr (List.mem_cons_of_mem _ h2)

/-- A square of `PIN_BETWEEN[k][s]` lies on a ray from `k` that also holds `s`. -/
theorem pin_between_bit {k s x : Nat} (h : (PIN_BETWEEN k s).testBit x = true) :
    ∃ d, d ∈ ORTHOGONAL_DIRS ++ DIAGONAL_DIRS ∧ s ∈ ray_squares k d ∧ x ∈ ray_squares k d := by
  unfold PIN_BETWEEN at h
  rw [testBit_foldl_or_of (fun d => ray_until s (ray_squares k d) 0)] at h
  rcases h with h | ⟨d, hd, h⟩
  · rw [Nat.zero_testBit] at h
    exact Bool.noConfusion h
  · obtain ⟨h1, h2⟩ := ray_until_bit s _ _ _ h
    rcases h2 with h2 | h2
    · rw [Nat.zero_testBit] at h2
      exact Bool.noConfusion h2
    · exact ⟨d, hd, h1, h2⟩

/-- On an empty board a slider reaches every square of its rays. -/
theorem mem_attacks_of_ray {dirs : List (Int × Int)} {k x : Nat} {d : Int × Int}
    (hd : d ∈ dirs) (hx : x ∈ ray_squares k d) : (slider_attacks dirs k 0).testBit x = true := by
  unfold slider_attacks
  rw [testBit_foldl_or_of (fun d => ray_attacks 0 (ray_squares k d))]
  refine Or.inr ⟨d, hd, ?_⟩
  rw [testBit_ray_attacks]
  obtain ⟨j, hj, hjx⟩ := List.getElem_of_mem hx
  refine ⟨j, hj, ?_, fun _ _ _ _ => Nat.zero_testBit _⟩
  rw [List.getElem?_eq_getElem hj, hjx]

set_option maxRecDepth 100000 in
theorem rook_bishop_disjoint : ∀ k, k < 64 → ROOK_ATTACKS k &&& BISHOP_ATTACKS k = 0 := by
  decide!

/-- The squares of `PIN_BETWEEN[k][s]` lie on the rank or file of `k` when `s` does, and
on a diagonal of `k` when `s` does. -/
theorem pin_between_geometry {k s x : Nat} (hk : k < 64)
    (hx : (PIN_BETWEEN k s).testBit x = true) :
    ((ROOK_ATTACKS k).testBit s = true → (ROOK_ATTACKS k).testBit x = true) ∧
    ((BISHOP_ATTACKS k).testBit s = true → (BISHOP_ATTACKS k).testBit x = true) := by
  obtain ⟨d, hd, hs, hxd⟩ := pin_between_bit hx
  have hdis : ∀ y, (ROOK_ATTACKS k).testBit y = true → (BISHOP_ATTACKS k).testBit y = true →
      False := by
    intro y h1 h2
    have := congrArg (fun w => Nat.testBit w y) (rook_bishop_disjoint k hk)
    simp only [Nat.testBit_and, h1, h2, Nat.zero_testBit] at this
    exact Bool.noConfusion this
  rw [List.mem_append] at hd
  rcases hd with hd | hd
  · have r1 : (ROOK_ATTACKS k).testBit s = true := mem_attacks_of_ray hd hs
    have r2 : (ROOK_ATTACKS k).testBit x = true := mem_attacks_of_ray hd hxd
    exact ⟨fun _ => r2, fun h => (hdis s r1 h).elim⟩
  · have r1 : (BISHOP_ATTACKS k).testBit s = true := mem_attacks_of_ray hd hs
    have r2 : (BISHOP_ATTACKS k).testBit x = true := mem_attacks_of_ray hd hxd
    exact ⟨fun h => (hdis s h r1).elim, fun _ => r2⟩

theorem testBit_or_pin_between (ksq bb i : Nat) (hbb : bb < 2 ^ 64)
    (h : (or_pin_between ksq bb 0).testBit i = true) :
    ∃ s, s < 64 ∧ bb.testBit s = true ∧ (PIN_BETWEEN ksq s).testBit i = true := by
  unfold or_pin_between at h
  rw [testBit_foldl_or (PIN_BETWEEN ksq)] at h
  rcases h with h | ⟨s, hs, h⟩
  · rw [Nat.zero_testBit] at h
    exact Bool.noConfusion h
  · exact ⟨s, lt_of_mem_squares_of hbb hs, (mem_squares_of hbb s).1 hs, h⟩

/-- No square lies on both pin masks of the standard generator. -/
theorem pin_masks_disjoint (g : Sides) (hk : g.my_king_square < 64)
    (ho : g.your_orthogonal_sliders < 2 ^ 64) (hd : g.your_diagonal_sliders < 2 ^ 64)
    (x : Nat) (h1 : (std_masks g).orthogonal_pin.testBit x = true)
    (h2 : (std_masks g).diagonal_pin.testBit x = true) : False := by
  have hempty : ∀ (occ s : Nat), (0 : Nat).testBit s = true → occ.testBit s = true := by
    intro occ s h
    rw [Nat.zero_testBit] at h
    exact Bool.noConfusion h
  unfold std_masks at h1 h2
  simp only at h1 h2
  split_ifs at h1 with c1
  · split_ifs at h2 with c2
    · obtain ⟨s, hs, hb, hp⟩ := testBit_or_pin_between _ _ _ (lt_of_and_right ho) h1
      obtain ⟨s2, hs2, hb2, hp2⟩ := testBit_or_pin_between _ _ _ (lt_of_and_right hd) h2
      rw [Nat.testBit_and, Bool.and_eq_true] at hb hb2
      have r1 : (ROOK_ATTACKS g.my_king_square).testBit s = true :=
        slider_attacks_mono (hempty _) ORTHOGONAL_DIRS _ _ hb.1
      have r2 : (BISHOP_ATTACKS g.my_king_square).testBit s2 = true :=
        slider_attacks_mono (hempty _) DIAGONAL_DIRS _ _ hb2.1
      have t1 := (pin_between_geometry hk hp).1 r1
      have t2 := (pin_between_geometry hk hp2).2 r2
      have := congrArg (fun w => Nat.testBit w x) (rook_bishop_disjoint _ hk)
      simp only [Nat.testBit_and, t1, t2, Nat.zero_testBit] at this
      exact Bool.noConfusion this
    · rw [Nat.zero_testBit] at h2
      exact Bool.noConfusion h2
  · rw [Nat.zero_testBit] at h1
    exact Bool.noConfusion h1

/-- Every move of the standard generator was written by one of its five blocks. -/
theorem std_blocks {pos : Position} {m : Move} (h : m ∈ generate_legal_moves_standard pos) :
    m ∈ quiet_and_capture (sides pos).my_king_square
      (KING_ATTACKS (sides pos).my_king_square &&& bnot (attacked_squares (sides pos) true) &&&
        bnot (sides pos).all_my_pieces) (sides pos).all_your_pieces ∨
    m ∈ castling_moves (cur pos).entry (sides pos).me (sides pos).all_pieces
      (attacked_squares (sides pos) true) (sides pos).my_king ∨
    m ∈ std_enpassant_moves (sides pos) (std_masks (sides pos))
      (std_pawn_sets (sides pos) (std_masks (sides pos))).pawns_take (cur pos).enpassant ∨
    m ∈ std_pawn_moves (sides pos) (std_pawn_sets (sides pos) (std_masks (sides pos))) ∨
    m ∈ std_piece_moves (sides pos) (std_masks (sides pos)) := by
  unfold generate_legal_moves_standard at h
  simp only at h
  split_ifs at h with hchk
  · exact Or.inl h
  · simp only [List.mem_append] at h
    rcases h with (((h | h) | h) | h) | h
    · exact Or.inl (List.mem_append.2 h)
    · exact Or.inr (Or.inl h)
    · exact Or.inr (Or.inr (Or.inl h))
    · exact Or.inr (Or.inr (Or.inr (Or.inl h)))
    · exact Or.inr (Or.inr (Or.inr (Or.inr h)))

theorem type_of_bb {pos : Position} (hc : consistent pos) {c t s : Nat} (hc2 : c < 2)
    (ht : t < 6) (h : (pos.bb c t).testBit s = true) :
    PIECE_TO_TYPE (pos.board.getD s 0) = t ∧ PIECE_TO_COLOR (pos.board.getD s 0) = c := by
  rw [(board_of_bb hc hc2 ht h).2]
  exact ⟨(type_to_piece_facts hc2 ht).2.1, (type_to_piece_facts hc2 ht).1⟩

theorem pawns_take_lt {pos : Position} (hc : consistent pos) (hs : pos.side_to_play < 2)
    (k : Masks) : (std_pawn_sets (sides pos) k).pawns_take < 2 ^ 64 ∧
    ∀ s, (std_pawn_sets (sides pos) k).pawns_take.testBit s = true →
      (sides pos).my_pawns.testBit s = true := by
  have hsub : ∀ s, (std_pawn_sets (sides pos) k).pawns_take.testBit s = true →
      (sides pos).my_pawns.testBit s = true := by
    intro s hs1
    simp only [std_pawn_sets, Nat.testBit_and, Bool.and_eq_true] at hs1
    exact hs1.1
  exact ⟨lt_of_subset (sides_lt hc hs).1 hsub, hsub⟩

end AtomicChess

namespace AtomicChess

open MoveFlag

/-! ## King moves of the standard generator -/

/-- A square is occupied iff the board holds a piece there. -/
theorem occupancy_iff_board {pos : Position} (hc : consistent pos) (hs : pos.side_to_play < 2)
    (s : Nat) :
    (occupancy pos).testBit s = true ↔ s < 64 ∧ pos.board.getD s 0 ≠ NO_PIECE := by
  obtain ⟨_, _, _, _, hmine, hyours, hempty⟩ := sides_facts hc hs
  have hs2 := xor_black_facts hs
  constructor
  · intro h
    have h2 : ((sides pos).all_my_pieces ||| (sides pos).all_your_pieces).testBit s = true := h
    rw [Nat.testBit_or, Bool.or_eq_true] at h2
    rcases h2 with h2 | h2
    · obtain ⟨a, b⟩ := (hmine s).1 h2
      exact ⟨a, fun e => by rw [e] at b; have : PIECE_TO_COLOR NO_PIECE = 2 := by decide
                            omega⟩
    · obtain ⟨a, b⟩ := (hyours s).1 h2
      exact ⟨a, fun e => by rw [e] at b; have : PIECE_TO_COLOR NO_PIECE = 2 := by decide
                            have := hs2.1; omega⟩
  · rintro ⟨h64, hne⟩
    cases hb : (occupancy pos).testBit s
    · exact absurd (hempty s h64 hb) hne
    · rfl

/-- A square attacked by an enemy piece on an occupancy that contains every piece but the
mover's king is in the attacked set of the standard generator. -/
theorem attacked_of_piece_occ {pos : Position} (hc : consistent pos)
    (hs : pos.side_to_play < 2) (hk : one_king pos (pos.side_to_play ^^^ BLACK)) {sq y occ : Nat}
    (hsub : ∀ s, ((sides pos).all_pieces ^^^ (sides pos).my_king).testBit s = true →
      occ.testBit s = true)
    (hy : y < 64) (hcol : PIECE_TO_COLOR (pos.board.getD y 0) = pos.side_to_play ^^^ BLACK)
    (hbit : (piece_attacks (pos.board.getD y 0) y occ).testBit sq = true) :
    (attacked_squares (sides pos) true).testBit sq = true := by
  have hs2 := (xor_black_facts hs).1
  obtain ⟨_, ht6, hp⟩ := piece_of_color (hc.2.2.1 y hy) hs2 hcol
  have hbb := bb_of_board hc hs2 ht6 hy hp
  clear hp
  rw [testBit_attacked_squares]
  unfold piece_attacks at hbit
  rw [hcol] at hbit
  generalize PIECE_TO_TYPE (pos.board.getD y 0) = t at ht6 hbb hbit
  interval_cases t
  · rw [if_pos (by decide)] at hbit
    exact Or.inl (pawn_attacks_subset hbb hbit)
  · rw [if_neg (by decide), if_pos (by decide)] at hbit
    exact Or.inr (Or.inl ⟨y, (mem_squares_of (bb_lt hc hs2 (by decide)) y).2 hbb, hbit⟩)
  · rw [if_neg (by decide), if_neg (by decide), if_pos (by decide)] at hbit
    refine Or.inr (Or.inr (Or.inl ⟨y, ?_, slider_attacks_mono hsub DIAGONAL_DIRS y sq hbit⟩))
    refine (mem_squares_of (Nat.or_lt_two_pow (bb_lt hc hs2 (by decide))
      (bb_lt hc hs2 (by decide))) y).2 ?_
    rw [Nat.testBit_or, Bool.or_eq_true]
    exact Or.inl hbb
  · rw [if_neg (by decide), if_neg (by decide), if_neg (by decide), if_pos (by decide)] at hbit
    refine Or.inr (Or.inr (Or.inr (Or.inl
      ⟨y, ?_, slider_attacks_mono hsub ORTHOGONAL_DIRS y sq hbit⟩)))
    refine (mem_squares_of (Nat.or_lt_two_pow (bb_lt hc hs2 (by decide))
      (bb_lt hc hs2 (by decide))) y).2 ?_
    rw [Nat.testBit_or, Bool.or_eq_true]
    exact Or.inl hbb
  · rw [if_neg (by decide), if_neg (by decide), if_neg (by decide), if_neg (by decide),
      if_pos (by decide)] at hbit
    unfold get_queen_attacks at hbit
    rw [Nat.testBit_or, Bool.or_eq_true] at hbit
    rcases hbit with hbit | hbit
    · refine Or.inr (Or.inr (Or.inr (Or.inl
        ⟨y, ?_, slider_attacks_mono hsub ORTHOGONAL_DIRS y sq hbit⟩)))
      refine (mem_squares_of (Nat.or_lt_two_pow (bb_lt hc hs2 (by decide))
        (bb_lt hc hs2 (by decide))) y).2 ?_
      rw [Nat.testBit_or, Bool.or_eq_true]
      exact Or.inr hbb
    · refine Or.inr (Or.inr (Or.inl ⟨y, ?_, slider_attacks_mono hsub DIAGONAL_DIRS y sq hbit⟩))
      refine (mem_squares_of (Nat.or_lt_two_pow (bb_lt hc hs2 (by decide))
        (bb_lt hc hs2 (by decide))) y).2 ?_
      rw [Nat.testBit_or, Bool.or_eq_true]
      exact Or.inr hbb
  · rw [if_neg (by decide), if_neg (by decide), if_neg (by decide), if_neg (by decide),
      if_neg (by decide), if_pos (by decide)] at hbit
    obtain ⟨s, hs64, he⟩ := hk
    have hbb2 : (pos.bb (pos.side_to_play ^^^ BLACK) KING).testBit y = true := hbb
    rw [he, Nat.testBit_two_pow] at hbb2
    have hsy : s = y := of_decide_eq_true hbb2
    have hidx : get_lsb_idx (sides pos).your_king = y := by
      have : (sides pos).your_king = 2 ^ s := he
      rw [this, get_lsb_idx_two_pow hs64, hsy]
    refine Or.inr (Or.inr (Or.inr (Or.inr ?_)))
    rw [hidx]
    exact hbit

/-- The board after a `QUIET` or `CAPTURE` move in the standard build. -/
theorem board_play_quiet_capture (pos : Position) (m : Move) (hbl : pos.board.length = 64)
    (hf : m.from_sq < 64) (ht : m.to_sq < 64) (hflag : m.flag = QUIET ∨ m.flag = CAPTURE)
    (x : Nat) :
    (play false pos m).board.getD x 0 =
      if x = m.from_sq then NO_PIECE
      else if x = m.to_sq then pos.board.getD m.from_sq 0 else pos.board.getD x 0 := by
  unfold play
  rcases hflag with e | e
  · simp only [e]
    exact board_move_piece_quiet (play_begin pos m) hbl _ _ x hf ht
  · simp only [e, Bool.false_eq_true, if_false]
    exact board_move_piece (set_captured (play_begin pos m)
      ((play_begin pos m).board.getD m.to_sq 0)) hbl _ _ x hf ht

/-- A move written by the king block of the standard generator leaves the king on a
square that no enemy piece attacks. -/
theorem king_step_safe {pos : Position} (hinv : data_model_invariants pos) {m : Move}
    (hm : m ∈ generate_legal_moves_standard pos)
    (h : m ∈ quiet_and_capture (sides pos).my_king_square
      (KING_ATTACKS (sides pos).my_king_square &&& bnot (attacked_squares (sides pos) true) &&&
        bnot (sides pos).all_my_pieces) (sides pos).all_your_pieces) :
    (play false pos m).board.getD m.to_sq 0 = TYPE_TO_PIECE pos.side_to_play KING ∧
    ¬ attacked_by (play false pos m) (pos.side_to_play ^^^ BLACK) m.to_sq := by
  have hp := emitted_playable hinv hm
  obtain ⟨hc, hs, hkw, hkb, _, _, _, _, _⟩ := hinv
  obtain ⟨hkme, hkyou⟩ := one_king_side hs hkw hkb
  have hs2 := xor_black_facts hs
  obtain ⟨_, _, hmlt, hylt, hmine, hyours, hempty⟩ := sides_facts hc hs
  obtain ⟨_, hklt, hkbit⟩ := king_bit_of_one_king hkme
  have hk64 : (sides pos).my_king_square < 64 := lt_of_testBit hklt hkbit
  obtain ⟨hfrom, hto, htg, hfl⟩ := mem_quiet_and_capture hylt h
  have hflag : m.flag = QUIET ∨ m.flag = CAPTURE := hfl.elim (fun a => Or.inl a.1)
    (fun a => Or.inr a.1)
  simp only [Nat.testBit_and, Bool.and_eq_true, testBit_bnot_true hto] at htg
  obtain ⟨⟨hka, hna⟩, hnm⟩ := htg
  have hf64 : m.from_sq < 64 := by rw [hfrom]; exact hk64
  have hne : m.to_sq ≠ m.from_sq := by
    intro e
    rw [e, hfrom, (KING_ATTACKS_facts _ hk64).2] at hka
    exact Bool.noConfusion hka
  have hbq := board_play_quiet_capture pos m hc.2.1 hf64 hto hflag
  have hking : pos.board.getD m.from_sq 0 = TYPE_TO_PIECE pos.side_to_play KING := by
    rw [hfrom]
    exact (board_of_bb hc hs (show KING < 6 by decide) hkbit).2
  have hfacts := type_to_piece_facts hs (show KING < 6 by decide)
  have hcq : consistent (play false pos m) := consistent_play hc hs hp
  have hsq : (play false pos m).side_to_play < 2 := by rw [side_play]; exact hs2.1
  refine ⟨by rw [hbq, if_neg hne, if_pos rfl, hking], ?_⟩
  rintro ⟨y, hy, hcol, hbit⟩
  have hyf : y ≠ m.from_sq := by
    intro e
    rw [hbq, if_pos e] at hcol
    have : PIECE_TO_COLOR NO_PIECE = 2 := by decide
    have := hs2.1
    omega
  have hyt : y ≠ m.to_sq := by
    intro e
    rw [hbq, if_neg hyf, if_pos e, hking, hfacts.1] at hcol
    exact hs2.2 hcol.symm
  have hby : (play false pos m).board.getD y 0 = pos.board.getD y 0 := by
    rw [hbq, if_neg hyf, if_neg hyt]
  rw [hby] at hcol hbit
  have hsub : ∀ s, ((sides pos).all_pieces ^^^ (sides pos).my_king).testBit s = true →
      (occupancy (play false pos m)).testBit s = true := by
    intro s hb
    have hall := occ_without_king_subset (sides pos) s hb
    have hsf : s ≠ m.from_sq := by
      intro e
      rw [Nat.testBit_xor, hall, e, hfrom] at hb
      have hkb2 : (sides pos).my_king.testBit (sides pos).my_king_square = true := hkbit
      rw [hkb2] at hb
      exact Bool.noConfusion hb
    obtain ⟨s64, sne⟩ := (occupancy_iff_board hc hs s).1 hall
    refine (occupancy_iff_board hcq hsq s).2 ⟨s64, ?_⟩
    rw [hbq, if_neg hsf]
    by_cases e : s = m.to_sq
    · rw [if_pos e, hking]
      have := hfacts.2.2.1
      unfold NO_PIECE
      omega
    · rw [if_neg e]
      exact sne
  have := attacked_of_piece_occ hc hs hkyou hsub hy hcol hbit
  rw [hna] at this
  exact Bool.noConfusion this

end AtomicChess

namespace AtomicChess

open MoveFlag

/-! ## The flag of a move is determined by its squares -/

theorem capturer_adjacent_left {x p b V : Nat}
    (hsub : ∀ s, x.testBit s = true → (p &&& NOT_A_FILE &&& shl b 1).testBit s = true)
    (hx : x ≠ 0) (hb : ∀ s, b.testBit s = true → s = V ∧ s < 64) :
    get_lsb_idx x = V + 1 := by
  have hlt : x < 2 ^ 64 := lt_of_subset (lt_of_and_right (shl_lt b 1)) hsub
  have h := hsub _ (testBit_get_lsb_idx hx hlt)
  rw [Nat.testBit_and, Nat.testBit_and, testBit_shl] at h
  simp only [Bool.and_eq_true, decide_eq_true_eq] at h
  obtain ⟨⟨_, h1⟩, h2, h3, h4⟩ := h
  have h6 := (hb _ h4).1
  omega

theorem capturer_adjacent_right {x p b V : Nat}
    (hsub : ∀ s, x.testBit s = true → (p &&& NOT_H_FILE &&& (b >>> 1)).testBit s = true)
    (hx : x ≠ 0) (hb : ∀ s, b.testBit s = true → s = V ∧ s < 64) :
    get_lsb_idx x + 1 = V := by
  have hlt : x < 2 ^ 64 := by
    refine lt_of_subset (lt_of_and_left (lt_of_and_right (?_ : NOT_H_FILE < 2 ^ 64))) hsub
    decide
  have h := hsub _ (testBit_get_lsb_idx hx hlt)
  rw [Nat.testBit_and, Nat.testBit_and, Nat.testBit_shiftRight] at h
  simp only [Bool.and_eq_true] at h
  obtain ⟨⟨_, h1⟩, h4⟩ := h
  have h6 := hb _ h4
  omega

/-- The capturing pawn of an en passant move stands next to the captured pawn. -/
theorem enpassant_from_adjacent {g : Sides} {k : Masks} {pt ep : Nat} {m : Move}
    (h : m ∈ std_enpassant_moves g k pt ep) :
    m.from_sq = enpassant_victim g.me ep + 1 ∨ m.from_sq + 1 = enpassant_victim g.me ep := by
  unfold std_enpassant_moves at h
  by_cases hep : SQUARE_TO_BITBOARD ep ≠ 0
  · simp only [hep, ne_eq, not_false_eq_true, if_true, List.mem_append] at h
    have hb : ∀ s, ((if g.me = WHITE then SQUARE_TO_BITBOARD ep >>> 8
        else shl (SQUARE_TO_BITBOARD ep) 8) &&& k.checkmask &&& bnot k.diagonal_pin).testBit s
          = true → s = enpassant_victim g.me ep ∧ s < 64 := by
      intro s hs
      simp only [Nat.testBit_and, Bool.and_eq_true] at hs
      exact testBit_victim_shift hs.1.1
    generalize (if g.me = WHITE then SQUARE_TO_BITBOARD ep >>> 8
      else shl (SQUARE_TO_BITBOARD ep) 8) &&& k.checkmask &&& bnot k.diagonal_pin = B at h hb
    rcases h with h | h
    · obtain ⟨hne, rfl⟩ := mem_if_singleton h
      refine Or.inl (capturer_adjacent_left (p := pt) ?_ hne hb)
      intro s hs
      split_ifs at hs <;> simp only [Nat.testBit_and, Bool.and_eq_true] at hs ⊢ <;> tauto
    · obtain ⟨hne, rfl⟩ := mem_if_singleton h
      refine Or.inr (capturer_adjacent_right (p := pt) ?_ hne hb)
      intro s hs
      split_ifs at hs <;> simp only [Nat.testBit_and, Bool.and_eq_true] at hs ⊢ <;> tauto
  · simp only [hep, if_false] at h
    exact absurd h (List.not_mem_nil _)

/-- A castling move starts on the square of the mover's king. -/
theorem castling_from_king {pos : Position} {m : Move} (hs : pos.side_to_play < 2)
    (hp : playable pos m)
    (h : m ∈ castling_moves (cur pos).entry (sides pos).me (sides pos).all_pieces
      (attacked_squares (sides pos) true) (sides pos).my_king) :
    PIECE_TO_TYPE (pos.board.getD m.from_sq 0) = KING ∧
    ((m.flag = OO ∧ m.to_sq = m.from_sq + 2) ∨ (m.flag = OOO ∧ m.to_sq + 2 = m.from_sq)) ∧
    (m.from_sq = 4 ∨ m.from_sq = 60) := by
  have hside : pos.side_to_play = 0 ∨ pos.side_to_play = 1 := by omega
  obtain ⟨_, _, hrest⟩ := hp
  rcases mem_castling_moves h with ⟨e, _⟩ | ⟨e, _⟩
  · rw [e] at hrest ⊢
    simp only at hrest ⊢
    rcases hside with w | w
    · have w2 : pos.side_to_play = WHITE := w
      have w3 : (sides pos).me = WHITE := w2
      rw [if_pos w3, if_pos w3, (hrest.1 w2).1]
      exact ⟨by decide, by simp, by simp⟩
    · have w2 : pos.side_to_play ≠ WHITE := by rw [w]; decide
      have w3 : ¬ (sides pos).me = WHITE := w2
      rw [if_neg w3, if_neg w3, (hrest.2 w2).1]
      exact ⟨by decide, by simp, by simp⟩
  · rw [e] at hrest ⊢
    simp only at hrest ⊢
    rcases hside with w | w
    · have w2 : pos.side_to_play = WHITE := w
      have w3 : (sides pos).me = WHITE := w2
      rw [if_pos w3, if_pos w3, (hrest.1 w2).1]
      exact ⟨by decide, by simp, by simp⟩
    · have w2 : pos.side_to_play ≠ WHITE := by rw [w]; decide
      have w3 : ¬ (sides pos).me = WHITE := w2
      rw [if_neg w3, if_neg w3, (hrest.2 w2).1]
      exact ⟨by decide, by simp, by simp⟩

theorem ef_king {pos : Position} {f t : Nat}
    (hty : PIECE_TO_TYPE (pos.board.getD f 0) = KING)
    (hka : (KING_ATTACKS f).testBit t = true) :
    expected_flag pos f t = if pos.board.getD t 0 = NO_PIECE then QUIET else CAPTURE := by
  unfold expected_flag
  dsimp only
  rw [if_pos hty, if_pos hka]

theorem ef_castle {pos : Position} {f t : Nat}
    (hty : PIECE_TO_TYPE (pos.board.getD f 0) = KING)
    (hka : (KING_ATTACKS f).testBit t = false) :
    expected_flag pos f t = if f < t then OO else OOO := by
  unfold expected_flag
  dsimp only
  rw [if_pos hty, if_neg (by rw [hka]; exact Bool.false_ne_true)]

theorem ef_pawn {pos : Position} {f t : Nat}
    (hty : PIECE_TO_TYPE (pos.board.getD f 0) = PAWN) :
    expected_flag pos f t =
      if pos.board.getD t 0 ≠ NO_PIECE then
        (if (DOUBLE_PUSH_RANK (pos.side_to_play ^^^ BLACK)).testBit f = true then PC_KNIGHT
          else CAPTURE)
      else if t % 8 ≠ f % 8 then EN_PASSANT
      else if t = f + 16 ∨ f = t + 16 then DOUBLE_PUSH
      else if (DOUBLE_PUSH_RANK (pos.side_to_play ^^^ BLACK)).testBit f = true then PR_KNIGHT
      else QUIET := by
  unfold expected_flag
  dsimp only
  rw [if_neg (by rw [hty]; decide), if_pos hty]

theorem ef_other {pos : Position} {f t : Nat}
    (h1 : PIECE_TO_TYPE (pos.board.getD f 0) ≠ KING)
    (h2 : PIECE_TO_TYPE (pos.board.getD f 0) ≠ PAWN) :
    expected_flag pos f t = if pos.board.getD t 0 = NO_PIECE then QUIET else CAPTURE := by
  unfold expected_flag
  dsimp only
  rw [if_neg h1, if_neg h2]

theorem flag_goal_simple {pos : Position} {f t : Nat} {fl : MoveFlag}
    (hfl : fl = QUIET ∨ fl = CAPTURE ∨ fl = OO ∨ fl = OOO ∨ fl = EN_PASSANT ∨ fl = DOUBLE_PUSH)
    (h : fl = expected_flag pos f t) :
    flag_base fl = expected_flag pos f t ∧
    ((fl = PR_KNIGHT ∨ fl = PR_BISHOP ∨ fl = PR_ROOK ∨ fl = PR_QUEEN) → f % 8 = t % 8) ∧
    ((fl = PC_KNIGHT ∨ fl = PC_BISHOP ∨ fl = PC_ROOK ∨ fl = PC_QUEEN) → f % 8 ≠ t % 8) := by
  rw [← h]
  rcases hfl with e | e | e | e | e | e <;> rw [e] <;>
    exact ⟨rfl, fun x => by rcases x with x | x | x | x <;> exact MoveFlag.noConfusion x,
      fun x => by rcases x with x | x | x | x <;> exact MoveFlag.noConfusion x⟩

theorem castle_not_adjacent :
    (KING_ATTACKS 4).testBit 6 = false ∧ (KING_ATTACKS 4).testBit 2 = false ∧
    (KING_ATTACKS 60).testBit 62 = false ∧ (KING_ATTACKS 60).testBit 58 = false := by
  decide

theorem quiet_or_capture_flag {pos : Position} {m : Move} (hs : pos.side_to_play < 2)
    (hp : playable pos m) (hfl : m.flag = QUIET ∨ m.flag = CAPTURE) :
    m.flag = if pos.board.getD m.to_sq 0 = NO_PIECE then QUIET else CAPTURE := by
  obtain ⟨_, _, hrest⟩ := hp
  rcases hfl with e | e
  · rw [e] at hrest ⊢
    simp only at hrest
    rw [if_pos hrest.2]
  · rw [e] at hrest ⊢
    simp only at hrest
    have hne : pos.board.getD m.to_sq 0 ≠ NO_PIECE := by
      intro h0
      rw [h0] at hrest
      have : PIECE_TO_COLOR NO_PIECE = 2 := by decide
      have := (xor_black_facts hs).1
      omega
    rw [if_neg hne]

/-- Every move of the standard generator carries, up to the promotion piece, the flag that
its two squares determine; a promotion keeps the file and a promotion capture changes
it. -/
theorem emitted_flag {pos : Position} (hinv : data_model_invariants pos) {m : Move}
    (hm : m ∈ generate_legal_moves_standard pos) :
    flag_base m.flag = expected_flag pos m.from_sq m.to_sq ∧
    ((m.flag = PR_KNIGHT ∨ m.flag = PR_BISHOP ∨ m.flag = PR_ROOK ∨ m.flag = PR_QUEEN) →
      m.from_sq % 8 = m.to_sq % 8) ∧
    ((m.flag = PC_KNIGHT ∨ m.flag = PC_BISHOP ∨ m.flag = PC_ROOK ∨ m.flag = PC_QUEEN) →
      m.from_sq % 8 ≠ m.to_sq % 8) := by
  have hp := emitted_playable hinv hm
  obtain ⟨hc, hs, hkw, hkb, _, hep, _, _, _⟩ := hinv
  obtain ⟨hkme, _⟩ := one_king_side hs hkw hkb
  obtain ⟨lp, ln, lb, lr, lq, lk⟩ := sides_lt hc hs
  obtain ⟨_, _, _, hylt, _, _, _⟩ := sides_facts hc hs
  obtain ⟨_, hklt, hkbit⟩ := king_bit_of_one_king hkme
  have hs2 := xor_black_facts hs
  have hty : ∀ {t s : Nat}, t < 6 → (pos.bb pos.side_to_play t).testBit s = true →
      PIECE_TO_TYPE (pos.board.getD s 0) = t := fun ht h => (type_of_bb hc hs ht h).1
  have hnz : PIECE_TO_COLOR (pos.board.getD m.to_sq 0) = pos.side_to_play ^^^ BLACK →
      pos.board.getD m.to_sq 0 ≠ NO_PIECE := by
    intro h h0
    rw [h0] at h
    have : PIECE_TO_COLOR NO_PIECE = 2 := by decide
    have := hs2.1
    omega
  rcases std_blocks hm with h | h | h | h | h
  · -- the king block
    obtain ⟨hfrom, hto, htg, hfl⟩ := mem_quiet_and_capture hylt h
    have hfl2 : m.flag = QUIET ∨ m.flag = CAPTURE :=
      hfl.elim (fun a => Or.inl a.1) (fun a => Or.inr a.1)
    simp only [Nat.testBit_and, Bool.and_eq_true] at htg
    have hka : (KING_ATTACKS m.from_sq).testBit m.to_sq = true := by
      rw [hfrom]; exact htg.1.1
    have e : PIECE_TO_TYPE (pos.board.getD m.from_sq 0) = KING := by
      rw [hfrom]; exact hty (by decide) hkbit
    refine flag_goal_simple (hfl2.elim Or.inl (fun a => Or.inr (Or.inl a))) ?_
    rw [ef_king e hka]
    exact quiet_or_capture_flag hs hp hfl2
  · -- castling
    obtain ⟨e, hcase, hsq⟩ := castling_from_king hs hp h
    obtain ⟨k1, k2, k3, k4⟩ := castle_not_adjacent
    rcases hcase with ⟨hf, ht⟩ | ⟨hf, ht⟩
    · refine flag_goal_simple (Or.inr (Or.inr (Or.inl hf))) ?_
      have hka : (KING_ATTACKS m.from_sq).testBit m.to_sq = false := by
        rcases hsq with a | a <;> rw [ht, a]
        · exact k1
        · exact k3
      rw [ef_castle e hka, if_pos (by omega), hf]
    · refine flag_goal_simple (Or.inr (Or.inr (Or.inr (Or.inl hf)))) ?_
      have hka : (KING_ATTACKS m.from_sq).testBit m.to_sq = false := by
        rcases hsq with a | a
        · have : m.to_sq = 2 := by omega
          rw [this, a]; exact k2
        · have : m.to_sq = 58 := by omega
          rw [this, a]; exact k4
      rw [ef_castle e hka, if_neg (by omega), hf]
  · -- en passant
    obtain ⟨ptl, ptsub⟩ := pawns_take_lt hc hs (std_masks (sides pos))
    obtain ⟨hflag, h64, hto, hfrom⟩ := mem_std_enpassant_moves ptl h
    have e : PIECE_TO_TYPE (pos.board.getD m.from_sq 0) = PAWN :=
      hty (by decide) (ptsub _ hfrom)
    have hadj := enpassant_from_adjacent h
    have hrank := (enpassant_from_rank h).1
    refine flag_goal_simple (Or.inr (Or.inr (Or.inr (Or.inr (Or.inl hflag))))) ?_
    obtain ⟨_, _, hrest⟩ := hp
    rw [hflag] at hrest
    simp only at hrest
    have hfile : m.to_sq % 8 ≠ m.from_sq % 8 := by
      have hme : (sides pos).me = pos.side_to_play := rfl
      rw [hme] at hadj hrank
      unfold enpassant_victim at hadj hrank
      rcases hep with hno | ⟨hside, h40, h48, _⟩ | ⟨hside, h16, h24, _⟩
      · unfold NO_SQUARE at hno; omega
      · rw [if_pos hside] at hadj hrank
        rw [hto]
        omega
      · rw [if_neg (by rw [hside]; decide)] at hadj hrank
        rw [hto]
        omega
    rw [ef_pawn e, if_neg (fun x => x hrest.2.1), if_pos hfile, hflag]
  · -- pawn pushes and captures
    obtain ⟨hf64, hcase⟩ := mem_std_pawn_moves (k := std_masks (sides pos)) lp h
    have hsub := pawn_sets_sub (sides pos) (std_masks (sides pos)) m.from_sq
    have hyou : (sides pos).you = pos.side_to_play ^^^ BLACK := rfl
    have hme : (sides pos).me = pos.side_to_play := rfl
    rw [hyou, hme] at hcase
    obtain ⟨hf, ht, hrest⟩ := hp
    have hbounds : pos.side_to_play ≠ WHITE →
        ((std_pawn_sets (sides pos) (std_masks (sides pos))).pawns_push_double.testBit
          m.from_sq = true → 16 ≤ m.from_sq) ∧
        ((std_pawn_sets (sides pos) (std_masks (sides pos))).pawns_push_single.testBit
          m.from_sq = true → 8 ≤ m.from_sq) ∧
        ((std_pawn_sets (sides pos) (std_masks (sides pos))).pawns_take_left.testBit
          m.from_sq = true → 9 ≤ m.from_sq) ∧
        ((std_pawn_sets (sides pos) (std_masks (sides pos))).pawns_take_right.testBit
          m.from_sq = true → 7 ≤ m.from_sq) := by
      intro hb
      obtain ⟨a, b, c, d, _⟩ := pawn_sets_black (sides pos) (std_masks (sides pos)) hb m.from_sq
      exact ⟨fun x => (a x).2.1, fun x => (b x).2.1, fun x => (c x).2.1, fun x => (d x).2.1⟩
    have pr : ∀ {fl : MoveFlag}, (fl = PR_KNIGHT ∨ fl = PR_BISHOP ∨ fl = PR_ROOK ∨ fl = PR_QUEEN) →
        flag_base fl = PR_KNIGHT ∧
        ¬ (fl = PC_KNIGHT ∨ fl = PC_BISHOP ∨ fl = PC_ROOK ∨ fl = PC_QUEEN) := by
      intro fl x
      rcases x with x | x | x | x <;> rw [x] <;>
        exact ⟨rfl, fun y => by rcases y with y | y | y | y <;> exact MoveFlag.noConfusion y⟩
    have pc : ∀ {fl : MoveFlag}, (fl = PC_KNIGHT ∨ fl = PC_BISHOP ∨ fl = PC_ROOK ∨ fl = PC_QUEEN) →
        flag_base fl = PC_KNIGHT ∧
        ¬ (fl = PR_KNIGHT ∨ fl = PR_BISHOP ∨ fl = PR_ROOK ∨ fl = PR_QUEEN) := by
      intro fl x
      rcases x with x | x | x | x <;> rw [x] <;>
        exact ⟨rfl, fun y => by rcases y with y | y | y | y <;> exact MoveFlag.noConfusion y⟩
    have prempty : (m.flag = PR_KNIGHT ∨ m.flag = PR_BISHOP ∨ m.flag = PR_ROOK ∨
        m.flag = PR_QUEEN) → pos.board.getD m.to_sq 0 = NO_PIECE := by
      intro x
      rcases x with x | x | x | x <;> rw [x] at hrest <;> exact hrest.2
    have pcfull : (m.flag = PC_KNIGHT ∨ m.flag = PC_BISHOP ∨ m.flag = PC_ROOK ∨
        m.flag = PC_QUEEN) → pos.board.getD m.to_sq 0 ≠ NO_PIECE := by
      intro x
      rcases x with x | x | x | x <;> rw [x] at hrest <;> exact hnz hrest.2
    have e : PIECE_TO_TYPE (pos.board.getD m.from_sq 0) = PAWN := by
      apply hty (show PAWN < 6 by decide)
      rcases hcase with ⟨_, hb, _⟩ | ⟨_, hb, _⟩ | ⟨_, hb, _⟩ | ⟨_, hb, _⟩ | ⟨_, hb, _⟩ |
        ⟨_, hb, _⟩ | ⟨_, hb, _⟩
      · exact hsub.1 hb
      · exact hsub.2.1 hb
      · exact hsub.2.1 hb
      · exact hsub.2.2.1 hb
      · exact hsub.2.2.1 hb
      · exact hsub.2.2.2 hb
      · exact hsub.2.2.2 hb
    rw [ef_pawn e]
    have hto16 : (std_pawn_sets (sides pos) (std_masks (sides pos))).pawns_push_double.testBit
        m.from_sq = true →
        (m.to_sq = if pos.side_to_play = WHITE then m.from_sq + 16 else m.from_sq - 16) →
        m.to_sq % 8 = m.from_sq % 8 ∧ (m.to_sq = m.from_sq + 16 ∨ m.from_sq = m.to_sq + 16) := by
      intro hb hto
      by_cases w : pos.side_to_play = WHITE
      · rw [if_pos w] at hto; omega
      · rw [if_neg w] at hto
        have := (hbounds w).1 hb
        omega
    have hto8 : (std_pawn_sets (sides pos) (std_masks (sides pos))).pawns_push_single.testBit
        m.from_sq = true →
        (m.to_sq = if pos.side_to_play = WHITE then m.from_sq + 8 else m.from_sq - 8) →
        m.to_sq % 8 = m.from_sq % 8 ∧ ¬ (m.to_sq = m.from_sq + 16 ∨ m.from_sq = m.to_sq + 16) := by
      intro hb hto
      by_cases w : pos.side_to_play = WHITE
      · rw [if_pos w] at hto; omega
      · rw [if_neg w] at hto
        have := (hbounds w).2.1 hb
        omega
    have hto7 : (std_pawn_sets (sides pos) (std_masks (sides pos))).pawns_take_left.testBit
        m.from_sq = true →
        (m.to_sq = if pos.side_to_play = WHITE then m.from_sq + 7 else m.from_sq - 9) →
        m.from_sq % 8 ≠ m.to_sq % 8 := by
      intro hb hto
      by_cases w : pos.side_to_play = WHITE
      · rw [if_pos w] at hto; omega
      · rw [if_neg w] at hto
        have := (hbounds w).2.2.1 hb
        omega
    have hto9 : (std_pawn_sets (sides pos) (std_masks (sides pos))).pawns_take_right.testBit
        m.from_sq = true →
        (m.to_sq = if pos.side_to_play = WHITE then m.from_sq + 9 else m.from_sq - 7) →
        m.from_sq % 8 ≠ m.to_sq % 8 := by
      intro hb hto
      by_cases w : pos.side_to_play = WHITE
      · rw [if_pos w] at hto; omega
      · rw [if_neg w] at hto
        have := (hbounds w).2.2.2 hb
        omega
    have hfalse : ∀ {b : Bool}, b = false → ¬ b = true := by
      intro b h1 h2
      rw [h1] at h2
      exact Bool.noConfusion h2
    rcases hcase with ⟨hfl, hb, hto⟩ | ⟨hfl, hb, hpr, hto⟩ | ⟨hfl, hb, hpr, hto⟩ |
      ⟨hfl, hb, hpr, hto⟩ | ⟨hfl, hb, hpr, hto⟩ | ⟨hfl, hb, hpr, hto⟩ | ⟨hfl, hb, hpr, hto⟩
    · obtain ⟨a, b⟩ := hto16 hb hto
      have hemp : pos.board.getD m.to_sq 0 = NO_PIECE := by
        rw [hfl] at hrest; exact hrest.2
      rw [← ef_pawn e]
      refine flag_goal_simple (Or.inr (Or.inr (Or.inr (Or.inr (Or.inr hfl))))) ?_
      rw [ef_pawn e, if_neg (fun x => x hemp), if_neg (fun x => x a), if_pos b, hfl]
    · obtain ⟨a, b⟩ := hto8 hb hto
      rw [if_neg (fun x => x (prempty hfl)), if_neg (fun x => x a), if_neg b, if_pos hpr]
      exact ⟨(pr hfl).1, fun _ => a.symm, fun x => absurd x (pr hfl).2⟩
    · obtain ⟨a, b⟩ := hto8 hb hto
      have hemp : pos.board.getD m.to_sq 0 = NO_PIECE := by
        rw [hfl] at hrest; exact hrest.2
      rw [← ef_pawn e]
      refine flag_goal_simple (Or.inl hfl) ?_
      rw [ef_pawn e, if_neg (fun x => x hemp), if_neg (fun x => x a), if_neg b,
        if_neg (hfalse hpr), hfl]
    · rw [if_pos (pcfull hfl), if_pos hpr]
      exact ⟨(pc hfl).1, fun x => absurd x (pc hfl).2, fun _ => hto7 hb hto⟩
    · have hfull : pos.board.getD m.to_sq 0 ≠ NO_PIECE := by
        rw [hfl] at hrest; exact hnz hrest.2
      rw [← ef_pawn e]
      refine flag_goal_simple (Or.inr (Or.inl hfl)) ?_
      rw [ef_pawn e, if_pos hfull, if_neg (hfalse hpr), hfl]
    · rw [if_pos (pcfull hfl), if_pos hpr]
      exact ⟨(pc hfl).1, fun x => absurd x (pc hfl).2, fun _ => hto9 hb hto⟩
    · have hfull : pos.board.getD m.to_sq 0 ≠ NO_PIECE := by
        rw [hfl] at hrest; exact hnz hrest.2
      rw [← ef_pawn e]
      refine flag_goal_simple (Or.inr (Or.inl hfl)) ?_
      rw [ef_pawn e, if_pos hfull, if_neg (hfalse hpr), hfl]
  · -- knights, bishops, rooks, queens
    obtain ⟨_, _, hfl, hcase⟩ := mem_std_piece_moves ln lb lr lq hylt h
    have hfl2 : m.flag = QUIET ∨ m.flag = CAPTURE :=
      hfl.elim (fun a => Or.inl a.1) (fun a => Or.inr a.1)
    have e : PIECE_TO_TYPE (pos.board.getD m.from_sq 0) ≠ KING ∧
        PIECE_TO_TYPE (pos.board.getD m.from_sq 0) ≠ PAWN := by
      rcases hcase with ⟨hb, _⟩ | ⟨hb | ⟨hb, _⟩, _⟩ | ⟨hb, _⟩ | ⟨hb | ⟨hb, _⟩, _⟩ |
        ⟨hb, _⟩ | ⟨hb, _⟩
      · rw [hty (show KNIGHT < 6 by decide) hb]; exact ⟨by decide, by decide⟩
      · rw [hty (show QUEEN < 6 by decide) hb]; exact ⟨by decide, by decide⟩
      · rw [hty (show BISHOP < 6 by decide) hb]; exact ⟨by decide, by decide⟩
      · rw [hty (show BISHOP < 6 by decide) hb]; exact ⟨by decide, by decide⟩
      · rw [hty (show QUEEN < 6 by decide) hb]; exact ⟨by decide, by decide⟩
      · rw [hty (show ROOK < 6 by decide) hb]; exact ⟨by decide, by decide⟩
      · rw [hty (show ROOK < 6 by decide) hb]; exact ⟨by decide, by decide⟩
      · rw [hty (show QUEEN < 6 by decide) hb]; exact ⟨by decide, by decide⟩
    refine flag_goal_simple (hfl2.elim Or.inl (fun a => Or.inr (Or.inl a))) ?_
    rw [ef_other e.1 e.2]
    exact quiet_or_capture_flag hs hp hfl2

/-! ## Move strings -/

set_option maxRecDepth 100000 in
theorem square_name_facts : ∀ s, s < 64 →
    (SQUARE_TO_STRING s).length = 2 ∧
    string_to_square ((SQUARE_TO_STRING s).getD 0 'x').toNat
      ((SQUARE_TO_STRING s).getD 1 'x').toNat = s := by
  decide!

theorem square_name_eq {s : Nat} (hs : s < 64) :
    ∃ a b, SQUARE_TO_STRING s = [a, b] ∧ string_to_square a.toNat b.toNat = s := by
  obtain ⟨h1, h2⟩ := square_name_facts s hs
  obtain ⟨a, b, e⟩ := List.length_eq_two.1 h1
  rw [e] at h2
  exact ⟨a, b, e, h2⟩

theorem parse_plain (pos : Position) (a0 a1 b0 b1 : Char) (flag0 : MoveFlag) (x : Move)
    (hfind : (generate_legal_moves false pos).find?
      (fun x => decide (string_to_square a0.toNat a1.toNat = x.from_sq) &&
        decide (string_to_square b0.toNat b1.toNat = x.to_sq)) = some x) :
    parse_move false pos [a0, a1, b0, b1] flag0 = x := by
  unfold parse_move
  have e0 : fen_char [a0, a1, b0, b1] 0 = a0.toNat := rfl
  have e1 : fen_char [a0, a1, b0, b1] 1 = a1.toNat := rfl
  have e2 : fen_char [a0, a1, b0, b1] 2 = b0.toNat := rfl
  have e3 : fen_char [a0, a1, b0, b1] 3 = b1.toNat := rfl
  simp only [e0, e1, e2, e3, hfind]
  simp

theorem parse_promo (pos : Position) (a0 a1 b0 b1 c : Char) (flag0 : MoveFlag) (x : Move)
    (hc : c = 'n' ∨ c = 'b' ∨ c = 'r' ∨ c = 'q')
    (hfind : (generate_legal_moves false pos).find?
      (fun x => decide (string_to_square a0.toNat a1.toNat = x.from_sq) &&
        decide (string_to_square b0.toNat b1.toNat = x.to_sq)) = some x) :
    parse_move false pos [a0, a1, b0, b1, c] flag0 =
      ⟨if string_to_square a0.toNat a1.toNat % 8 = string_to_square b0.toNat b1.toNat % 8 then
          (if c = 'n' then PR_KNIGHT else if c = 'b' then PR_BISHOP
            else if c = 'r' then PR_ROOK else PR_QUEEN)
        else
          (if c = 'n' then PC_KNIGHT else if c = 'b' then PC_BISHOP
            else if c = 'r' then PC_ROOK else PC_QUEEN),
        string_to_square a0.toNat a1.toNat, string_to_square b0.toNat b1.toNat⟩ := by
  unfold parse_move
  have e0 : fen_char [a0, a1, b0, b1, c] 0 = a0.toNat := rfl
  have e1 : fen_char [a0, a1, b0, b1, c] 1 = a1.toNat := rfl
  have e2 : fen_char [a0, a1, b0, b1, c] 2 = b0.toNat := rfl
  have e3 : fen_char [a0, a1, b0, b1, c] 3 = b1.toNat := rfl
  have e4 : fen_char [a0, a1, b0, b1, c] 4 = c.toNat := rfl
  simp only [e0, e1, e2, e3, e4, hfind]
  rcases hc with rfl | rfl | rfl | rfl <;> simp [isalpha]


theorem get_move_str_eq (m : Move) (a0 a1 b0 b1 : Char)
    (hA : SQUARE_TO_STRING m.from_sq = [a0, a1]) (hB : SQUARE_TO_STRING m.to_sq = [b0, b1]) :
    get_move_str m = [a0, a1, b0, b1] ++
      (if m.flag = PR_KNIGHT ∨ m.flag = PC_KNIGHT then ['n']
       else if m.flag = PR_BISHOP ∨ m.flag = PC_BISHOP then ['b']
       else if m.flag = PR_ROOK ∨ m.flag = PC_ROOK then ['r']
       else if m.flag = PR_QUEEN ∨ m.flag = PC_QUEEN then ['q']
       else []) := by
  unfold get_move_str
  rw [hA, hB]
  rfl

theorem flag_base_nonpromo {a b : MoveFlag} (h : flag_base a = flag_base b)
    (hb : b = QUIET ∨ b = DOUBLE_PUSH ∨ b = OO ∨ b = OOO ∨ b = CAPTURE ∨ b = EN_PASSANT) :
    a = b := by
  rcases hb with e | e | e | e | e | e <;> rw [e] at h ⊢ <;> cases a <;>
    first | rfl | exact MoveFlag.noConfusion h

/-- The first move of the list with the squares of an emitted move. -/
theorem find_emitted {pos : Position} {m : Move} (hm : m ∈ generate_legal_moves false pos) :
    ∃ x, (generate_legal_moves false pos).find?
        (fun x => decide (m.from_sq = x.from_sq) && decide (m.to_sq = x.to_sq)) = some x ∧
      x ∈ generate_legal_moves false pos ∧ x.from_sq = m.from_sq ∧ x.to_sq = m.to_sq := by
  cases hfind : (generate_legal_moves false pos).find?
      (fun x => decide (m.from_sq = x.from_sq) && decide (m.to_sq = x.to_sq)) with
  | none =>
    rw [List.find?_eq_none] at hfind
    have := hfind m hm
    simp at this
  | some x =>
    have h1 := List.mem_of_find?_eq_some hfind
    have h2 := List.find?_some hfind
    simp only [Bool.and_eq_true, decide_eq_true_eq] at h2
    exact ⟨x, rfl, h1, h2.1.symm, h2.2.symm⟩

end AtomicChess

namespace AtomicChess
open MoveFlag

/-! ## Make and unmake in the standard build -/

/-- C1 (standard build, `ZOBRIST_TABLE` as filled by `init_zobrist_table`). For every
position that satisfies the data-model invariants and every move written by
`generate_legal_moves`, `play` followed by `undo` leaves the twelve bitboards, the dense
board, the side to play, the ply, the Zobrist hash and `history[ply]` equal to their
values before `play`. -/
theorem C1_play_then_undo_restores_position (pos : Position) (m : Move)
    (hinv : data_model_invariants pos) (hm : m ∈ generate_legal_moves false pos) :
    (undo false (play false pos m) m).pieces = pos.pieces ∧
    (undo false (play false pos m) m).board = pos.board ∧
    (undo false (play false pos m) m).side_to_play = pos.side_to_play ∧
    (undo false (play false pos m) m).ply = pos.ply ∧
    (undo false (play false pos m) m).zobrist_hash = pos.zobrist_hash ∧
    cur (undo false (play false pos m) m) = cur pos := by
  have hp : playable pos m := emitted_playable hinv hm
  have hh : pos.ply + 1 < pos.history.length := by
    have h1 := hinv.2.2.2.2.2.2.2.1
    have h2 := hinv.2.2.2.2.2.2.2.2
    omega
  exact roundtrip_of_playable pos m hinv.1 hinv.2.1 hh hp

set_option maxRecDepth 100000 in
/-- Witness for C1: the initial position and the double push e2-e4. -/
theorem C1_play_then_undo_restores_position_witness :
    data_model_invariants
      (set_from_fen "rnbqkbnr/pppppppp/8/8/8/8/PPPPPPPP/RNBQKBNR w KQkq - 0 1") ∧
    (⟨DOUBLE_PUSH, 12, 28⟩ : Move) ∈ generate_legal_moves false
      (set_from_fen "rnbqkbnr/pppppppp/8/8/8/8/PPPPPPPP/RNBQKBNR w KQkq - 0 1") ∧
    (undo false (play false
      (set_from_fen "rnbqkbnr/pppppppp/8/8/8/8/PPPPPPPP/RNBQKBNR w KQkq - 0 1")
      ⟨DOUBLE_PUSH, 12, 28⟩) ⟨DOUBLE_PUSH, 12, 28⟩).zobrist_hash =
      (set_from_fen "rnbqkbnr/pppppppp/8/8/8/8/PPPPPPPP/RNBQKBNR w KQkq - 0 1").zobrist_hash :=
  ⟨by decide!, by decide!,
    (C1_play_then_undo_restores_position
      (set_from_fen "rnbqkbnr/pppppppp/8/8/8/8/PPPPPPPP/RNBQKBNR w KQkq - 0 1")
      ⟨DOUBLE_PUSH, 12, 28⟩ (by decide!) (by decide!)).2.2.2.2.1⟩

end AtomicChess

namespace AtomicChess

open MoveFlag

/-! ## Behaviour of the generators on concrete positions -/

set_option maxRecDepth 100000

/-- C2 (standard build). White king e1 is checked by the pawn d2 and, along the open
e-file, by the rook e8. The position satisfies the data-model invariants, the generator
emits the capture Nb1xd2, and after `play` the white king is still attacked (by the
rook). -/
theorem C2_capture_of_checking_pawn_leaves_rook_check :
    data_model_invariants (set_from_fen "4r2k/8/8/8/8/8/3p4/1N2K3 w - - 0 1") ∧
    (std_masks (sides (set_from_fen "4r2k/8/8/8/8/8/3p4/1N2K3 w - - 0 1"))).checking_pieces = 1 ∧
    (⟨CAPTURE, 1, 11⟩ : Move) ∈
      generate_legal_moves false (set_from_fen "4r2k/8/8/8/8/8/3p4/1N2K3 w - - 0 1") ∧
    attacked_by (play false (set_from_fen "4r2k/8/8/8/8/8/3p4/1N2K3 w - - 0 1") ⟨CAPTURE, 1, 11⟩)
      BLACK
      (king_square (play false (set_from_fen "4r2k/8/8/8/8/8/3p4/1N2K3 w - - 0 1")
        ⟨CAPTURE, 1, 11⟩) WHITE) := by
  decide!

/-- C3 (standard build). White king c5, white pawn e5, black pawn d5 that has just made a
double push (en passant square d6), black bishop f8 behind the black pawn e7. The en
passant capture e5xd6 is pseudo-legal and leaves the white king unattacked after
`play`, yet the generator does not emit it. -/
theorem C3_legal_en_passant_not_emitted :
    data_model_invariants (set_from_fen "5b1k/4p3/8/2KpP3/8/8/8/8 w - d6 0 1") ∧
    (set_from_fen "5b1k/4p3/8/2KpP3/8/8/8/8 w - d6 0 1").board.getD 36 0 = WHITE_PAWN ∧
    (cur (set_from_fen "5b1k/4p3/8/2KpP3/8/8/8/8 w - d6 0 1")).enpassant = 43 ∧
    (PAWN_ATTACKS WHITE 36).testBit 43 = true ∧
    ¬ attacked_by (play false (set_from_fen "5b1k/4p3/8/2KpP3/8/8/8/8 w - d6 0 1")
        ⟨EN_PASSANT, 36, 43⟩) BLACK
      (king_square (play false (set_from_fen "5b1k/4p3/8/2KpP3/8/8/8/8 w - d6 0 1")
        ⟨EN_PASSANT, 36, 43⟩) WHITE) ∧
    (⟨EN_PASSANT, 36, 43⟩ : Move) ∉
      generate_legal_moves false (set_from_fen "5b1k/4p3/8/2KpP3/8/8/8/8 w - d6 0 1") := by
  decide!

/-- C4 (atomic build). White king e1, white queen d1, black knight d2. The generator
emits the capture Qd1xd2 although the white king stands next to d2; after `play` the
white king has been removed by the explosion. -/
theorem C4_capture_next_to_own_king_emitted :
    data_model_invariants (set_from_fen "7k/8/8/8/8/8/3n4/3QK3 w - - 0 1") ∧
    (KING_ATTACKS 11).testBit (king_square (set_from_fen "7k/8/8/8/8/8/3n4/3QK3 w - - 0 1") WHITE)
      = true ∧
    (⟨CAPTURE, 3, 11⟩ : Move) ∈
      generate_legal_moves true (set_from_fen "7k/8/8/8/8/8/3n4/3QK3 w - - 0 1") ∧
    (play true (set_from_fen "7k/8/8/8/8/8/3n4/3QK3 w - - 0 1") ⟨CAPTURE, 3, 11⟩).bb WHITE KING
      = 0 := by
  decide!

/-- C5 (atomic build). White king e4, black pawn d5 attacking it, white rook a1, black
knight a8. Called with the arguments the generator passes for Ra1xa8, `atomic_add_move`
appends the capture although the pawn d5 survives the explosion and stands on a square
of `PAWN_ATTACKS[me][kingSq]`; the test in the source reads `PAWN_ATTACKS[you]`. -/
theorem C5_atomic_add_move_ignores_pawn_check :
    data_model_invariants (set_from_fen "n6k/8/8/3p4/4K3/8/8/R7 w - - 0 1") ∧
    (sides (set_from_fen "n6k/8/8/3p4/4K3/8/8/R7 w - - 0 1")).my_king_square = 28 ∧
    atomic_add_move WHITE BLACK
      (sides (set_from_fen "n6k/8/8/3p4/4K3/8/8/R7 w - - 0 1")).all_pieces
      ((sides (set_from_fen "n6k/8/8/3p4/4K3/8/8/R7 w - - 0 1")).my_pawns |||
        (sides (set_from_fen "n6k/8/8/3p4/4K3/8/8/R7 w - - 0 1")).your_pawns)
      (sides (set_from_fen "n6k/8/8/3p4/4K3/8/8/R7 w - - 0 1")).all_your_pieces
      (sides (set_from_fen "n6k/8/8/3p4/4K3/8/8/R7 w - - 0 1")).your_orthogonal_sliders
      (sides (set_from_fen "n6k/8/8/3p4/4K3/8/8/R7 w - - 0 1")).your_diagonal_sliders
      (sides (set_from_fen "n6k/8/8/3p4/4K3/8/8/R7 w - - 0 1")).your_knights
      (sides (set_from_fen "n6k/8/8/3p4/4K3/8/8/R7 w - - 0 1")).your_pawns
      0 56 28 false false = [⟨CAPTURE, 0, 56⟩] ∧
    (sides (set_from_fen "n6k/8/8/3p4/4K3/8/8/R7 w - - 0 1")).your_pawns = 2 ^ 35 ∧
    (PAWN_ATTACKS WHITE 28).testBit 35 = true ∧
    (play true (set_from_fen "n6k/8/8/3p4/4K3/8/8/R7 w - - 0 1") ⟨CAPTURE, 0, 56⟩).board.getD 35 0
      = BLACK_PAWN ∧
    attacked_by (play true (set_from_fen "n6k/8/8/3p4/4K3/8/8/R7 w - - 0 1") ⟨CAPTURE, 0, 56⟩)
      BLACK 28 := by
  decide!

/-- C6 (atomic build). White pawn b7, black rook a8, black knight b8. The generator emits
the move b7-b8 with flag `PC_KNIGHT`; after `play` and `undo` the white knight bitboard
still holds b8 and the hash differs, so the position is not restored. -/
theorem C6_atomic_promotion_capture_not_undone :
    data_model_invariants (set_from_fen "rn5k/1P6/8/8/8/8/8/4K3 w - - 0 1") ∧
    (⟨PC_KNIGHT, 49, 57⟩ : Move) ∈
      generate_legal_moves true (set_from_fen "rn5k/1P6/8/8/8/8/8/4K3 w - - 0 1") ∧
    (set_from_fen "rn5k/1P6/8/8/8/8/8/4K3 w - - 0 1").bb WHITE KNIGHT = 0 ∧
    (undo true (play true (set_from_fen "rn5k/1P6/8/8/8/8/8/4K3 w - - 0 1") ⟨PC_KNIGHT, 49, 57⟩)
      ⟨PC_KNIGHT, 49, 57⟩).bb WHITE KNIGHT = 2 ^ 57 ∧
    (undo true (play true (set_from_fen "rn5k/1P6/8/8/8/8/8/4K3 w - - 0 1") ⟨PC_KNIGHT, 49, 57⟩)
      ⟨PC_KNIGHT, 49, 57⟩).zobrist_hash ≠
      (set_from_fen "rn5k/1P6/8/8/8/8/8/4K3 w - - 0 1").zobrist_hash := by
  decide!

/-- C7 (atomic build). White king e1 is checked by the knight d3. The generator emits the
pawn push a2-a3, after which the white king is still attacked by that knight. -/
theorem C7_atomic_quiet_move_ignores_knight_check :
    data_model_invariants (set_from_fen "7k/8/8/8/8/3n4/P7/4K3 w - - 0 1") ∧
    (⟨QUIET, 8, 16⟩ : Move) ∈
      generate_legal_moves true (set_from_fen "7k/8/8/8/8/3n4/P7/4K3 w - - 0 1") ∧
    (play true (set_from_fen "7k/8/8/8/8/3n4/P7/4K3 w - - 0 1") ⟨QUIET, 8, 16⟩).board.getD 19 0
      = BLACK_KNIGHT ∧
    (KNIGHT_ATTACKS 19).testBit
      (king_square (play true (set_from_fen "7k/8/8/8/8/3n4/P7/4K3 w - - 0 1") ⟨QUIET, 8, 16⟩)
        WHITE) = true ∧
    attacked_by (play true (set_from_fen "7k/8/8/8/8/3n4/P7/4K3 w - - 0 1") ⟨QUIET, 8, 16⟩) BLACK
      (king_square (play true (set_from_fen "7k/8/8/8/8/3n4/P7/4K3 w - - 0 1") ⟨QUIET, 8, 16⟩)
        WHITE) := by
  decide!

/-- C8 (atomic build). White pawn b7 with black pieces on a8 and c8. The list written by
the generator holds the move (b7, b8, `PC_KNIGHT`) twice: once for each capture
direction. -/
theorem C8_atomic_generator_emits_duplicates :
    data_model_invariants (set_from_fen "r1b4k/1P6/8/8/8/8/8/4K3 w - - 0 1") ∧
    (generate_legal_moves true (set_from_fen "r1b4k/1P6/8/8/8/8/8/4K3 w - - 0 1")).count
      ⟨PC_KNIGHT, 49, 57⟩ = 2 ∧
    ¬ (generate_legal_moves true (set_from_fen "r1b4k/1P6/8/8/8/8/8/4K3 w - - 0 1")).Nodup := by
  decide!

end AtomicChess

namespace AtomicChess
open MoveFlag

/-! ## En passant and the king's rank in the standard build -/

set_option maxRecDepth 100000 in
/-- C9 (standard build). For every position that satisfies the data-model invariants, an
`EN_PASSANT` move written by `generate_legal_moves` whose capturing pawn stands on the rank
of the mover's king (the rank that the capturing and the captured pawn both leave) is not
followed by a position in which an enemy rook or queen attacks that king along the rank;
and for the position set by `8/8/8/KPp4r/8/8/8/4k3 w - c6 0 1` the move b5-c6 with flag
`EN_PASSANT` is not in the output. -/
theorem C9_en_passant_does_not_open_king_rank :
    (∀ (pos : Position) (m : Move), data_model_invariants pos →
      m ∈ generate_legal_moves false pos → m.flag = EN_PASSANT →
      king_square pos pos.side_to_play / 8 = m.from_sq / 8 →
      ¬ rank_attacked (play false pos m) (pos.side_to_play ^^^ BLACK)
        (king_square pos pos.side_to_play)) ∧
    (⟨EN_PASSANT, 33, 42⟩ : Move) ∉
      generate_legal_moves false (set_from_fen "8/8/8/KPp4r/8/8/8/4k3 w - c6 0 1") :=
  ⟨fun _ _ hinv hm hflag hrank => enpassant_keeps_rank_closed hinv hm hflag hrank,
    by decide!⟩

set_option maxRecDepth 100000 in
/-- Witness for C9: without the rook on h5 the capture b5xc6 en passant is written with
the king on the fifth rank, and after it no rook or queen attacks the king on a5. -/
theorem C9_en_passant_does_not_open_king_rank_witness :
    data_model_invariants (set_from_fen "8/8/8/KPp5/8/8/8/4k3 w - c6 0 1") ∧
    (⟨EN_PASSANT, 33, 42⟩ : Move) ∈
      generate_legal_moves false (set_from_fen "8/8/8/KPp5/8/8/8/4k3 w - c6 0 1") ∧
    king_square (set_from_fen "8/8/8/KPp5/8/8/8/4k3 w - c6 0 1") WHITE / 8 = 33 / 8 ∧
    ¬ rank_attacked
      (play false (set_from_fen "8/8/8/KPp5/8/8/8/4k3 w - c6 0 1") ⟨EN_PASSANT, 33, 42⟩)
      BLACK (king_square (set_from_fen "8/8/8/KPp5/8/8/8/4k3 w - c6 0 1") WHITE) :=
  ⟨by decide!, by decide!, by decide!,
    C9_en_passant_does_not_open_king_rank.1
      (set_from_fen "8/8/8/KPp5/8/8/8/4k3 w - c6 0 1") ⟨EN_PASSANT, 33, 42⟩
      (by decide!) (by decide!) rfl (by decide!)⟩

/-! ## Castling in the standard build -/

/-- C10 (standard build). For every position that satisfies the data-model invariants, a
move written by `generate_legal_moves` with flag `OO` or `OOO` implies that the mover's king
is not attacked by an enemy piece; with flag `OO`, the f- and g-file squares of the home
rank are empty and not attacked; with flag `OOO`, the b-, c- and d-file squares of the home
rank are empty and the c- and d-file squares are not attacked. -/
theorem C10_castling_needs_safe_king_and_clear_path (pos : Position) (m : Move)
    (hinv : data_model_invariants pos) (hm : m ∈ generate_legal_moves false pos) :
    (m.flag = OO ∨ m.flag = OOO →
      ¬ attacked_by pos (pos.side_to_play ^^^ BLACK) (king_square pos pos.side_to_play)) ∧
    (m.flag = OO →
      pos.board.getD (home_square pos.side_to_play 5) 0 = NO_PIECE ∧
      pos.board.getD (home_square pos.side_to_play 6) 0 = NO_PIECE ∧
      ¬ attacked_by pos (pos.side_to_play ^^^ BLACK) (home_square pos.side_to_play 5) ∧
      ¬ attacked_by pos (pos.side_to_play ^^^ BLACK) (home_square pos.side_to_play 6)) ∧
    (m.flag = OOO →
      pos.board.getD (home_square pos.side_to_play 1) 0 = NO_PIECE ∧
      pos.board.getD (home_square pos.side_to_play 2) 0 = NO_PIECE ∧
      pos.board.getD (home_square pos.side_to_play 3) 0 = NO_PIECE ∧
      ¬ attacked_by pos (pos.side_to_play ^^^ BLACK) (home_square pos.side_to_play 2) ∧
      ¬ attacked_by pos (pos.side_to_play ^^^ BLACK) (home_square pos.side_to_play 3)) := by
  obtain ⟨hc, hs, hkw, hkb, _, _, _, _, _⟩ := hinv
  obtain ⟨hkme, hkyou⟩ := one_king_side hs hkw hkb
  obtain ⟨_, _, _, _, _, _, hempty⟩ := sides_facts hc hs
  have hatt : ∀ sq, (attacked_squares (sides pos) true).testBit sq = false →
      ¬ attacked_by pos (pos.side_to_play ^^^ BLACK) sq := by
    intro sq hf ha
    rw [attacked_of_attacked_by hc hs hkyou ha] at hf
    exact Bool.noConfusion hf
  have hstd : m ∈ generate_legal_moves_standard pos := hm
  have hside : pos.side_to_play = 0 ∨ pos.side_to_play = 1 := by omega
  have hme : (sides pos).me = pos.side_to_play := rfl
  have hhome : ∀ f, f < 8 → home_square pos.side_to_play f < 64 := by
    intro f hf
    unfold home_square
    split_ifs <;> omega
  refine ⟨?_, ?_, ?_⟩
  · intro hf
    have hmem := castle_of_flag hstd hf
    have hking : (sides pos).my_king &&& attacked_squares (sides pos) true = 0 := by
      rcases mem_castling_moves hmem with ⟨_, h0⟩ | ⟨_, h0⟩
      · exact eq_zero_of_or_eq_zero_right h0
      · exact eq_zero_of_or_eq_zero_right h0
    exact hatt _ (king_not_in hking (king_bit_of_one_king hkme).2.2)
  · intro hf
    have hmem := castle_of_flag hstd (Or.inl hf)
    rcases mem_castling_moves hmem with ⟨_, h0⟩ | ⟨hm2, _⟩
    · have hb := eq_zero_of_or_eq_zero_right (eq_zero_of_or_eq_zero_left h0)
      rw [hme] at hb
      have h5 : (OO_BLOCKERS_MASK pos.side_to_play).testBit (home_square pos.side_to_play 5)
          = true := by
        rcases hside with h | h <;> rw [h] <;> decide
      have h6 : (OO_BLOCKERS_MASK pos.side_to_play).testBit (home_square pos.side_to_play 6)
          = true := by
        rcases hside with h | h <;> rw [h] <;> decide
      exact ⟨hempty _ (hhome 5 (by decide)) (blockers_bits hb h5).1,
        hempty _ (hhome 6 (by decide)) (blockers_bits hb h6).1,
        hatt _ (blockers_bits hb h5).2, hatt _ (blockers_bits hb h6).2⟩
    · rw [hm2] at hf
      exact MoveFlag.noConfusion (show OOO = OO from hf)
  · intro hf
    have hmem := castle_of_flag hstd (Or.inr hf)
    rcases mem_castling_moves hmem with ⟨hm2, _⟩ | ⟨_, h0⟩
    · rw [hm2] at hf
      exact MoveFlag.noConfusion (show OO = OOO from hf)
    · have hb := eq_zero_of_or_eq_zero_right (eq_zero_of_or_eq_zero_left h0)
      rw [hme] at hb
      have h1 : (OOO_BLOCKERS_MASK pos.side_to_play).testBit (home_square pos.side_to_play 1)
          = true := by
        rcases hside with h | h <;> rw [h] <;> decide
      have h2 : (OOO_BLOCKERS_MASK pos.side_to_play).testBit (home_square pos.side_to_play 2)
          = true := by
        rcases hside with h | h <;> rw [h] <;> decide
      have h3 : (OOO_BLOCKERS_MASK pos.side_to_play).testBit (home_square pos.side_to_play 3)
          = true := by
        rcases hside with h | h <;> rw [h] <;> decide
      have i2 : (OOO_IGNORE_DANGER pos.side_to_play).testBit (home_square pos.side_to_play 2)
          = true := by
        rcases hside with h | h <;> rw [h] <;> decide
      have i3 : (OOO_IGNORE_DANGER pos.side_to_play).testBit (home_square pos.side_to_play 3)
          = true := by
        rcases hside with h | h <;> rw [h] <;> decide
      have a2 := (blockers_bits hb h2).2
      have a3 := (blockers_bits hb h3).2
      rw [Nat.testBit_and, i2, Bool.and_true] at a2
      rw [Nat.testBit_and, i3, Bool.and_true] at a3
      exact ⟨hempty _ (hhome 1 (by decide)) (blockers_bits hb h1).1,
        hempty _ (hhome 2 (by decide)) (blockers_bits hb h2).1,
        hempty _ (hhome 3 (by decide)) (blockers_bits hb h3).1, hatt _ a2, hatt _ a3⟩

set_option maxRecDepth 100000 in
/-- Witness for C10: with both kings and all four rooks on their home squares and nothing
else on the board, White's short castling is written and the square f1 is not attacked. -/
theorem C10_castling_needs_safe_king_and_clear_path_witness :
    data_model_invariants (set_from_fen "r3k2r/8/8/8/8/8/8/R3K2R w KQkq - 0 1") ∧
    (⟨OO, 4, 6⟩ : Move) ∈
      generate_legal_moves false (set_from_fen "r3k2r/8/8/8/8/8/8/R3K2R w KQkq - 0 1") ∧
    ¬ attacked_by (set_from_fen "r3k2r/8/8/8/8/8/8/R3K2R w KQkq - 0 1")
      ((set_from_fen "r3k2r/8/8/8/8/8/8/R3K2R w KQkq - 0 1").side_to_play ^^^ BLACK)
      (home_square (set_from_fen "r3k2r/8/8/8/8/8/8/R3K2R w KQkq - 0 1").side_to_play 5) :=
  ⟨by decide!, by decide!,
    ((C10_castling_needs_safe_king_and_clear_path
      (set_from_fen "r3k2r/8/8/8/8/8/8/R3K2R w KQkq - 0 1") ⟨OO, 4, 6⟩
      (by decide!) (by decide!)).2.1 rfl).2.2.1⟩

end AtomicChess

namespace AtomicChess
open MoveFlag

/-! ## Queenside castling with the b-file square attacked -/

theorem ooo_blockers_bits : ∀ c, c < 2 → ∀ i, i < 64 → (OOO_BLOCKERS_MASK c).testBit i = true →
    (i = home_square c 1 ∧ (OOO_IGNORE_DANGER c).testBit i = false) ∨
      i = home_square c 2 ∨ i = home_square c 3 := by
  decide

/-- C11 (standard build). For every position that satisfies the data-model invariants: if
`history[ply].entry & OOO_MASK[me]` is 0, the b-, c- and d-file squares of the mover's home
rank are empty, the mover's king is not attacked and the c- and d-file squares are not
attacked, then `generate_legal_moves` emits the `OOO` move from the e-file to the c-file
square of the home rank; nothing is required of the b-file square, which may be attacked. -/
theorem C11_queenside_castling_emitted (pos : Position) (hinv : data_model_invariants pos)
    (hright : (cur pos).entry &&& OOO_MASK pos.side_to_play = 0)
    (hb : pos.board.getD (home_square pos.side_to_play 1) 0 = NO_PIECE)
    (hc1 : pos.board.getD (home_square pos.side_to_play 2) 0 = NO_PIECE)
    (hd : pos.board.getD (home_square pos.side_to_play 3) 0 = NO_PIECE)
    (hking : ¬ attacked_by pos (pos.side_to_play ^^^ BLACK) (king_square pos pos.side_to_play))
    (hca : ¬ attacked_by pos (pos.side_to_play ^^^ BLACK) (home_square pos.side_to_play 2))
    (hda : ¬ attacked_by pos (pos.side_to_play ^^^ BLACK) (home_square pos.side_to_play 3)) :
    (⟨OOO, home_square pos.side_to_play 4, home_square pos.side_to_play 2⟩ : Move) ∈
      generate_legal_moves false pos := by
  obtain ⟨hc, hs, hkw, hkb, _, _, _, _, _⟩ := hinv
  obtain ⟨hkme, hkyou⟩ := one_king_side hs hkw hkb
  obtain ⟨_, _, hmylt, hyourlt, hmine, hyours, _⟩ := sides_facts hc hs
  have hs2 := xor_black_facts hs
  have hme : (sides pos).me = pos.side_to_play := rfl
  have hnot : ∀ sq, ¬ attacked_by pos (pos.side_to_play ^^^ BLACK) sq →
      (attacked_squares (sides pos) true).testBit sq = false := by
    intro sq hsq
    cases hbit : (attacked_squares (sides pos) true).testBit sq
    · rfl
    · rcases attacked_sound hc hs hkme hkyou hbit with h | h
      · exact absurd h hsq
      · exact absurd h hking
  have hempty : ∀ sq, pos.board.getD sq 0 = NO_PIECE →
      (sides pos).all_pieces.testBit sq = false := by
    intro sq hsq
    unfold Sides.all_pieces
    rw [Nat.testBit_or, Bool.or_eq_false_iff]
    constructor
    · cases hbit : (sides pos).all_my_pieces.testBit sq
      · rfl
      · have := ((hmine sq).1 hbit).2
        rw [hsq] at this
        have h2 : PIECE_TO_COLOR NO_PIECE = 2 := rfl
        omega
    · cases hbit : (sides pos).all_your_pieces.testBit sq
      · rfl
      · have := ((hyours sq).1 hbit).2
        rw [hsq] at this
        have h2 : PIECE_TO_COLOR NO_PIECE = 2 := rfl
        have := hs2.1
        omega
  have hcond : ((cur pos).entry &&& OOO_MASK (sides pos).me) |||
      (((sides pos).all_pieces ||| (attacked_squares (sides pos) true &&&
        OOO_IGNORE_DANGER (sides pos).me)) &&& OOO_BLOCKERS_MASK (sides pos).me) |||
      ((sides pos).my_king &&& attacked_squares (sides pos) true) = 0 := by
    rw [hme]
    refine or_eq_zero (or_eq_zero hright ?_) ?_
    · apply Nat.eq_of_testBit_eq
      intro i
      rw [Nat.zero_testBit, Nat.testBit_and, Nat.testBit_or, Nat.testBit_and]
      cases hmask : (OOO_BLOCKERS_MASK pos.side_to_play).testBit i
      · exact Bool.and_false _
      · have hi64 : i < 64 := by
          refine lt_of_testBit ?_ hmask
          have : pos.side_to_play = 0 ∨ pos.side_to_play = 1 := by omega
          rcases this with h | h <;> rw [h] <;> decide
        rcases ooo_blockers_bits _ hs i hi64 hmask with ⟨e, hig⟩ | e | e
        · rw [hig, e, hempty _ hb, Bool.and_false]; rfl
        · rw [e, hempty _ hc1, hnot _ hca]; rfl
        · rw [e, hempty _ hd, hnot _ hda]; rfl
    · apply Nat.eq_of_testBit_eq
      intro i
      rw [Nat.zero_testBit, Nat.testBit_and]
      obtain ⟨ks, hks64, hkbb⟩ := hkme
      have hksq : king_square pos pos.side_to_play = ks := by
        unfold king_square; rw [hkbb]; exact get_lsb_idx_two_pow hks64
      have hmk : (sides pos).my_king = 2 ^ ks := hkbb
      rw [hmk, Nat.testBit_two_pow]
      by_cases hik : ks = i
      · rw [← hik, ← hksq, hnot _ hking]; exact Bool.and_false _
      · rw [decide_eq_false hik]; rfl
  have hmem : (⟨OOO, home_square pos.side_to_play 4, home_square pos.side_to_play 2⟩ : Move) ∈
      castling_moves (cur pos).entry (sides pos).me (sides pos).all_pieces
        (attacked_squares (sides pos) true) (sides pos).my_king := by
    unfold castling_moves
    rw [List.mem_append]
    right
    rw [if_pos hcond, List.mem_singleton, hme]
    have : pos.side_to_play = 0 ∨ pos.side_to_play = 1 := by omega
    rcases this with h | h <;> rw [h] <;> rfl
  obtain ⟨hr, hbi⟩ := no_slider_check hc hs hkme hking
  have hchk := checking_pieces_le_one (sides pos) hr hbi
  show _ ∈ generate_legal_moves_standard pos
  unfold generate_legal_moves_standard
  simp only
  rw [if_neg (by omega)]
  simp only [List.mem_append]
  exact Or.inl (Or.inl (Or.inl (Or.inr hmem)))

set_option maxRecDepth 100000 in
/-- Witness for C11: White king e1 and rook a1 with the right `Q`, black rook b8 attacking
b1 along the open b-file; the hypotheses hold and `OOO` (e1 to c1) is emitted. -/
theorem C11_queenside_castling_emitted_witness :
    data_model_invariants (set_from_fen "1r2k3/8/8/8/8/8/8/R3K3 w Q - 0 1") ∧
    attacked_by (set_from_fen "1r2k3/8/8/8/8/8/8/R3K3 w Q - 0 1") BLACK 1 ∧
    (⟨OOO, 4, 2⟩ : Move) ∈
      generate_legal_moves false (set_from_fen "1r2k3/8/8/8/8/8/8/R3K3 w Q - 0 1") :=
  ⟨by decide!, by decide!,
    C11_queenside_castling_emitted (set_from_fen "1r2k3/8/8/8/8/8/8/R3K3 w Q - 0 1")
      (by decide!) (by decide!) (by decide!) (by decide!) (by decide!) (by decide!)
      (by decide!) (by decide!)⟩

/-! ## Castling rights along a line of play -/

/-- C12 (either build). Whenever `play` is called with room left in `history`, the new
`history[ply].entry` equals `history[ply-1].entry` with the bits of the move's `to` and
`from` added; and if `from` or `to` of a played move is a square of `OO_MASK` (or
`OOO_MASK`) of some colour, then in every position reached later in that line by further
calls of `play`, with that colour to move, `generate_legal_moves` emits no move with flag
`OO` (or `OOO`). -/
theorem C12_castling_record_grows_along_a_line (atomic : Bool) (pos : Position) (m : Move)
    (ms : List Move) (hply : pos.ply + 1 + ms.length < pos.history.length) :
    ((play atomic pos m).history.getD ((play atomic pos m).ply - 1) ⟨0, 0, 0⟩).entry =
      (cur pos).entry ∧
    (cur (play atomic pos m)).entry =
      ((play atomic pos m).history.getD ((play atomic pos m).ply - 1) ⟨0, 0, 0⟩).entry |||
        (SQUARE_TO_BITBOARD m.to_sq ||| SQUARE_TO_BITBOARD m.from_sq) ∧
    ∀ sq, sq < 64 → (sq = m.from_sq ∨ sq = m.to_sq) →
      ∀ mv, mv ∈ generate_legal_moves atomic (play_line atomic (play atomic pos m) ms) →
        ((OO_MASK (play_line atomic (play atomic pos m) ms).side_to_play).testBit sq = true →
          mv.flag ≠ OO) ∧
        ((OOO_MASK (play_line atomic (play atomic pos m) ms).side_to_play).testBit sq = true →
          mv.flag ≠ OOO) := by
  obtain ⟨h1, h2, h3, h4⟩ := play_entry atomic pos m (by omega)
  have hlen : ∀ q : Position, (entries q).length = q.history.length := by
    intro q; unfold entries; exact List.length_map _ _
  rw [hlen, hlen] at h2
  have hprev : ((play atomic pos m).history.getD ((play atomic pos m).ply - 1) ⟨0, 0, 0⟩).entry =
      (cur pos).entry := by
    rw [entries_getD, h1, Nat.add_sub_cancel, h3]
  refine ⟨hprev, by rw [hprev]; exact h4, ?_⟩
  intro sq hsq hsq2 mv hmv
  have hbit : (cur (play atomic pos m)).entry.testBit sq = true := by
    rw [h4, Nat.testBit_or, Nat.testBit_or, testBit_SQUARE_TO_BITBOARD,
      testBit_SQUARE_TO_BITBOARD]
    rcases hsq2 with e | e
    · have : m.from_sq < 64 := e ▸ hsq
      simp [e, this]
    · have : m.to_sq < 64 := e ▸ hsq
      simp [e, this]
  have hline := line_entry atomic ms (play atomic pos m) (by rw [h1, h2]; omega) sq hbit
  obtain ⟨hoo, hooo⟩ := castle_needs_clear_entry atomic hmv
  constructor
  · intro hmask hf
    have := testBit_false_of_eq_zero (hoo hf) sq
    rw [Nat.testBit_and, hline, hmask] at this
    exact Bool.noConfusion this
  · intro hmask hf
    have := testBit_false_of_eq_zero (hooo hf) sq
    rw [Nat.testBit_and, hline, hmask] at this
    exact Bool.noConfusion this

set_option maxRecDepth 100000 in
/-- Witness for C12: from `r3k2r/8/8/8/8/8/8/R3K2R w KQkq - 0 1` White plays Rh1-h2, then
Rh8-h7, Rh2-h1 and Rh7-h8 follow; with the rook back on h1 and White to move, `OO` is not
in the output of the standard generator. -/
theorem C12_castling_record_grows_along_a_line_witness :
    (set_from_fen "r3k2r/8/8/8/8/8/8/R3K2R w KQkq - 0 1").ply + 1 +
        [(⟨QUIET, 63, 55⟩ : Move), ⟨QUIET, 15, 7⟩, ⟨QUIET, 55, 63⟩].length <
      (set_from_fen "r3k2r/8/8/8/8/8/8/R3K2R w KQkq - 0 1").history.length ∧
    (⟨OO, 4, 6⟩ : Move) ∉ generate_legal_moves false
      (play_line false
        (play false (set_from_fen "r3k2r/8/8/8/8/8/8/R3K2R w KQkq - 0 1") ⟨QUIET, 7, 15⟩)
        [⟨QUIET, 63, 55⟩, ⟨QUIET, 15, 7⟩, ⟨QUIET, 55, 63⟩]) :=
  ⟨by decide!, fun hmem =>
    ((C12_castling_record_grows_along_a_line false
      (set_from_fen "r3k2r/8/8/8/8/8/8/R3K2R w KQkq - 0 1") ⟨QUIET, 7, 15⟩
      [⟨QUIET, 63, 55⟩, ⟨QUIET, 15, 7⟩, ⟨QUIET, 55, 63⟩] (by decide!)).2.2
      7 (by decide) (Or.inl rfl) ⟨OO, 4, 6⟩ hmem).1 (by decide!) rfl⟩

end AtomicChess

namespace AtomicChess

open MoveFlag

/-! ## Castling after an explosion, FEN output, move strings -/

set_option maxRecDepth 100000

/-- C13 (atomic build). Black bishop h3 captures the pawn g2; the explosion removes the
white rook from its home square h1, which is neither `from` nor `to` of the move. In the
position after `play` the generator still emits White's `OO` although h1 is empty. -/
theorem C13_castling_emitted_after_rook_exploded :
    data_model_invariants (set_from_fen "4k3/8/8/8/8/7b/6P1/4K2R b K - 0 1") ∧
    (set_from_fen "4k3/8/8/8/8/7b/6P1/4K2R b K - 0 1").board.getD 7 0 = WHITE_ROOK ∧
    (⟨CAPTURE, 23, 14⟩ : Move) ∈
      generate_legal_moves true (set_from_fen "4k3/8/8/8/8/7b/6P1/4K2R b K - 0 1") ∧
    (KING_ATTACKS 14).testBit 7 = true ∧
    (play true (set_from_fen "4k3/8/8/8/8/7b/6P1/4K2R b K - 0 1") ⟨CAPTURE, 23, 14⟩).board.getD
      7 0 = NO_PIECE ∧
    (⟨OO, 4, 6⟩ : Move) ∈ generate_legal_moves true
      (play true (set_from_fen "4k3/8/8/8/8/7b/6P1/4K2R b K - 0 1") ⟨CAPTURE, 23, 14⟩) := by
  decide!

/-- C16. For the well-formed FEN `4k3/8/8/8/8/8/8/4K3 w - - 0 1` (no castling right, no en
passant square) `get_fen_from_pos` writes `- ` for the castling field and then ` -`, so the
text has two spaces before the en passant field and is not the first four fields of the
input; with the rights `Kq` it writes `Kq- ` as castling field. -/
theorem C16_fen_output_differs_without_all_rights :
    get_fen_from_pos (set_from_fen "4k3/8/8/8/8/8/8/4K3 w - - 0 1") =
      "4k3/8/8/8/8/8/8/4K3 w -  -".toList ∧
    get_fen_from_pos (set_from_fen "4k3/8/8/8/8/8/8/4K3 w - - 0 1") ≠
      "4k3/8/8/8/8/8/8/4K3 w - -".toList ∧
    get_fen_from_pos (set_from_fen "r3k2r/8/8/8/8/8/8/R3K2R w Kq - 0 1") =
      "r3k2r/8/8/8/8/8/8/R3K2R w Kq-  -".toList := by
  decide!

/-- C17. For the initial position `get_fen_from_pos` writes a string `S` that ends with
the en passant field. When `set_from_fen` reads `S`, the loop `while (*fen_ptr != ' ')`
of line 174 starts inside `S` and meets no space up to and including the terminating NUL,
so it goes on reading behind the end of `S`. -/
theorem C17_set_from_fen_reads_past_formatter_output :
    get_fen_from_pos
        (set_from_fen "rnbqkbnr/pppppppp/8/8/8/8/PPPPPPPP/RNBQKBNR w KQkq - 0 1") =
      "rnbqkbnr/pppppppp/8/8/8/8/PPPPPPPP/RNBQKBNR w KQkq -".toList ∧
    fen_enpassant_index "rnbqkbnr/pppppppp/8/8/8/8/PPPPPPPP/RNBQKBNR w KQkq -".toList ≤
      "rnbqkbnr/pppppppp/8/8/8/8/PPPPPPPP/RNBQKBNR w KQkq -".toList.length ∧
    (∀ i, i ≤ "rnbqkbnr/pppppppp/8/8/8/8/PPPPPPPP/RNBQKBNR w KQkq -".toList.length →
      fen_enpassant_index "rnbqkbnr/pppppppp/8/8/8/8/PPPPPPPP/RNBQKBNR w KQkq -".toList ≤ i →
      fen_char "rnbqkbnr/pppppppp/8/8/8/8/PPPPPPPP/RNBQKBNR w KQkq -".toList i ≠ ' '.toNat) ∧
    "rnbqkbnr/pppppppp/8/8/8/8/PPPPPPPP/RNBQKBNR w KQkq -".toList.length <
      fen_skip false
        ("rnbqkbnr/pppppppp/8/8/8/8/PPPPPPPP/RNBQKBNR w KQkq -".toList.length + 1)
        "rnbqkbnr/pppppppp/8/8/8/8/PPPPPPPP/RNBQKBNR w KQkq -".toList
        (fen_enpassant_index "rnbqkbnr/pppppppp/8/8/8/8/PPPPPPPP/RNBQKBNR w KQkq -".toList) := by
  decide!

/-- C18. For the initial-position FEN, which has six fields and nothing after the fullmove
field, `set_from_fen` returns 57 while the string has 56 characters: the pointer is moved
once more after the last loop has stopped on the terminating NUL. -/
theorem C18_set_from_fen_returns_length_plus_one :
    (set_from_fen_len
      "rnbqkbnr/pppppppp/8/8/8/8/PPPPPPPP/RNBQKBNR w KQkq - 0 1".toList).2 = 57 ∧
    "rnbqkbnr/pppppppp/8/8/8/8/PPPPPPPP/RNBQKBNR w KQkq - 0 1".toList.length = 56 := by
  decide!

/-- C19 (standard build). In the initial position the string `e2e4q` has five characters
and ends in a letter; `parse_move` finds the list entry e2-e4 (a double push), overwrites
the flag and returns (e2, e4, `PR_QUEEN`), whose `from` is not `NO_SQUARE` and which is not
an element of the list. -/
theorem C19_parse_move_returns_move_outside_list (flag0 : MoveFlag) :
    parse_move false (set_from_fen "rnbqkbnr/pppppppp/8/8/8/8/PPPPPPPP/RNBQKBNR w KQkq - 0 1")
      "e2e4q".toList flag0 = ⟨PR_QUEEN, 12, 28⟩ ∧
    (⟨PR_QUEEN, 12, 28⟩ : Move).from_sq ≠ NO_SQUARE ∧
    (⟨PR_QUEEN, 12, 28⟩ : Move) ∉ generate_legal_moves false
      (set_from_fen "rnbqkbnr/pppppppp/8/8/8/8/PPPPPPPP/RNBQKBNR w KQkq - 0 1") := by
  cases flag0 <;> decide!

/-- C20 at a concrete input. In the initial position the string `e2e5` names no move of the
list, so `parse_move` returns a move whose `from` is `NO_SQUARE`; for it `get_move_str`
writes `None`, which is not `0000`. -/
theorem C20_invalid_move_is_not_written_as_0000 :
    parse_move false (set_from_fen "rnbqkbnr/pppppppp/8/8/8/8/PPPPPPPP/RNBQKBNR w KQkq - 0 1")
      "e2e5".toList QUIET = ⟨QUIET, NO_SQUARE, 36⟩ ∧
    get_move_str ⟨QUIET, NO_SQUARE, 36⟩ = "None".toList ∧
    get_move_str ⟨QUIET, NO_SQUARE, 36⟩ ≠ "0000".toList := by
  decide!

/-- C20. For every move whose `from` is `NO_SQUARE`, whatever its flag and its
`to`, `get_move_str` writes a string whose first four characters are `None`, the entry of
`SQUARE_TO_STRING` for `NO_SQUARE`, followed by at most one more character; it never
writes `0000`. -/
theorem C20_invalid_move_is_written_as_None (flag : MoveFlag) (to_sq : Nat) :
    (get_move_str ⟨flag, NO_SQUARE, to_sq⟩).take 4 = "None".toList ∧
    (get_move_str ⟨flag, NO_SQUARE, to_sq⟩).length ≤ 5 ∧
    get_move_str ⟨flag, NO_SQUARE, to_sq⟩ ≠ "0000".toList := by
  have h : (get_move_str ⟨flag, NO_SQUARE, to_sq⟩).take 4 = "None".toList ∧
      (get_move_str ⟨flag, NO_SQUARE, to_sq⟩).length ≤ 5 := by
    unfold get_move_str
    have e : SQUARE_TO_STRING NO_SQUARE = ['N', 'o', 'n', 'e'] := by decide
    simp only [e]
    generalize SQUARE_TO_STRING to_sq = x
    have h4 : ((['N', 'o', 'n', 'e'] ++ x).take 5).take 4 = ['N', 'o', 'n', 'e'] := by
      cases x <;> rfl
    have hl : ¬ ((['N', 'o', 'n', 'e'] ++ x).take 5).length < 4 := by
      cases x <;> simp
    rw [if_neg hl, h4]
    constructor
    · rfl
    · cases flag <;> simp
  refine ⟨h.1, h.2, ?_⟩
  intro h2
  rw [h2] at h
  exact absurd h.1 (by decide)

end AtomicChess

namespace AtomicChess
open MoveFlag

/-! ## The Zobrist hash and FEN ingestion -/

/-- C15. For every well-formed six-field FEN, given by its parts and written out by
`Fen.text`, after `set_from_fen`: `board[s]` holds the piece the first field places on
`s` (ranks 8 to 1, files a to h) and `pieces[c][t]` is the set of squares on which the
field places the piece of colour `c` and type `t`; `side_to_play` is White iff the second
field is `w`; `ply` is 0; `history[0].enpassant` is the square named by the fourth field or
`NO_SQUARE` for `-`; and for each of the rights K, Q, k, q the test
`(history[0].entry & OO_MASK/OOO_MASK[color]) == 0` holds iff the letter occurs in the
castling field. -/
theorem C15_set_from_fen_reads_well_formed_fen (F : Fen) (hF : F.valid) :
    (∀ s, s < 64 → (set_from_fen (String.mk F.text)).board.getD s 0 = F.piece_at s) ∧
    (∀ c, c < 2 → ∀ t, t < 6 → (set_from_fen (String.mk F.text)).bb c t < 2 ^ 64 ∧
      ∀ s, s < 64 → (((set_from_fen (String.mk F.text)).bb c t).testBit s = true ↔
        F.piece_at s = TYPE_TO_PIECE c t)) ∧
    ((set_from_fen (String.mk F.text)).side_to_play = WHITE ↔ F.white = true) ∧
    ((set_from_fen (String.mk F.text)).side_to_play = BLACK ↔ F.white = false) ∧
    (set_from_fen (String.mk F.text)).ply = 0 ∧
    ((set_from_fen (String.mk F.text)).history.getD 0 ⟨0, 0, 0⟩).enpassant =
      F.enpassant_square ∧
    (((set_from_fen (String.mk F.text)).history.getD 0 ⟨0, 0, 0⟩).entry &&& OO_MASK WHITE = 0
      ↔ 'K' ∈ F.castling) ∧
    (((set_from_fen (String.mk F.text)).history.getD 0 ⟨0, 0, 0⟩).entry &&& OOO_MASK WHITE = 0
      ↔ 'Q' ∈ F.castling) ∧
    (((set_from_fen (String.mk F.text)).history.getD 0 ⟨0, 0, 0⟩).entry &&& OO_MASK BLACK = 0
      ↔ 'k' ∈ F.castling) ∧
    (((set_from_fen (String.mk F.text)).history.getD 0 ⟨0, 0, 0⟩).entry &&& OOO_MASK BLACK = 0
      ↔ 'q' ∈ F.castling) := by
  obtain ⟨hc, _, hb, hs, hp, he, tK, tQ, tk, tq⟩ := set_from_fen_valid F hF _ rfl
  refine ⟨hb, ?_, ?_, ?_, hp, he, tK, tQ, tk, tq⟩
  · intro c hc2 t ht
    refine ⟨hc.2.2.2.1 c hc2 t ht, ?_⟩
    intro s hs64
    rw [hc.2.2.2.2 c hc2 t ht s hs64, hb s hs64]
  · rw [hs]
    cases F.white <;> decide
  · rw [hs]
    cases F.white <;> decide

set_option maxRecDepth 100000 in
/-- Witness for C15: the FEN `rnbqkbnr/pppppppp/8/8/4P3/8/PPPP1PPP/RNBQKBNR b KQkq e3 0 1`;
the side to play is Black, the en passant square is e3 and the pawn stands on e4. -/
theorem C15_set_from_fen_reads_well_formed_fen_witness :
    fen_after_e2e4.valid ∧
    String.mk fen_after_e2e4.text =
      "rnbqkbnr/pppppppp/8/8/4P3/8/PPPP1PPP/RNBQKBNR b KQkq e3 0 1" ∧
    fen_after_e2e4.piece_at 28 = WHITE_PAWN ∧ fen_after_e2e4.enpassant_square = 20 ∧
    (set_from_fen (String.mk fen_after_e2e4.text)).board.getD 28 0 =
      fen_after_e2e4.piece_at 28 ∧
    ((set_from_fen (String.mk fen_after_e2e4.text)).side_to_play = BLACK ↔
      fen_after_e2e4.white = false) ∧
    ((set_from_fen (String.mk fen_after_e2e4.text)).history.getD 0 ⟨0, 0, 0⟩).enpassant =
      fen_after_e2e4.enpassant_square :=
  ⟨by decide, by decide, by decide, by decide,
    (C15_set_from_fen_reads_well_formed_fen fen_after_e2e4 (by decide)).1 28 (by decide),
    (C15_set_from_fen_reads_well_formed_fen fen_after_e2e4 (by decide)).2.2.2.1,
    (C15_set_from_fen_reads_well_formed_fen fen_after_e2e4 (by decide)).2.2.2.2.2.1⟩

end AtomicChess

namespace AtomicChess
open MoveFlag

/-! ## The record written by `play` -/

/-- C21 (either build). Whenever `play` is called with room left in `history`: if the flag
is `DOUBLE_PUSH`, the new `history[ply].enpassant` is `from + 8` for a White mover and
`from - 8` for a Black mover, and for a double push written by `generate_legal_moves` this
is the square midway between `from` and `to`; for every other flag it is `NO_SQUARE`;
`side_to_play` is the opposite colour and `ply` is one more than before. -/
theorem C21_play_sets_enpassant_side_and_ply (atomic : Bool) (pos : Position) (m : Move)
    (hply : pos.ply + 1 < pos.history.length) :
    (m.flag = DOUBLE_PUSH → pos.side_to_play = WHITE →
      (cur (play atomic pos m)).enpassant = m.from_sq + 8) ∧
    (m.flag = DOUBLE_PUSH → pos.side_to_play ≠ WHITE → 8 ≤ m.from_sq →
      (cur (play atomic pos m)).enpassant + 8 = m.from_sq) ∧
    (m.flag = DOUBLE_PUSH → m ∈ generate_legal_moves atomic pos →
      (pos.side_to_play = WHITE →
        (cur (play atomic pos m)).enpassant = m.from_sq + 8 ∧
        (cur (play atomic pos m)).enpassant + 8 = m.to_sq) ∧
      (pos.side_to_play ≠ WHITE →
        (cur (play atomic pos m)).enpassant + 8 = m.from_sq ∧
        m.to_sq + 8 = (cur (play atomic pos m)).enpassant)) ∧
    (m.flag ≠ DOUBLE_PUSH → (cur (play atomic pos m)).enpassant = NO_SQUARE) ∧
    (play atomic pos m).side_to_play = pos.side_to_play ^^^ BLACK ∧
    (pos.side_to_play = WHITE → (play atomic pos m).side_to_play = BLACK) ∧
    (pos.side_to_play = BLACK → (play atomic pos m).side_to_play = WHITE) ∧
    (play atomic pos m).ply = pos.ply + 1 := by
  have he := enpassant_play atomic pos m hply
  have hs := side_play atomic pos m
  refine ⟨?_, ?_, ?_, ?_, hs, ?_, ?_, (entries_play atomic pos m).2⟩
  · intro hf hw
    rw [he, if_pos hf, if_pos hw]
  · intro hf hb h8
    rw [he, if_pos hf, if_neg hb]
    omega
  · intro hf hm
    obtain ⟨dw, db⟩ := double_push_squares atomic hm hf
    rw [he, if_pos hf]
    constructor
    · intro hw
      rw [if_pos hw]
      have := dw hw
      omega
    · intro hb
      rw [if_neg hb]
      have := db hb
      omega
  · intro hf
    rw [he, if_neg hf]
  · intro hw
    rw [hs, hw]; rfl
  · intro hb
    rw [hs, hb]; rfl

set_option maxRecDepth 100000 in
/-- Witness for C21: the initial position and the double push e2-e4 in the standard build;
the en passant square is e3. -/
theorem C21_play_sets_enpassant_side_and_ply_witness :
    (set_from_fen "rnbqkbnr/pppppppp/8/8/8/8/PPPPPPPP/RNBQKBNR w KQkq - 0 1").ply + 1 <
      (set_from_fen "rnbqkbnr/pppppppp/8/8/8/8/PPPPPPPP/RNBQKBNR w KQkq - 0 1").history.length ∧
    (⟨DOUBLE_PUSH, 12, 28⟩ : Move) ∈ generate_legal_moves false
      (set_from_fen "rnbqkbnr/pppppppp/8/8/8/8/PPPPPPPP/RNBQKBNR w KQkq - 0 1") ∧
    (cur (play false (set_from_fen "rnbqkbnr/pppppppp/8/8/8/8/PPPPPPPP/RNBQKBNR w KQkq - 0 1")
      ⟨DOUBLE_PUSH, 12, 28⟩)).enpassant = 12 + 8 ∧
    (cur (play false (set_from_fen "rnbqkbnr/pppppppp/8/8/8/8/PPPPPPPP/RNBQKBNR w KQkq - 0 1")
      ⟨DOUBLE_PUSH, 12, 28⟩)).enpassant + 8 = 28 :=
  ⟨by decide!, by decide!,
    ((C21_play_sets_enpassant_side_and_ply false
      (set_from_fen "rnbqkbnr/pppppppp/8/8/8/8/PPPPPPPP/RNBQKBNR w KQkq - 0 1")
      ⟨DOUBLE_PUSH, 12, 28⟩ (by decide!)).2.2.1 rfl (by decide!)).1 (by decide!)⟩

/-! ## The explosion -/

/-- C22 (atomic build). For a position whose board and bitboards agree and occupied squares
`center` and `attacker_square`, after `atomic_capture`: board and bitboards agree again;
`board[center]` and `board[attacker_square]` are empty; every square of
`KING_ATTACKS[center]` that held a knight, bishop, rook, queen or king is empty; every pawn
on a square of `KING_ATTACKS[center]` other than `attacker_square` is still in place; and
board and bitboards are unchanged on every square outside `center`, `attacker_square` and
`KING_ATTACKS[center]`. -/
theorem C22_atomic_capture_removes_the_explosion (pos : Position)
    (center attacker_square : Nat) (hc : consistent pos) (hcen : center < 64)
    (hatt : attacker_square < 64) (_hoc : pos.board.getD center 0 ≠ NO_PIECE)
    (_hoa : pos.board.getD attacker_square 0 ≠ NO_PIECE) :
    consistent (atomic_capture pos center attacker_square) ∧
    (atomic_capture pos center attacker_square).board.getD center 0 = NO_PIECE ∧
    (atomic_capture pos center attacker_square).board.getD attacker_square 0 = NO_PIECE ∧
    (∀ c, c < 2 → ∀ t, t < 6 →
      ((atomic_capture pos center attacker_square).bb c t).testBit center = false ∧
      ((atomic_capture pos center attacker_square).bb c t).testBit attacker_square = false) ∧
    (∀ s, s < 64 → (KING_ATTACKS center).testBit s = true →
      (PIECE_TO_TYPE (pos.board.getD s 0) = KNIGHT ∨ PIECE_TO_TYPE (pos.board.getD s 0) = BISHOP ∨
        PIECE_TO_TYPE (pos.board.getD s 0) = ROOK ∨ PIECE_TO_TYPE (pos.board.getD s 0) = QUEEN ∨
        PIECE_TO_TYPE (pos.board.getD s 0) = KING) →
      (atomic_capture pos center attacker_square).board.getD s 0 = NO_PIECE ∧
      ∀ c, c < 2 → ∀ t, t < 6 →
        ((atomic_capture pos center attacker_square).bb c t).testBit s = false) ∧
    (∀ s, s < 64 → (KING_ATTACKS center).testBit s = true → s ≠ attacker_square →
      PIECE_TO_TYPE (pos.board.getD s 0) = PAWN →
      (atomic_capture pos center attacker_square).board.getD s 0 = pos.board.getD s 0 ∧
      ∀ c, c < 2 → ∀ t, t < 6 →
        ((atomic_capture pos center attacker_square).bb c t).testBit s =
          (pos.bb c t).testBit s) ∧
    (∀ s, s < 64 → s ≠ center → s ≠ attacker_square →
      (KING_ATTACKS center).testBit s = false →
      (atomic_capture pos center attacker_square).board.getD s 0 = pos.board.getD s 0 ∧
      ∀ c, c < 2 → ∀ t, t < 6 →
        ((atomic_capture pos center attacker_square).bb c t).testBit s =
          (pos.bb c t).testBit s) := by
  obtain ⟨hq, hb⟩ := atomic_capture_board hc hcen hatt
  have hempty : ∀ s, s < 64 →
      (atomic_capture pos center attacker_square).board.getD s 0 = NO_PIECE →
      ∀ c, c < 2 → ∀ t, t < 6 →
        ((atomic_capture pos center attacker_square).bb c t).testBit s = false := by
    intro s hs h0 c hc2 t ht
    apply consistent_bit_false hq hc2 ht hs
    rw [h0]
    unfold TYPE_TO_PIECE NO_PIECE
    omega
  have hsame : ∀ s, s < 64 →
      (atomic_capture pos center attacker_square).board.getD s 0 = pos.board.getD s 0 →
      ∀ c, c < 2 → ∀ t, t < 6 →
        ((atomic_capture pos center attacker_square).bb c t).testBit s =
          (pos.bb c t).testBit s := by
    intro s hs hsb c hc2 t ht
    rw [Bool.eq_iff_iff]
    exact ((consistent_bit hq hc2 ht hs).trans (by rw [hsb])).trans
      (consistent_bit hc hc2 ht hs).symm
  have h1 : (atomic_capture pos center attacker_square).board.getD center 0 = NO_PIECE := by
    rw [hb, if_pos (Or.inl rfl)]
  have h2 : (atomic_capture pos center attacker_square).board.getD attacker_square 0 =
      NO_PIECE := by
    rw [hb, if_pos (Or.inr rfl)]
  refine ⟨hq, h1, h2, ?_, ?_, ?_, ?_⟩
  · intro c hc2 t ht
    exact ⟨hempty center hcen h1 c hc2 t ht, hempty attacker_square hatt h2 c hc2 t ht⟩
  · intro s hs hring htype
    have h0 : (atomic_capture pos center attacker_square).board.getD s 0 = NO_PIECE := by
      rw [hb]
      split_ifs with e1 e2
      · rfl
      · rfl
      · exfalso
        apply e2
        refine ⟨hring, ?_⟩
        rintro (e | e) <;> rw [e] at htype <;>
          rcases htype with h | h | h | h | h <;> exact absurd h (by decide)
    exact ⟨h0, hempty s hs h0⟩
  · intro s hs hring hna hpawn
    have hnc : s ≠ center := by
      intro e
      rw [e, (KING_ATTACKS_facts center hcen).2] at hring
      exact Bool.noConfusion hring
    have h0 : (atomic_capture pos center attacker_square).board.getD s 0 =
        pos.board.getD s 0 := by
      rw [hb, if_neg (by rintro (e | e); exact hnc e; exact hna e),
        if_neg (fun h => h.2 (Or.inl hpawn))]
    exact ⟨h0, hsame s hs h0⟩
  · intro s hs hnc hna hring
    have h0 : (atomic_capture pos center attacker_square).board.getD s 0 =
        pos.board.getD s 0 := by
      rw [hb, if_neg (by rintro (e | e); exact hnc e; exact hna e),
        if_neg (fun h => by rw [hring] at h; exact Bool.noConfusion h.1)]
    exact ⟨h0, hsame s hs h0⟩

set_option maxRecDepth 100000 in
/-- Witness for C22: in `4k3/8/8/8/8/7b/6P1/4K2R b K - 0 1` the bishop h3 captures the pawn
g2; the rook h1 stands on a square of `KING_ATTACKS[g2]` and is removed. -/
theorem C22_atomic_capture_removes_the_explosion_witness :
    consistent (set_from_fen "4k3/8/8/8/8/7b/6P1/4K2R b K - 0 1") ∧
    (set_from_fen "4k3/8/8/8/8/7b/6P1/4K2R b K - 0 1").board.getD 14 0 = WHITE_PAWN ∧
    (set_from_fen "4k3/8/8/8/8/7b/6P1/4K2R b K - 0 1").board.getD 23 0 = BLACK_BISHOP ∧
    (set_from_fen "4k3/8/8/8/8/7b/6P1/4K2R b K - 0 1").board.getD 7 0 = WHITE_ROOK ∧
    (KING_ATTACKS 14).testBit 7 = true ∧
    (atomic_capture (set_from_fen "4k3/8/8/8/8/7b/6P1/4K2R b K - 0 1") 14 23).board.getD 7 0 =
      NO_PIECE :=
  ⟨by decide!, by decide!, by decide!, by decide!, by decide!,
    ((C22_atomic_capture_removes_the_explosion
      (set_from_fen "4k3/8/8/8/8/7b/6P1/4K2R b K - 0 1") 14 23 (by decide!) (by decide)
      (by decide) (by decide!) (by decide!)).2.2.2.2.1 7 (by decide) (by decide!)
      (Or.inr (Or.inr (Or.inl (by decide!))))).1⟩

/-! ## Bit scanning -/

/-- C30. For every non-zero 64-bit word `b`, `pop_lsb` returns an index `i` below 64 such
that bit `i` of `b` is set and all bits below `i` are clear, and it leaves in `b` the old
value with bit `i` cleared and every other bit unchanged. -/
theorem C30_pop_lsb_returns_and_clears_lowest_bit (b : Nat) (hb : b ≠ 0) (hlt : b < 2 ^ 64) :
    (pop_lsb b).1 < 64 ∧ b.testBit (pop_lsb b).1 = true ∧
    (∀ j, j < (pop_lsb b).1 → b.testBit j = false) ∧
    (pop_lsb b).2 < 2 ^ 64 ∧
    (pop_lsb b).2.testBit (pop_lsb b).1 = false ∧
    (∀ j, j ≠ (pop_lsb b).1 → (pop_lsb b).2.testBit j = b.testBit j) := by
  refine ⟨get_lsb_idx_lt hb hlt, testBit_get_lsb_idx hb hlt,
    fun j hj => testBit_below_get_lsb_idx hb hlt hj, pop_lsb_snd_lt hlt, ?_, ?_⟩
  · rw [testBit_pop_lsb hb hlt]
    simp
  · intro j hj
    rw [testBit_pop_lsb hb hlt]
    simp [hj]

/-- Witness for C30: from `0b1100` the function returns 2 and leaves `0b1000`. -/
theorem C30_pop_lsb_returns_and_clears_lowest_bit_witness :
    (12 : Nat) ≠ 0 ∧ (12 : Nat) < 2 ^ 64 ∧ pop_lsb 12 = (2, 8) ∧ (pop_lsb 12).1 < 64 :=
  ⟨by decide, by decide, by decide,
    (C30_pop_lsb_returns_and_clears_lowest_bit 12 (by decide) (by decide)).1⟩

end AtomicChess

namespace AtomicChess

open MoveFlag

/-! ## Promotions in the atomic build, and node counts -/

set_option maxRecDepth 100000

/-- C23 (atomic build). White pawn b7, black rook a8, black knight b8. The generator emits
b7-b8 with flag `PC_KNIGHT`; after `play` the square b8 holds a white knight, which is also
in the white knight bitboard. Likewise after `play` of the capture b7xa8 with flag
`PC_QUEEN` the square a8 holds a white queen: `put_piece` follows `atomic_capture`. -/
theorem C23_atomic_promotion_capture_leaves_promoted_piece :
    data_model_invariants (set_from_fen "rn5k/1P6/8/8/8/8/8/4K3 w - - 0 1") ∧
    (⟨PC_KNIGHT, 49, 57⟩ : Move) ∈
      generate_legal_moves true (set_from_fen "rn5k/1P6/8/8/8/8/8/4K3 w - - 0 1") ∧
    (play true (set_from_fen "rn5k/1P6/8/8/8/8/8/4K3 w - - 0 1") ⟨PC_KNIGHT, 49, 57⟩).board.getD
      57 0 = WHITE_KNIGHT ∧
    (play true (set_from_fen "rn5k/1P6/8/8/8/8/8/4K3 w - - 0 1") ⟨PC_KNIGHT, 49, 57⟩).bb
      WHITE KNIGHT = 2 ^ 57 ∧
    (play true (set_from_fen "rn5k/1P6/8/8/8/8/8/4K3 w - - 0 1") ⟨PC_QUEEN, 49, 56⟩).board.getD
      56 0 = WHITE_QUEEN ∧
    (play true (set_from_fen "rn5k/1P6/8/8/8/8/8/4K3 w - - 0 1") ⟨PC_QUEEN, 49, 56⟩).bb
      WHITE QUEEN = 2 ^ 56 := by
  decide!

/-- C24 (atomic build). White pawn b7 on its seventh rank, b8 empty, kings e1 and h8. The
atomic generator writes the push b7-b8 once, with flag `QUIET`, and no move with a `PR_*`
flag; after `play` of that move a white pawn stands on b8. For the same position the
standard generator writes the push with flag `PR_QUEEN`. -/
theorem C24_atomic_push_to_last_rank_is_quiet :
    data_model_invariants (set_from_fen "7k/1P6/8/8/8/8/8/4K3 w - - 0 1") ∧
    (set_from_fen "7k/1P6/8/8/8/8/8/4K3 w - - 0 1").board.getD 49 0 = WHITE_PAWN ∧
    (DOUBLE_PUSH_RANK BLACK).testBit 49 = true ∧
    (set_from_fen "7k/1P6/8/8/8/8/8/4K3 w - - 0 1").board.getD 57 0 = NO_PIECE ∧
    generate_legal_moves true (set_from_fen "7k/1P6/8/8/8/8/8/4K3 w - - 0 1") =
      [⟨QUIET, 4, 3⟩, ⟨QUIET, 4, 5⟩, ⟨QUIET, 4, 11⟩, ⟨QUIET, 4, 12⟩, ⟨QUIET, 4, 13⟩,
       ⟨QUIET, 49, 57⟩] ∧
    (play true (set_from_fen "7k/1P6/8/8/8/8/8/4K3 w - - 0 1") ⟨QUIET, 49, 57⟩).board.getD 57 0
      = WHITE_PAWN ∧
    (⟨PR_QUEEN, 49, 57⟩ : Move) ∈
      generate_legal_moves false (set_from_fen "7k/1P6/8/8/8/8/8/4K3 w - - 0 1") := by
  decide!

/-- C25 (atomic build). White pawn b7, black rook a8, b8 empty. For the capture b7xa8 the
generator writes the moves with the `PC_*` flags with `to` = b8: the file of `to` is the
file of `from` and `board[to]` is empty; the move (b7, a8, `PC_KNIGHT`) is not written. -/
theorem C25_atomic_promotion_capture_has_push_target :
    data_model_invariants (set_from_fen "r6k/1P6/8/8/8/8/8/4K3 w - - 0 1") ∧
    (set_from_fen "r6k/1P6/8/8/8/8/8/4K3 w - - 0 1").board.getD 56 0 = BLACK_ROOK ∧
    (set_from_fen "r6k/1P6/8/8/8/8/8/4K3 w - - 0 1").board.getD 57 0 = NO_PIECE ∧
    (⟨PC_KNIGHT, 49, 57⟩ : Move) ∈
      generate_legal_moves true (set_from_fen "r6k/1P6/8/8/8/8/8/4K3 w - - 0 1") ∧
    57 % 8 = 49 % 8 ∧
    (⟨PC_KNIGHT, 49, 56⟩ : Move) ∉
      generate_legal_moves true (set_from_fen "r6k/1P6/8/8/8/8/8/4K3 w - - 0 1") := by
  decide!

/-- C26 (standard build). For the initial position `perft(pos, 1)` is 20 and
`perft(pos, 2)` is 400. -/
theorem C26_perft_initial_position_standard :
    perft false (set_from_fen "rnbqkbnr/pppppppp/8/8/8/8/PPPPPPPP/RNBQKBNR w KQkq - 0 1") 1
      = 20 ∧
    perft false (set_from_fen "rnbqkbnr/pppppppp/8/8/8/8/PPPPPPPP/RNBQKBNR w KQkq - 0 1") 2
      = 400 := by
  decide!

/-- C27 (standard build). For the Kiwipete position the generator writes exactly 48 moves,
and `perft(pos, 1)` is 48. -/
theorem C27_perft_kiwipete_depth_one :
    (generate_legal_moves false (set_from_fen
      "r3k2r/p1ppqpb1/bn2pnp1/3PN3/1p2P3/2N2Q1p/PPPBBPPP/R3K2R w KQkq - 0 1")).length = 48 ∧
    perft false (set_from_fen
      "r3k2r/p1ppqpb1/bn2pnp1/3PN3/1p2P3/2N2Q1p/PPPBBPPP/R3K2R w KQkq - 0 1") 1 = 48 := by
  decide!

/-- C28 (standard build). In the position
`r3k2r/Pppp1ppp/1b3nbN/nP6/BBP1P3/q4N2/Pp1P2PP/R2Q1RK1 w kq - 0 1` the white king is
attacked; the generator writes exactly 6 moves, and `perft(pos, 1)` is 6. -/
theorem C28_perft_position_four_depth_one :
    attacked_by (set_from_fen "r3k2r/Pppp1ppp/1b3nbN/nP6/BBP1P3/q4N2/Pp1P2PP/R2Q1RK1 w kq - 0 1")
      BLACK (king_square
        (set_from_fen "r3k2r/Pppp1ppp/1b3nbN/nP6/BBP1P3/q4N2/Pp1P2PP/R2Q1RK1 w kq - 0 1") WHITE) ∧
    (generate_legal_moves false (set_from_fen
      "r3k2r/Pppp1ppp/1b3nbN/nP6/BBP1P3/q4N2/Pp1P2PP/R2Q1RK1 w kq - 0 1")).length = 6 ∧
    perft false (set_from_fen
      "r3k2r/Pppp1ppp/1b3nbN/nP6/BBP1P3/q4N2/Pp1P2PP/R2Q1RK1 w kq - 0 1") 1 = 6 := by
  decide!

/-- C29 (atomic build). For the initial position `perft(pos, 1)` is 20, every one of the 20
moves has flag `QUIET` or `DOUBLE_PUSH` and moves a pawn or a knight, and `perft(pos, 2)`
is 400. -/
theorem C29_perft_initial_position_atomic :
    perft true (set_from_fen "rnbqkbnr/pppppppp/8/8/8/8/PPPPPPPP/RNBQKBNR w KQkq - 0 1") 1
      = 20 ∧
    (∀ m, m ∈ generate_legal_moves true
        (set_from_fen "rnbqkbnr/pppppppp/8/8/8/8/PPPPPPPP/RNBQKBNR w KQkq - 0 1") →
      (m.flag = QUIET ∨ m.flag = DOUBLE_PUSH) ∧
      (PIECE_TO_TYPE ((set_from_fen
          "rnbqkbnr/pppppppp/8/8/8/8/PPPPPPPP/RNBQKBNR w KQkq - 0 1").board.getD m.from_sq 0)
          = PAWN ∨
        PIECE_TO_TYPE ((set_from_fen
          "rnbqkbnr/pppppppp/8/8/8/8/PPPPPPPP/RNBQKBNR w KQkq - 0 1").board.getD m.from_sq 0)
          = KNIGHT)) ∧
    perft true (set_from_fen "rnbqkbnr/pppppppp/8/8/8/8/PPPPPPPP/RNBQKBNR w KQkq - 0 1") 2
      = 400 := by
  decide!

end AtomicChess

namespace AtomicChess
open MoveFlag

/-! ## The pin test of the atomic generator -/

theorem xor_from_to {all f t : Nat} (hall : all < 2 ^ 64) (hf : f < 64)
    (hfb : all.testBit f = true) (htb : all.testBit t = false) :
    all ^^^ (SQUARE_TO_BITBOARD f ||| SQUARE_TO_BITBOARD t) =
      (all &&& bnot (SQUARE_TO_BITBOARD f)) ||| SQUARE_TO_BITBOARD t := by
  apply Nat.eq_of_testBit_eq
  intro i
  simp only [Nat.testBit_xor, Nat.testBit_or, Nat.testBit_and, testBit_bnot,
    testBit_SQUARE_TO_BITBOARD]
  by_cases hi : i < 64
  · by_cases e1 : f = i
    · subst e1
      have hne : ¬ t = f := by
        intro e; rw [e, hfb] at htb; exact Bool.noConfusion htb
      simp [hfb, hi, hne]
    · by_cases e2 : t = i
      · subst e2
        simp [htb, hi, e1]
      · simp [hi, e1, e2]
  · have : all.testBit i = false := testBit_false_of_ge hall (by omega)
    have e1 : ¬ f = i := by omega
    simp [this, hi, e1]

theorem xor_from_subset {all f t : Nat} (hall : all < 2 ^ 64) (hf : f < 64)
    (hfb : all.testBit f = true) (htb : all.testBit t = false) (s : Nat)
    (h : (all ^^^ SQUARE_TO_BITBOARD f).testBit s = true) :
    (all ^^^ (SQUARE_TO_BITBOARD f ||| SQUARE_TO_BITBOARD t)).testBit s = true := by
  rw [xor_from_to hall hf hfb htb]
  simp only [Nat.testBit_xor, Nat.testBit_or, Nat.testBit_and, testBit_bnot,
    testBit_SQUARE_TO_BITBOARD] at h ⊢
  by_cases e1 : f = s
  · subst e1
    simp [hfb, hf] at h
  · have hs : all.testBit s = true := by simpa [e1] using h
    have : s < 64 := lt_of_testBit hall hs
    simp [hs, e1, this]

theorem and_eq_zero_of_subset {a b c : Nat} (h : ∀ i, a.testBit i = true → b.testBit i = true)
    (hb : b &&& c = 0) : a &&& c = 0 := by
  apply Nat.eq_of_testBit_eq
  intro i
  rw [Nat.zero_testBit, Nat.testBit_and]
  cases ha : a.testBit i
  · rfl
  · have h1 := h i ha
    have h2 := testBit_false_of_eq_zero hb i
    rw [Nat.testBit_and, h1] at h2
    simpa using h2

/-- C34 (atomic build). For a move from an occupied square `from` to an empty square `to`,
the generator's test ("no enemy slider attacks the king with `from` removed" or "no enemy
slider attacks the king with `from` removed and `to` added") has the value of the test in
the words of the specification, which is its second part alone; hence the move is written
iff, on the occupancy without `from` and with `to`, `get_rook_attacks` from the king square
meets no enemy rook or queen and `get_bishop_attacks` meets no enemy bishop or queen. -/
theorem C34_atomic_pin_test_is_its_second_part (g : Sides) (from_sq to_sq : Nat)
    (hall : g.all_pieces < 2 ^ 64) (hf : from_sq < 64)
    (hfrom : g.all_pieces.testBit from_sq = true)
    (hto : g.all_pieces.testBit to_sq = false) :
    atomic_quiet_ok g from_sq to_sq = atomic_quiet_spec g from_sq to_sq ∧
    (atomic_quiet_ok g from_sq to_sq = true ↔
      get_rook_attacks g.my_king_square
        ((g.all_pieces &&& bnot (SQUARE_TO_BITBOARD from_sq)) ||| SQUARE_TO_BITBOARD to_sq) &&&
          g.your_orthogonal_sliders = 0 ∧
      get_bishop_attacks g.my_king_square
        ((g.all_pieces &&& bnot (SQUARE_TO_BITBOARD from_sq)) ||| SQUARE_TO_BITBOARD to_sq) &&&
          g.your_diagonal_sliders = 0) ∧
    (∀ flag, atomic_quiet_move g flag from_sq to_sq =
      if atomic_quiet_spec g from_sq to_sq = true then [⟨flag, from_sq, to_sq⟩] else []) := by
  have hocc := xor_from_to hall hf hfrom hto
  have hsub := xor_from_subset hall hf hfrom hto
  have hr : get_rook_attacks g.my_king_square (g.all_pieces ^^^ SQUARE_TO_BITBOARD from_sq) &&&
      g.your_orthogonal_sliders = 0 →
      get_rook_attacks g.my_king_square
        (g.all_pieces ^^^ (SQUARE_TO_BITBOARD from_sq ||| SQUARE_TO_BITBOARD to_sq)) &&&
        g.your_orthogonal_sliders = 0 :=
    and_eq_zero_of_subset (fun i hi => slider_attacks_mono hsub _ _ i hi)
  have hb : get_bishop_attacks g.my_king_square (g.all_pieces ^^^ SQUARE_TO_BITBOARD from_sq) &&&
      g.your_diagonal_sliders = 0 →
      get_bishop_attacks g.my_king_square
        (g.all_pieces ^^^ (SQUARE_TO_BITBOARD from_sq ||| SQUARE_TO_BITBOARD to_sq)) &&&
        g.your_diagonal_sliders = 0 :=
    and_eq_zero_of_subset (fun i hi => slider_attacks_mono hsub _ _ i hi)
  have hiff : atomic_quiet_ok g from_sq to_sq = true ↔
      get_rook_attacks g.my_king_square
        ((g.all_pieces &&& bnot (SQUARE_TO_BITBOARD from_sq)) ||| SQUARE_TO_BITBOARD to_sq) &&&
          g.your_orthogonal_sliders = 0 ∧
      get_bishop_attacks g.my_king_square
        ((g.all_pieces &&& bnot (SQUARE_TO_BITBOARD from_sq)) ||| SQUARE_TO_BITBOARD to_sq) &&&
          g.your_diagonal_sliders = 0 := by
    unfold atomic_quiet_ok
    simp only [Bool.or_eq_true, Bool.not_eq_true', Bool.or_eq_false_iff, decide_eq_false_iff_not,
      ne_eq, not_not]
    rw [hocc] at hr hb ⊢
    constructor
    · rintro (⟨h1, h2⟩ | ⟨h1, h2⟩)
      · exact ⟨hr h2, hb h1⟩
      · exact ⟨h2, h1⟩
    · rintro ⟨h1, h2⟩
      exact Or.inr ⟨h2, h1⟩
  have hspec : atomic_quiet_spec g from_sq to_sq = true ↔
      get_rook_attacks g.my_king_square
        ((g.all_pieces &&& bnot (SQUARE_TO_BITBOARD from_sq)) ||| SQUARE_TO_BITBOARD to_sq) &&&
          g.your_orthogonal_sliders = 0 ∧
      get_bishop_attacks g.my_king_square
        ((g.all_pieces &&& bnot (SQUARE_TO_BITBOARD from_sq)) ||| SQUARE_TO_BITBOARD to_sq) &&&
          g.your_diagonal_sliders = 0 := by
    unfold atomic_quiet_spec
    simp only [Bool.and_eq_true, decide_eq_true_eq]
  have heq : atomic_quiet_ok g from_sq to_sq = atomic_quiet_spec g from_sq to_sq := by
    rw [Bool.eq_iff_iff]
    exact hiff.trans hspec.symm
  refine ⟨heq, hiff, ?_⟩
  intro flag
  unfold atomic_quiet_move
  rw [heq]

set_option maxRecDepth 100000 in
/-- Witness for C34: in `4k3/4r3/8/8/8/8/4R3/4K3 w - - 0 1` the white rook e2 is pinned on
the e-file; its move to e3 passes the test, its move to d2 does not. -/
theorem C34_atomic_pin_test_is_its_second_part_witness :
    (sides (set_from_fen "4k3/4r3/8/8/8/8/4R3/4K3 w - - 0 1")).all_pieces < 2 ^ 64 ∧
    (sides (set_from_fen "4k3/4r3/8/8/8/8/4R3/4K3 w - - 0 1")).all_pieces.testBit 12 = true ∧
    (sides (set_from_fen "4k3/4r3/8/8/8/8/4R3/4K3 w - - 0 1")).all_pieces.testBit 20 = false ∧
    atomic_quiet_ok (sides (set_from_fen "4k3/4r3/8/8/8/8/4R3/4K3 w - - 0 1")) 12 20 = true ∧
    atomic_quiet_ok (sides (set_from_fen "4k3/4r3/8/8/8/8/4R3/4K3 w - - 0 1")) 12 11 = false ∧
    atomic_quiet_ok (sides (set_from_fen "4k3/4r3/8/8/8/8/4R3/4K3 w - - 0 1")) 12 20 =
      atomic_quiet_spec (sides (set_from_fen "4k3/4r3/8/8/8/8/4R3/4K3 w - - 0 1")) 12 20 :=
  ⟨by decide!, by decide!, by decide!, by decide!, by decide!,
    (C34_atomic_pin_test_is_its_second_part
      (sides (set_from_fen "4k3/4r3/8/8/8/8/4R3/4K3 w - - 0 1")) 12 20
      (by decide!) (by decide) (by decide!) (by decide!)).1⟩

/-! ## The Zobrist table -/

/-- The values that occur in the table filled by `init_zobrist_table`. -/
theorem zobrist_table_values (v : Nat) : v ∈ init_zobrist_table ↔
    v ∈ [ZOBRIST_TABLE 0 0, ZOBRIST_TABLE 0 1, ZOBRIST_TABLE 0 2, ZOBRIST_TABLE 0 3] := by
  rw [ZOBRIST_TABLE_eq (by decide) (by decide), ZOBRIST_TABLE_eq (by decide) (by decide),
    ZOBRIST_TABLE_eq (by decide) (by decide), ZOBRIST_TABLE_eq (by decide) (by decide),
    init_zobrist_table_eq]
  simp only [List.mem_map, List.mem_range]
  constructor
  · rintro ⟨i, _, rfl⟩
    have h4 : i % 4 < 4 := Nat.mod_lt _ (by decide)
    generalize i % 4 = r at h4
    interval_cases r <;> simp
  · intro h
    simp only [List.mem_cons, List.mem_singleton, List.not_mem_nil, or_false] at h
    rcases h with h | h | h | h
    · exact ⟨0, by decide, h.symm⟩
    · exact ⟨1, by decide, h.symm⟩
    · exact ⟨2, by decide, h.symm⟩
    · exact ⟨3, by decide, h.symm⟩

/-- C37. Started from the seed 70026072 the state of `gen_rand` is back at the seed after 4
calls and not after 1, 2 or 3 calls; for all pieces `p`, `p2` in 0..12 and squares `s`,
`s2` in 0..63 with the same remainder modulo 4, `ZOBRIST_TABLE[p][s]` equals
`ZOBRIST_TABLE[p2][s2]`; and the values that occur in the table are exactly the four
pairwise distinct entries `ZOBRIST_TABLE[0][0]`, ..., `ZOBRIST_TABLE[0][3]`. -/
theorem C37_zobrist_table_has_period_four :
    (gen_rand (gen_rand (gen_rand (gen_rand 70026072).1).1).1).1 = 70026072 ∧
    (gen_rand 70026072).1 ≠ 70026072 ∧
    (gen_rand (gen_rand 70026072).1).1 ≠ 70026072 ∧
    (gen_rand (gen_rand (gen_rand 70026072).1).1).1 ≠ 70026072 ∧
    (∀ p p2 s s2, p ≤ 12 → p2 ≤ 12 → s < 64 → s2 < 64 → s % 4 = s2 % 4 →
      ZOBRIST_TABLE p s = ZOBRIST_TABLE p2 s2) ∧
    (∀ v, v ∈ init_zobrist_table ↔
      v ∈ [ZOBRIST_TABLE 0 0, ZOBRIST_TABLE 0 1, ZOBRIST_TABLE 0 2, ZOBRIST_TABLE 0 3]) ∧
    [ZOBRIST_TABLE 0 0, ZOBRIST_TABLE 0 1, ZOBRIST_TABLE 0 2, ZOBRIST_TABLE 0 3].Nodup := by
  refine ⟨by decide, by decide, by decide, by decide, ?_, ?_, ?_⟩
  · intro p p2 s s2 hp hp2 hs hs2 hmod
    rw [ZOBRIST_TABLE_eq (by omega) hs, ZOBRIST_TABLE_eq (by omega) hs2, hmod]
  · exact zobrist_table_values
  · rw [ZOBRIST_TABLE_eq (by decide) (by decide), ZOBRIST_TABLE_eq (by decide) (by decide),
      ZOBRIST_TABLE_eq (by decide) (by decide), ZOBRIST_TABLE_eq (by decide) (by decide)]
    decide

/-- Witness for C37: the entries for the white bishop on f1 and the black queen on f8. -/
theorem C37_zobrist_table_has_period_four_witness :
    5 % 4 = 61 % 4 ∧ ZOBRIST_TABLE 3 5 = ZOBRIST_TABLE 11 61 :=
  ⟨by decide, C37_zobrist_table_has_period_four.2.2.2.2.1 3 11 5 61 (by decide) (by decide)
    (by decide) (by decide) (by decide)⟩

end AtomicChess

namespace AtomicChess

open MoveFlag

/-! ## En passant in the atomic build -/

set_option maxRecDepth 100000

/-- C39 (atomic build). White pawn e5, black pawn d5 that has just made a double push (en
passant square d6). The generator emits e5xd6 with flag `EN_PASSANT`. In `play` the pawn d5
is removed, then `atomic_capture(pos, d6, e5)` removes e5 and calls `remove_piece` on d6,
which is empty at that moment: the piece read there is `NO_PIECE`, whose colour and type
are `NO_COLOR` and `NO_TYPE`, so the bitboard index is `pieces[2][6]`. -/
theorem C39_atomic_en_passant_removes_from_empty_square :
    data_model_invariants (set_from_fen "4k3/8/8/3pP3/8/8/8/4K3 w - d6 0 1") ∧
    (⟨EN_PASSANT, 36, 43⟩ : Move) ∈
      generate_legal_moves true (set_from_fen "4k3/8/8/3pP3/8/8/8/4K3 w - d6 0 1") ∧
    play true (set_from_fen "4k3/8/8/3pP3/8/8/8/4K3 w - d6 0 1") ⟨EN_PASSANT, 36, 43⟩ =
      atomic_capture (remove_piece
        (play_begin (set_from_fen "4k3/8/8/3pP3/8/8/8/4K3 w - d6 0 1") ⟨EN_PASSANT, 36, 43⟩) 35)
        43 36 ∧
    (remove_piece (remove_piece
        (play_begin (set_from_fen "4k3/8/8/3pP3/8/8/8/4K3 w - d6 0 1") ⟨EN_PASSANT, 36, 43⟩) 35)
        36).board.getD 43 0 = NO_PIECE ∧
    PIECE_TO_COLOR NO_PIECE = NO_COLOR ∧ PIECE_TO_TYPE NO_PIECE = NO_TYPE ∧
    ¬ (PIECE_TO_COLOR NO_PIECE < 2) ∧ ¬ (PIECE_TO_TYPE NO_PIECE < 6) := by
  decide!

end AtomicChess

namespace AtomicChess

open MoveFlag

/-! ## En passant onto an occupied square in the standard build -/

set_option maxRecDepth 100000

end AtomicChess

namespace AtomicChess

open MoveFlag

/-! ## The packed word `history[ply].captured` of the atomic build -/

set_option maxRecDepth 100000 in
/-- In `4k3/8/8/8/8/8/3pn3/2R4K b - - 0 1` the atomic generator writes the capture d2xc1
with promotion as the move from d2 to d1; `play` calls `atomic_capture(pos, d1, d2)` with
d1 empty, so that `remove_piece` reads `NO_PIECE` there, and the black knight e2 stands on
a square of `KING_ATTACKS[d1]`. -/
theorem promotion_capture_empty_centre :
    data_model_invariants (set_from_fen "4k3/8/8/8/8/8/3pn3/2R4K b - - 0 1") ∧
    (⟨PC_KNIGHT, 11, 3⟩ : Move) ∈
      generate_legal_moves true (set_from_fen "4k3/8/8/8/8/8/3pn3/2R4K b - - 0 1") ∧
    play true (set_from_fen "4k3/8/8/8/8/8/3pn3/2R4K b - - 0 1") ⟨PC_KNIGHT, 11, 3⟩ =
      put_piece (atomic_capture
        (play_begin (set_from_fen "4k3/8/8/8/8/8/3pn3/2R4K b - - 0 1") ⟨PC_KNIGHT, 11, 3⟩)
        3 11) KNIGHT BLACK 3 ∧
    (remove_piece
      (play_begin (set_from_fen "4k3/8/8/8/8/8/3pn3/2R4K b - - 0 1") ⟨PC_KNIGHT, 11, 3⟩)
      11).board.getD 3 0 = NO_PIECE ∧
    ¬ (6 * PIECE_TO_COLOR NO_PIECE + PIECE_TO_TYPE NO_PIECE < 12) ∧
    (play_begin (set_from_fen "4k3/8/8/8/8/8/3pn3/2R4K b - - 0 1")
      ⟨PC_KNIGHT, 11, 3⟩).board.getD 12 0 = BLACK_KNIGHT ∧
    (KING_ATTACKS 3).testBit 12 = true := by
  decide!

/-- C36. For a capture whose `center` and `attacker_square` are two different occupied
squares, after `atomic_capture(pos, center, attacker_square)` the word
`history[ply].captured`, read in 4-bit slots from the least significant bits, holds: in
slot 0 the piece that stood on `attacker_square`, in slot 1 the piece that stood on
`center`, in slot `2 + j` the piece removed from the `j`-th square of
`KING_ATTACKS[center]` in ascending square order, or 0 when nothing was removed from that
square; the squares of `KING_ATTACKS[center]` are at most 8, so every slot from 10 on is
0; and undoing the capture restores the board. `atomic_undo_capture` reads the same slots
in the same order: for any position whose word holds pieces only, with a piece in slot 0,
it puts the piece of slot 0 on `attacker_square`, the piece of slot 1 (when not 0) on
`center` and the piece of slot `2 + j` (when not 0) on the `j`-th square of
`KING_ATTACKS[center]`. With an empty centre the source leaves the array `pieces`: in
`4k3/8/8/8/8/8/3pn3/2R4K b - - 0 1` the generator of the atomic build writes the capture
d2xc1 with promotion as d2 to d1, `play` calls `atomic_capture(pos, d1, d2)`, d1 is empty
when `remove_piece` is called on it, so the bitboard index is `6 * 2 + 6 = 18`, not below
12, while the black knight e2 stands on a square of `KING_ATTACKS[d1]`. -/
theorem C36_captured_word_is_packed_in_slots :
    (∀ (pos : Position) (center attacker_square : Nat), consistent pos → center < 64 →
      attacker_square < 64 → pos.ply < pos.history.length →
      pos.board.getD center 0 ≠ NO_PIECE → pos.board.getD attacker_square 0 ≠ NO_PIECE →
      center ≠ attacker_square →
      slot (cur (atomic_capture pos center attacker_square)).captured 0 =
        pos.board.getD attacker_square 0 ∧
      slot (cur (atomic_capture pos center attacker_square)).captured 1 =
        pos.board.getD center 0 ∧
      (∀ j, j < (squares_of (KING_ATTACKS center)).length →
        slot (cur (atomic_capture pos center attacker_square)).captured (2 + j) =
          if (squares_of (KING_ATTACKS center)).getD j 0 ≠ attacker_square ∧
            ¬ (PIECE_TO_TYPE (pos.board.getD ((squares_of (KING_ATTACKS center)).getD j 0) 0) =
                PAWN ∨
              PIECE_TO_TYPE (pos.board.getD ((squares_of (KING_ATTACKS center)).getD j 0) 0) =
                NO_TYPE)
          then pos.board.getD ((squares_of (KING_ATTACKS center)).getD j 0) 0 else 0) ∧
      (squares_of (KING_ATTACKS center)).Pairwise (fun a b => a < b) ∧
      (∀ s, s ∈ squares_of (KING_ATTACKS center) ↔ (KING_ATTACKS center).testBit s = true) ∧
      (squares_of (KING_ATTACKS center)).length ≤ 8 ∧
      (∀ k, 10 ≤ k → slot (cur (atomic_capture pos center attacker_square)).captured k = 0) ∧
      (∀ x, (atomic_undo_capture (atomic_capture pos center attacker_square) center
        attacker_square).board.getD x 0 = pos.board.getD x 0)) ∧
    (∀ (q : Position) (center attacker_square : Nat), q.board.length = 64 → center < 64 →
      attacker_square < 64 → slot (cur q).captured 0 ≠ NO_PIECE →
      (∀ k, slot (cur q).captured k ≤ 12) →
      (∀ j, j < (squares_of (KING_ATTACKS center)).length →
        slot (cur q).captured (2 + j) ≠ 0 →
        (atomic_undo_capture q center attacker_square).board.getD
          ((squares_of (KING_ATTACKS center)).getD j 0) 0 = slot (cur q).captured (2 + j)) ∧
      (∀ x, (∀ j, j < (squares_of (KING_ATTACKS center)).length →
          (squares_of (KING_ATTACKS center)).getD j 0 = x →
          slot (cur q).captured (2 + j) = 0) →
        (atomic_undo_capture q center attacker_square).board.getD x 0 =
          if x = center ∧ slot (cur q).captured 1 ≠ 0 then slot (cur q).captured 1
          else if x = attacker_square then slot (cur q).captured 0
          else q.board.getD x 0)) ∧
    (data_model_invariants (set_from_fen "4k3/8/8/8/8/8/3pn3/2R4K b - - 0 1") ∧
      (⟨PC_KNIGHT, 11, 3⟩ : Move) ∈
        generate_legal_moves true (set_from_fen "4k3/8/8/8/8/8/3pn3/2R4K b - - 0 1") ∧
      play true (set_from_fen "4k3/8/8/8/8/8/3pn3/2R4K b - - 0 1") ⟨PC_KNIGHT, 11, 3⟩ =
        put_piece (atomic_capture
          (play_begin (set_from_fen "4k3/8/8/8/8/8/3pn3/2R4K b - - 0 1") ⟨PC_KNIGHT, 11, 3⟩)
          3 11) KNIGHT BLACK 3 ∧
      (remove_piece
        (play_begin (set_from_fen "4k3/8/8/8/8/8/3pn3/2R4K b - - 0 1") ⟨PC_KNIGHT, 11, 3⟩)
        11).board.getD 3 0 = NO_PIECE ∧
      ¬ (6 * PIECE_TO_COLOR NO_PIECE + PIECE_TO_TYPE NO_PIECE < 12) ∧
      (play_begin (set_from_fen "4k3/8/8/8/8/8/3pn3/2R4K b - - 0 1")
        ⟨PC_KNIGHT, 11, 3⟩).board.getD 12 0 = BLACK_KNIGHT ∧
      (KING_ATTACKS 3).testBit 12 = true) := by
  have hpiece : ∀ p, p ≤ 12 → p ≠ 0 →
      TYPE_TO_PIECE (PIECE_TO_COLOR p) (PIECE_TO_TYPE p) = p := by
    intro p hp
    interval_cases p <;> decide
  refine ⟨?_, ?_, promotion_capture_empty_centre⟩
  · intro pos center attacker_square hc hcen hatt hply hcocc hocc hne
    have hb : ∀ s, pos.board.getD s 0 ≤ 12 := by
      intro s
      by_cases hs : s < 64
      · exact hc.2.2.1 s hs
      · rw [List.getD_eq_default _ _ (by rw [hc.2.1]; omega)]
        exact Nat.zero_le _
    obtain ⟨c1, c2, c3, c4⟩ := capture_slots pos hb center attacker_square hcen hply
    obtain ⟨r1, r2⟩ := ring_facts center hcen
    refine ⟨c1, c2, c3, r1, mem_squares_of (KING_ATTACKS_facts center hcen).1, r2,
      fun k hk => c4 k (by omega), ?_⟩
    intro x
    obtain ⟨hq, hbq⟩ := atomic_capture_board hc hcen hatt
    obtain ⟨u1, u2⟩ := undo_capture_board (atomic_capture pos center attacker_square)
      hq.2.1 center attacker_square hcen hatt
    by_cases hx : ∃ j, j < (squares_of (KING_ATTACKS center)).length ∧
        (squares_of (KING_ATTACKS center)).getD j 0 = x ∧
        slot (cur (atomic_capture pos center attacker_square)).captured (2 + j) ≠ 0
    · obtain ⟨j, hj, hjx, hs⟩ := hx
      have h3 := c3 j hj
      rw [← hjx, u1 j hj hs]
      by_cases hcond : (squares_of (KING_ATTACKS center)).getD j 0 ≠ attacker_square ∧
          ¬ (PIECE_TO_TYPE (pos.board.getD ((squares_of (KING_ATTACKS center)).getD j 0) 0) =
              PAWN ∨
            PIECE_TO_TYPE (pos.board.getD ((squares_of (KING_ATTACKS center)).getD j 0) 0) =
              NO_TYPE)
      · rw [if_pos hcond] at h3
        rw [h3]
        exact hpiece _ (hb _) (by rw [← h3]; exact hs)
      · rw [if_neg hcond] at h3
        exact absurd h3 hs
    · have hx2 : ∀ j, j < (squares_of (KING_ATTACKS center)).length →
          (squares_of (KING_ATTACKS center)).getD j 0 = x →
          slot (cur (atomic_capture pos center attacker_square)).captured (2 + j) = 0 := by
        intro j hj hjx
        by_contra h0
        exact hx ⟨j, hj, hjx, h0⟩
      rw [u2 x hx2, c1, c2]
      by_cases e1 : x = center
      · subst e1
        rw [if_pos ⟨rfl, hcocc⟩]
        exact hpiece _ (hb _) hcocc
      · rw [if_neg (fun h => e1 h.1)]
        by_cases e3 : x = attacker_square
        · subst e3
          rw [if_pos rfl]
          exact hpiece _ (hb _) hocc
        · rw [if_neg e3, hbq x, if_neg (fun h => h.elim e1 e3)]
          by_cases hring : (KING_ATTACKS center).testBit x = true ∧
              ¬ (PIECE_TO_TYPE (pos.board.getD x 0) = PAWN ∨
                PIECE_TO_TYPE (pos.board.getD x 0) = NO_TYPE)
          · exfalso
            have hmem : x ∈ squares_of (KING_ATTACKS center) :=
              (mem_squares_of (KING_ATTACKS_facts center hcen).1 x).2 hring.1
            obtain ⟨j, hj, hjx⟩ := List.getElem_of_mem hmem
            have hgd : (squares_of (KING_ATTACKS center)).getD j 0 = x := by
              rw [List.getD_eq_getElem _ _ hj]; exact hjx
            have h3 := c3 j hj
            rw [hgd, if_pos ⟨e3, hring.2⟩, hx2 j hj hgd] at h3
            have := (type_cond_lt hring.2).1
            omega
          · rw [if_neg hring]
  · intro q center attacker_square hq hcen hatt h0 hv
    obtain ⟨u1, u2⟩ := undo_capture_board q hq center attacker_square hcen hatt
    refine ⟨fun j hj hs => ?_, fun x hx => ?_⟩
    · rw [u1 j hj hs]
      exact hpiece _ (hv _) hs
    · rw [u2 x hx]
      by_cases e1 : x = center ∧ slot (cur q).captured 1 ≠ 0
      · rw [if_pos e1, if_pos e1]
        exact hpiece _ (hv _) e1.2
      · rw [if_neg e1, if_neg e1]
        by_cases e3 : x = attacker_square
        · rw [if_pos e3, if_pos e3]
          exact hpiece _ (hv _) h0
        · rw [if_neg e3, if_neg e3]

set_option maxRecDepth 100000 in
/-- Witness for C36: in `4k3/8/8/8/8/7b/6P1/4K2R b K - 0 1` the bishop h3 captures the
pawn g2; the word written is `0x40019`: slot 0 the black bishop (9), slot 1 the white
pawn (1), slot 4 the white rook (4) removed from h1, the third square of
`KING_ATTACKS[g2]`; `atomic_undo_capture` puts the piece of slot 4 back on that square. -/
theorem C36_captured_word_is_packed_in_slots_witness :
    consistent (set_from_fen "4k3/8/8/8/8/7b/6P1/4K2R b K - 0 1") ∧
    (set_from_fen "4k3/8/8/8/8/7b/6P1/4K2R b K - 0 1").ply <
      (set_from_fen "4k3/8/8/8/8/7b/6P1/4K2R b K - 0 1").history.length ∧
    (set_from_fen "4k3/8/8/8/8/7b/6P1/4K2R b K - 0 1").board.getD 14 0 = WHITE_PAWN ∧
    (set_from_fen "4k3/8/8/8/8/7b/6P1/4K2R b K - 0 1").board.getD 23 0 = BLACK_BISHOP ∧
    (cur (atomic_capture
      (set_from_fen "4k3/8/8/8/8/7b/6P1/4K2R b K - 0 1") 14 23)).captured = 0x40019 ∧
    slot (cur (atomic_capture
      (set_from_fen "4k3/8/8/8/8/7b/6P1/4K2R b K - 0 1") 14 23)).captured 0 = BLACK_BISHOP ∧
    (squares_of (KING_ATTACKS 14)).getD 2 0 = 7 ∧
    slot (cur (atomic_capture
      (set_from_fen "4k3/8/8/8/8/7b/6P1/4K2R b K - 0 1") 14 23)).captured (2 + 2) =
      WHITE_ROOK ∧
    (atomic_undo_capture (atomic_capture
      (set_from_fen "4k3/8/8/8/8/7b/6P1/4K2R b K - 0 1") 14 23) 14 23).board.getD
        ((squares_of (KING_ATTACKS 14)).getD 2 0) 0 =
      slot (cur (atomic_capture
        (set_from_fen "4k3/8/8/8/8/7b/6P1/4K2R b K - 0 1") 14 23)).captured (2 + 2) :=
  ⟨by decide!, by decide!, by decide!, by decide!, by decide!,
    ((C36_captured_word_is_packed_in_slots.1
      (set_from_fen "4k3/8/8/8/8/7b/6P1/4K2R b K - 0 1") 14 23 (by decide!) (by decide)
      (by decide) (by decide!) (by decide!) (by decide!) (by decide)).1).trans (by decide!),
    by decide!, by decide!,
    (C36_captured_word_is_packed_in_slots.2.1
      (atomic_capture (set_from_fen "4k3/8/8/8/8/7b/6P1/4K2R b K - 0 1") 14 23) 14 23
      (by decide!) (by decide) (by decide) (by decide!)
      (fun k => by
        rw [show (cur (atomic_capture
          (set_from_fen "4k3/8/8/8/8/7b/6P1/4K2R b K - 0 1") 14 23)).captured = 0x40019
          by decide!]
        by_cases hk : k < 5
        · interval_cases k <;> decide
        · rw [slot_of_lt (show 0x40019 < 16 ^ 5 by decide) (show 5 ≤ k by omega)]
          exact Nat.zero_le _)).1 2 (by decide!) (by decide!)⟩

/-! ## King moves of the atomic generator -/

/-- C35. In the atomic build the moves written from the king's square, castling aside, are
exactly the `QUIET` moves to the squares of `KING_ATTACKS[kingSq]` that are empty and not
attacked by an enemy pawn, knight, bishop, rook or queen, the slider attacks being computed
on the occupancy without the own king. The enemy king plays no part in the condition, so
squares next to it are not excluded, and no move from the king's square carries the flag
`CAPTURE` or a promotion flag. -/
theorem C35_atomic_king_moves_are_quiet_steps (pos : Position) (hc : consistent pos)
    (hs : pos.side_to_play < 2) (hk : one_king pos pos.side_to_play) (m : Move) :
    (m ∈ generate_legal_moves true pos ∧ m.from_sq = king_square pos pos.side_to_play ∧
      m.flag ≠ OO ∧ m.flag ≠ OOO) ↔
    (m.flag = QUIET ∧ m.from_sq = king_square pos pos.side_to_play ∧
      (KING_ATTACKS (king_square pos pos.side_to_play)).testBit m.to_sq = true ∧
      pos.board.getD m.to_sq 0 = NO_PIECE ∧
      ¬ attacked_by_non_king pos (pos.side_to_play ^^^ BLACK) m.to_sq
        (occupancy pos ^^^ pos.bb pos.side_to_play KING)) := by
  obtain ⟨_, _, hmlt, hylt, hmine, hyours, hempty⟩ := sides_facts hc hs
  obtain ⟨_, hklt, hkbit⟩ := king_bit_of_one_king hk
  have hk64 : king_square pos pos.side_to_play < 64 := lt_of_testBit hklt hkbit
  have hKA := (KING_ATTACKS_facts _ hk64).1
  have hatt := attacked_atomic_iff hc hs m.to_sq
  have htl : KING_ATTACKS (sides pos).my_king_square &&&
      bnot (attacked_squares (sides pos) false) &&& bnot (sides pos).all_my_pieces &&&
      bnot (sides pos).all_your_pieces < 2 ^ 64 :=
    lt_of_and_left (lt_of_and_left (lt_of_and_left hKA))
  constructor
  · rintro ⟨hmem, hfrom, hoo, hooo⟩
    have hmem2 : m ∈ generate_legal_moves_atomic pos := hmem
    rcases atomic_other_from hc hs hmem2 with h | h | ⟨t, ht, hbit⟩
    · obtain ⟨hf, hfr, hto, hb⟩ := mem_get_moves htl h
      simp only [Nat.testBit_and, Bool.and_eq_true, testBit_bnot, bne_iff_ne, ne_eq,
        decide_eq_true_eq] at hb
      obtain ⟨⟨⟨b1, b2⟩, b3⟩, b4⟩ := hb
      refine ⟨hf, hfrom, b1, ?_, ?_⟩
      · apply hempty _ hto
        show ((sides pos).all_my_pieces ||| (sides pos).all_your_pieces).testBit _ = false
        rw [Nat.testBit_or]
        cases h1 : (sides pos).all_my_pieces.testBit m.to_sq
        · cases h2 : (sides pos).all_your_pieces.testBit m.to_sq
          · rfl
          · rw [h2] at b4; simp [hto] at b4
        · rw [h1] at b3; simp [hto] at b3
      · intro hab
        have := hatt.2 hab
        rw [this] at b2
        simp [hto] at b2
    · exfalso
      rcases mem_castling_moves h with ⟨e, _⟩ | ⟨e, _⟩
      · exact hoo (by rw [e])
      · exact hooo (by rw [e])
    · exfalso
      have e1 := (board_of_bb hc hs (show t < 6 by omega) hbit).2
      rw [hfrom] at e1
      have e2 := (board_of_bb hc hs (show KING < 6 by decide) hkbit).2
      have e3 : pos.board.getD (king_square pos pos.side_to_play) 0 =
          TYPE_TO_PIECE pos.side_to_play KING := e2
      rw [e1] at e3
      unfold TYPE_TO_PIECE KING at e3
      omega
  · rintro ⟨hf, hfrom, hka, hb, hna⟩
    have hto : m.to_sq < 64 := lt_of_testBit hKA hka
    have hcol : PIECE_TO_COLOR (pos.board.getD m.to_sq 0) = NO_COLOR := by rw [hb]; rfl
    have hxb := xor_black_facts hs
    refine ⟨?_, hfrom, by rw [hf]; decide, by rw [hf]; decide⟩
    show m ∈ generate_legal_moves_atomic pos
    unfold generate_legal_moves_atomic
    simp only [List.mem_append]
    refine Or.inl (Or.inl (Or.inl (Or.inl (Or.inl (Or.inl (Or.inl (Or.inl (Or.inl ?_))))))))
    unfold get_moves
    rw [List.mem_map]
    refine ⟨m.to_sq, (mem_squares_of htl _).2 ?_, ?_⟩
    · simp only [Nat.testBit_and, Bool.and_eq_true, testBit_bnot, bne_iff_ne, ne_eq,
        decide_eq_true_eq]
      refine ⟨⟨⟨hka, ?_⟩, ?_⟩, ?_⟩
      · cases h1 : (attacked_squares (sides pos) false).testBit m.to_sq
        · simp [hto]
        · exact absurd (hatt.1 h1) hna
      · cases h1 : (sides pos).all_my_pieces.testBit m.to_sq
        · simp [hto]
        · have := ((hmine _).1 h1).2
          rw [hcol] at this
          unfold NO_COLOR at this
          omega
      · cases h1 : (sides pos).all_your_pieces.testBit m.to_sq
        · simp [hto]
        · have := ((hyours _).1 h1).2
          rw [hcol] at this
          have := hxb.1
          unfold NO_COLOR at *
          omega
    · cases m
      simp only at hf hfrom
      rw [hf, hfrom]
      rfl

set_option maxRecDepth 100000 in
/-- Witness for C35: in `8/8/8/8/8/4k3/8/4K3 w - - 0 1` the white king e1 may step to e2,
a square next to the black king e3. -/
theorem C35_atomic_king_moves_are_quiet_steps_witness :
    consistent (set_from_fen "8/8/8/8/8/4k3/8/4K3 w - - 0 1") ∧
    (set_from_fen "8/8/8/8/8/4k3/8/4K3 w - - 0 1").side_to_play < 2 ∧
    one_king (set_from_fen "8/8/8/8/8/4k3/8/4K3 w - - 0 1")
      (set_from_fen "8/8/8/8/8/4k3/8/4K3 w - - 0 1").side_to_play ∧
    (set_from_fen "8/8/8/8/8/4k3/8/4K3 w - - 0 1").board.getD 20 0 = BLACK_KING ∧
    (KING_ATTACKS 20).testBit 12 = true ∧
    (⟨QUIET, 4, 12⟩ : Move) ∈
      generate_legal_moves true (set_from_fen "8/8/8/8/8/4k3/8/4K3 w - - 0 1") :=
  ⟨by decide!, by decide!, by decide!, by decide!, by decide!,
    ((C35_atomic_king_moves_are_quiet_steps (set_from_fen "8/8/8/8/8/4k3/8/4K3 w - - 0 1")
      (by decide!) (by decide!) (by decide!) ⟨QUIET, 4, 12⟩).2
      ⟨rfl, by decide!, by decide!, by decide!, by decide!⟩).1⟩

/-! ## Board and bitboards in the standard build -/

end AtomicChess

namespace AtomicChess

open MoveFlag

/-! ## Pinned pieces in the standard generator -/

theorem pin_conclusion {p : Nat} {o d ot dt : Bool} (t : Nat) (e : PIECE_TO_TYPE p = t)
    (a1 : o = true → ot = true) (a2 : d = true → dt = true)
    (a3 : t = KNIGHT → o = false ∧ d = false) (a4 : t = BISHOP → o = false)
    (a5 : t = ROOK → d = false) :
    (PIECE_TO_TYPE p ≠ KING → o = true → ot = true) ∧
    (PIECE_TO_TYPE p ≠ KING → d = true → dt = true) ∧
    (PIECE_TO_TYPE p = KNIGHT → o = false ∧ d = false) ∧
    (PIECE_TO_TYPE p = BISHOP → o = false) ∧ (PIECE_TO_TYPE p = ROOK → d = false) := by
  rw [e]
  exact ⟨fun _ => a1, fun _ => a2, a3, a4, a5⟩

/-- C33 (standard build). For every position that satisfies the data-model invariants and
every move written by `generate_legal_moves`: if the piece on `from` is not the king and
`from` lies on the orthogonal pin mask, `to` lies on the orthogonal pin mask, and likewise
for the diagonal pin mask (en passant captures included); if the piece on `from` is a
knight, `from` lies on neither pin mask; if it is a bishop, `from` is not on the orthogonal
pin mask; if it is a rook, `from` is not on the diagonal pin mask. -/
theorem C33_pinned_pieces_stay_on_the_pin_mask (pos : Position) (m : Move)
    (hinv : data_model_invariants pos) (hm : m ∈ generate_legal_moves false pos) :
    (PIECE_TO_TYPE (pos.board.getD m.from_sq 0) ≠ KING →
      (std_masks (sides pos)).orthogonal_pin.testBit m.from_sq = true →
      (std_masks (sides pos)).orthogonal_pin.testBit m.to_sq = true) ∧
    (PIECE_TO_TYPE (pos.board.getD m.from_sq 0) ≠ KING →
      (std_masks (sides pos)).diagonal_pin.testBit m.from_sq = true →
      (std_masks (sides pos)).diagonal_pin.testBit m.to_sq = true) ∧
    (PIECE_TO_TYPE (pos.board.getD m.from_sq 0) = KNIGHT →
      (std_masks (sides pos)).orthogonal_pin.testBit m.from_sq = false ∧
      (std_masks (sides pos)).diagonal_pin.testBit m.from_sq = false) ∧
    (PIECE_TO_TYPE (pos.board.getD m.from_sq 0) = BISHOP →
      (std_masks (sides pos)).orthogonal_pin.testBit m.from_sq = false) ∧
    (PIECE_TO_TYPE (pos.board.getD m.from_sq 0) = ROOK →
      (std_masks (sides pos)).diagonal_pin.testBit m.from_sq = false) := by
  have hm2 : m ∈ generate_legal_moves_standard pos := hm
  have hp := emitted_playable hinv hm2
  obtain ⟨hc, hs, hkw, hkb, _, _, _, _, _⟩ := hinv
  obtain ⟨hkme, hkyou⟩ := one_king_side hs hkw hkb
  obtain ⟨lp, ln, lb, lr, lq, lk⟩ := sides_lt hc hs
  have hs2 := (xor_black_facts hs).1
  obtain ⟨_, _, _, hylt, _, _, _⟩ := sides_facts hc hs
  obtain ⟨_, hklt, hkbit⟩ := king_bit_of_one_king hkme
  have hk64 : (sides pos).my_king_square < 64 := lt_of_testBit hklt hkbit
  have hdis := pin_masks_disjoint (sides pos) hk64
    (Nat.or_lt_two_pow (bb_lt hc hs2 (by decide)) (bb_lt hc hs2 (by decide)))
    (Nat.or_lt_two_pow (bb_lt hc hs2 (by decide)) (bb_lt hc hs2 (by decide)))
  have hfalse : ∀ {b : Bool}, (b = true → False) → b = false := by
    intro b h
    cases b
    · rfl
    · exact (h rfl).elim
  have hty : ∀ {t s : Nat}, t < 6 → (pos.bb pos.side_to_play t).testBit s = true →
      PIECE_TO_TYPE (pos.board.getD s 0) = t := fun ht h => (type_of_bb hc hs ht h).1
  have hside : pos.side_to_play = 0 ∨ pos.side_to_play = 1 := by omega
  rcases std_blocks hm2 with h | h | h | h | h
  · -- the king block
    obtain ⟨hfrom, _, _, _⟩ := mem_quiet_and_capture hylt h
    have e : PIECE_TO_TYPE (pos.board.getD m.from_sq 0) = KING := by
      rw [hfrom]; exact hty (by decide) hkbit
    rw [e]
    exact ⟨fun h => absurd rfl h, fun h => absurd rfl h, fun h => absurd h (by decide),
      fun h => absurd h (by decide), fun h => absurd h (by decide)⟩
  · -- castling
    have e : PIECE_TO_TYPE (pos.board.getD m.from_sq 0) = KING := by
      obtain ⟨_, _, hrest⟩ := hp
      rcases mem_castling_moves h with ⟨e, _⟩ | ⟨e, _⟩
      · rw [e] at hrest ⊢
        simp only at hrest ⊢
        rcases hside with w | w
        · have w2 : pos.side_to_play = WHITE := w
          have w3 : (sides pos).me = WHITE := w2
          rw [if_pos w3, (hrest.1 w2).1]; decide
        · have w2 : pos.side_to_play ≠ WHITE := by rw [w]; decide
          have w3 : ¬ (sides pos).me = WHITE := w2
          rw [if_neg w3, (hrest.2 w2).1]; decide
      · rw [e] at hrest ⊢
        simp only at hrest ⊢
        rcases hside with w | w
        · have w2 : pos.side_to_play = WHITE := w
          have w3 : (sides pos).me = WHITE := w2
          rw [if_pos w3, (hrest.1 w2).1]; decide
        · have w2 : pos.side_to_play ≠ WHITE := by rw [w]; decide
          have w3 : ¬ (sides pos).me = WHITE := w2
          rw [if_neg w3, (hrest.2 w2).1]; decide
    rw [e]
    exact ⟨fun h => absurd rfl h, fun h => absurd rfl h, fun h => absurd h (by decide),
      fun h => absurd h (by decide), fun h => absurd h (by decide)⟩
  · -- en passant
    obtain ⟨ptl, ptsub⟩ := pawns_take_lt hc hs (std_masks (sides pos))
    obtain ⟨_, _, _, hfrom⟩ := mem_std_enpassant_moves ptl h
    have hf64 := lt_of_testBit ptl hfrom
    have e : PIECE_TO_TYPE (pos.board.getD m.from_sq 0) = PAWN :=
      hty (by decide) (ptsub _ hfrom)
    have horth : (std_masks (sides pos)).orthogonal_pin.testBit m.from_sq = false := by
      by_cases hme : (sides pos).me = WHITE
      · exact (pawn_pins_white _ _ hme _ hf64).2.2.2.2 hfrom
      · exact (pawn_pins_black _ _ hme _ hf64).2.2.2.2 hfrom
    rw [e]
    refine ⟨fun _ h1 => ?_, fun _ h1 => enpassant_pins ptl h h1, fun h => absurd h (by decide),
      fun h => absurd h (by decide), fun h => absurd h (by decide)⟩
    rw [horth] at h1
    exact Bool.noConfusion h1
  · -- pawn pushes and captures
    obtain ⟨hf64, hcase⟩ := mem_std_pawn_moves (k := std_masks (sides pos)) lp h
    have hsub := pawn_sets_sub (sides pos) (std_masks (sides pos)) m.from_sq
    have key : (sides pos).my_pawns.testBit m.from_sq = true ∧
        ((std_masks (sides pos)).orthogonal_pin.testBit m.from_sq = true →
          (std_masks (sides pos)).orthogonal_pin.testBit m.to_sq = true) ∧
        ((std_masks (sides pos)).diagonal_pin.testBit m.from_sq = true →
          (std_masks (sides pos)).diagonal_pin.testBit m.to_sq = true) := by
      by_cases hme : (sides pos).me = WHITE
      · obtain ⟨p1, p2, p3, p4, _⟩ := pawn_pins_white _ (std_masks (sides pos)) hme _ hf64
        simp only [hme, if_true] at hcase
        rcases hcase with ⟨_, hb, ht⟩ | ⟨_, hb, _, ht⟩ | ⟨_, hb, _, ht⟩ | ⟨_, hb, _, ht⟩ |
          ⟨_, hb, _, ht⟩ | ⟨_, hb, _, ht⟩ | ⟨_, hb, _, ht⟩
        · exact ⟨hsub.1 hb, by rw [ht]; exact (p1 hb).2,
            fun h => by rw [(p1 hb).1] at h; exact Bool.noConfusion h⟩
        · exact ⟨hsub.2.1 hb, by rw [ht]; exact (p2 hb).2,
            fun h => by rw [(p2 hb).1] at h; exact Bool.noConfusion h⟩
        · exact ⟨hsub.2.1 hb, by rw [ht]; exact (p2 hb).2,
            fun h => by rw [(p2 hb).1] at h; exact Bool.noConfusion h⟩
        · exact ⟨hsub.2.2.1 hb, fun h => by rw [(p3 hb).1] at h; exact Bool.noConfusion h,
            by rw [ht]; exact (p3 hb).2⟩
        · exact ⟨hsub.2.2.1 hb, fun h => by rw [(p3 hb).1] at h; exact Bool.noConfusion h,
            by rw [ht]; exact (p3 hb).2⟩
        · exact ⟨hsub.2.2.2 hb, fun h => by rw [(p4 hb).1] at h; exact Bool.noConfusion h,
            by rw [ht]; exact (p4 hb).2⟩
        · exact ⟨hsub.2.2.2 hb, fun h => by rw [(p4 hb).1] at h; exact Bool.noConfusion h,
            by rw [ht]; exact (p4 hb).2⟩
      · obtain ⟨p1, p2, p3, p4, _⟩ := pawn_pins_black _ (std_masks (sides pos)) hme _ hf64
        simp only [hme, if_false] at hcase
        rcases hcase with ⟨_, hb, ht⟩ | ⟨_, hb, _, ht⟩ | ⟨_, hb, _, ht⟩ | ⟨_, hb, _, ht⟩ |
          ⟨_, hb, _, ht⟩ | ⟨_, hb, _, ht⟩ | ⟨_, hb, _, ht⟩
        · exact ⟨hsub.1 hb, by rw [ht]; exact (p1 hb).2,
            fun h => by rw [(p1 hb).1] at h; exact Bool.noConfusion h⟩
        · exact ⟨hsub.2.1 hb, by rw [ht]; exact (p2 hb).2,
            fun h => by rw [(p2 hb).1] at h; exact Bool.noConfusion h⟩
        · exact ⟨hsub.2.1 hb, by rw [ht]; exact (p2 hb).2,
            fun h => by rw [(p2 hb).1] at h; exact Bool.noConfusion h⟩
        · exact ⟨hsub.2.2.1 hb, fun h => by rw [(p3 hb).1] at h; exact Bool.noConfusion h,
            by rw [ht]; exact (p3 hb).2⟩
        · exact ⟨hsub.2.2.1 hb, fun h => by rw [(p3 hb).1] at h; exact Bool.noConfusion h,
            by rw [ht]; exact (p3 hb).2⟩
        · exact ⟨hsub.2.2.2 hb, fun h => by rw [(p4 hb).1] at h; exact Bool.noConfusion h,
            by rw [ht]; exact (p4 hb).2⟩
        · exact ⟨hsub.2.2.2 hb, fun h => by rw [(p4 hb).1] at h; exact Bool.noConfusion h,
            by rw [ht]; exact (p4 hb).2⟩
    have e : PIECE_TO_TYPE (pos.board.getD m.from_sq 0) = PAWN := hty (by decide) key.1
    rw [e]
    exact ⟨fun _ => key.2.1, fun _ => key.2.2, fun h => absurd h (by decide),
      fun h => absurd h (by decide), fun h => absurd h (by decide)⟩
  · -- knights, bishops, rooks, queens
    obtain ⟨hf64, _, _, hcase⟩ := mem_std_piece_moves ln lb lr lq hylt h
    have ho_of_d : (std_masks (sides pos)).diagonal_pin.testBit m.from_sq = true →
        (std_masks (sides pos)).orthogonal_pin.testBit m.from_sq = false :=
      fun hd => hfalse (fun ho => hdis _ ho hd)
    have hd_of_o : (std_masks (sides pos)).orthogonal_pin.testBit m.from_sq = true →
        (std_masks (sides pos)).diagonal_pin.testBit m.from_sq = false :=
      fun ho => hfalse (fun hd => hdis _ ho hd)
    have contra : ∀ {b : Bool} {P : Prop}, b = false → b = true → P := by
      intro b P h1 h2
      rw [h1] at h2
      exact Bool.noConfusion h2
    rcases hcase with ⟨hb, o, d⟩ | ⟨hb | ⟨hb, o⟩, d, dt⟩ | ⟨hb, o, d⟩ | ⟨hb | ⟨hb, d⟩, o, ot⟩ |
      ⟨hb, d, o⟩ | ⟨hb, o, d⟩
    · exact pin_conclusion KNIGHT (hty (by decide) hb) (contra o) (contra d) (fun _ => ⟨o, d⟩)
        (fun _ => o) (fun _ => d)
    · exact pin_conclusion QUEEN (hty (by decide) hb) (contra (ho_of_d d)) (fun _ => dt)
        (fun e => absurd e (by decide)) (fun e => absurd e (by decide))
        (fun e => absurd e (by decide))
    · exact pin_conclusion BISHOP (hty (by decide) hb) (contra o) (fun _ => dt)
        (fun e => absurd e (by decide)) (fun _ => o) (fun e => absurd e (by decide))
    · exact pin_conclusion BISHOP (hty (by decide) hb) (contra o) (contra d)
        (fun e => absurd e (by decide)) (fun _ => o) (fun e => absurd e (by decide))
    · exact pin_conclusion QUEEN (hty (by decide) hb) (fun _ => ot) (contra (hd_of_o o))
        (fun e => absurd e (by decide)) (fun e => absurd e (by decide))
        (fun e => absurd e (by decide))
    · exact pin_conclusion ROOK (hty (by decide) hb) (fun _ => ot) (contra d)
        (fun e => absurd e (by decide)) (fun e => absurd e (by decide)) (fun _ => d)
    · exact pin_conclusion ROOK (hty (by decide) hb) (contra o) (contra d)
        (fun e => absurd e (by decide)) (fun e => absurd e (by decide)) (fun _ => d)
    · exact pin_conclusion QUEEN (hty (by decide) hb) (contra o) (contra d)
        (fun e => absurd e (by decide)) (fun e => absurd e (by decide))
        (fun e => absurd e (by decide))

set_option maxRecDepth 100000 in
/-- Witness for C33: in `4r2k/8/8/8/8/8/4R3/4K3 w - - 0 1` the rook e2 is pinned on the
e-file by the rook e8; its move to e3 is written and stays on the orthogonal pin mask. -/
theorem C33_pinned_pieces_stay_on_the_pin_mask_witness :
    data_model_invariants (set_from_fen "4r2k/8/8/8/8/8/4R3/4K3 w - - 0 1") ∧
    (⟨QUIET, 12, 20⟩ : Move) ∈
      generate_legal_moves false (set_from_fen "4r2k/8/8/8/8/8/4R3/4K3 w - - 0 1") ∧
    (set_from_fen "4r2k/8/8/8/8/8/4R3/4K3 w - - 0 1").board.getD 12 0 = WHITE_ROOK ∧
    (std_masks (sides (set_from_fen "4r2k/8/8/8/8/8/4R3/4K3 w - - 0 1"))).orthogonal_pin.testBit
      12 = true ∧
    (std_masks (sides (set_from_fen "4r2k/8/8/8/8/8/4R3/4K3 w - - 0 1"))).orthogonal_pin.testBit
      20 = true :=
  ⟨by decide!, by decide!, by decide!, by decide!,
    (C33_pinned_pieces_stay_on_the_pin_mask
      (set_from_fen "4r2k/8/8/8/8/8/4R3/4K3 w - - 0 1") ⟨QUIET, 12, 20⟩
      (by decide!) (by decide!)).1 (by decide!) (by decide!)⟩

/-! ## King moves in the standard generator -/

set_option maxRecDepth 100000 in
/-- C32 (standard build). For every position that satisfies the data-model invariants,
every move written by `generate_legal_moves` from the king's square with flag `QUIET` or
`CAPTURE` leaves the king, after `play`, on a square attacked by no enemy pawn, knight,
bishop, rook, queen or king. In particular, in `4r2k/8/8/8/8/8/4K3/8 w - - 0 1`, where the
rook e8 gives check to the king e2, the step back to e1 along the e-file is not written. -/
theorem C32_king_moves_end_on_unattacked_square :
    (∀ (pos : Position) (m : Move), data_model_invariants pos →
      m ∈ generate_legal_moves false pos →
      m.from_sq = king_square pos pos.side_to_play →
      (m.flag = QUIET ∨ m.flag = CAPTURE) →
      (play false pos m).board.getD m.to_sq 0 = TYPE_TO_PIECE pos.side_to_play KING ∧
      ¬ attacked_by (play false pos m) (pos.side_to_play ^^^ BLACK) m.to_sq) ∧
    (attacked_by (set_from_fen "4r2k/8/8/8/8/8/4K3/8 w - - 0 1") BLACK 12 ∧
      (set_from_fen "4r2k/8/8/8/8/8/4K3/8 w - - 0 1").board.getD 60 0 = BLACK_ROOK ∧
      (⟨QUIET, 12, 4⟩ : Move) ∉
        generate_legal_moves false (set_from_fen "4r2k/8/8/8/8/8/4K3/8 w - - 0 1")) := by
  refine ⟨?_, by decide!, by decide!, by decide!⟩
  intro pos m hinv hm hfrom hflag
  have hm2 : m ∈ generate_legal_moves_standard pos := hm
  have hinv2 := hinv
  obtain ⟨hc, hs, hkw, hkb, _, _, _, _, _⟩ := hinv
  obtain ⟨hkme, _⟩ := one_king_side hs hkw hkb
  obtain ⟨lp, ln, lb, lr, lq, lk⟩ := sides_lt hc hs
  obtain ⟨_, _, _, hylt, _, _, _⟩ := sides_facts hc hs
  obtain ⟨_, hklt, hkbit⟩ := king_bit_of_one_king hkme
  have hkty := (type_of_bb hc hs (show KING < 6 by decide) hkbit).1
  have hkty2 : PIECE_TO_TYPE (pos.board.getD m.from_sq 0) = KING := by
    rw [hfrom]; exact hkty
  have hno : ∀ t, t < 6 → t ≠ KING →
      (pos.bb pos.side_to_play t).testBit m.from_sq = true → False := by
    intro t ht hne hb
    have := (type_of_bb hc hs ht hb).1
    rw [hkty2] at this
    exact hne this.symm
  rcases std_blocks hm2 with h | h | h | h | h
  · exact king_step_safe hinv2 hm2 h
  · exfalso
    rcases mem_castling_moves h with ⟨e, _⟩ | ⟨e, _⟩ <;> rw [e] at hflag <;>
      rcases hflag with x | x <;> exact MoveFlag.noConfusion x
  · exfalso
    have e := flag_std_enpassant_moves h
    rw [e] at hflag
    rcases hflag with x | x <;> exact MoveFlag.noConfusion x
  · exfalso
    obtain ⟨_, hcase⟩ := mem_std_pawn_moves (k := std_masks (sides pos)) lp h
    have hsub := pawn_sets_sub (sides pos) (std_masks (sides pos)) m.from_sq
    have hpawn : (sides pos).my_pawns.testBit m.from_sq = true := by
      rcases hcase with ⟨_, hb, _⟩ | ⟨_, hb, _⟩ | ⟨_, hb, _⟩ | ⟨_, hb, _⟩ | ⟨_, hb, _⟩ |
        ⟨_, hb, _⟩ | ⟨_, hb, _⟩
      · exact hsub.1 hb
      · exact hsub.2.1 hb
      · exact hsub.2.1 hb
      · exact hsub.2.2.1 hb
      · exact hsub.2.2.1 hb
      · exact hsub.2.2.2 hb
      · exact hsub.2.2.2 hb
    exact hno PAWN (by decide) (by decide) hpawn
  · exfalso
    obtain ⟨_, _, _, hcase⟩ := mem_std_piece_moves ln lb lr lq hylt h
    rcases hcase with ⟨hb, _⟩ | ⟨hb | ⟨hb, _⟩, _⟩ | ⟨hb, _⟩ | ⟨hb | ⟨hb, _⟩, _⟩ |
      ⟨hb, _⟩ | ⟨hb, _⟩
    · exact hno KNIGHT (by decide) (by decide) hb
    · exact hno QUEEN (by decide) (by decide) hb
    · exact hno BISHOP (by decide) (by decide) hb
    · exact hno BISHOP (by decide) (by decide) hb
    · exact hno QUEEN (by decide) (by decide) hb
    · exact hno ROOK (by decide) (by decide) hb
    · exact hno ROOK (by decide) (by decide) hb
    · exact hno QUEEN (by decide) (by decide) hb

set_option maxRecDepth 100000 in
/-- Witness for C32: in `4r2k/8/8/8/8/8/4K3/8 w - - 0 1` the king e2 steps aside to d2,
where no black piece attacks it. -/
theorem C32_king_moves_end_on_unattacked_square_witness :
    data_model_invariants (set_from_fen "4r2k/8/8/8/8/8/4K3/8 w - - 0 1") ∧
    (⟨QUIET, 12, 11⟩ : Move) ∈
      generate_legal_moves false (set_from_fen "4r2k/8/8/8/8/8/4K3/8 w - - 0 1") ∧
    ¬ attacked_by (play false (set_from_fen "4r2k/8/8/8/8/8/4K3/8 w - - 0 1") ⟨QUIET, 12, 11⟩)
      BLACK 11 :=
  ⟨by decide!, by decide!,
    (C32_king_moves_end_on_unattacked_square.1
      (set_from_fen "4r2k/8/8/8/8/8/4K3/8 w - - 0 1") ⟨QUIET, 12, 11⟩
      (by decide!) (by decide!) (by decide!) (Or.inl rfl)).2⟩

/-! ## Move strings in the standard build -/

theorem suffix_cases (fl : MoveFlag) :
    ((fl = QUIET ∨ fl = DOUBLE_PUSH ∨ fl = OO ∨ fl = OOO ∨ fl = CAPTURE ∨ fl = EN_PASSANT) ∧
      (if fl = PR_KNIGHT ∨ fl = PC_KNIGHT then ['n']
       else if fl = PR_BISHOP ∨ fl = PC_BISHOP then ['b']
       else if fl = PR_ROOK ∨ fl = PC_ROOK then ['r']
       else if fl = PR_QUEEN ∨ fl = PC_QUEEN then ['q']
       else []) = []) ∨
    (∃ c pr pc, (c = 'n' ∨ c = 'b' ∨ c = 'r' ∨ c = 'q') ∧ (fl = pr ∨ fl = pc) ∧
      (pr = PR_KNIGHT ∨ pr = PR_BISHOP ∨ pr = PR_ROOK ∨ pr = PR_QUEEN) ∧
      (pc = PC_KNIGHT ∨ pc = PC_BISHOP ∨ pc = PC_ROOK ∨ pc = PC_QUEEN) ∧
      pr = (if c = 'n' then PR_KNIGHT else if c = 'b' then PR_BISHOP
        else if c = 'r' then PR_ROOK else PR_QUEEN) ∧
      pc = (if c = 'n' then PC_KNIGHT else if c = 'b' then PC_BISHOP
        else if c = 'r' then PC_ROOK else PC_QUEEN) ∧
      (if fl = PR_KNIGHT ∨ fl = PC_KNIGHT then ['n']
       else if fl = PR_BISHOP ∨ fl = PC_BISHOP then ['b']
       else if fl = PR_ROOK ∨ fl = PC_ROOK then ['r']
       else if fl = PR_QUEEN ∨ fl = PC_QUEEN then ['q']
       else []) = [c]) := by
  cases fl
  case PR_KNIGHT => exact Or.inr ⟨'n', PR_KNIGHT, PC_KNIGHT, by decide, Or.inl rfl, by decide,
    by decide, by decide, by decide, by decide⟩
  case PC_KNIGHT => exact Or.inr ⟨'n', PR_KNIGHT, PC_KNIGHT, by decide, Or.inr rfl, by decide,
    by decide, by decide, by decide, by decide⟩
  case PR_BISHOP => exact Or.inr ⟨'b', PR_BISHOP, PC_BISHOP, by decide, Or.inl rfl, by decide,
    by decide, by decide, by decide, by decide⟩
  case PC_BISHOP => exact Or.inr ⟨'b', PR_BISHOP, PC_BISHOP, by decide, Or.inr rfl, by decide,
    by decide, by decide, by decide, by decide⟩
  case PR_ROOK => exact Or.inr ⟨'r', PR_ROOK, PC_ROOK, by decide, Or.inl rfl, by decide,
    by decide, by decide, by decide, by decide⟩
  case PC_ROOK => exact Or.inr ⟨'r', PR_ROOK, PC_ROOK, by decide, Or.inr rfl, by decide,
    by decide, by decide, by decide, by decide⟩
  case PR_QUEEN => exact Or.inr ⟨'q', PR_QUEEN, PC_QUEEN, by decide, Or.inl rfl, by decide,
    by decide, by decide, by decide, by decide⟩
  case PC_QUEEN => exact Or.inr ⟨'q', PR_QUEEN, PC_QUEEN, by decide, Or.inr rfl, by decide,
    by decide, by decide, by decide, by decide⟩
  all_goals exact Or.inl ⟨by decide, by decide⟩

/-- C38 (standard build). For every position that satisfies the data-model invariants and
every move `m` written by `generate_legal_moves`: `get_move_str(m)` is the two-character
name of `m.from`, the two-character name of `m.to` and then `n`, `b`, `r` or `q` exactly
when the flag is the promotion or promotion capture to that piece, nothing otherwise; and
`parse_move(pos, get_move_str(m))` returns `m` itself, whatever the initial content of its
local `move.flag`. -/
theorem C38_parse_move_inverts_get_move_str (pos : Position) (m : Move)
    (hinv : data_model_invariants pos) (hm : m ∈ generate_legal_moves false pos) :
    (SQUARE_TO_STRING m.from_sq).length = 2 ∧ (SQUARE_TO_STRING m.to_sq).length = 2 ∧
    get_move_str m = SQUARE_TO_STRING m.from_sq ++ SQUARE_TO_STRING m.to_sq ++
      (if m.flag = PR_KNIGHT ∨ m.flag = PC_KNIGHT then ['n']
       else if m.flag = PR_BISHOP ∨ m.flag = PC_BISHOP then ['b']
       else if m.flag = PR_ROOK ∨ m.flag = PC_ROOK then ['r']
       else if m.flag = PR_QUEEN ∨ m.flag = PC_QUEEN then ['q']
       else []) ∧
    ∀ flag0, parse_move false pos (get_move_str m) flag0 = m := by
  have hm2 : m ∈ generate_legal_moves_standard pos := hm
  obtain ⟨hf, ht, _⟩ := emitted_playable hinv hm2
  obtain ⟨a0, a1, hA, hAs⟩ := square_name_eq hf
  obtain ⟨b0, b1, hB, hBs⟩ := square_name_eq ht
  have hstr := get_move_str_eq m a0 a1 b0 b1 hA hB
  obtain ⟨x, hfind, hxmem, hxf, hxt⟩ := find_emitted hm
  have hxm : x ∈ generate_legal_moves_standard pos := hxmem
  obtain ⟨ex, _, _⟩ := emitted_flag hinv hxm
  obtain ⟨em, hpr, hpc⟩ := emitted_flag hinv hm2
  rw [hxf, hxt] at ex
  have hbase : flag_base x.flag = flag_base m.flag := by rw [ex, em]
  rw [← hAs, ← hBs] at hfind
  refine ⟨by rw [hA]; rfl, by rw [hB]; rfl, by rw [hstr, hA, hB]; rfl, ?_⟩
  intro flag0
  rw [hstr]
  rcases suffix_cases m.flag with ⟨hnp, hs⟩ | ⟨c, pr, pc, hc, hfl, hprs, hpcs, epr, epc, hs⟩
  · rw [hs, List.append_nil, parse_plain pos a0 a1 b0 b1 flag0 x hfind]
    have hflag := flag_base_nonpromo hbase hnp
    cases x
    cases m
    simp only at hflag hxf hxt
    rw [hflag, hxf, hxt]
  · rw [hs]
    show parse_move false pos [a0, a1, b0, b1, c] flag0 = m
    rw [parse_promo pos a0 a1 b0 b1 c flag0 x hc hfind, hAs, hBs, ← epr, ← epc]
    rcases hfl with e | e
    · have hfile : m.from_sq % 8 = m.to_sq % 8 := by
        apply hpr
        rw [e]
        exact hprs
      rw [if_pos hfile, ← e]
    · have hfile : m.from_sq % 8 ≠ m.to_sq % 8 := by
        apply hpc
        rw [e]
        exact hpcs
      rw [if_neg hfile, ← e]

set_option maxRecDepth 100000 in
/-- Witness for C38: in `8/P6k/8/8/8/8/8/K7 w - - 0 1` the promotion a7-a8 to a queen is
written as `a7a8q` and read back as the same move. -/
theorem C38_parse_move_inverts_get_move_str_witness :
    data_model_invariants (set_from_fen "8/P6k/8/8/8/8/8/K7 w - - 0 1") ∧
    (⟨PR_QUEEN, 48, 56⟩ : Move) ∈
      generate_legal_moves false (set_from_fen "8/P6k/8/8/8/8/8/K7 w - - 0 1") ∧
    get_move_str ⟨PR_QUEEN, 48, 56⟩ = ['a', '7', 'a', '8', 'q'] ∧
    parse_move false (set_from_fen "8/P6k/8/8/8/8/8/K7 w - - 0 1")
      (get_move_str ⟨PR_QUEEN, 48, 56⟩) QUIET = ⟨PR_QUEEN, 48, 56⟩ :=
  ⟨by decide!, by decide!, by decide!,
    (C38_parse_move_inverts_get_move_str (set_from_fen "8/P6k/8/8/8/8/8/K7 w - - 0 1")
      ⟨PR_QUEEN, 48, 56⟩ (by decide!) (by decide!)).2.2.2 QUIET⟩

end AtomicChess
